import Mathlib

/-!
# Cattle Chat: the packet buffer (`packet_buffer.c`)

A shallow embedding of the frame codec of the Cattle Chat server.

Conventions of the embedding.

* A C byte array is a `List Nat`; every machine integer is a `Nat`, truncated
  with an explicit `% 2 ^ w` where the C code converts to a `w`-bit type.
* A function returns `Option`: `none` stands for a failed `assert` (the process
  aborts) or for an access outside the allocated block (undefined behaviour).
* Freshly allocated memory is filled with `0`; no statement below reads a byte
  that the code has not written first.
* A socket is the list of the bytes that are currently available on it.
-/

namespace CattleChat

/-! ## Memory and control helpers -/

/-- C `assert(c)`: the computation goes on only when `c` holds. -/
def assert (c : Bool) : Option Unit :=
  if c then some () else none

/-- C `malloc(n)`: a block of `n` bytes. -/
def malloc (n : Nat) : List Nat :=
  List.replicate n 0

/-- C `realloc(data, n)`: the block resized to `n` bytes, the old bytes kept up to `n`. -/
def realloc (data : List Nat) (n : Nat) : List Nat :=
  data.take n ++ List.replicate (n - data.length) 0

/-- The assignment `data[i] = v`, defined only inside the block. -/
def store (data : List Nat) (i v : Nat) : Option (List Nat) :=
  if i < data.length then some (data.set i v) else none

/-- The loop `for (i = i0; i < i0 + n; i++) body(i)`, threading the state through. -/
def for_loop {σ : Type} (body : Nat → σ → Option σ) : Nat → Nat → σ → Option σ
  | 0, _, s => some s
  | n + 1, i, s => (body i s).bind (for_loop body n (i + 1))

/-- C `strlen`: the number of bytes before the first NUL.  A C string is represented by the
list of its bytes; the byte found at index `strlen` is the terminator. -/
def strlen (data : List Nat) : Nat :=
  (data.takeWhile (fun x => x != 0)).length

/-! ## packet_buffer.h -/

/-- Upper size of a packet (`#define MAX_PACKET 9600`). -/
def MAX_PACKET : Nat := 9600

/-- The initial allocation (`#define STARTING_LENGTH 64`). -/
def STARTING_LENGTH : Nat := 64

/-- The struct `packet_buffer_t`: `position` and `max_length` are `uint16_t`, `data` is the
allocated block. -/
structure packet_buffer_t where
  position : Nat
  max_length : Nat
  data : List Nat
  valid : Bool
deriving DecidableEq, Repr

/-! ## packet_buffer.c: header accessors -/

/-- `get_code`: `buffer->data[1]`. -/
def get_code (buffer : packet_buffer_t) : Option Nat := do
  assert buffer.valid
  buffer.data[1]?

/-- `get_length`: `data[2] | (data[3] << 8)` as a `uint16_t`. -/
def get_length (buffer : packet_buffer_t) : Option Nat := do
  assert buffer.valid
  let lo ← buffer.data[2]?
  let hi ← buffer.data[3]?
  pure ((lo ||| (hi <<< 8)) % 65536)

/-- `set_header`: `data[0] = header`. -/
def set_header (buffer : packet_buffer_t) (header : Nat) : Option packet_buffer_t := do
  assert buffer.valid
  let d ← store buffer.data 0 (header % 256)
  pure { buffer with data := d }

/-- `set_code`: `data[1] = code`. -/
def set_code (buffer : packet_buffer_t) (code : Nat) : Option packet_buffer_t := do
  assert buffer.valid
  let d ← store buffer.data 1 (code % 256)
  pure { buffer with data := d }

/-- `set_length`: the two length bytes, low byte first. -/
def set_length (buffer : packet_buffer_t) (length : Nat) : Option packet_buffer_t := do
  let length := length % 65536
  assert buffer.valid
  let d ← store buffer.data 2 ((length >>> 0) &&& 0x00FF)
  let d ← store d 3 ((length >>> 8) &&& 0x00FF)
  pure { buffer with data := d }

/-- `increment_length`: `set_length(buffer, get_length(buffer) + 1)`. -/
def increment_length (buffer : packet_buffer_t) : Option packet_buffer_t := do
  assert buffer.valid
  let l ← get_length buffer
  set_length buffer (l + 1)

/-! ## packet_buffer.c: building a buffer -/

/-- `create_buffer`: an empty frame with the given code. -/
def create_buffer (code : Nat) : Option packet_buffer_t := do
  let new_buffer : packet_buffer_t :=
    { valid := true, position := 4, max_length := STARTING_LENGTH,
      data := malloc STARTING_LENGTH }
  let new_buffer ← set_header new_buffer 0xFF
  let new_buffer ← set_code new_buffer code
  set_length new_buffer 4

/-- The `memcpy(dst + off, src, n)` of `create_buffer_data`. -/
def memcpy (dst : List Nat) (off : Nat) (src : List Nat) (n : Nat) : Option (List Nat) :=
  for_loop (fun i d => (src[i]?).bind (fun x => store d (off + i) x)) n 0 dst

/-- `create_buffer_data`: a frame around `length` bytes of payload. -/
def create_buffer_data (code length : Nat) (data : List Nat) : Option packet_buffer_t := do
  let length := length % 65536
  let max_length := (length + 4) % 65536
  let new_buffer : packet_buffer_t :=
    { valid := true, position := 4, max_length := max_length, data := malloc max_length }
  let d ← memcpy new_buffer.data 4 data length
  let new_buffer := { new_buffer with data := d }
  let new_buffer ← set_header new_buffer 0xFF
  let new_buffer ← set_code new_buffer code
  set_length new_buffer (length + 4)

/-- `add_int8`: double the block when it is full, write the byte at index `get_length`, and
patch the length field. -/
def add_int8 (buffer : packet_buffer_t) (data : Nat) : Option packet_buffer_t := do
  let data := data % 256
  assert buffer.valid
  let len ← get_length buffer
  let buffer :=
    if len = buffer.max_length then
      let m := (buffer.max_length <<< 1) % 65536
      { buffer with max_length := m, data := realloc buffer.data m }
    else buffer
  let len ← get_length buffer
  let d ← store buffer.data len data
  increment_length { buffer with data := d }

/-- `add_int16`: low byte, then high byte. -/
def add_int16 (buffer : packet_buffer_t) (data : Nat) : Option packet_buffer_t := do
  let data := data % 65536
  assert buffer.valid
  let buffer ← add_int8 buffer ((data >>> 0) &&& 0x000000FF)
  add_int8 buffer ((data >>> 8) &&& 0x000000FF)

/-- `add_int32`: four bytes, least significant first. -/
def add_int32 (buffer : packet_buffer_t) (data : Nat) : Option packet_buffer_t := do
  let data := data % 4294967296
  assert buffer.valid
  let buffer ← add_int8 buffer ((data >>> 0) &&& 0x000000FF)
  let buffer ← add_int8 buffer ((data >>> 8) &&& 0x000000FF)
  let buffer ← add_int8 buffer ((data >>> 16) &&& 0x000000FF)
  add_int8 buffer ((data >>> 24) &&& 0x000000FF)

/-- `add_ntstring`: `for (i = 0; i < strlen(data) + 1; i++) add_int8(buffer, data[i])`. -/
def add_ntstring (buffer : packet_buffer_t) (data : List Nat) : Option packet_buffer_t := do
  assert buffer.valid
  for_loop (fun i b => add_int8 b (data.getD i 0)) (strlen data + 1) 0 buffer

/-- `add_bytes`: `for (i = 0; i < length; i++) add_int8(buffer, data[i])`. -/
def add_bytes (buffer : packet_buffer_t) (data : List Nat) (length : Nat) :
    Option packet_buffer_t := do
  let length := length % 65536
  assert buffer.valid
  for_loop (fun i b => (data[i]?).bind (fun x => add_int8 b x)) length 0 buffer

/-! ## packet_buffer.c: the bounds checks -/

/-- `can_read_int8`: `position + 1 <= get_length(buffer)`. -/
def can_read_int8 (buffer : packet_buffer_t) : Option Bool := do
  assert buffer.valid
  let len ← get_length buffer
  pure (decide (buffer.position + 1 ≤ len))

/-- `can_read_int16`: `position + 2 <= get_length(buffer)`. -/
def can_read_int16 (buffer : packet_buffer_t) : Option Bool := do
  assert buffer.valid
  let len ← get_length buffer
  pure (decide (buffer.position + 2 ≤ len))

/-- `can_read_int32`: `position + 4 <= get_length(buffer)`. -/
def can_read_int32 (buffer : packet_buffer_t) : Option Bool := do
  assert buffer.valid
  let len ← get_length buffer
  pure (decide (buffer.position + 4 ≤ len))

/-- The loop of `can_read_ntstring`, `for (i = position; i < get_length; i++)`, with the
number of iterations left as its recursion argument. -/
def can_read_ntstring_loop (data : List Nat) : Nat → Nat → Option Bool
  | 0, _ => some false
  | n + 1, i => (data[i]?).bind (fun x =>
      if x = 0 then some true else can_read_ntstring_loop data n (i + 1))

/-- `can_read_ntstring`: is there a NUL between `position` and `get_length`. -/
def can_read_ntstring (buffer : packet_buffer_t) : Option Bool := do
  assert buffer.valid
  let len ← get_length buffer
  can_read_ntstring_loop buffer.data (len - buffer.position) buffer.position

/-- `can_read_bytes`: `position + length < get_length(buffer)`. -/
def can_read_bytes (buffer : packet_buffer_t) (length : Nat) : Option Bool := do
  let length := length % 65536
  assert buffer.valid
  let len ← get_length buffer
  pure (decide (buffer.position + length < len))

/-! ## packet_buffer.c: reading a buffer -/

/-- `read_next_int8`: `data[position++]`, after `assert(can_read_int8(buffer))`. -/
def read_next_int8 (buffer : packet_buffer_t) : Option (Nat × packet_buffer_t) := do
  assert (← can_read_int8 buffer)
  assert buffer.valid
  let v ← buffer.data[buffer.position]?
  pure (v, { buffer with position := (buffer.position + 1) % 65536 })

/-- `read_next_int16`: two bytes, low byte first. -/
def read_next_int16 (buffer : packet_buffer_t) : Option (Nat × packet_buffer_t) := do
  let ret := 0
  assert buffer.valid
  assert (← can_read_int16 buffer)
  let (x, buffer) ← read_next_int8 buffer
  let ret := (ret ||| ((x <<< 0) &&& 0x000000FF)) % 65536
  let (x, buffer) ← read_next_int8 buffer
  let ret := (ret ||| ((x <<< 8) &&& 0x0000FF00)) % 65536
  pure (ret, buffer)

/-- `read_next_int32`: four bytes, least significant first. -/
def read_next_int32 (buffer : packet_buffer_t) : Option (Nat × packet_buffer_t) := do
  let ret := 0
  assert buffer.valid
  assert (← can_read_int32 buffer)
  let (x, buffer) ← read_next_int8 buffer
  let ret := (ret ||| ((x <<< 0) &&& 0x000000FF)) % 4294967296
  let (x, buffer) ← read_next_int8 buffer
  let ret := (ret ||| ((x <<< 8) &&& 0x0000FF00)) % 4294967296
  let (x, buffer) ← read_next_int8 buffer
  let ret := (ret ||| ((x <<< 16) &&& 0x00FF0000)) % 4294967296
  let (x, buffer) ← read_next_int8 buffer
  let ret := (ret ||| ((x <<< 24) &&& 0xFF000000)) % 4294967296
  pure (ret, buffer)

/-- The character stored by `read_next_ntstring` for the byte `next`:
`(next == 0 || (next >= 0x20 && next <= 0x7F)) ? next : '.'`. -/
def ntstring_char (next : Nat) : Nat :=
  if next = 0 ∨ (0x20 ≤ next ∧ next ≤ 0x7F) then next else 0x2E

/-- The loop of `read_next_ntstring`, `for (i = 0; i < max_length - 1 && next != 0; i++)`.
The recursion argument is `max_length - 1 - i`; `data_ret[0 .. i)` is the list `out`. -/
def read_next_ntstring_loop :
    Nat → Nat → packet_buffer_t → List Nat → Option (List Nat × packet_buffer_t)
  | 0, _, buffer, out => some (out, buffer)
  | n + 1, next, buffer, out =>
    if next = 0 then some (out, buffer)
    else (read_next_int8 buffer).bind (fun r =>
      read_next_ntstring_loop n r.1 r.2 (out ++ [ntstring_char r.1]))

/-- `read_next_ntstring`: the bytes written to `data_ret`, the closing `data_ret[i] = 0`
included, and the buffer after the read. -/
def read_next_ntstring (buffer : packet_buffer_t) (max_length : Nat) :
    Option (List Nat × packet_buffer_t) := do
  let max_length := max_length % 65536
  let next := 0xFF
  assert buffer.valid
  assert (← can_read_ntstring buffer)
  let (out, buffer) ← read_next_ntstring_loop (max_length - 1) next buffer []
  pure (out ++ [0], buffer)

/-- The C string held by a `char` array: its bytes up to the first NUL. -/
def c_string (mem : List Nat) : List Nat :=
  mem.takeWhile (fun x => x != 0)

/-- The loop of `read_next_bytes`, `for (i = 0; i < length; i++) data[i] = read_next_int8`. -/
def read_next_bytes_loop :
    Nat → packet_buffer_t → List Nat → Option (List Nat × packet_buffer_t)
  | 0, buffer, out => some (out, buffer)
  | n + 1, buffer, out =>
    (read_next_int8 buffer).bind (fun r => read_next_bytes_loop n r.2 (out ++ [r.1]))

/-- `read_next_bytes`: `length` raw bytes, after `assert(can_read_bytes(buffer, length))`. -/
def read_next_bytes (buffer : packet_buffer_t) (length : Nat) :
    Option (List Nat × packet_buffer_t) := do
  let length := length % 65536
  assert buffer.valid
  assert (← can_read_bytes buffer length)
  read_next_bytes_loop length buffer []

/-! ## packet_buffer.c: the transport -/

/-- The system call `read(s, buf, n)`: up to `n` of the available bytes are handed over and
leave the socket. -/
def read (s : List Nat) (n : Nat) : List Nat × List Nat :=
  (s.take n, s.drop n)

/-- The three outcomes of `read_buffer`: `(packet_buffer_t *)-1`, `NULL`, or a buffer. -/
inductive read_result where
  | fatal : read_result
  | null : read_result
  | packet : packet_buffer_t → read_result
deriving DecidableEq, Repr

/-- The loop `while (header_byte != 0xFF)` of `read_buffer`: the socket left once the marker
has been read, or `none` when a `read` fails first. -/
def read_buffer_resync (header_byte : Nat) : List Nat → Option (List Nat)
  | [] => if header_byte = 0xFF then some [] else none
  | x :: s => if header_byte = 0xFF then some (x :: s) else read_buffer_resync x s

/-- `read_buffer`: one frame from the socket; the result comes with the socket as the call
leaves it. -/
def read_buffer (s : List Nat) : Option (read_result × List Nat) :=
  match read s 1 with
  | ([header_byte], s) =>
    match read_buffer_resync header_byte s with
    | none => some (read_result.null, [])
    | some s =>
      match read s 1 with
      | ([code], s) =>
        let length := 0
        match read s 1 with
        | ([temp_byte], s) =>
          let length := (length ||| temp_byte) % 65536
          match read s 1 with
          | ([temp_byte], s) =>
            let length := (length ||| (temp_byte <<< 8)) % 65536
            if length < 4 then some (read_result.fatal, s)
            else if length > MAX_PACKET then some (read_result.fatal, s)
            else
              let length := (length - 4) % 65536
              match read s length with
              | (buf, s) =>
                if buf.length ≠ length then some (read_result.null, s)
                else (create_buffer_data code length buf).map
                  (fun return_buffer => (read_result.packet return_buffer, s))
          | (_, s) => some (read_result.null, s)
        | (_, s) => some (read_result.null, s)
      | (_, s) => some (read_result.null, s)
  | (_, s) => some (read_result.fatal, s)

/-- `send_buffer`: `write(s, buffer->data, get_length(buffer))`; the number of bytes written
and the bytes that the socket carries afterwards. -/
def send_buffer (buffer : packet_buffer_t) (s : List Nat) : Option (Nat × List Nat) := do
  assert buffer.valid
  let len ← get_length buffer
  if len ≤ buffer.data.length then pure (len, s ++ buffer.data.take len) else none

/-! ## Frames and field sequences -/

/-- The buffer `b` holds the frame with code `c` and payload `pl`: it is valid, its block has
`max_length` bytes, and the block starts with the marker `0xFF`, the code, the total length
`4 + |pl|` (low byte first) and the payload bytes. -/
structure IsFrame (b : packet_buffer_t) (c : Nat) (pl : List Nat) : Prop where
  valid : b.valid = true
  alloc : b.data.length = b.max_length
  max16 : b.max_length < 65536
  code8 : c < 256
  bytes : ∀ x ∈ pl, x < 256
  fits : 4 + pl.length ≤ b.max_length
  contents : b.data.take (4 + pl.length) =
    0xFF :: c :: ((4 + pl.length) % 256) :: ((4 + pl.length) / 256) :: pl

/-- The three integer field types of the protocol. -/
inductive Width where
  | w8 : Width
  | w16 : Width
  | w32 : Width
deriving DecidableEq, Repr

/-- Number of bytes of an integer field. -/
def Width.size : Width → Nat
  | Width.w8 => 1
  | Width.w16 => 2
  | Width.w32 => 4

/-- The values of an integer field are those below `2 ^ (8 * size)`. -/
def Width.bound (w : Width) : Nat := 2 ^ (8 * w.size)

/-- Append an integer field with the function of its width. -/
def add_int (b : packet_buffer_t) (w : Width) (v : Nat) : Option packet_buffer_t :=
  match w with
  | Width.w8 => add_int8 b v
  | Width.w16 => add_int16 b v
  | Width.w32 => add_int32 b v

/-- Read an integer field with the function of its width. -/
def read_next_int (b : packet_buffer_t) (w : Width) : Option (Nat × packet_buffer_t) :=
  match w with
  | Width.w8 => read_next_int8 b
  | Width.w16 => read_next_int16 b
  | Width.w32 => read_next_int32 b

/-- Append a sequence of integer fields, in order. -/
def add_ints : packet_buffer_t → List (Width × Nat) → Option packet_buffer_t
  | b, [] => some b
  | b, f :: fs => (add_int b f.1 f.2).bind (fun b1 => add_ints b1 fs)

/-- Read a sequence of integer fields of the given widths, in order. -/
def read_ints : packet_buffer_t → List Width → Option (List Nat × packet_buffer_t)
  | b, [] => some ([], b)
  | b, w :: ws => (read_next_int b w).bind (fun r =>
      (read_ints r.2 ws).map (fun q => (r.1 :: q.1, q.2)))

/-- Little-endian bytes of `v`, `n` of them. -/
def le_bytes : Nat → Nat → List Nat
  | 0, _ => []
  | n + 1, v => (v % 256) :: le_bytes n (v / 256)

/-- A field of a frame: an integer, a NUL-terminated string, or a blob of raw bytes. -/
inductive Field where
  | int : Width → Nat → Field
  | ntstring : List Nat → Field
  | bytes : List Nat → Field
deriving DecidableEq, Repr

/-- Append one field with the function of its type; a blob is passed with its length. -/
def add_field (b : packet_buffer_t) : Field → Option packet_buffer_t
  | Field.int w v => add_int b w v
  | Field.ntstring s => add_ntstring b s
  | Field.bytes d => add_bytes b d d.length

/-- Append a sequence of fields, in order. -/
def add_fields : packet_buffer_t → List Field → Option packet_buffer_t
  | b, [] => some b
  | b, f :: fs => (add_field b f).bind (fun b1 => add_fields b1 fs)

/-- The wire encoding of a field, as the protocol describes it. -/
def Field.encoding : Field → List Nat
  | Field.int w v => le_bytes w.size v
  | Field.ntstring s => s ++ [0]
  | Field.bytes d => d

/-- The wire encoding of a sequence of fields. -/
def encoding : List Field → List Nat
  | [] => []
  | f :: fs => f.encoding ++ encoding fs

/-- A field is well formed when its integer fits its width, its string has no NUL, and all
its bytes are bytes. -/
def Field.wf : Field → Prop
  | Field.int w v => v < w.bound
  | Field.ntstring s => ∀ x ∈ s, x ≠ 0 ∧ x < 256
  | Field.bytes d => ∀ x ∈ d, x < 256

/-- The bytes of a frame on the wire: marker, code, length (low byte first), payload. -/
def frame_bytes (c : Nat) (pl : List Nat) : List Nat :=
  0xFF :: c :: ((4 + pl.length) % 256) :: ((4 + pl.length) / 256) :: pl

/-- The wire encoding of a sequence of integer fields. -/
def ints_encoding : List (Width × Nat) → List Nat
  | [] => []
  | f :: fs => le_bytes f.1.size f.2 ++ ints_encoding fs

/-- The buffer that `create_buffer 1` returns, written out. -/
def sample_buffer : packet_buffer_t :=
  ⟨4, 64, 0xFF :: 1 :: 4 :: 0 :: List.replicate 60 0, true⟩

/-! ## Sequencing

The definitions below are written in the `Option` monad with `and_then` as its bind: the
same function as `Option.bind`, kept out of line so that long sequences of steps compile in
linear time. -/

/-- Sequencing of two steps, the first of which can abort. -/
@[noinline] def and_then {α β : Type} (x : Option α) (f : α → Option β) : Option β :=
  match x with
  | none => none
  | some a => f a

/-- The `Option` monad with `and_then` as bind. -/
instance (priority := high) exec_monad : Monad Option where
  pure := some
  bind := and_then

/-! ## types.h: packet codes and chat event subtypes -/

/-- The enum `packet_codes_t`, first value. -/
def SID_NULL : Nat := 0
/-- The enum `packet_codes_t`. -/
def SID_CLIENT_INFORMATION : Nat := 1
/-- The enum `packet_codes_t`. -/
def SID_SERVER_INFORMATION : Nat := 2
/-- The enum `packet_codes_t`. -/
def SID_LOGIN : Nat := 3
/-- The enum `packet_codes_t`. -/
def SID_LOGIN_RESPONSE : Nat := 4
/-- The enum `packet_codes_t`. -/
def SID_CREATE : Nat := 5
/-- The enum `packet_codes_t`. -/
def SID_CREATE_RESPONSE : Nat := 6
/-- The enum `packet_codes_t`. -/
def SID_REQUEST_ROOM_LIST : Nat := 7
/-- The enum `packet_codes_t`. -/
def SID_ROOM_LIST : Nat := 8
/-- The enum `packet_codes_t`. -/
def SID_CHATCOMMAND : Nat := 9
/-- The enum `packet_codes_t`. -/
def SID_CHATEVENT : Nat := 10
/-- The enum `packet_codes_t`, last value. -/
def SID_ERROR : Nat := 11

/-- The enum `chatevent_subtype_t`, first value. -/
def EID_USER_JOIN_CHANNEL : Nat := 0
/-- The enum `chatevent_subtype_t`. -/
def EID_USER_IN_CHANNEL : Nat := 1
/-- The enum `chatevent_subtype_t`. -/
def EID_USER_LEAVE_CHANNEL : Nat := 2
/-- The enum `chatevent_subtype_t`. -/
def EID_TOPIC_CHANGED : Nat := 3
/-- The enum `chatevent_subtype_t`. -/
def EID_INFO : Nat := 4
/-- The enum `chatevent_subtype_t`. -/
def EID_ERROR : Nat := 5
/-- The enum `chatevent_subtype_t`. -/
def EID_TALK : Nat := 6
/-- The enum `chatevent_subtype_t`. -/
def EID_CHANNEL : Nat := 7
/-- The enum `chatevent_subtype_t`. -/
def EID_WHISPERTO : Nat := 8
/-- The enum `chatevent_subtype_t`, last value. -/
def EID_WHISPERFROM : Nat := 9

/-! ## C strings

A C string is the list of its bytes; `c_string` cuts a `char` array at its first NUL. -/

/-- A C string literal. -/
def str (s : String) : List Nat :=
  s.toList.map Char.toNat

/-- C `tolower` in the C locale. -/
def tolower (c : Nat) : Nat :=
  if 0x41 ≤ c ∧ c ≤ 0x5A then c + 0x20 else c

/-- The test `!strcmp(a, b)`. -/
def strcmp_eq (a b : List Nat) : Bool :=
  c_string a == c_string b

/-- The test `!strcasecmp(a, b)`. -/
def strcasecmp_eq (a b : List Nat) : Bool :=
  (c_string a).map tolower == (c_string b).map tolower

/-- C `strchr(s, c)` for `c != 0`: the index of the first `c` in the string, if any. -/
def strchr (s : List Nat) (c : Nat) : Option Nat :=
  let t := c_string s
  if t.indexOf c < t.length then some (t.indexOf c) else none

/-- C `isprint` in the C locale. -/
def isprint (c : Nat) : Bool :=
  decide (0x20 ≤ c ∧ c ≤ 0x7E)

/-- C `isxdigit`. -/
def isxdigit (c : Nat) : Bool :=
  decide ((0x30 ≤ c ∧ c ≤ 0x39) ∨ (0x41 ≤ c ∧ c ≤ 0x46) ∨ (0x61 ≤ c ∧ c ≤ 0x66))

/-- The value of a hexadecimal digit, as `sscanf("%x")` reads it. -/
def hex_value (c : Nat) : Nat :=
  if 0x30 ≤ c ∧ c ≤ 0x39 then c - 0x30
  else if 0x41 ≤ c ∧ c ≤ 0x46 then c - 0x41 + 10
  else c - 0x61 + 10

/-- The digit that `"%x"` prints for a value below 16. -/
def hex_digit (v : Nat) : Nat :=
  if v < 10 then 0x30 + v else 0x61 + (v - 10)

/-- The text that `"%d"` prints for a count. -/
def decimal (n : Nat) : List Nat :=
  (Nat.toDigits 10 n).map Char.toNat

/-- C `snprintf(buffer, size, ...)`: the formatted text, cut to `size - 1` characters. -/
def snprintf (size : Nat) (text : List Nat) : List Nat :=
  (c_string text).take (size - 1)

/-- The loop `for (i = 0; i < count; i++) body(array[i])` over an array. -/
def for_each {α σ : Type} (body : α → σ → Option σ) : List α → σ → Option σ
  | [], s => some s
  | x :: xs, s => (body x s).bind (for_each body xs)

/-! ## table.c: a table as the linked list of its members -/

/-- The type `table_t`: keys with their values, in list order. -/
abbrev table_t (V : Type) := List (List Nat × V)

/-- `table_create`. -/
def table_create {V : Type} : table_t V := []

/-- `table_add`: replace the value of the first member with this key, or append a member. -/
def table_add {V : Type} : table_t V → List Nat → V → table_t V
  | [], key, value => [(c_string key, value)]
  | node :: rest, key, value =>
    if strcmp_eq key node.1 then (node.1, value) :: rest
    else node :: table_add rest key value

/-- `table_find`: the value of the first member with this key, `NULL` when there is none. -/
def table_find {V : Type} : table_t V → List Nat → Option V
  | [], _ => none
  | node :: rest, key => if strcmp_eq node.1 key then some node.2 else table_find rest key

/-- `table_remove`: unlink the first member with this key; its value and the table left. -/
def table_remove {V : Type} : table_t V → List Nat → Option V × table_t V
  | [], _ => (none, [])
  | node :: rest, key =>
    if strcmp_eq key node.1 then (some node.2, rest)
    else ((table_remove rest key).1, node :: (table_remove rest key).2)

/-- `get_keys`. -/
def get_keys {V : Type} (table : table_t V) : List (List Nat) :=
  table.map Prod.fst

/-- `get_values`. -/
def get_values {V : Type} (table : table_t V) : List V :=
  table.map Prod.snd

/-- `table_get_count`. -/
def table_get_count {V : Type} (table : table_t V) : Nat :=
  table.length

/-! ## list.c: a list as the sequence of its values

The busy-wait lock of the module is left out: every function releases it before it
returns and the server has a single thread. -/

/-- `list_create`. -/
def list_create : List Nat := []

/-- `list_add_beginning`. -/
def list_add_beginning (list : List Nat) (value : Nat) : List Nat :=
  value :: list

/-- `list_add_end`. -/
def list_add_end (list : List Nat) (value : Nat) : List Nat :=
  list ++ [value]

/-- `list_remove_value`: unlink the first node holding this value; the value returned (`NULL`
when absent) and the list left. -/
def list_remove_value : List Nat → Nat → Option Nat × List Nat
  | [], _ => (none, [])
  | node :: rest, value =>
    if value = node then (some value, rest)
    else ((list_remove_value rest value).1, node :: (list_remove_value rest value).2)

/-- `list_contains`. -/
def list_contains (list : List Nat) (value : Nat) : Bool :=
  list.contains value

/-- `list_get_count`. -/
def list_get_count (list : List Nat) : Nat :=
  list.length

/-- `list_get_array`. -/
def list_get_array (list : List Nat) : List Nat :=
  list

/-! ## password.c

`SHA1` of OpenSSL is a parameter of the functions that hash. -/

/-- The constant `HASH_LENGTH` (`SHA_DIGEST_LENGTH`). -/
def HASH_LENGTH : Nat := 20

/-- `password_hash_second`: the hash of the two tokens, four bytes each, least significant
byte first, followed by the `HASH_LENGTH` bytes of the first hash. -/
def password_hash_second (SHA1 : List Nat → List Nat) (first_hash : List Nat)
    (client_token server_token : Nat) : Option (List Nat) := do
  let client_token := client_token % 4294967296
  let server_token := server_token % 4294967296
  let temp_buffer := [((client_token &&& 0x000000FF) >>> 0) % 256,
    ((client_token &&& 0x0000FF00) >>> 8) % 256,
    ((client_token &&& 0x00FF0000) >>> 16) % 256,
    ((client_token &&& 0xFF000000) >>> 24) % 256,
    ((server_token &&& 0x000000FF) >>> 0) % 256,
    ((server_token &&& 0x0000FF00) >>> 8) % 256,
    ((server_token &&& 0x00FF0000) >>> 16) % 256,
    ((server_token &&& 0xFF000000) >>> 24) % 256]
  let temp_buffer ← for_loop (fun i t => (first_hash[i]?).map (fun x => t ++ [x]))
    HASH_LENGTH 0 temp_buffer
  pure (SHA1 temp_buffer)

/-- `password_hash_once`: the hash of the password string. -/
def password_hash_once (SHA1 : List Nat → List Nat) (password : List Nat) : List Nat :=
  SHA1 (c_string password)

/-- `password_hash_twice`. -/
def password_hash_twice (SHA1 : List Nat → List Nat) (password : List Nat)
    (client_token server_token : Nat) : Option (List Nat) :=
  password_hash_second SHA1 (password_hash_once SHA1 password) client_token server_token

/-! ## account.c

The file `./accounts.ini` is the list of its bytes; a file that does not exist reads as the
empty file.  `none` stands for `exit(1)` or a failed `assert`. -/

/-- The constant `MIN_NAME`. -/
def MIN_NAME : Nat := 2

/-- The constant `MAX_NAME`. -/
def MAX_NAME : Nat := 32

/-- The constant `MAX_RECORD`: `MAX_NAME + HASH_LENGTH * 2 + 2`. -/
def MAX_RECORD : Nat := MAX_NAME + (HASH_LENGTH * 2) + 2

/-- The enum `create_response_t`, first value. -/
def CREATE_SUCCESS : Nat := 0
/-- The enum `create_response_t`. -/
def NAME_TOO_SHORT : Nat := 1
/-- The enum `create_response_t`. -/
def NAME_TOO_LONG : Nat := 2
/-- The enum `create_response_t`. -/
def NAME_ILLEGAL : Nat := 3
/-- The enum `create_response_t`, last value. -/
def ACCOUNT_EXISTS : Nat := 4

/-- The enum `login_response_t`, first value. -/
def LOGIN_SUCCESS : Nat := 0
/-- The enum `login_response_t`. -/
def INCORRECT_PASSWORD : Nat := 1
/-- The enum `login_response_t`. -/
def UNKNOWN_ACCOUNT : Nat := 2
/-- The enum `login_response_t`, last value. -/
def ACCOUNT_IN_USE : Nat := 3

/-- The struct `account_record`. -/
structure account_record where
  accountname : List Nat
  password : List Nat
deriving DecidableEq, Repr

/-- The strings that successive calls `fgets(buffer, size, file)` return: each holds at most
`size - 1` characters and ends after a newline.  `cur` is the string being read, reversed. -/
def fgets_all (size : Nat) : List Nat → List Nat → List (List Nat)
  | [], cur => if cur = [] then [] else [cur.reverse]
  | c :: rest, cur =>
    if c = 0x0A ∨ cur.length + 1 = size - 1 then (c :: cur).reverse :: fgets_all size rest []
    else fgets_all size rest (c :: cur)

/-- The loop `for (i = 0; i < HASH_LENGTH; i++)` of `find_account` that reads the hash, two
hexadecimal digits a byte; `none` is `exit(1)`. -/
def find_account_hash : Nat → List Nat → Option (List Nat)
  | 0, _ => some []
  | n + 1, delimit =>
    let temp_string := c_string (delimit.take 2)
    if isxdigit (temp_string.getD 0 0) && isxdigit (temp_string.getD 1 0) then
      (find_account_hash n (delimit.drop 2)).map (fun t =>
        ((hex_value (temp_string.getD 0 0) * 16 + hex_value (temp_string.getD 1 0))
          &&& 0x00FF) :: t)
    else none

/-- The loop `while (fgets(...))` of `find_account` over the strings read from the file.
The result is `none` for `exit(1)`, `some none` for `FALSE`, `some (some record)` for `TRUE`;
without `want_record` (the parameter `record` is `NULL`) the record returned is empty. -/
def find_account_lines (accountname : List Nat) (want_record : Bool) :
    List (List Nat) → Option (Option account_record)
  | [] => some none
  | line :: lines =>
    let buffer := c_string line
    match strchr buffer 0x3B with
    | none => find_account_lines accountname want_record lines
    | some delimit =>
      if strcmp_eq (buffer.take delimit) accountname then
        if !want_record then some (some ⟨[], []⟩)
        else
          let rest := buffer.drop (delimit + 1)
          if strlen rest < HASH_LENGTH * 2 then none
          else (find_account_hash HASH_LENGTH rest).map (fun password =>
            some ⟨(buffer.take delimit).take (MAX_NAME - 1), password⟩)
      else find_account_lines accountname want_record lines

/-- `find_account`: look the account up in the file. -/
def find_account (file : List Nat) (accountname : List Nat) (want_record : Bool) :
    Option (Option account_record) :=
  find_account_lines accountname want_record (fgets_all (MAX_RECORD - 1) file [])

/-- `add_account`: append the line `name;hash` to the file, the hash as 40 hexadecimal
digits. -/
def add_account (file : List Nat) (accountname password : List Nat) : Option (List Nat) := do
  assert ((strchr accountname 0x3B).isNone)
  let digits ← for_loop (fun i t => (password[i]?).map (fun x =>
    t ++ [hex_digit ((x % 256) / 16), hex_digit ((x % 256) % 16)])) HASH_LENGTH 0 []
  pure (file ++ c_string accountname ++ [0x3B] ++ digits ++ [0x0A])

/-- The loop `for (i = 0; i < HASH_LENGTH; i++)` of `account_login` that compares the two
hashes, with the number of iterations left as its recursion argument. -/
def account_login_compare (good_password password : List Nat) : Nat → Nat → Option Nat
  | 0, _ => some LOGIN_SUCCESS
  | n + 1, i => (good_password[i]?).bind (fun g => (password[i]?).bind (fun p =>
      if g ≠ p then some INCORRECT_PASSWORD
      else account_login_compare good_password password n (i + 1)))

/-- `account_login`: `UNKNOWN_ACCOUNT`, `INCORRECT_PASSWORD` or `LOGIN_SUCCESS`. -/
def account_login (SHA1 : List Nat → List Nat) (file : List Nat)
    (accountname password : List Nat) (client_token server_token : Nat) : Option Nat := do
  match ← find_account file accountname true with
  | none => pure UNKNOWN_ACCOUNT
  | some record =>
    let good_password ← password_hash_second SHA1 record.password client_token server_token
    account_login_compare good_password password HASH_LENGTH 0

/-- `account_create`: the response and the file afterwards. -/
def account_create (file : List Nat) (accountname password : List Nat) :
    Option (Nat × List Nat) := do
  if strlen accountname < MIN_NAME then pure (NAME_TOO_SHORT, file)
  else if strlen accountname ≥ MAX_NAME then pure (NAME_TOO_LONG, file)
  else if (c_string accountname).any (fun c => !(isprint c) || c == 0x3B) then
    pure (NAME_ILLEGAL, file)
  else
    match ← find_account file accountname false with
    | some _ => pure (ACCOUNT_EXISTS, file)
    | none =>
      let file ← add_account file accountname password
      pure (LOGIN_SUCCESS, file)

/-! ## user.h, user.c -/

/-- The constant `IP_LENGTH`. -/
def IP_LENGTH : Nat := 20

/-- The enum `user_states_t`. -/
inductive user_states_t where
  | CONNECTED : user_states_t
  | SENT_CLIENT_INFORMATION : user_states_t
  | NOT_IN_CHANNEL : user_states_t
  | JOINED_CHANNEL : user_states_t
deriving DecidableEq, Repr

/-- The struct `user_t`; `room` is `none` for the `NULL` pointer. -/
structure user_t where
  socket : Nat
  username : List Nat
  state : user_states_t
  client_token : Nat
  server_token : Nat
  room : Option (List Nat)
  ip : List Nat
deriving DecidableEq, Repr

/-- `create_user`: a user in state `CONNECTED`; `token` is the value that `rand()`
returns. -/
def create_user (socket : Nat) (ip : List Nat) (token : Nat) : user_t :=
  { socket := socket,
    username := str "Not logged in",
    state := user_states_t.CONNECTED,
    client_token := 0,
    server_token := token,
    ip := (c_string ip).take (IP_LENGTH - 1),
    room := none }

/-! ## room.h, room.c -/

/-- The constant `MIN_ROOM_LENGTH`. -/
def MIN_ROOM_LENGTH : Nat := 1

/-- The constant `MAX_ROOM_LENGTH`. -/
def MAX_ROOM_LENGTH : Nat := 16

/-- The constant `MAX_TOPIC_LENGTH`. -/
def MAX_TOPIC_LENGTH : Nat := 1024

/-- The struct `room_t`: the table of the users in the room (each value a `user_t *`), the
name and the topic. -/
structure room_t where
  users : table_t Nat
  name : List Nat
  topic : List Nat
deriving DecidableEq, Repr

/-- `room_create`: a room with no users, the name cut to `MAX_ROOM_LENGTH - 1` characters,
and the topic `"No topic"`. -/
def room_create (name : List Nat) : room_t :=
  { users := table_create,
    name := (c_string name).take (MAX_ROOM_LENGTH - 1),
    topic := str "No topic" }

/-! ## server.c: the state of the server

A `user_t *` is an index in `users`, a `room_t *` an index in `room_heap`: the server never
frees a user or a room.  `recv` holds, for each socket, the bytes that can be read from it;
`sent` is the sequence of the writes, each with its socket; `closed` is the sequence of the
sockets closed.  Messages for the display are left out. -/

/-- The constant `INPUT_LENGTH`. -/
def INPUT_LENGTH : Nat := 1024

/-- The module-level state of `server.c` with the objects it points to, the accounts file
and the sockets. -/
structure server_t where
  users : List user_t
  room_heap : List room_t
  new_users : List Nat
  old_users : table_t Nat
  rooms : table_t Nat
  accounts : List Nat
  recv : List (Nat × List Nat)
  sent : List (Nat × List Nat)
  closed : List Nat
deriving DecidableEq, Repr

/-- The state that `main` sets up: no user, no room. -/
def server_start (accounts : List Nat) : server_t :=
  { users := [], room_heap := [], new_users := list_create, old_users := table_create,
    rooms := table_create, accounts := accounts, recv := [], sent := [], closed := [] }

/-- The bytes that can be read from socket `s`. -/
def socket_input (st : server_t) (s : Nat) : List Nat :=
  (st.recv.lookup s).getD []

/-- Replace the bytes that can be read from socket `s`. -/
def set_socket_input (st : server_t) (s : Nat) (bytes : List Nat) : server_t :=
  { st with recv := (s, bytes) :: st.recv.filter (fun e => e.1 != s) }

/-- `destroy_buffer`: the buffer is marked invalid before it is freed. -/
def destroy_buffer (buffer : packet_buffer_t) : Option packet_buffer_t := do
  assert buffer.valid
  pure { buffer with position := 0, max_length := 0, valid := false }

/-- `send_buffer(buffer, s)` on the socket `s` of the server. -/
def socket_send (st : server_t) (buffer : packet_buffer_t) (s : Nat) : Option server_t :=
  (send_buffer buffer []).map (fun r => { st with sent := st.sent ++ [(s, r.2)] })

/-- The assignment `*user = u` to the object that `user` points to. -/
def store_user (st : server_t) (user : Nat) (u : user_t) : server_t :=
  { st with users := st.users.set user u }

/-- The assignment `*room = r` to the object that `room` points to. -/
def store_room (st : server_t) (room : Nat) (r : room_t) : server_t :=
  { st with room_heap := st.room_heap.set room r }

/-- `get_socket`. -/
def get_socket (st : server_t) (user : Nat) : Option Nat :=
  (st.users[user]?).map (fun u => u.socket)

/-- `get_username`. -/
def get_username (st : server_t) (user : Nat) : Option (List Nat) :=
  (st.users[user]?).map (fun u => u.username)

/-- `get_ip`. -/
def get_ip (st : server_t) (user : Nat) : Option (List Nat) :=
  (st.users[user]?).map (fun u => u.ip)

/-- `get_user_state`. -/
def get_user_state (st : server_t) (user : Nat) : Option user_states_t :=
  (st.users[user]?).map (fun u => u.state)

/-- `get_client_token`. -/
def get_client_token (st : server_t) (user : Nat) : Option Nat :=
  (st.users[user]?).map (fun u => u.client_token % 4294967296)

/-- `get_server_token`. -/
def get_server_token (st : server_t) (user : Nat) : Option Nat :=
  (st.users[user]?).map (fun u => u.server_token % 4294967296)

/-- `get_user_room`; the inner `none` is `NULL`. -/
def get_user_room (st : server_t) (user : Nat) : Option (Option (List Nat)) :=
  (st.users[user]?).map (fun u => u.room)

/-- `set_username`: the name cut to `MAX_NAME - 1` characters. -/
def set_username (st : server_t) (user : Nat) (username : List Nat) : Option server_t :=
  (st.users[user]?).map (fun u =>
    store_user st user { u with username := (c_string username).take (MAX_NAME - 1) })

/-- `set_user_state`. -/
def set_user_state (st : server_t) (user : Nat) (new_state : user_states_t) :
    Option server_t :=
  (st.users[user]?).map (fun u =>
    store_user st user { u with state := new_state })

/-- `set_client_token`. -/
def set_client_token (st : server_t) (user : Nat) (token : Nat) : Option server_t :=
  (st.users[user]?).map (fun u =>
    store_user st user { u with client_token := token % 4294967296 })

/-- `set_user_room`. -/
def set_user_room (st : server_t) (user : Nat) (room_name : Option (List Nat)) :
    Option server_t :=
  (st.users[user]?).map (fun u =>
    store_user st user { u with room := room_name.map c_string })

/-- `room_get_name`. -/
def room_get_name (st : server_t) (room : Nat) : Option (List Nat) :=
  (st.room_heap[room]?).map (fun r => r.name)

/-- `room_get_topic`. -/
def room_get_topic (st : server_t) (room : Nat) : Option (List Nat) :=
  (st.room_heap[room]?).map (fun r => r.topic)

/-- `room_get_count`. -/
def room_get_count (st : server_t) (room : Nat) : Option Nat :=
  (st.room_heap[room]?).map (fun r => table_get_count r.users)

/-- `room_get_users`. -/
def room_get_users (st : server_t) (room : Nat) : Option (List Nat) :=
  (st.room_heap[room]?).map (fun r => get_values r.users)

/-- `room_add_user`: `table_add(room->users, get_username(user), user)`. -/
def room_add_user (st : server_t) (room user : Nat) : Option server_t := do
  let r ← st.room_heap[room]?
  let name ← get_username st user
  pure (store_room st room { r with users := table_add r.users name user })

/-- `room_remove_user`: `table_remove(room->users, get_username(user))`. -/
def room_remove_user (st : server_t) (room user : Nat) : Option server_t := do
  let r ← st.room_heap[room]?
  let name ← get_username st user
  pure (store_room st room { r with users := (table_remove r.users name).2 })

/-- The chat event packet built by `send_chat`, `room_message` and
`room_send_users_in_channel`: the subtype, the user name and the text. -/
def chatevent_packet (subtype : Nat) (name text : List Nat) : Option packet_buffer_t := do
  let packet ← create_buffer SID_CHATEVENT
  let packet ← add_int32 packet subtype
  let packet ← add_ntstring packet name
  add_ntstring packet text

/-- `room_message`: one chat event packet, sent to every user of the room. -/
def room_message (st : server_t) (room : Nat) (message_subtype : Nat)
    (sender message : List Nat) : Option server_t := do
  let r ← st.room_heap[room]?
  let users := get_values r.users
  let packet ← chatevent_packet message_subtype sender message
  let st ← for_each (fun user st => (get_socket st user).bind (socket_send st packet)) users st
  let _ ← destroy_buffer packet
  pure st

/-- `room_packet`: send a packet to every user of the room. -/
def room_packet (st : server_t) (room : Nat) (packet : packet_buffer_t) : Option server_t := do
  let r ← st.room_heap[room]?
  for_each (fun user st => (get_socket st user).bind (socket_send st packet))
    (get_values r.users) st

/-- `room_send_users_in_channel`: one `EID_USER_IN_CHANNEL` packet to socket `s` for each
user of the room. -/
def room_send_users_in_channel (st : server_t) (room : Nat) (s : Nat) : Option server_t := do
  let r ← st.room_heap[room]?
  for_each (fun user st => do
    let name ← get_username st user
    let packet ← chatevent_packet EID_USER_IN_CHANNEL name (str "")
    let st ← socket_send st packet s
    let _ ← destroy_buffer packet
    pure st) (get_values r.users) st

/-! ## server.c: sending -/

/-- `send_error`: an `SID_ERROR` packet with the text, sent to the user. -/
def send_error (st : server_t) (user : Nat) (error_text : List Nat) : Option server_t := do
  let packet ← create_buffer SID_ERROR
  let packet ← add_ntstring packet error_text
  let s ← get_socket st user
  let st ← socket_send st packet s
  let _ ← destroy_buffer packet
  pure st

/-- `send_chat`: a chat event sent to the user logged in under the name `dest`; `FALSE` when
there is none. -/
def send_chat (st : server_t) (subtype : Nat) (dest sender message : List Nat) :
    Option (Bool × server_t) :=
  match table_find st.old_users dest with
  | none => some (false, st)
  | some user => do
    let packet ← chatevent_packet subtype sender message
    let s ← get_socket st user
    let st ← socket_send st packet s
    let _ ← destroy_buffer packet
    pure (true, st)

/-- The call `send_chat(subtype, get_username(user), get_username(user), message)`, its
result dropped. -/
def send_chat_self (st : server_t) (subtype : Nat) (user : Nat) (message : List Nat) :
    Option server_t := do
  let dest ← get_username st user
  let sender ← get_username st user
  let r ← send_chat st subtype dest sender message
  pure r.2

/-! ## server.c: the chat commands -/

/-- `process_command_rooms` (`/rooms`, `/channels`). -/
def process_command_rooms (st : server_t) (user : Nat) (param : List Nat) :
    Option server_t :=
  if strlen param > 0 then
    send_chat_self st EID_ERROR user (str "Usage: /rooms")
  else do
    let room_list := get_values st.rooms
    let st ← send_chat_self st EID_INFO user (str "Here is the list of channels")
    for_each (fun room st => do
      let count ← room_get_count st room
      if count > 0 then
        let name ← room_get_name st room
        let count ← room_get_count st room
        let buffer := snprintf (INPUT_LENGTH - 1)
          (name ++ str " <" ++ decimal count ++ str " users>")
        send_chat_self st EID_INFO user buffer
      else pure st) room_list st

/-- `process_command_who` (`/who`, `/list`). -/
def process_command_who (st : server_t) (user : Nat) (param : List Nat) : Option server_t :=
  if strlen param = 0 then
    send_chat_self st EID_ERROR user (str "Usage: /who <room>")
  else
    match table_find st.rooms param with
    | none => send_chat_self st EID_ERROR user (str
        "Room not found.  If you were searching for a user, not a room, please use /whois <username>")
    | some target => do
      let users ← room_get_users st target
      if users.length = 0 then
        send_chat_self st EID_ERROR user (str
          "Room not found.  If you were searching for a user, not a room, please use /whois <username>")
      else
        let buffer := snprintf (INPUT_LENGTH - 1)
          (str "Users in room " ++ c_string param ++ str ":")
        let st ← send_chat_self st EID_INFO user buffer
        for_each (fun u st => do
          let name ← get_username st u
          let ip ← get_ip st u
          let buffer := snprintf (INPUT_LENGTH - 1) (name ++ str " <" ++ ip ++ str ">")
          send_chat_self st EID_INFO user buffer) users st

/-- `process_command_finger` (`/finger`, `/whois`, `/whereis`). -/
def process_command_finger (st : server_t) (user : Nat) (param : List Nat) :
    Option server_t :=
  if strlen param = 0 then
    send_chat_self st EID_ERROR user (str "Usage: /finger <user>")
  else
    match table_find st.old_users param with
    | none => send_chat_self st EID_ERROR user (str "Sorry, that isn't isn't logged on")
    | some target => do
      let name ← get_username st target
      let ip ← get_ip st target
      let room ← get_user_room st target
      let buffer := snprintf (INPUT_LENGTH - 1)
        (str "User " ++ name ++ str " is connected from " ++ ip ++
          str " and is in the channel " ++ room.getD (str "<not in chat>") ++ str ".")
      send_chat_self st EID_INFO user buffer

/-- `process_command_help` (`/help`, `/h`, `/?`). -/
def process_command_help (st : server_t) (user : Nat) (param : List Nat) :
    Option server_t :=
  if strlen param = 0 then do
    let st ← send_chat_self st EID_INFO user
      (str "Here is a list of some of the commands, maybe all:")
    send_chat_self st EID_INFO user (str "/help, /w, /join, /rooms, /who, /finger")
  else if strcasecmp_eq param (str "help") || strcasecmp_eq param (str "h") ||
      strcasecmp_eq param (str "?") then do
    let st ← send_chat_self st EID_INFO user (str "Command: help")
    let st ← send_chat_self st EID_INFO user (str "Usage: /help [command]")
    let st ← send_chat_self st EID_INFO user (str "Aliases: /help, /h, /?")
    send_chat_self st EID_INFO user (str
      "If no command parameter is specified, /help displays the list of commands.  If a parameter is given, it will attempt to find help on the specified command and display it (much like this...).")
  else if strcasecmp_eq param (str "w") || strcasecmp_eq param (str "whisper") ||
      strcasecmp_eq param (str "m") || strcasecmp_eq param (str "msg") then do
    let st ← send_chat_self st EID_INFO user (str "Command: w")
    let st ← send_chat_self st EID_INFO user (str "Usage: /w <user> <message>")
    let st ← send_chat_self st EID_INFO user (str "Aliases: /w, /whisper, /m, /msg")
    send_chat_self st EID_INFO user (str
      "Attempts to send the given message to the requested user.  The user can be anywhere, in or out of chat, as long as he is logged in.  If he's not logged in, an error is displayed.")
  else if strcasecmp_eq param (str "join") || strcasecmp_eq param (str "channel") then do
    let st ← send_chat_self st EID_INFO user (str "Command: join")
    let st ← send_chat_self st EID_INFO user (str "Usage: /join [channel]")
    let st ← send_chat_self st EID_INFO user (str "Aliases: /join, /channel")
    send_chat_self st EID_INFO user (str
      "If the channel parameter is given, it joins the specified channel.  The channel is created if it doesn't already exist.  If no parameter is given, it leaves chat.  This is create channel, join channel, and leave chat all rolled up into one.")
  else if strcasecmp_eq param (str "finger") || strcasecmp_eq param (str "whois") ||
      strcasecmp_eq param (str "whereis") then do
    let st ← send_chat_self st EID_INFO user (str "Command: finger")
    let st ← send_chat_self st EID_INFO user (str "Usage: /finger <user>")
    let st ← send_chat_self st EID_INFO user (str "Aliases: /finger, /whois, /whereis")
    send_chat_self st EID_INFO user
      (str "Gets the ip and current location for the requested user.")
  else if strcasecmp_eq param (str "who") || strcasecmp_eq param (str "list") then do
    let st ← send_chat_self st EID_INFO user (str "Command: who")
    let st ← send_chat_self st EID_INFO user (str "Usage: /who <channel>")
    let st ← send_chat_self st EID_INFO user (str "Aliases: /who, /list")
    send_chat_self st EID_INFO user
      (str "Gets the username and ip for everybody in the requested channel.")
  else if strcasecmp_eq param (str "rooms") || strcasecmp_eq param (str "channels") then do
    let st ← send_chat_self st EID_INFO user (str "Command: rooms")
    let st ← send_chat_self st EID_INFO user (str "Usage: /rooms")
    let st ← send_chat_self st EID_INFO user (str "Aliases: /rooms, /channels")
    send_chat_self st EID_INFO user
      (str "Lists all rooms, and the number of users in each of them.")
  else pure st

/-- `process_command_w` (`/w`, `/m`, `/whisper`, `/msg`). -/
def process_command_w (st : server_t) (user : Nat) (param : List Nat) : Option server_t :=
  match strchr param 0x20 with
  | none => send_chat_self st EID_ERROR user (str "Usage: /w <user> <message>")
  | some i =>
    let message := (c_string param).drop (i + 1)
    let param := (c_string param).take i
    match table_find st.old_users param with
    | none => send_chat_self st EID_ERROR user (str "User not logged on")
    | some dest => do
      let to_name ← get_username st dest
      let user_name ← get_username st user
      let r ← send_chat st EID_WHISPERFROM to_name user_name message
      let st := r.2
      let user_name ← get_username st user
      let to_name ← get_username st dest
      let r ← send_chat st EID_WHISPERTO user_name to_name message
      pure r.2

/-- `process_command_join` (`/join`, `/channel`). -/
def process_command_join (st : server_t) (user : Nat) (param : List Nat) :
    Option server_t :=
  if strcasecmp_eq param (str "backstage") then
    send_chat_self st EID_ERROR user (str "Sorry, that room is restricted")
  else if strlen param > 0 ∧ strlen param < MIN_ROOM_LENGTH then
    send_chat_self st EID_ERROR user (str "Sorry, the name of that room is too short")
  else if strlen param ≥ MAX_ROOM_LENGTH then
    send_chat_self st EID_ERROR user (str "Sorry, the name of that room is too long")
  else do
    let old_room_name ← get_user_room st user
    let old_room := old_room_name.bind (table_find st.rooms)
    let st ← match old_room with
      | some old_room => do
        let st ← room_remove_user st old_room user
        let name ← get_username st user
        room_message st old_room EID_USER_LEAVE_CHANNEL name (str "")
      | none => pure st
    if strlen param = 0 then do
      let st ← send_chat_self st EID_INFO user (str "Leaving chat")
      let st ← send_chat_self st EID_CHANNEL user (str "")
      let st ← set_user_state st user user_states_t.NOT_IN_CHANNEL
      set_user_room st user none
    else do
      let found := table_find st.rooms param
      let (st, room) ← match found with
        | none => do
          let st ← send_chat_self st EID_INFO user (str "Creating new channel for you")
          let room := st.room_heap.length
          let st := { st with room_heap := st.room_heap ++ [room_create param] }
          let st := { st with rooms := table_add st.rooms param room }
          pure (st, room)
        | some room => pure (st, room)
      let st ← send_chat_self st EID_CHANNEL user param
      let s ← get_socket st user
      let st ← room_send_users_in_channel st room s
      let st ← set_user_state st user user_states_t.JOINED_CHANNEL
      let st ← set_user_room st user (some param)
      let st ← room_add_user st room user
      let name ← get_username st user
      room_message st room EID_USER_JOIN_CHANNEL name (str "")

/-! ## server.c: the packet handlers -/

/-- `process_SID_REQUEST_ROOM_LIST`. -/
def process_SID_REQUEST_ROOM_LIST (st : server_t) (user : Nat) (_packet : packet_buffer_t) :
    Option server_t :=
  send_error st user (str "SID_REQUEST_ROOM_LIST Not implemented yet..")

/-- `process_SID_NULL`. -/
def process_SID_NULL (st : server_t) (_user : Nat) (_packet : packet_buffer_t) :
    Option server_t :=
  some st

/-- `process_SID_CLIENT_INFORMATION`. -/
def process_SID_CLIENT_INFORMATION (st : server_t) (user : Nat) (packet : packet_buffer_t) :
    Option server_t := do
  let state ← get_user_state st user
  let st ←
    if state ≠ user_states_t.CONNECTED then
      send_error st user (str "SID_CLIENT_INFORMATION Invalid in this state")
    else do
      let _ ← get_length packet
      let (token, packet) ← read_next_int32 packet
      let st ← set_client_token st user token
      let (_, packet) ← read_next_int32 packet
      let (_, packet) ← read_next_int32 packet
      let len ← get_length packet
      let (_, packet) ← read_next_ntstring packet len
      let len ← get_length packet
      let (_, _) ← read_next_ntstring packet len
      let st ← set_user_state st user user_states_t.SENT_CLIENT_INFORMATION
      let response ← create_buffer SID_SERVER_INFORMATION
      let token ← get_server_token st user
      let response ← add_int32 response token
      let response ← add_int32 response 1
      let response ← add_ntstring response (str "sha1")
      let response ← add_ntstring response (str "")
      let response ← add_ntstring response (str "")
      let s ← get_socket st user
      let st ← socket_send st response s
      let _ ← destroy_buffer response
      pure st
  let _ ← destroy_buffer packet
  pure st

/-- `process_SID_LOGIN`. -/
def process_SID_LOGIN (SHA1 : List Nat → List Nat) (st : server_t) (user : Nat)
    (packet : packet_buffer_t) : Option server_t := do
  let state ← get_user_state st user
  if state ≠ user_states_t.SENT_CLIENT_INFORMATION then
    send_error st user (str "SID_LOGIN Invalid in this state")
  else do
    let _ ← get_length packet
    let (password_buffer, packet) ← read_next_bytes packet 20
    let len ← get_length packet
    let (username_buffer, _) ← read_next_ntstring packet (len + 65536 - 1)
    let username_buffer := c_string username_buffer
    let status ←
      match table_find st.old_users username_buffer with
      | some _ => pure ACCOUNT_IN_USE
      | none => do
        let client_token ← get_client_token st user
        let server_token ← get_server_token st user
        account_login SHA1 st.accounts username_buffer password_buffer client_token
          server_token
    let response ← create_buffer SID_LOGIN_RESPONSE
    let response ← add_int32 response status
    let response ← add_ntstring response username_buffer
    let s ← get_socket st user
    let st ← socket_send st response s
    let _ ← destroy_buffer response
    if status = LOGIN_SUCCESS then do
      let st ← set_username st user username_buffer
      let st ← set_user_state st user user_states_t.NOT_IN_CHANNEL
      let st := { st with new_users := (list_remove_value st.new_users user).2 }
      let name ← get_username st user
      pure { st with old_users := table_add st.old_users name user }
    else pure st

/-- `process_SID_CREATE`. -/
def process_SID_CREATE (st : server_t) (user : Nat) (packet : packet_buffer_t) :
    Option server_t := do
  let state ← get_user_state st user
  if state ≠ user_states_t.SENT_CLIENT_INFORMATION then
    send_error st user (str "SID_CREATE Invalid in this state")
  else do
    let _ ← get_length packet
    let (password_buffer, packet) ← read_next_bytes packet 20
    let len ← get_length packet
    let (username_buffer, _) ← read_next_ntstring packet (len + 65536 - 1)
    let username_buffer := c_string username_buffer
    let (create_response, accounts) ← account_create st.accounts username_buffer
      password_buffer
    let st := { st with accounts := accounts }
    let response ← create_buffer SID_CREATE_RESPONSE
    let response ← add_int32 response create_response
    let response ← add_ntstring response username_buffer
    let s ← get_socket st user
    let st ← socket_send st response s
    let _ ← destroy_buffer response
    pure st

/-- `process_SID_CHATCOMMAND`. -/
def process_SID_CHATCOMMAND (st : server_t) (user : Nat) (packet : packet_buffer_t) :
    Option server_t := do
  let state ← get_user_state st user
  if state ≠ user_states_t.JOINED_CHANNEL ∧ state ≠ user_states_t.NOT_IN_CHANNEL then
    send_error st user (str "SID_CHATCOMMAND Invalid in this state")
  else do
    let room ← get_user_room st user
    let len ← get_length packet
    let (message, _) ← read_next_ntstring packet len
    let message := c_string message
    if message.head? = some 0x2F then
      let command := message.drop 1
      let (command, parameter) :=
        match strchr command 0x20 with
        | some i => (command.take i, command.drop (i + 1))
        | none => (command, str "")
      if strcasecmp_eq command (str "join") || strcasecmp_eq command (str "channel") then
        process_command_join st user parameter
      else if strcasecmp_eq command (str "help") || strcasecmp_eq command (str "h") ||
          strcasecmp_eq command (str "?") then
        process_command_help st user parameter
      else if strcasecmp_eq command (str "finger") || strcasecmp_eq command (str "whois") ||
          strcasecmp_eq command (str "whereis") then
        process_command_finger st user parameter
      else if strcasecmp_eq command (str "w") || strcasecmp_eq command (str "whisper") ||
          strcasecmp_eq command (str "m") || strcasecmp_eq command (str "msg") then
        process_command_w st user parameter
      else if strcasecmp_eq command (str "who") || strcasecmp_eq command (str "list") then
        process_command_who st user parameter
      else if strcasecmp_eq command (str "rooms") ||
          strcasecmp_eq command (str "channels") then
        process_command_rooms st user parameter
      else
        send_chat_self st EID_ERROR user
          (str "Unknown command; type /help for a command listing")
    else
      match room with
      | none =>
        send_chat_self st EID_ERROR user (str "You can only send chat if you're in a room")
      | some room => do
        let target ← table_find st.rooms room
        let name ← get_username st user
        room_message st target EID_TALK name message

/-- `process_SID_ERROR`: the text is read for the display. -/
def process_SID_ERROR (st : server_t) (_user : Nat) (packet : packet_buffer_t) :
    Option server_t := do
  let len ← get_length packet
  let _ ← read_next_ntstring packet len
  pure st

/-- The `switch (get_code(packet))` of `process_next_packet`. -/
def process_packet (SHA1 : List Nat → List Nat) (st : server_t) (user : Nat)
    (packet : packet_buffer_t) : Option server_t := do
  let code ← get_code packet
  if code = SID_NULL then process_SID_NULL st user packet
  else if code = SID_CLIENT_INFORMATION then process_SID_CLIENT_INFORMATION st user packet
  else if code = SID_LOGIN then process_SID_LOGIN SHA1 st user packet
  else if code = SID_CREATE then process_SID_CREATE st user packet
  else if code = SID_REQUEST_ROOM_LIST then process_SID_REQUEST_ROOM_LIST st user packet
  else if code = SID_CHATCOMMAND then process_SID_CHATCOMMAND st user packet
  else if code = SID_ERROR then process_SID_ERROR st user packet
  else if code = SID_SERVER_INFORMATION ∨ code = SID_LOGIN_RESPONSE ∨
      code = SID_CREATE_RESPONSE ∨ code = SID_ROOM_LIST ∨ code = SID_CHATEVENT then
    send_error st user (str "Client isn't allowed to send that")
  else send_error st user (str "Unknown packet")

/-- `process_next_packet`: read one packet from the socket of the user and handle it.  The
result is `FALSE` when the socket should be closed. -/
def process_next_packet (SHA1 : List Nat → List Nat) (st : server_t) (user : Nat) :
    Option (Bool × server_t) := do
  let s ← get_socket st user
  let (packet, rest) ← read_buffer (socket_input st s)
  let st := set_socket_input st s rest
  match packet with
  | read_result.null => pure (true, st)
  | read_result.fatal => pure (false, st)
  | read_result.packet packet => do
    let st ← process_packet SHA1 st user packet
    pure (true, st)

/-! ## server.c: the reactor -/

/-- `do_keepalive`: one `SID_NULL` packet, sent to every new and every authenticated user. -/
def do_keepalive (st : server_t) (new_user_list old_user_list : List Nat) :
    Option server_t := do
  let keepalive ← create_buffer SID_NULL
  let st ← for_each (fun user st => (get_socket st user).bind (socket_send st keepalive))
    new_user_list st
  let st ← for_each (fun user st => (get_socket st user).bind (socket_send st keepalive))
    old_user_list st
  let _ ← destroy_buffer keepalive
  pure st

/-- What `select` and `accept` report to `do_select`: a failure, the timeout, or the set of
sockets that can be read together with, when the listening socket is among them, the
connection that `accept` returns (its socket, its address, and the value of `rand()` for its
user). -/
inductive select_result where
  | failed : select_result
  | timeout : select_result
  | ready : List Nat → Option (Nat × List Nat × Nat) → select_result
deriving DecidableEq, Repr

/-- The branch of `do_select` that accepts a connection: a new user at the end of
`new_users`. -/
def accept_connection (st : server_t) (new_socket : Nat) (ip : List Nat) (token : Nat) :
    server_t :=
  let new_user := st.users.length
  let st := { st with users := st.users ++ [create_user new_socket ip token] }
  { st with new_users := list_add_end st.new_users new_user }

/-- The body of the loop of `do_select` over the authenticated users. -/
def select_old_user (SHA1 : List Nat → List Nat) (fds : List Nat) (user : Nat)
    (st : server_t) : Option server_t := do
  let s ← get_socket st user
  if fds.contains s then
    let (ok, st) ← process_next_packet SHA1 st user
    if ok = false then
      let name ← get_username st user
      let st := { st with old_users := (table_remove st.old_users name).2 }
      let s ← get_socket st user
      pure { st with closed := st.closed ++ [s] }
    else pure st
  else pure st

/-- The body of the loop of `do_select` over the new users. -/
def select_new_user (SHA1 : List Nat → List Nat) (fds : List Nat) (user : Nat)
    (st : server_t) : Option server_t := do
  let s ← get_socket st user
  if fds.contains s then
    let (ok, st) ← process_next_packet SHA1 st user
    if ok = false then
      let st := { st with new_users := (list_remove_value st.new_users user).2 }
      let s ← get_socket st user
      pure { st with closed := st.closed ++ [s] }
    else pure st
  else pure st

/-- `do_select`: one cycle of the reactor. -/
def do_select (SHA1 : List Nat → List Nat) (st : server_t) (event : select_result) :
    Option server_t := do
  let new_user_list := list_get_array st.new_users
  let _ ← for_each (fun user (_ : Unit) => (get_socket st user).map (fun _ => ()))
    new_user_list ()
  let old_user_list := get_values st.old_users
  let _ ← for_each (fun user (_ : Unit) => (get_socket st user).map (fun _ => ()))
    old_user_list ()
  match event with
  | select_result.failed => none
  | select_result.timeout => do_keepalive st new_user_list old_user_list
  | select_result.ready fds accepted => do
    let st :=
      match accepted with
      | some (new_socket, ip, token) => accept_connection st new_socket ip token
      | none => st
    let st ← for_each (select_old_user SHA1 fds) old_user_list st
    for_each (select_new_user SHA1 fds) new_user_list st

/-! ## Examples -/

/-- A buffer with a string and two more bytes as its payload, for the examples. -/
def sample_chat_buffer : packet_buffer_t :=
  ⟨4, 9, [0xFF, 9, 9, 0, 0x68, 0x69, 0, 1, 2], true⟩

/-- A stand-in for `SHA1` in the examples: the first 20 bytes of the input, padded. -/
def sample_hash (input : List Nat) : List Nat :=
  (input ++ List.replicate 20 7).take 20

/-- The user that `create_user` makes for a connection on socket 5. -/
def sample_user : user_t :=
  create_user 5 (str "10.0.0.1") 1234

/-- A server with one new user, on socket 5, and the given bytes waiting on that socket. -/
def sample_server (input : List Nat) : server_t :=
  { users := [sample_user], room_heap := [], new_users := [0], old_users := [], rooms := [],
    accounts := [], recv := [(5, input)], sent := [], closed := [] }

/-- Bytes arrive on socket `s`, after those that wait there. -/
def deliver (st : server_t) (s : Nat) (bytes : List Nat) : server_t :=
  set_socket_input st s (socket_input st s ++ bytes)

/-- One cycle of the reactor in which `select` reports socket `s`, after `bytes` have arrived
on it. -/
def sample_cycle (st : Option server_t) (s : Nat) (bytes : List Nat) : Option server_t :=
  st.bind (fun st => do_select sample_hash (deliver st s bytes) (select_result.ready [s] none))

/-- An accounts file with the accounts `alice` and `bob`, both with the password hash
`AB AB .. AB`. -/
def sample_accounts : List Nat :=
  str "alice;abababababababababababababababababababab\nbob;abababababababababababababababababababab\n"

/-- The ClientInfo frame with the client token `token`. -/
def sample_client_information (token : Nat) : List Nat :=
  frame_bytes SID_CLIENT_INFORMATION (encoding [Field.int Width.w32 token,
    Field.int Width.w32 0, Field.int Width.w32 1, Field.ntstring [], Field.ntstring []])

/-- The Login frame for `name` with the proof for the password hash `AB AB .. AB` and the two
tokens. -/
def sample_login (name : List Nat) (client_token server_token : Nat) : List Nat :=
  frame_bytes SID_LOGIN (encoding [Field.bytes ((password_hash_second sample_hash
    (List.replicate 20 0xAB) client_token server_token).getD []), Field.ntstring name])

/-- The ChatCommand frame with the text `text`. -/
def sample_chatcommand (text : List Nat) : List Nat :=
  frame_bytes SID_CHATCOMMAND (encoding [Field.ntstring text])

/-- The server after it has accepted a connection on socket 5. -/
def sample_connected : Option server_t :=
  do_select sample_hash (server_start sample_accounts)
    (select_result.ready [] (some (5, str "10.0.0.1", 1234)))

/-- Then the user on socket 5 has sent its ClientInfo. -/
def sample_informed : Option server_t :=
  sample_cycle sample_connected 5 (sample_client_information 0x1111)

/-- Then the user on socket 5 has logged in as `alice`. -/
def sample_authenticated : Option server_t :=
  sample_cycle sample_informed 5 (sample_login (str "alice") 0x1111 1234)

/-- Then `alice` has joined the room `lobby`. -/
def sample_joined : Option server_t :=
  sample_cycle sample_authenticated 5 (sample_chatcommand (str "/join lobby"))

/-- Then a second connection, on socket 6, has logged in as `bob` and joined `lobby`. -/
def sample_two_joined : Option server_t :=
  sample_cycle (sample_cycle (sample_cycle
    (sample_joined.bind (fun st => do_select sample_hash st
      (select_result.ready [] (some (6, str "10.0.0.2", 99)))))
    6 (sample_client_information 0x2222)) 6 (sample_login (str "bob") 0x2222 99))
    6 (sample_chatcommand (str "/join lobby"))

/-- Then the connection of `alice` is closed: socket 5 is readable and has no bytes. -/
def sample_alice_closed : Option server_t :=
  sample_cycle sample_two_joined 5 []

/-- Then `bob` talks in the room. -/
def sample_bob_talks : Option server_t :=
  sample_cycle sample_alice_closed 6 (sample_chatcommand (str "hi"))

/-- The buffer that `read_buffer` returns for the ClientInfo frame with the client token
`0x1111`. -/
def sample_client_information_buffer : packet_buffer_t :=
  ⟨4, 18, sample_client_information 0x1111, true⟩

/-! ## Accounts -/

/-- The digits that the loop `fprintf(f, "%02x", password[i])` of `add_account` prints for
the bytes of a hash. -/
def hash_digits : List Nat → List Nat
  | [] => []
  | x :: xs => hex_digit (x % 256 / 16) :: hex_digit (x % 256 % 16) :: hash_digits xs

/-- The line that `add_account` appends to the accounts file. -/
def account_line (accountname password : List Nat) : List Nat :=
  c_string accountname ++ [0x3B] ++ hash_digits (password.take HASH_LENGTH) ++ [0x0A]

/-- The login proof as the protocol states it: the hash of the client token and the server
token, four bytes each, least significant byte first, followed by the hash of the password. -/
def login_proof (SHA1 : List Nat → List Nat) (password : List Nat)
    (client_token server_token : Nat) : List Nat :=
  SHA1 (le_bytes 4 client_token ++ le_bytes 4 server_token ++ SHA1 password)

/-! ## More examples -/

/-- A server whose only user, on socket 5, has sent its ClientInfo with the client token
`0x1111`, with the accounts of `alice` and `bob`. -/
def sample_informed_server : server_t :=
  { sample_server [] with
    users := [{ sample_user with client_token := 0x1111,
                                 state := user_states_t.SENT_CLIENT_INFORMATION }],
    accounts := sample_accounts }

/-- The buffer that `read_buffer` returns for the Login frame of `alice` with the proof for
the tokens `0x1111` and 1234. -/
def sample_login_buffer : packet_buffer_t :=
  ⟨4, 30, sample_login (str "alice") 0x1111 1234, true⟩

/-- The same server once a user 1 is logged in as `alice`. -/
def sample_in_use_server : server_t :=
  { sample_informed_server with
    users := sample_informed_server.users ++
      [{ sample_user with socket := 6, username := str "alice",
                          state := user_states_t.NOT_IN_CHANNEL }],
    old_users := [(str "alice", 1)] }

/-! ## Chat events on the wire -/

/-- The bytes that `add_ntstring` appends for a string: its characters, as bytes, and the
terminator. -/
def ntstring_bytes (s : List Nat) : List Nat :=
  (c_string s).map (fun x => x % 256) ++ [0]

/-- The `SID_CHATEVENT` frame with a subtype, a user name and a text. -/
def chatevent_frame (subtype : Nat) (name text : List Nat) : List Nat :=
  frame_bytes SID_CHATEVENT (le_bytes 4 subtype ++ ntstring_bytes name ++ ntstring_bytes text)

/-- The sockets of the users in a list of `user_t *`. -/
def sockets_of (st : server_t) (users : List Nat) : List Nat :=
  users.filterMap (get_socket st)

/-- The state `after` differs from `before` only in writes appended to `sent`, all of them on
sockets that satisfy `allowed`. -/
def only_sent (allowed : Nat → Prop) (before after : server_t) : Prop :=
  ∃ log, after = { before with sent := before.sent ++ log } ∧ ∀ e ∈ log, allowed e.1

/-! ## The dispatch of `process_SID_CHATCOMMAND`, taken apart -/

/-- The command word and the parameter that `process_SID_CHATCOMMAND` cuts out of a message
that starts with `/`: the word ends at the first space. -/
def command_words (message : List Nat) : List Nat × List Nat :=
  match strchr (message.drop 1) 0x20 with
  | some i => ((message.drop 1).take i, ((message.drop 1).drop (i + 1)))
  | none => (message.drop 1, str "")

/-- The chain of `strcasecmp` tests of `process_SID_CHATCOMMAND` on the command word. -/
def run_command (st : server_t) (user : Nat) (command parameter : List Nat) :
    Option server_t :=
  if strcasecmp_eq command (str "join") || strcasecmp_eq command (str "channel") then
    process_command_join st user parameter
  else if strcasecmp_eq command (str "help") || strcasecmp_eq command (str "h") ||
      strcasecmp_eq command (str "?") then
    process_command_help st user parameter
  else if strcasecmp_eq command (str "finger") || strcasecmp_eq command (str "whois") ||
      strcasecmp_eq command (str "whereis") then
    process_command_finger st user parameter
  else if strcasecmp_eq command (str "w") || strcasecmp_eq command (str "whisper") ||
      strcasecmp_eq command (str "m") || strcasecmp_eq command (str "msg") then
    process_command_w st user parameter
  else if strcasecmp_eq command (str "who") || strcasecmp_eq command (str "list") then
    process_command_who st user parameter
  else if strcasecmp_eq command (str "rooms") ||
      strcasecmp_eq command (str "channels") then
    process_command_rooms st user parameter
  else
    send_chat_self st EID_ERROR user
      (str "Unknown command; type /help for a command listing")

/-! ## A server with two users in a room -/

/-- The user `alice`, on socket 5, in the room `lobby`. -/
def sample_alice : user_t :=
  { sample_user with username := str "alice", state := user_states_t.JOINED_CHANNEL,
                     client_token := 0x1111, room := some (str "lobby") }

/-- The user `bob`, on socket 6, in the room `lobby`. -/
def sample_bob : user_t :=
  { socket := 6, username := str "bob", state := user_states_t.JOINED_CHANNEL,
    client_token := 0x2222, server_token := 99, room := some (str "lobby"),
    ip := str "10.0.0.2" }

/-- A server with `alice` (user 0) and `bob` (user 1) logged in and in the room `lobby`. -/
def sample_lobby_server : server_t :=
  { users := [sample_alice, sample_bob],
    room_heap := [{ users := [(str "alice", 0), (str "bob", 1)], name := str "lobby",
                    topic := str "No topic" }],
    new_users := [], old_users := [(str "alice", 0), (str "bob", 1)],
    rooms := [(str "lobby", 0)], accounts := sample_accounts, recv := [], sent := [],
    closed := [] }

/-- The buffer that `read_buffer` returns for the ChatCommand frame with the text `text`. -/
def sample_command_buffer (text : List Nat) : packet_buffer_t :=
  ⟨4, 4 + (text.length + 1), sample_chatcommand text, true⟩

/-! ## `process_command_join`, taken apart -/

/-- The part of `process_command_join` that leaves the old room: the user is taken out of the
room that its room name is the key of, if there is one, and the users left in that room are
told. -/
def join_leave (st : server_t) (user : Nat) : Option server_t := do
  let old_room_name ← get_user_room st user
  let old_room := old_room_name.bind (table_find st.rooms)
  match old_room with
  | some old_room => do
    let st ← room_remove_user st old_room user
    let name ← get_username st user
    room_message st old_room EID_USER_LEAVE_CHANNEL name (str "")
  | none => pure st

/-- The branch of `process_command_join` for an empty parameter: the user leaves chat. -/
def join_nowhere (st : server_t) (user : Nat) : Option server_t := do
  let st ← send_chat_self st EID_INFO user (str "Leaving chat")
  let st ← send_chat_self st EID_CHANNEL user (str "")
  let st ← set_user_state st user user_states_t.NOT_IN_CHANNEL
  set_user_room st user none

/-- The part of `process_command_join` that finds the room named `param`, or creates it. -/
def join_find (st : server_t) (user : Nat) (param : List Nat) : Option (server_t × Nat) :=
  match table_find st.rooms param with
  | none => do
    let st ← send_chat_self st EID_INFO user (str "Creating new channel for you")
    let room := st.room_heap.length
    let st := { st with room_heap := st.room_heap ++ [room_create param] }
    let st := { st with rooms := table_add st.rooms param room }
    pure (st, room)
  | some room => pure (st, room)

/-- The part of `process_command_join` that enters the room `room`, named `param`. -/
def join_enter (st : server_t) (user : Nat) (param : List Nat) (room : Nat) :
    Option server_t := do
  let st ← send_chat_self st EID_CHANNEL user param
  let s ← get_socket st user
  let st ← room_send_users_in_channel st room s
  let st ← set_user_state st user user_states_t.JOINED_CHANNEL
  let st ← set_user_room st user (some param)
  let st ← room_add_user st room user
  let name ← get_username st user
  room_message st room EID_USER_JOIN_CHANNEL name (str "")

/-- Every member of a list of `user_t *` is a user of the server, with a name of fewer than
`MAX_NAME` characters. -/
def valid_members (st : server_t) (members : List Nat) : Prop :=
  ∀ m ∈ members, ∃ x, st.users[m]? = some x ∧ strlen x.username < MAX_NAME

/-- The names of the users in a list of `user_t *`. -/
def usernames_of (st : server_t) (users : List Nat) : List (List Nat) :=
  users.filterMap (get_username st)

/-- The server with `alice` and `bob` once both have left the room `lobby`. -/
def sample_idle_server : server_t :=
  { sample_lobby_server with
    users := [{ sample_alice with state := user_states_t.NOT_IN_CHANNEL, room := none },
              { sample_bob with state := user_states_t.NOT_IN_CHANNEL, room := none }],
    room_heap := [{ users := [], name := str "lobby", topic := str "No topic" }] }

/-- A server with `alice` (user 0) alone in the room `lobby` and `bob` (user 1) logged in and
in no room. -/
def sample_solo_server : server_t :=
  { sample_lobby_server with
    users := [sample_alice,
              { sample_bob with state := user_states_t.NOT_IN_CHANNEL, room := none }],
    room_heap := [{ users := [(str "alice", 0)], name := str "lobby",
                    topic := str "No topic" }] }

/-! ## Effects of the handlers -/

/-- The state `after` differs from `before` only in writes appended to `sent`. -/
def writes_only (before after : server_t) : Prop :=
  ∃ log, after = { before with sent := before.sent ++ log }

/-- The state `after` differs from `before` only in the rooms and in `sent`. -/
def rooms_only (before after : server_t) : Prop :=
  ∃ heap rooms sent, after = { before with room_heap := heap, rooms := rooms, sent := sent }

/-- The effect of an accepted `SID_CLIENT_INFORMATION`: a `CONNECTED` user gets a client token
and the state `SENT_CLIENT_INFORMATION`; the rest is writes. -/
def informed_effect (st : server_t) (user : Nat) (st1 : server_t) : Prop :=
  ∃ u t, st.users[user]? = some u ∧ u.state = user_states_t.CONNECTED ∧
    writes_only (store_user st user
      { u with client_token := t, state := user_states_t.SENT_CLIENT_INFORMATION }) st1

/-- The effect of a `SID_LOGIN` that succeeds: the name is not a key of `old_users`,
`account_login` returns `LOGIN_SUCCESS`, and a user in `SENT_CLIENT_INFORMATION` gets the name
and the state `NOT_IN_CHANNEL`, leaves `new_users` and is added to `old_users`; the rest is
writes. -/
def login_effect (SHA1 : List Nat → List Nat) (st : server_t) (user : Nat)
    (st1 : server_t) : Prop :=
  ∃ u name proof, st.users[user]? = some u ∧
    u.state = user_states_t.SENT_CLIENT_INFORMATION ∧
    table_find st.old_users (c_string name) = none ∧
    account_login SHA1 st.accounts (c_string name) proof (u.client_token % 4294967296)
      (u.server_token % 4294967296) = some LOGIN_SUCCESS ∧
    writes_only { store_user st user
        { u with username := (c_string name).take (MAX_NAME - 1),
                 state := user_states_t.NOT_IN_CHANNEL } with
      new_users := (list_remove_value st.new_users user).2,
      old_users := table_add st.old_users ((c_string name).take (MAX_NAME - 1)) user }
      st1

/-- The effect of a `SID_CREATE`: the accounts file and writes. -/
def create_effect (st st1 : server_t) : Prop :=
  ∃ accounts, writes_only { st with accounts := accounts } st1

/-- The effect of a `SID_CHATCOMMAND` with the command `/join` or `/channel` from a logged-in
user: that of `process_command_join` with the parameter of the command. -/
def join_effect (st : server_t) (user : Nat) (packet : packet_buffer_t) (param : List Nat)
    (st1 : server_t) : Prop :=
  ∃ u len message rest, st.users[user]? = some u ∧
    (u.state = user_states_t.NOT_IN_CHANNEL ∨ u.state = user_states_t.JOINED_CHANNEL) ∧
    get_length packet = some len ∧
    read_next_ntstring packet len = some (message, rest) ∧
    (c_string message).head? = some 0x2F ∧
    (strcasecmp_eq (command_words (c_string message)).1 (str "join") ||
      strcasecmp_eq (command_words (c_string message)).1 (str "channel")) = true ∧
    param = (command_words (c_string message)).2 ∧
    process_command_join st user param = some st1

/-! ## The stages of a session -/

/-- The stage of a session: the value of its state in the enum `user_states_t`. -/
def stage : user_states_t → Nat
  | user_states_t.CONNECTED => 0
  | user_states_t.SENT_CLIENT_INFORMATION => 1
  | user_states_t.NOT_IN_CHANNEL => 2
  | user_states_t.JOINED_CHANNEL => 3

/-- In the state `a`, `process_next_packet` finds a whole frame with the code `code` on the
socket of the user, and `effect` holds of the state in which the frame is handled and of the
packet. -/
def accepted_frame (a : server_t) (user code : Nat)
    (effect : server_t → packet_buffer_t → Prop) : Prop :=
  ∃ s rest packet, get_socket a user = some s ∧
    read_buffer (socket_input a s) = some (read_result.packet packet, rest) ∧
    get_code packet = some code ∧ effect (set_socket_input a s rest) packet

/-- From `a` to `b` a ClientInfo frame of the user was accepted in state `CONNECTED`. -/
def client_information_accepted (a b : server_t) (user : Nat) : Prop :=
  get_user_state a user = some user_states_t.CONNECTED ∧
  get_user_state b user = some user_states_t.SENT_CLIENT_INFORMATION ∧
  accepted_frame a user SID_CLIENT_INFORMATION (fun st _ => informed_effect st user b)

/-- From `a` to `b` a Login frame of the user succeeded in state
`SENT_CLIENT_INFORMATION`. -/
def login_succeeded (SHA1 : List Nat → List Nat) (a b : server_t) (user : Nat) : Prop :=
  get_user_state a user = some user_states_t.SENT_CLIENT_INFORMATION ∧
  get_user_state b user = some user_states_t.NOT_IN_CHANNEL ∧
  accepted_frame a user SID_LOGIN (fun st _ => login_effect SHA1 st user b)

/-- From `a` to `b` a `/join` of the user with a parameter that is not empty was accepted,
in state `NOT_IN_CHANNEL` or `JOINED_CHANNEL`. -/
def join_accepted (a b : server_t) (user : Nat) : Prop :=
  (get_user_state a user = some user_states_t.NOT_IN_CHANNEL ∨
    get_user_state a user = some user_states_t.JOINED_CHANNEL) ∧
  get_user_state b user = some user_states_t.JOINED_CHANNEL ∧
  accepted_frame a user SID_CHATCOMMAND (fun st packet =>
    ∃ param, 0 < strlen param ∧ join_effect st user packet param b)

/-- One step in the life of a session: `process_next_packet` handles what is on the socket
of the user, or something else happens that leaves the user as it is. -/
def session_step (SHA1 : List Nat → List Nat) (user : Nat) (a b : server_t) : Prop :=
  (∃ ok, process_next_packet SHA1 a user = some (ok, b)) ∨ b.users[user]? = a.users[user]?

/-- The state that `process_next_packet` leaves; the state before when it aborts. -/
def next_state (SHA1 : List Nat → List Nat) (st : server_t) (user : Nat) : server_t :=
  match process_next_packet SHA1 st user with
  | some r => r.2
  | none => st

/-- The frames of the example session: ClientInfo, Login as `alice`, `/join lobby`. -/
def sample_frames : List (List Nat) :=
  [sample_client_information 0x1111, sample_login (str "alice") 0x1111 1234,
    sample_chatcommand (str "/join lobby")]

/-- The example session of the user on socket 5: a connection is accepted, then each frame
arrives and is handled. -/
def sample_session : Nat → server_t
  | 0 => accept_connection (server_start sample_accounts) 5 (str "10.0.0.1") 1234
  | k + 1 =>
    if k % 2 = 0 then deliver (sample_session k) 5 (sample_frames.getD (k / 2) [])
    else next_state sample_hash (sample_session k) 0

/-! ## Runs of the server -/

/-- What happens to the server from outside: bytes arrive on a socket, or `select` returns
and `do_select` runs one cycle. -/
inductive server_event where
  | arrive : Nat → List Nat → server_event
  | cycle : select_result → server_event
deriving DecidableEq, Repr

/-- The state after one event; `none` when the server aborts. -/
def server_step (SHA1 : List Nat → List Nat) (st : server_t) : server_event → Option server_t
  | server_event.arrive s bytes => some (deliver st s bytes)
  | server_event.cycle event => do_select SHA1 st event

/-- The state after a sequence of events. -/
def server_run (SHA1 : List Nat → List Nat) : server_t → List server_event → Option server_t
  | st, [] => some st
  | st, e :: es => (server_step SHA1 st e).bind (fun st => server_run SHA1 st es)

/-- Every entry of `old_users` is a logged-in user under its own name, and no name is
entered twice. -/
def registered (st : server_t) : Prop :=
  (get_keys st.old_users).Nodup ∧
  ∀ e ∈ st.old_users, c_string e.1 = e.1 ∧
    ∃ u, st.users[e.2]? = some u ∧ u.username = e.1 ∧
      (u.state = user_states_t.NOT_IN_CHANNEL ∨ u.state = user_states_t.JOINED_CHANNEL)

/-- An example history: two connections, on sockets 5 and 6, send their ClientInfo, and both
log in as `alice` with the right proof, first the one on socket 5; then the one on socket 6
logs in as `bob`. -/
def sample_history : List server_event :=
  [server_event.cycle (select_result.ready [] (some (5, str "10.0.0.1", 1234))),
    server_event.cycle (select_result.ready [] (some (6, str "10.0.0.2", 99))),
    server_event.arrive 5 (sample_client_information 0x1111),
    server_event.arrive 6 (sample_client_information 0x2222),
    server_event.cycle (select_result.ready [5, 6] none),
    server_event.arrive 5 (sample_login (str "alice") 0x1111 1234),
    server_event.cycle (select_result.ready [5] none),
    server_event.arrive 6 (sample_login (str "alice") 0x2222 99),
    server_event.cycle (select_result.ready [6] none),
    server_event.arrive 6 (sample_login (str "bob") 0x2222 99),
    server_event.cycle (select_result.ready [6] none)]

/-! ## Commands that answer -/

/-- From every state that differs from `st` only in writes on the sockets `allowed`, the
step `f` returns, and its result is again such a state. -/
def answers (allowed : Nat → Prop) (st : server_t) (f : server_t → Option server_t) : Prop :=
  ∀ s, only_sent allowed st s → ∃ s1, f s = some s1 ∧ only_sent allowed st s1

/-- The command word is one of `w`, `whisper`, `m`, `msg`, in any case. -/
def is_whisper (word : List Nat) : Bool :=
  strcasecmp_eq word (str "w") || strcasecmp_eq word (str "whisper") ||
    strcasecmp_eq word (str "m") || strcasecmp_eq word (str "msg")

/-- The socket of the user that is logged in under the name that the parameter of a whisper
starts with, up to its first space. -/
def whisper_socket (st : server_t) (param : List Nat) : Option Nat :=
  (strchr param 0x20).bind (fun i =>
    (table_find st.old_users ((c_string param).take i)).bind (get_socket st))

/-- Every room in `rooms` is a room of the server, and every member of a room is a user of
the server. -/
def valid_rooms (st : server_t) : Prop :=
  (∀ r ∈ get_values st.rooms, r < st.room_heap.length) ∧
  ∀ room ∈ st.room_heap, ∀ m ∈ get_values room.users, m < st.users.length

/-! ## Rooms and sessions -/

/-- The user is a member of the room: its name is a key of the user table of the room. -/
def room_member (room : room_t) (x : user_t) : Prop :=
  (table_find room.users x.username).isSome = true

/-- Rooms and sessions agree.  Each logged-in user is in `JOINED_CHANNEL` exactly when it has
a current room; its name is a member of a room of `rooms` exactly when that room is its
current room, and then the member is this user; so a user in `NOT_IN_CHANNEL` is a member of
no room and no user is a member of two rooms.  And no name is twice in a room. -/
def room_consistent (st : server_t) : Prop :=
  (∀ e ∈ st.old_users, ∃ x, st.users[e.2]? = some x ∧ x.username = e.1 ∧
    (x.state = user_states_t.JOINED_CHANNEL ↔ x.room ≠ none) ∧
    (∀ R r room, (R, r) ∈ st.rooms → st.room_heap[r]? = some room →
      (room_member room x ↔ x.room = some R) ∧
      (room_member room x → table_find room.users x.username = some e.2)) ∧
    (x.state = user_states_t.NOT_IN_CHANNEL →
      ∀ R r room, (R, r) ∈ st.rooms → st.room_heap[r]? = some room → ¬ room_member room x) ∧
    (∀ R1 r1 room1 R2 r2 room2, (R1, r1) ∈ st.rooms → (R2, r2) ∈ st.rooms →
      st.room_heap[r1]? = some room1 → st.room_heap[r2]? = some room2 → R1 ≠ R2 →
      ¬ (room_member room1 x ∧ room_member room2 x))) ∧
  ∀ room ∈ st.room_heap, (get_keys room.users).Nodup

/-- What holds of the users of a server in which rooms and sessions agree: names are short;
a user that is logged in has its entry in `old_users`; a user has a current room only in
`JOINED_CHANNEL`, and then it is a member of that room, which is a room of `rooms`. -/
def sessions_agree (st : server_t) : Prop :=
  ∀ p x, st.users[p]? = some x →
    strlen x.username < MAX_NAME ∧
    ((x.state = user_states_t.NOT_IN_CHANNEL ∨ x.state = user_states_t.JOINED_CHANNEL) →
      (x.username, p) ∈ st.old_users) ∧
    (x.state ≠ user_states_t.JOINED_CHANNEL → x.room = none) ∧
    (x.state = user_states_t.JOINED_CHANNEL → ∃ R r room, x.room = some R ∧
      (R, r) ∈ st.rooms ∧ st.room_heap[r]? = some room ∧ (x.username, p) ∈ room.users)

/-- What holds of the rooms: `rooms` names each room of the server once; the keys of a user
table are distinct, and each member is a user in `JOINED_CHANNEL` under that name whose
current room is this room. -/
def rooms_agree (st : server_t) : Prop :=
  (get_keys st.rooms).Nodup ∧ (∀ e ∈ st.rooms, c_string e.1 = e.1) ∧
  get_values st.rooms = List.range st.room_heap.length ∧
  ∀ r room, st.room_heap[r]? = some room →
    (get_keys room.users).Nodup ∧
    ∀ e ∈ room.users, c_string e.1 = e.1 ∧
      ∃ x R, st.users[e.2]? = some x ∧ x.username = e.1 ∧
        x.state = user_states_t.JOINED_CHANNEL ∧ x.room = some R ∧ (R, r) ∈ st.rooms

/-- The invariant of the server while no connection is closed. -/
def room_invariant (st : server_t) : Prop :=
  registered st ∧ sessions_agree st ∧ rooms_agree st

/-- An example history without a closed connection: two connections log in as `alice` and
`bob`; `alice` joins `lobby`, `bob` joins `lobby`, `alice` moves to `den`. -/
def sample_chat_history : List server_event :=
  [server_event.cycle (select_result.ready [] (some (5, str "10.0.0.1", 1234))),
    server_event.cycle (select_result.ready [] (some (6, str "10.0.0.2", 99))),
    server_event.arrive 5 (sample_client_information 0x1111),
    server_event.arrive 6 (sample_client_information 0x2222),
    server_event.cycle (select_result.ready [5, 6] none),
    server_event.arrive 5 (sample_login (str "alice") 0x1111 1234),
    server_event.arrive 6 (sample_login (str "bob") 0x2222 99),
    server_event.cycle (select_result.ready [5, 6] none),
    server_event.arrive 5 (sample_chatcommand (str "/join lobby")),
    server_event.cycle (select_result.ready [5] none),
    server_event.arrive 6 (sample_chatcommand (str "/join lobby")),
    server_event.cycle (select_result.ready [6] none),
    server_event.arrive 5 (sample_chatcommand (str "/join den")),
    server_event.cycle (select_result.ready [5] none)]

/-! ## Sequences of calls on a table -/

/-- A call that changes a table: `table_add(table, key, value)` or
`table_remove(table, key)`. -/
inductive table_call (V : Type) where
  | add : List Nat → V → table_call V
  | remove : List Nat → table_call V

/-- The table after one call. -/
def table_step {V : Type} (table : table_t V) : table_call V → table_t V
  | table_call.add key value => table_add table key value
  | table_call.remove key => (table_remove table key).2

/-- The table that a sequence of calls leaves, starting from `table_create`. -/
def table_after {V : Type} (calls : List (table_call V)) : table_t V :=
  calls.foldl table_step table_create

/-- The keys of the table are C strings and no two of them are equal. -/
def distinct_keys {V : Type} (table : table_t V) : Prop :=
  (get_keys table).Nodup ∧ ∀ e ∈ table, c_string e.1 = e.1

/-- The calls that open the test in `main` of table.c: `"test"` gets `'A'`, `"test 1"` to
`"test 6"` get 1 to 6, and `"test"` gets `'B'`. -/
def sample_table_calls : List (table_call Nat) :=
  [table_call.add (str "test") 0x41, table_call.add (str "test 1") 1,
    table_call.add (str "test 2") 2, table_call.add (str "test 3") 3,
    table_call.add (str "test 4") 4, table_call.add (str "test 5") 5,
    table_call.add (str "test 6") 6, table_call.add (str "test") 0x42]

/-- The three removals of the test in `main` of table.c. -/
def sample_table_removals : List (table_call Nat) :=
  [table_call.remove (str "test"), table_call.remove (str "test 3"),
    table_call.remove (str "test 6")]

/-! ## list.c: the remaining functions and the pointers -/

/-- `list_remove_beginning`: the first value (`NULL` for an empty list) and the list left. -/
def list_remove_beginning : List Nat → Option Nat × List Nat
  | [] => (none, [])
  | first :: rest => (some first, rest)

/-- The loop of `list_remove_end`, `while (node) { older = old; old = node; node = node->next; }`
followed by the unlinking of `old`: the value of the last node and the nodes before it. -/
def list_remove_end_loop : List Nat → Nat → Nat × List Nat
  | [], old => (old, [])
  | node :: rest, old => ((list_remove_end_loop rest node).1,
      old :: (list_remove_end_loop rest node).2)

/-- `list_remove_end`: the last value (`NULL` for an empty list) and the list left. -/
def list_remove_end : List Nat → Option Nat × List Nat
  | [] => (none, [])
  | first :: rest => (some (list_remove_end_loop rest first).1,
      (list_remove_end_loop rest first).2)

/-- The list that `get_list` of the test in list.c builds: 2 and then 1 are added at the
beginning, 3 and then 4 at the end. -/
def get_list : List Nat :=
  list_add_end (list_add_end (list_add_beginning (list_add_beginning list_create 2) 1) 3) 4

/-- The loop of `list_remove_value` over values that are pointers, `none` for `NULL`:
`while (node && return_value == NULL)`.  A node that holds `value` is unlinked through
`old->next` (or `list->first` when `old` is `NULL`) and `return_value = value`; then
`old = node`.  The flag `linked` tells that `old` is `NULL` or a node of the list; after a
node was unlinked `old` is that node, and a write to `old->next` does not reach the list. -/
def list_remove_value_loop (value : Option Nat) :
    List (Option Nat) → Option Nat → Bool → Option Nat × List (Option Nat)
  | [], return_value, _ => (return_value, [])
  | node :: rest, return_value, linked =>
    if return_value ≠ none then (return_value, node :: rest)
    else if value = node then
      if linked then list_remove_value_loop value rest value false
      else ((list_remove_value_loop value rest value true).1,
        node :: (list_remove_value_loop value rest value true).2)
    else ((list_remove_value_loop value rest return_value true).1,
      node :: (list_remove_value_loop value rest return_value true).2)

/-- `list_remove_value` on a list of pointers: the pointer returned and the list left. -/
def list_remove_value_pointer (list : List (Option Nat)) (value : Option Nat) :
    Option Nat × List (Option Nat) :=
  list_remove_value_loop value list none true

/-! ## room.c: the topic -/

/-- C `strncpy(dst, src, n)`: the first `n` bytes of `dst` become the string of `src`, cut
to `n` characters and filled up with NUL bytes.  The blocks have to hold the bytes that are
read and written. -/
def strncpy (dst src : List Nat) (n : Nat) : Option (List Nat) :=
  if n ≤ dst.length ∧ (strlen src < src.length ∨ n ≤ src.length) then
    some ((c_string src).take n ++ List.replicate (n - strlen src) 0 ++ dst.drop n)
  else none

/-- The array `topic` of the room that `room_create` returns, byte by byte: `strcpy` writes
`"No topic"` and its terminator, and the other bytes are the `junk` that `malloc` left
there. -/
def room_create_topic (junk : List Nat) : List Nat :=
  (str "No topic" ++ 0 :: junk).take MAX_TOPIC_LENGTH

/-- `room_set_topic` on the array `topic` of the room and the block of the caller:
`strncpy(room->topic, new_topic, MAX_TOPIC_LENGTH - 1)` and then
`new_topic[MAX_TOPIC_LENGTH - 1] = 0`.  The result is the room and the block of the
caller. -/
def room_set_topic (room : room_t) (new_topic : List Nat) : Option (room_t × List Nat) := do
  let topic ← strncpy room.topic new_topic (MAX_TOPIC_LENGTH - 1)
  let new_topic ← store new_topic (MAX_TOPIC_LENGTH - 1) 0
  pure ({ room with topic := topic }, new_topic)

/-- The string that a reader of the array `topic` finds: the bytes before the first NUL,
when there is one in the array. -/
def topic_string (topic : List Nat) : Option (List Nat) :=
  if strlen topic < topic.length then some (c_string topic) else none

/-- A room just created, with the name `lobby`, whose block held the byte `0x41`
everywhere before `room_create` wrote the topic. -/
def sample_topic_room : room_t :=
  { room_create (str "lobby") with topic := room_create_topic (List.replicate 1015 0x41) }

/-- A message of 9595 times the letter `a`: with its terminator it fills a frame of
`MAX_PACKET` bytes. -/
def sample_long_message : List Nat :=
  List.replicate 9595 0x61

/-! ## packet_buffer.c: the test in `main` -/

/-- The buffer that `main` of packet_buffer.c builds: three short strings, a string of 64
characters, and the integers `0x01`, `0x0302`, `0x07060504`, `0x0b0a0908`, `0x0f0e0d0c`. -/
def sample_main_buffer : Option packet_buffer_t := do
  let buf ← create_buffer 0x0F
  let buf ← add_ntstring buf (str "ntString #1")
  let buf ← add_ntstring buf (str "ntString #2")
  let buf ← add_ntstring buf (str "ntString #3")
  let buf ← add_ntstring buf
    (str "This string is definitely longer than the 16 character limit...!")
  let buf ← add_int8 buf 0x01
  let buf ← add_int16 buf 0x0302
  let buf ← add_int32 buf 0x07060504
  let buf ← add_int32 buf 0x0b0a0908
  add_int32 buf 0x0f0e0d0c

/-- The loop of `main` of packet_buffer.c: the result of the call number `k` of
`read_next_ntstring(buf, data, 16)`, with the buffer it leaves. -/
def sample_main_read : Nat → Option (List Nat × packet_buffer_t)
  | 0 => sample_main_buffer.bind (fun buf => read_next_ntstring buf 16)
  | k + 1 => (sample_main_read k).bind (fun r => read_next_ntstring r.2 16)

/-- The strings that `count` calls of `read_next_ntstring` with the cap `max_length` return
one after the other. -/
def read_strings (max_length : Nat) : Nat → packet_buffer_t → Option (List (List Nat))
  | 0, _ => some []
  | count + 1, buffer =>
    (read_next_ntstring buffer max_length).bind (fun r =>
      (read_strings max_length count r.2).map (fun rest => c_string r.1 :: rest))

/-- The payload of the buffer of `main`. -/
def sample_main_payload : List Nat :=
  str "ntString #1" ++ 0 :: (str "ntString #2" ++ 0 :: (str "ntString #3" ++ 0 ::
    (str "This string is definitely longer than the 16 character limit...!" ++ 0 ::
      [1, 2, 3, 4, 5, 6, 7, 8, 9, 10, 11, 12, 13, 14, 15])))

/-- The buffer of `main` after the three short strings were read. -/
def sample_long_buffer : packet_buffer_t :=
  ⟨40, 128, frame_bytes 0x0F sample_main_payload ++ List.replicate 8 0, true⟩

/-! ## server.c: `new_users` and `old_users` -/

/-- Every element of `new_users` is a user that has not logged in, and no user is listed
twice. -/
def new_listed (st : server_t) : Prop :=
  st.new_users.Nodup ∧
  ∀ p ∈ st.new_users, ∃ u, st.users[p]? = some u ∧
    (u.state = user_states_t.CONNECTED ∨ u.state = user_states_t.SENT_CLIENT_INFORMATION)

/-- Every user is an element of `new_users` or a value of `old_users`, unless its socket
was closed. -/
def covered (st : server_t) : Prop :=
  ∀ p u, st.users[p]? = some u →
    p ∈ st.new_users ∨ p ∈ get_values st.old_users ∨ u.socket ∈ st.closed

/-- The users are divided between `new_users` and `old_users`. -/
def partitioned (st : server_t) : Prop :=
  registered st ∧ new_listed st ∧ covered st

/-- The example history of two logins, followed by a cycle in which the socket of `alice`
can be read but holds nothing, so that her connection is closed, and by a cycle in which a
third connection is accepted, on the descriptor 5 that the connection of `alice` had. -/
def sample_closing_history : List server_event :=
  sample_history ++
    [server_event.cycle (select_result.ready [5] none),
      server_event.cycle (select_result.ready [] (some (5, str "10.0.0.3", 7)))]

/-- An example history before a cycle with two calls: `alice` has logged in, and then the
Login of `bob` arrives on socket 6 and a `/join lobby` of `alice` on socket 5. -/
def sample_calls_history : List server_event :=
  sample_history.take 7 ++
    [server_event.arrive 6 (sample_login (str "bob") 0x2222 99),
      server_event.arrive 5 (sample_chatcommand (str "/join lobby"))]

/-! ## server.c: the calls of `process_next_packet` in a cycle -/

/-- The call of `process_next_packet` in the body of a loop of `do_select`: the user, when
`FD_ISSET(get_socket(user), &select_set)` holds. -/
def select_calls (fds : List Nat) (user : Nat) (st : server_t) : List Nat :=
  match get_socket st user with
  | some s => if fds.contains s then [user] else []
  | none => []

/-- The users for which a loop of `do_select` with the body `body` calls
`process_next_packet`, in the order of the calls; the loop ends when the server aborts. -/
def for_each_calls (fds : List Nat) (body : Nat → server_t → Option server_t) :
    List Nat → server_t → List Nat
  | [], _ => []
  | user :: rest, st =>
    select_calls fds user st ++
      (match body user st with
        | some st1 => for_each_calls fds body rest st1
        | none => [])

/-- The users for which one cycle of `do_select` calls `process_next_packet`, in the order
of the calls: those of the loop over the array of the authenticated users, then those of the
loop over the array of the new users. -/
def do_select_calls (SHA1 : List Nat → List Nat) (st : server_t) : select_result → List Nat
  | select_result.failed => []
  | select_result.timeout => []
  | select_result.ready fds accepted =>
    let new_user_list := list_get_array st.new_users
    let old_user_list := get_values st.old_users
    match for_each (fun user (_ : Unit) => (get_socket st user).map (fun _ => ()))
        new_user_list (),
      for_each (fun user (_ : Unit) => (get_socket st user).map (fun _ => ()))
        old_user_list () with
    | some _, some _ =>
      let st :=
        match accepted with
        | some (new_socket, ip, token) => accept_connection st new_socket ip token
        | none => st
      for_each_calls fds (select_old_user SHA1 fds) old_user_list st ++
        (match for_each (select_old_user SHA1 fds) old_user_list st with
          | some st1 => for_each_calls fds (select_new_user SHA1 fds) new_user_list st1
          | none => [])
    | _, _ => []

/-! ## server.c: the connections that a cycle closes -/

/-- The user whose connection the body of a loop of `do_select` closes: the user, when
`FD_ISSET(get_socket(user), &select_set)` holds and `process_next_packet` returns `FALSE`
for it. -/
def select_closes (SHA1 : List Nat → List Nat) (fds : List Nat) (user : Nat)
    (st : server_t) : List Nat :=
  match get_socket st user with
  | some s =>
    if fds.contains s then
      match process_next_packet SHA1 st user with
      | some (false, _) => [user]
      | _ => []
    else []
  | none => []

/-- The users whose connections a loop of `do_select` with the body `body` closes, in the
order of the calls of `close`; the loop ends when the server aborts. -/
def for_each_closes (SHA1 : List Nat → List Nat) (fds : List Nat)
    (body : Nat → server_t → Option server_t) : List Nat → server_t → List Nat
  | [], _ => []
  | user :: rest, st =>
    select_closes SHA1 fds user st ++
      (match body user st with
        | some st1 => for_each_closes SHA1 fds body rest st1
        | none => [])

/-- The users whose connections one cycle of `do_select` closes: those of the loop over the
array of the authenticated users, then those of the loop over the array of the new users. -/
def do_select_closes (SHA1 : List Nat → List Nat) (st : server_t) : select_result → List Nat
  | select_result.failed => []
  | select_result.timeout => []
  | select_result.ready fds accepted =>
    let new_user_list := list_get_array st.new_users
    let old_user_list := get_values st.old_users
    match for_each (fun user (_ : Unit) => (get_socket st user).map (fun _ => ()))
        new_user_list (),
      for_each (fun user (_ : Unit) => (get_socket st user).map (fun _ => ()))
        old_user_list () with
    | some _, some _ =>
      let st :=
        match accepted with
        | some (new_socket, ip, token) => accept_connection st new_socket ip token
        | none => st
      for_each_closes SHA1 fds (select_old_user SHA1 fds) old_user_list st ++
        (match for_each (select_old_user SHA1 fds) old_user_list st with
          | some st1 => for_each_closes SHA1 fds (select_new_user SHA1 fds) new_user_list st1
          | none => [])
    | _, _ => []

/-- The users whose connections the server closes in the course of one event. -/
def server_step_closes (SHA1 : List Nat → List Nat) (st : server_t) : server_event → List Nat
  | server_event.arrive _ _ => []
  | server_event.cycle event => do_select_closes SHA1 st event

/-- The users whose connections the server closes in the course of a sequence of events, in
the order of the calls of `close`. -/
def server_run_closes (SHA1 : List Nat → List Nat) : server_t → List server_event → List Nat
  | _, [] => []
  | st, e :: es =>
    server_step_closes SHA1 st e ++
      (match server_step SHA1 st e with
        | some st1 => server_run_closes SHA1 st1 es
        | none => [])

/-- With `gone` the users whose connections were closed: every user is an element of
`new_users`, a value of `old_users` or one of `gone`; the users of `gone` are in neither
list; and `closed` holds the sockets of the users of `gone`, in their order. -/
def accounted (st : server_t) (gone : List Nat) : Prop :=
  (∀ p, p < st.users.length →
    p ∈ st.new_users ∨ p ∈ get_values st.old_users ∨ p ∈ gone) ∧
  (∀ p ∈ gone, p < st.users.length ∧ p ∉ st.new_users ∧ p ∉ get_values st.old_users) ∧
  st.closed = sockets_of st gone

/-! ## A descriptor that is used again -/

/-- The server after `alice` and `bob` joined `lobby`, the connection of `alice` (socket 5)
was closed, and a third connection was accepted, for which `accept` returned the
descriptor 5 again. -/
def sample_reused : Option server_t :=
  sample_alice_closed.bind (fun st =>
    do_select sample_hash st (select_result.ready [] (some (5, str "10.0.0.3", 7))))

/-- Then `bob` talks in the room. -/
def sample_stale_talk : Option server_t :=
  sample_cycle sample_reused 6 (sample_chatcommand (str "hi"))

/-! ## Machine arithmetic -/

theorem shl_and_shl (x y k : Nat) : (x <<< k) &&& (y <<< k) = (x &&& y) <<< k := by
  apply Nat.eq_of_testBit_eq
  intro i
  simp only [Nat.testBit_and, Nat.testBit_shiftLeft]
  cases decide (i ≥ k) <;> simp

theorem shl_mask (x k : Nat) (h : x < 256) : (x <<< k) &&& (0xFF <<< k) = x * 2 ^ k := by
  rw [shl_and_shl]
  have h2 : (0xFF : Nat) = 2 ^ 8 - 1 := by norm_num
  rw [h2, Nat.and_pow_two_sub_one_eq_mod, Nat.shiftLeft_eq, Nat.mod_eq_of_lt (by simpa using h)]

theorem or_add (a b k : Nat) (h : a < 2 ^ k) : a ||| (b * 2 ^ k) = a + b * 2 ^ k := by
  have := @Nat.mul_add_lt_is_or k a h b
  rw [Nat.or_comm, Nat.mul_comm b, ← this]; omega

theorem byte_of (n k : Nat) : (n >>> k) &&& 0xFF = n / 2 ^ k % 256 := by
  have h : (0xFF : Nat) = 2 ^ 8 - 1 := by norm_num
  rw [Nat.shiftRight_eq_div_pow, h, Nat.and_pow_two_sub_one_eq_mod]

theorem length_of_bytes (lo hi : Nat) (h1 : lo < 256) (h2 : hi < 256) :
    (lo ||| (hi <<< 8)) % 65536 = lo + hi * 256 := by
  rw [Nat.shiftLeft_eq]
  have := or_add lo hi 8 (by simpa using h1)
  simp only [Nat.reducePow] at this ⊢
  rw [this]; omega

/-! ## Frames -/

theorem IsFrame.split {b : packet_buffer_t} {c : Nat} {pl : List Nat} (h : IsFrame b c pl) :
    ∃ junk, b.data = 0xFF :: c :: ((4 + pl.length) % 256) :: ((4 + pl.length) / 256) ::
      (pl ++ junk) ∧ 4 + pl.length + junk.length = b.max_length := by
  refine ⟨b.data.drop (4 + pl.length), ?_, ?_⟩
  · have := (List.take_append_drop (4 + pl.length) b.data).symm
    rw [h.contents] at this
    simpa using this
  · have := h.alloc
    have := h.fits
    simp only [List.length_drop]
    omega

theorem IsFrame.get_length {b : packet_buffer_t} {c : Nat} {pl : List Nat}
    (h : IsFrame b c pl) : get_length b = some (4 + pl.length) := by
  obtain ⟨junk, hd, hl⟩ := h.split
  have h1 := h.max16
  have h3 : (4 + pl.length) % 256 + (4 + pl.length) / 256 * 256 = 4 + pl.length := by omega
  simp [CattleChat.get_length, assert, h.valid, hd]
  rw [length_of_bytes _ _ (by omega) (by omega)]
  omega

theorem IsFrame.get_code {b : packet_buffer_t} {c : Nat} {pl : List Nat}
    (h : IsFrame b c pl) : get_code b = some c := by
  obtain ⟨junk, hd, _⟩ := h.split
  simp [CattleChat.get_code, assert, h.valid, hd]

theorem IsFrame.of_split {b : packet_buffer_t} {c : Nat} {pl : List Nat} (junk : List Nat)
    (hv : b.valid = true) (hc : c < 256) (hb : ∀ x ∈ pl, x < 256)
    (hm : b.max_length < 65536)
    (hd : b.data = 0xFF :: c :: ((4 + pl.length) % 256) :: ((4 + pl.length) / 256) ::
      (pl ++ junk))
    (hl : 4 + pl.length + junk.length = b.max_length) : IsFrame b c pl := by
  refine ⟨hv, ?_, hm, hc, hb, by omega, ?_⟩
  · rw [hd]; simp; omega
  · rw [hd]
    have : 4 + pl.length = pl.length + 4 := by omega
    rw [this]
    simp

theorem get_length_explicit (pos ml c n : Nat) (rest : List Nat) (hn : n < 65536) :
    get_length ⟨pos, ml, 0xFF :: c :: (n % 256) :: (n / 256) :: rest, true⟩ = some n := by
  simp only [get_length, assert, if_true, Option.bind_eq_bind, Option.some_bind,
    Option.pure_def]
  simp only [List.getElem?_cons_succ, List.getElem?_cons_zero, Option.some_bind]
  rw [length_of_bytes _ _ (by omega) (by omega)]
  congr 1
  omega

theorem store_tail (pre : List Nat) (j : Nat) (js : List Nat) (x : Nat) :
    store (pre ++ j :: js) pre.length x = some (pre ++ x :: js) := by
  rw [store, if_pos (by simp)]
  simp [List.set_append]

theorem set_length_explicit (pos ml c lo hi n : Nat) (rest : List Nat) (hn : n < 65536) :
    set_length ⟨pos, ml, 0xFF :: c :: lo :: hi :: rest, true⟩ n =
      some ⟨pos, ml, 0xFF :: c :: (n % 256) :: (n / 256) :: rest, true⟩ := by
  have e1 := byte_of (n % 65536) 0
  have e2 := byte_of (n % 65536) 8
  simp only [pow_zero, Nat.div_one, Nat.reducePow] at e1 e2
  have e3 : n % 65536 % 256 = n % 256 := by omega
  have e4 : n % 65536 / 256 % 256 = n / 256 := by omega
  simp only [set_length, assert, if_true, Option.bind_eq_bind, Option.some_bind,
    Option.pure_def, e1, e2, e3, e4, store]
  simp

theorem add_int8_tail (pos ml c : Nat) (pl : List Nat) (j : Nat) (js : List Nat)
    (x : Nat) (hn : 4 + pl.length + 1 < 65536) :
    ((get_length ⟨pos, ml, 0xFF :: c :: ((4 + pl.length) % 256) ::
        ((4 + pl.length) / 256) :: (pl ++ j :: js), true⟩).bind fun len =>
      (store (0xFF :: c :: ((4 + pl.length) % 256) :: ((4 + pl.length) / 256) ::
        (pl ++ j :: js)) len (x % 256)).bind fun d =>
      increment_length ⟨pos, ml, d, true⟩) =
      some ⟨pos, ml, 0xFF :: c :: ((4 + (pl ++ [x % 256]).length) % 256) ::
        ((4 + (pl ++ [x % 256]).length) / 256) :: ((pl ++ [x % 256]) ++ js), true⟩ := by
  have hs := store_tail (0xFF :: c :: ((4 + pl.length) % 256) :: ((4 + pl.length) / 256) ::
    pl) j js (x % 256)
  have hl : (0xFF :: c :: ((4 + pl.length) % 256) :: ((4 + pl.length) / 256) :: pl).length
      = 4 + pl.length := by simp; omega
  rw [hl] at hs
  simp only [List.cons_append] at hs
  simp only [assert, if_true, Option.bind_eq_bind, Option.some_bind,
    get_length_explicit pos ml c (4 + pl.length) _ (by omega), hs, increment_length]
  rw [set_length_explicit _ _ _ _ _ _ _ (by omega)]
  simp
  constructor <;> congr 1

theorem add_int8_frame {b : packet_buffer_t} {c : Nat} {pl : List Nat} (h : IsFrame b c pl)
    (x : Nat) (hroom : 4 + pl.length < MAX_PACKET) :
    ∃ b', add_int8 b x = some b' ∧ IsFrame b' c (pl ++ [x % 256]) ∧
      b'.position = b.position := by
  obtain ⟨junk, hd, hl⟩ := h.split
  have hM : MAX_PACKET = 9600 := rfl
  have hv := h.valid
  have hm := h.max16
  obtain ⟨pos, ml, data, v⟩ := b
  simp only at hd hl hv hm
  subst hd hv
  cases junk with
  | cons j js =>
    have hml : 4 + pl.length ≠ ml := by simp at hl; omega
    refine ⟨⟨pos, ml, 0xFF :: c :: ((4 + (pl ++ [x % 256]).length) % 256) ::
        ((4 + (pl ++ [x % 256]).length) / 256) :: ((pl ++ [x % 256]) ++ js), true⟩,
      ?_, ?_, rfl⟩
    · rw [← add_int8_tail pos ml c pl j js x (by omega)]
      simp only [add_int8, assert, if_true, Option.bind_eq_bind, Option.some_bind,
        get_length_explicit pos ml c (4 + pl.length) _ (by omega), if_neg hml]
    refine IsFrame.of_split js rfl h.code8 ?_ hm rfl ?_
    · intro y hy
      rcases List.mem_append.1 hy with hy | hy
      · exact h.bytes y hy
      · simp at hy; omega
    · simp at hl ⊢; omega
  | nil =>
    have hml : 4 + pl.length = ml := by simpa using hl
    have hsh : (ml <<< 1) % 65536 = 2 * ml := by
      rw [Nat.shiftLeft_eq]; omega
    have hre : realloc (0xFF :: c :: ((4 + pl.length) % 256) :: ((4 + pl.length) / 256) ::
        (pl ++ [])) (2 * ml) = 0xFF :: c :: ((4 + pl.length) % 256) ::
        ((4 + pl.length) / 256) :: (pl ++ 0 :: List.replicate (ml - 1) 0) := by
      have e : 2 * ml - (pl.length + 1 + 1 + 1 + 1) = (ml - 1) + 1 := by omega
      rw [realloc, List.take_of_length_le (by simp; omega)]
      simp only [List.length_cons, List.length_append, List.length_nil, Nat.add_zero, e,
        List.replicate_succ]
      simp
    refine ⟨⟨pos, 2 * ml, 0xFF :: c :: ((4 + (pl ++ [x % 256]).length) % 256) ::
        ((4 + (pl ++ [x % 256]).length) / 256) ::
        ((pl ++ [x % 256]) ++ List.replicate (ml - 1) 0), true⟩, ?_, ?_, rfl⟩
    · rw [← add_int8_tail pos (2 * ml) c pl 0 (List.replicate (ml - 1) 0) x (by omega)]
      simp only [add_int8, assert, if_true, Option.bind_eq_bind, Option.some_bind,
        get_length_explicit pos ml c (4 + pl.length) _ (by omega), if_pos hml, hsh, hre]
    · refine IsFrame.of_split (List.replicate (ml - 1) 0) rfl h.code8 ?_
        (by simp only; omega) rfl ?_
      · intro y hy
        rcases List.mem_append.1 hy with hy | hy
        · exact h.bytes y hy
        · simp at hy; omega
      · simp; omega

/-! ## Appending fields -/

theorem create_buffer_eq (c : Nat) :
    create_buffer c = some ⟨4, 64, 0xFF :: (c % 256) :: 4 :: 0 :: List.replicate 60 0, true⟩ := by
  have e1 := byte_of (4 % 65536) 0
  have e2 := byte_of (4 % 65536) 8
  simp only [pow_zero, Nat.div_one, Nat.reducePow] at e1 e2
  simp only [create_buffer, set_header, set_code, set_length, assert, if_true, malloc,
    STARTING_LENGTH, store, Option.bind_eq_bind, Option.some_bind, Option.pure_def, e1, e2]
  simp [List.replicate]

theorem create_buffer_frame (c : Nat) (hc : c < 256) :
    ∃ b, create_buffer c = some b ∧ IsFrame b c [] ∧ b.position = 4 := by
  refine ⟨_, create_buffer_eq c, ?_, rfl⟩
  rw [Nat.mod_eq_of_lt hc]
  exact IsFrame.of_split (List.replicate 60 0) rfl hc (by simp) (by simp) (by simp)
    (by simp)

theorem IsFrame.length_bound {b : packet_buffer_t} {c : Nat} {pl : List Nat}
    (h : IsFrame b c pl) : 4 + pl.length < 65536 := by
  have := h.fits
  have := h.max16
  omega

/-- A loop of `add_int8` appends the bytes it is given, in order. -/
theorem for_loop_add_int8 (c : Nat) (body : Nat → packet_buffer_t → Option packet_buffer_t) :
    ∀ (xs : List Nat) (i0 : Nat) (b : packet_buffer_t) (pl : List Nat),
      IsFrame b c pl → 4 + pl.length + xs.length ≤ MAX_PACKET →
      (∀ k, k < xs.length → ∀ b1, body (i0 + k) b1 = add_int8 b1 (xs.getD k 0)) →
      ∃ b', for_loop body xs.length i0 b = some b' ∧
        IsFrame b' c (pl ++ xs.map (fun x => x % 256)) ∧ b'.position = b.position := by
  intro xs
  induction xs with
  | nil =>
    intro i0 b pl h _ _
    exact ⟨b, rfl, by simpa using h, rfl⟩
  | cons x xs ih =>
    intro i0 b pl h hroom hbody
    simp only [List.length_cons] at hroom
    obtain ⟨b1, hb1, hf1, hp1⟩ := add_int8_frame h x (by omega)
    obtain ⟨b2, hb2, hf2, hp2⟩ := ih (i0 + 1) b1 (pl ++ [x % 256]) hf1
      (by simp; omega)
      (by
        intro k hk b'
        have := hbody (k + 1) (by simp; omega) b'
        have e : i0 + 1 + k = i0 + (k + 1) := by omega
        rw [e, this]
        simp)
    refine ⟨b2, ?_, ?_, by rw [hp2, hp1]⟩
    · have h0 := hbody 0 (by simp) b
      simp only [Nat.add_zero, List.getD_cons_zero] at h0
      simp only [List.length_cons, for_loop, h0, hb1, Option.some_bind, hb2]
    · simpa using hf2

theorem add_int16_frame {b : packet_buffer_t} {c : Nat} {pl : List Nat} (h : IsFrame b c pl)
    (v : Nat) (hroom : 4 + pl.length + 2 ≤ MAX_PACKET) :
    ∃ b', add_int16 b v = some b' ∧
      IsFrame b' c (pl ++ [v % 256, v / 256 % 256]) ∧ b'.position = b.position := by
  obtain ⟨b1, hb1, hf1, hp1⟩ := add_int8_frame h (((v % 65536) >>> 0) &&& 0xFF) (by omega)
  obtain ⟨b2, hb2, hf2, hp2⟩ := add_int8_frame hf1 (((v % 65536) >>> 8) &&& 0xFF)
    (by simp; omega)
  refine ⟨b2, ?_, ?_, by rw [hp2, hp1]⟩
  · simp only [add_int16, assert, h.valid, if_true, Option.bind_eq_bind, Option.some_bind,
      hb1, hb2]
  · have e1 := byte_of (v % 65536) 0
    have e2 := byte_of (v % 65536) 8
    simp only [pow_zero, Nat.div_one, Nat.reducePow] at e1 e2
    have e3 : v % 65536 % 256 % 256 = v % 256 := by omega
    have e4 : v % 65536 / 256 % 256 % 256 = v / 256 % 256 := by omega
    rw [e1, e2, e3, e4] at hf2
    simpa using hf2

theorem add_int32_frame {b : packet_buffer_t} {c : Nat} {pl : List Nat} (h : IsFrame b c pl)
    (v : Nat) (hroom : 4 + pl.length + 4 ≤ MAX_PACKET) :
    ∃ b', add_int32 b v = some b' ∧
      IsFrame b' c (pl ++ [v % 256, v / 256 % 256, v / 65536 % 256, v / 16777216 % 256]) ∧
      b'.position = b.position := by
  obtain ⟨b1, hb1, hf1, hp1⟩ :=
    add_int8_frame h (((v % 4294967296) >>> 0) &&& 0xFF) (by omega)
  obtain ⟨b2, hb2, hf2, hp2⟩ :=
    add_int8_frame hf1 (((v % 4294967296) >>> 8) &&& 0xFF) (by simp; omega)
  obtain ⟨b3, hb3, hf3, hp3⟩ :=
    add_int8_frame hf2 (((v % 4294967296) >>> 16) &&& 0xFF) (by simp; omega)
  obtain ⟨b4, hb4, hf4, hp4⟩ :=
    add_int8_frame hf3 (((v % 4294967296) >>> 24) &&& 0xFF) (by simp; omega)
  refine ⟨b4, ?_, ?_, by rw [hp4, hp3, hp2, hp1]⟩
  · simp only [add_int32, assert, h.valid, if_true, Option.bind_eq_bind, Option.some_bind,
      hb1, hb2, hb3, hb4]
  · have e1 := byte_of (v % 4294967296) 0
    have e2 := byte_of (v % 4294967296) 8
    have e3 := byte_of (v % 4294967296) 16
    have e4 := byte_of (v % 4294967296) 24
    simp only [pow_zero, Nat.div_one, Nat.reducePow] at e1 e2 e3 e4
    have f1 : v % 4294967296 % 256 % 256 = v % 256 := by omega
    have f2 : v % 4294967296 / 256 % 256 % 256 = v / 256 % 256 := by omega
    have f3 : v % 4294967296 / 65536 % 256 % 256 = v / 65536 % 256 := by omega
    have f4 : v % 4294967296 / 16777216 % 256 % 256 = v / 16777216 % 256 := by omega
    rw [e1, e2, e3, e4, f1, f2, f3, f4] at hf4
    simpa using hf4

theorem le_bytes_w32 (v : Nat) :
    le_bytes 4 v = [v % 256, v / 256 % 256, v / 65536 % 256, v / 16777216 % 256] := by
  simp [le_bytes, Nat.div_div_eq_div_mul]

theorem le_bytes_length (n v : Nat) : (le_bytes n v).length = n := by
  induction n generalizing v with
  | zero => rfl
  | succ n ih => simp [le_bytes, ih]

theorem add_int_frame {b : packet_buffer_t} {c : Nat} {pl : List Nat} (h : IsFrame b c pl)
    (w : Width) (v : Nat) (hroom : 4 + pl.length + w.size ≤ MAX_PACKET) :
    ∃ b', add_int b w v = some b' ∧ IsFrame b' c (pl ++ le_bytes w.size v) ∧
      b'.position = b.position := by
  cases w with
  | w8 =>
    obtain ⟨b1, hb1, hf1, hp1⟩ := add_int8_frame h v (by simp [Width.size] at hroom; omega)
    exact ⟨b1, hb1, by simpa [Width.size, le_bytes] using hf1, hp1⟩
  | w16 =>
    obtain ⟨b1, hb1, hf1, hp1⟩ := add_int16_frame h v (by simpa [Width.size] using hroom)
    exact ⟨b1, hb1, by simpa [Width.size, le_bytes] using hf1, hp1⟩
  | w32 =>
    obtain ⟨b1, hb1, hf1, hp1⟩ := add_int32_frame h v (by simpa [Width.size] using hroom)
    refine ⟨b1, hb1, ?_, hp1⟩
    simp only [Width.size]
    rw [le_bytes_w32]
    exact hf1

theorem map_mod_bytes (xs : List Nat) (h : ∀ x ∈ xs, x < 256) :
    xs.map (fun x => x % 256) = xs := by
  induction xs with
  | nil => rfl
  | cons x xs ih =>
    simp only [List.map_cons]
    rw [ih (fun y hy => h y (List.mem_cons_of_mem _ hy)),
      Nat.mod_eq_of_lt (h x (List.mem_cons_self _ _))]

theorem strlen_of_no_nul (s : List Nat) (h : ∀ x ∈ s, x ≠ 0) : strlen s = s.length := by
  unfold strlen
  congr 1
  rw [List.takeWhile_eq_self_iff]
  intro x hx
  simpa using h x hx

theorem add_ntstring_frame {b : packet_buffer_t} {c : Nat} {pl : List Nat}
    (h : IsFrame b c pl) (s : List Nat) (hs : ∀ x ∈ s, x ≠ 0 ∧ x < 256)
    (hroom : 4 + pl.length + (s.length + 1) ≤ MAX_PACKET) :
    ∃ b', add_ntstring b s = some b' ∧ IsFrame b' c (pl ++ (s ++ [0])) ∧
      b'.position = b.position := by
  have hlen : strlen s = s.length := strlen_of_no_nul s (fun x hx => (hs x hx).1)
  obtain ⟨b1, hb1, hf1, hp1⟩ := for_loop_add_int8 c (fun i b => add_int8 b (s.getD i 0))
    (s ++ [0]) 0 b pl h (by simpa using hroom)
    (by
      intro k hk b1
      simp only [Nat.zero_add]
      congr 1
      simp only [List.length_append, List.length_singleton] at hk
      by_cases hk2 : k < s.length
      · simp [List.getD_eq_getElem?_getD, List.getElem?_append_left hk2]
      · have : k = s.length := by omega
        subst this
        simp [List.getD_eq_getElem?_getD])
  refine ⟨b1, ?_, ?_, hp1⟩
  · simp only [add_ntstring, assert, h.valid, if_true, Option.bind_eq_bind, Option.some_bind,
      hlen]
    simpa using hb1
  · rw [map_mod_bytes] at hf1
    · exact hf1
    · intro x hx
      rcases List.mem_append.1 hx with hx | hx
      · exact (hs x hx).2
      · simp at hx; omega

theorem add_bytes_frame {b : packet_buffer_t} {c : Nat} {pl : List Nat}
    (h : IsFrame b c pl) (d : List Nat) (hd : ∀ x ∈ d, x < 256)
    (hroom : 4 + pl.length + d.length ≤ MAX_PACKET) :
    ∃ b', add_bytes b d d.length = some b' ∧ IsFrame b' c (pl ++ d) ∧
      b'.position = b.position := by
  have hM : MAX_PACKET = 9600 := rfl
  obtain ⟨b1, hb1, hf1, hp1⟩ := for_loop_add_int8 c
    (fun i b => (d[i]?).bind (fun x => add_int8 b x)) d 0 b pl h hroom
    (by
      intro k hk b1
      simp [List.getD_eq_getElem?_getD, List.getElem?_eq_getElem hk])
  refine ⟨b1, ?_, ?_, hp1⟩
  · simp only [add_bytes, assert, h.valid, if_true, Option.bind_eq_bind, Option.some_bind]
    rw [Nat.mod_eq_of_lt (by omega)]
    exact hb1
  · rw [map_mod_bytes d hd] at hf1
    exact hf1

theorem add_field_frame {b : packet_buffer_t} {c : Nat} {pl : List Nat}
    (h : IsFrame b c pl) (f : Field) (hf : f.wf)
    (hroom : 4 + pl.length + f.encoding.length ≤ MAX_PACKET) :
    ∃ b', add_field b f = some b' ∧ IsFrame b' c (pl ++ f.encoding) ∧
      b'.position = b.position := by
  cases f with
  | int w v =>
    exact add_int_frame h w v (by simpa [Field.encoding, le_bytes_length] using hroom)
  | ntstring s =>
    exact add_ntstring_frame h s hf (by simpa [Field.encoding] using hroom)
  | bytes d =>
    exact add_bytes_frame h d hf (by simpa [Field.encoding] using hroom)

theorem add_fields_frame (c : Nat) :
    ∀ (fs : List Field) (b : packet_buffer_t) (pl : List Nat), IsFrame b c pl →
      (∀ f ∈ fs, f.wf) → 4 + pl.length + (encoding fs).length ≤ MAX_PACKET →
      ∃ b', add_fields b fs = some b' ∧ IsFrame b' c (pl ++ encoding fs) ∧
        b'.position = b.position := by
  intro fs
  induction fs with
  | nil =>
    intro b pl h _ _
    exact ⟨b, rfl, by simpa [encoding] using h, rfl⟩
  | cons f fs ih =>
    intro b pl h hwf hroom
    simp only [encoding, List.length_append] at hroom
    obtain ⟨b1, hb1, hf1, hp1⟩ := add_field_frame h f (hwf f (List.mem_cons_self _ _))
      (by omega)
    obtain ⟨b2, hb2, hf2, hp2⟩ := ih b1 (pl ++ f.encoding) hf1
      (fun g hg => hwf g (List.mem_cons_of_mem _ hg)) (by simp; omega)
    refine ⟨b2, ?_, ?_, by rw [hp2, hp1]⟩
    · simp only [add_fields, hb1, Option.some_bind, hb2]
    · simpa [encoding] using hf2

/-! ## Reading fields -/

theorem IsFrame.with_position {b : packet_buffer_t} {c : Nat} {pl : List Nat}
    (h : IsFrame b c pl) (p : Nat) : IsFrame { b with position := p } c pl :=
  ⟨h.valid, h.alloc, h.max16, h.code8, h.bytes, h.fits, h.contents⟩

theorem IsFrame.getElem_payload {b : packet_buffer_t} {c : Nat} {pre post : List Nat}
    {x : Nat} (h : IsFrame b c (pre ++ x :: post)) :
    b.data[4 + pre.length]? = some x := by
  obtain ⟨junk, hd, _⟩ := h.split
  rw [hd]
  have e : 4 + pre.length = pre.length + 1 + 1 + 1 + 1 := by omega
  rw [e]
  simp only [List.getElem?_cons_succ, List.append_assoc, List.cons_append]
  rw [List.getElem?_append_right (Nat.le_refl _)]
  simp

theorem IsFrame.can_read_int8 {b : packet_buffer_t} {c : Nat} {pl : List Nat}
    (h : IsFrame b c pl) :
    can_read_int8 b = some (decide (b.position + 1 ≤ 4 + pl.length)) := by
  simp only [CattleChat.can_read_int8, assert, h.valid, if_true, h.get_length,
    Option.bind_eq_bind, Option.some_bind, Option.pure_def]

theorem IsFrame.can_read_int16 {b : packet_buffer_t} {c : Nat} {pl : List Nat}
    (h : IsFrame b c pl) :
    can_read_int16 b = some (decide (b.position + 2 ≤ 4 + pl.length)) := by
  simp only [CattleChat.can_read_int16, assert, h.valid, if_true, h.get_length,
    Option.bind_eq_bind, Option.some_bind, Option.pure_def]

theorem IsFrame.can_read_int32 {b : packet_buffer_t} {c : Nat} {pl : List Nat}
    (h : IsFrame b c pl) :
    can_read_int32 b = some (decide (b.position + 4 ≤ 4 + pl.length)) := by
  simp only [CattleChat.can_read_int32, assert, h.valid, if_true, h.get_length,
    Option.bind_eq_bind, Option.some_bind, Option.pure_def]

theorem IsFrame.move {p ml : Nat} {data : List Nat} {v : Bool} {c : Nat} {pl : List Nat}
    (h : IsFrame ⟨p, ml, data, v⟩ c pl) (q : Nat) : IsFrame ⟨q, ml, data, v⟩ c pl :=
  ⟨h.valid, h.alloc, h.max16, h.code8, h.bytes, h.fits, h.contents⟩

theorem read_next_int8_explicit {pos ml : Nat} {data : List Nat} {c : Nat}
    {pre post : List Nat} {x : Nat}
    (h : IsFrame ⟨pos, ml, data, true⟩ c (pre ++ x :: post)) (hp : pos = 4 + pre.length) :
    read_next_int8 ⟨pos, ml, data, true⟩ = some (x, ⟨pos + 1, ml, data, true⟩) := by
  have hb := h.length_bound
  simp only [List.length_append, List.length_cons] at hb
  have hx := h.getElem_payload
  rw [← hp] at hx
  simp only at hx
  have hc : decide (pos + 1 ≤ 4 + (pre ++ x :: post).length) = true := by
    simp only [decide_eq_true_eq, List.length_append, List.length_cons]; omega
  have hm : (pos + 1) % 65536 = pos + 1 := Nat.mod_eq_of_lt (by omega)
  simp only [read_next_int8, h.can_read_int8, hc, assert, if_true,
    Option.bind_eq_bind, Option.some_bind, Option.pure_def, hx, hm]

theorem read_next_int8_frame {b : packet_buffer_t} {c : Nat} {pre post : List Nat} {x : Nat}
    (h : IsFrame b c (pre ++ x :: post)) (hp : b.position = 4 + pre.length) :
    read_next_int8 b = some (x, { b with position := b.position + 1 }) := by
  obtain ⟨pos, ml, data, v⟩ := b
  have hv : v = true := h.valid
  subst hv
  exact read_next_int8_explicit h hp

theorem read_next_int16_frame {b : packet_buffer_t} {c : Nat} {pre post : List Nat}
    {x0 x1 : Nat} (h : IsFrame b c (pre ++ x0 :: x1 :: post))
    (hp : b.position = 4 + pre.length) :
    read_next_int16 b = some (x0 + x1 * 256, { b with position := b.position + 2 }) := by
  obtain ⟨pos, ml, data, v⟩ := b
  have hv : v = true := h.valid
  subst hv
  simp only at hp
  have r0 := read_next_int8_explicit h hp
  have h1 : IsFrame ⟨pos + 1, ml, data, true⟩ c ((pre ++ [x0]) ++ x1 :: post) := by
    simpa using h.move (pos + 1)
  have r1 := read_next_int8_explicit h1 (by simp; omega)
  have hx0 : x0 < 256 := h.bytes x0 (by simp)
  have hx1 : x1 < 256 := h.bytes x1 (by simp)
  have m0 : (x0 <<< 0) &&& 0xFF = x0 := by
    have h2 : (0xFF : Nat) = 2 ^ 8 - 1 := by norm_num
    rw [Nat.shiftLeft_zero, h2, Nat.and_pow_two_sub_one_eq_mod]
    exact Nat.mod_eq_of_lt hx0
  have m1 : (x1 <<< 8) &&& 0xFF00 = x1 * 256 := by simpa using shl_mask x1 8 hx1
  have o1 : x0 ||| x1 * 256 = x0 + x1 * 256 := by simpa using or_add x0 x1 8 (by simpa using hx0)
  have n0 : x0 % 65536 = x0 := Nat.mod_eq_of_lt (by omega)
  have n1 : (x0 + x1 * 256) % 65536 = x0 + x1 * 256 := Nat.mod_eq_of_lt (by omega)
  have hc : decide (pos + 2 ≤ 4 + (pre ++ x0 :: x1 :: post).length) = true := by
    simp only [decide_eq_true_eq, List.length_append, List.length_cons]; omega
  simp only [read_next_int16, h.can_read_int16, hc, assert, if_true,
    Option.bind_eq_bind, Option.some_bind, Option.pure_def, r0, r1, m0, m1, Nat.zero_or, n0,
    o1, n1]

theorem read_next_int32_frame {b : packet_buffer_t} {c : Nat} {pre post : List Nat}
    {x0 x1 x2 x3 : Nat} (h : IsFrame b c (pre ++ x0 :: x1 :: x2 :: x3 :: post))
    (hp : b.position = 4 + pre.length) :
    read_next_int32 b = some (x0 + x1 * 256 + x2 * 65536 + x3 * 16777216,
      { b with position := b.position + 4 }) := by
  obtain ⟨pos, ml, data, v⟩ := b
  have hv : v = true := h.valid
  subst hv
  simp only at hp
  have r0 := read_next_int8_explicit h hp
  have h1 : IsFrame ⟨pos + 1, ml, data, true⟩ c
      ((pre ++ [x0]) ++ x1 :: x2 :: x3 :: post) := by
    simpa using h.move (pos + 1)
  have r1 := read_next_int8_explicit h1 (by simp; omega)
  have h2 : IsFrame ⟨pos + 1 + 1, ml, data, true⟩ c
      ((pre ++ [x0, x1]) ++ x2 :: x3 :: post) := by
    simpa using h.move (pos + 1 + 1)
  have r2 := read_next_int8_explicit h2 (by simp; omega)
  have h3 : IsFrame ⟨pos + 1 + 1 + 1, ml, data, true⟩ c
      ((pre ++ [x0, x1, x2]) ++ x3 :: post) := by
    simpa using h.move (pos + 1 + 1 + 1)
  have r3 := read_next_int8_explicit h3 (by simp; omega)
  have hx0 : x0 < 256 := h.bytes x0 (by simp)
  have hx1 : x1 < 256 := h.bytes x1 (by simp)
  have hx2 : x2 < 256 := h.bytes x2 (by simp)
  have hx3 : x3 < 256 := h.bytes x3 (by simp)
  have m0 : (x0 <<< 0) &&& 0xFF = x0 := by
    have h2 : (0xFF : Nat) = 2 ^ 8 - 1 := by norm_num
    rw [Nat.shiftLeft_zero, h2, Nat.and_pow_two_sub_one_eq_mod]
    exact Nat.mod_eq_of_lt hx0
  have m1 : (x1 <<< 8) &&& 0xFF00 = x1 * 256 := by simpa using shl_mask x1 8 hx1
  have m2 : (x2 <<< 16) &&& 0xFF0000 = x2 * 65536 := by simpa using shl_mask x2 16 hx2
  have m3 : (x3 <<< 24) &&& 0xFF000000 = x3 * 16777216 := by simpa using shl_mask x3 24 hx3
  have o1 : x0 ||| x1 * 256 = x0 + x1 * 256 := by
    simpa using or_add x0 x1 8 (by simpa using hx0)
  have o2 : (x0 + x1 * 256) ||| x2 * 65536 = x0 + x1 * 256 + x2 * 65536 := by
    simpa using or_add (x0 + x1 * 256) x2 16 (by simp; omega)
  have o3 : (x0 + x1 * 256 + x2 * 65536) ||| x3 * 16777216 =
      x0 + x1 * 256 + x2 * 65536 + x3 * 16777216 := by
    simpa using or_add (x0 + x1 * 256 + x2 * 65536) x3 24 (by simp; omega)
  have n0 : x0 % 4294967296 = x0 := Nat.mod_eq_of_lt (by omega)
  have n1 : (x0 + x1 * 256) % 4294967296 = x0 + x1 * 256 := Nat.mod_eq_of_lt (by omega)
  have n2 : (x0 + x1 * 256 + x2 * 65536) % 4294967296 = x0 + x1 * 256 + x2 * 65536 :=
    Nat.mod_eq_of_lt (by omega)
  have n3 : (x0 + x1 * 256 + x2 * 65536 + x3 * 16777216) % 4294967296 =
      x0 + x1 * 256 + x2 * 65536 + x3 * 16777216 := Nat.mod_eq_of_lt (by omega)
  have hc : decide (pos + 4 ≤ 4 + (pre ++ x0 :: x1 :: x2 :: x3 :: post).length)
      = true := by
    simp only [decide_eq_true_eq, List.length_append, List.length_cons]; omega
  simp only [read_next_int32, h.can_read_int32, hc, assert, if_true,
    Option.bind_eq_bind, Option.some_bind, Option.pure_def, r0, r1, r2, r3, m0, m1, m2, m3,
    Nat.zero_or, n0, o1, n1, o2, n2, o3, n3]

theorem read_next_int_frame {b : packet_buffer_t} {c : Nat} {pre post : List Nat}
    (w : Width) (v : Nat) (hv : v < w.bound)
    (h : IsFrame b c (pre ++ (le_bytes w.size v ++ post)))
    (hp : b.position = 4 + pre.length) :
    read_next_int b w = some (v, { b with position := b.position + w.size }) := by
  cases w with
  | w8 =>
    simp only [Width.bound, Width.size, le_bytes, List.cons_append, List.nil_append] at hv h
    have := read_next_int8_frame h hp
    rw [Nat.mod_eq_of_lt (by omega)] at this
    simpa [read_next_int, Width.size] using this
  | w16 =>
    simp only [Width.bound, Width.size, le_bytes, List.cons_append, List.nil_append] at hv h
    have := read_next_int16_frame h hp
    have e : v % 256 + v / 256 % 256 * 256 = v := by omega
    rw [e] at this
    simpa [read_next_int, Width.size] using this
  | w32 =>
    simp only [Width.bound, Width.size] at hv h
    rw [le_bytes_w32] at h
    simp only [List.cons_append, List.nil_append] at h
    have := read_next_int32_frame h hp
    have e : v % 256 + v / 256 % 256 * 256 + v / 65536 % 256 * 65536 +
        v / 16777216 % 256 * 16777216 = v := by omega
    rw [e] at this
    simpa [read_next_int, Width.size] using this

theorem ints_encoding_length (fs : List (Width × Nat)) :
    (ints_encoding fs).length = (fs.map (fun f => f.1.size)).sum := by
  induction fs with
  | nil => rfl
  | cons f fs ih => simp [ints_encoding, le_bytes_length, ih]

theorem add_ints_frame (c : Nat) :
    ∀ (fs : List (Width × Nat)) (b : packet_buffer_t) (pl : List Nat), IsFrame b c pl →
      4 + pl.length + (ints_encoding fs).length ≤ MAX_PACKET →
      ∃ b', add_ints b fs = some b' ∧ IsFrame b' c (pl ++ ints_encoding fs) ∧
        b'.position = b.position := by
  intro fs
  induction fs with
  | nil =>
    intro b pl h _
    exact ⟨b, rfl, by simpa [ints_encoding] using h, rfl⟩
  | cons f fs ih =>
    intro b pl h hroom
    simp only [ints_encoding, List.length_append, le_bytes_length] at hroom
    obtain ⟨b1, hb1, hf1, hp1⟩ := add_int_frame h f.1 f.2 (by omega)
    obtain ⟨b2, hb2, hf2, hp2⟩ := ih b1 (pl ++ le_bytes f.1.size f.2) hf1
      (by simp [le_bytes_length]; omega)
    refine ⟨b2, ?_, ?_, by rw [hp2, hp1]⟩
    · simp only [add_ints, hb1, Option.some_bind, hb2]
    · simpa [ints_encoding] using hf2

theorem read_ints_frame (c : Nat) :
    ∀ (fs : List (Width × Nat)) (b : packet_buffer_t) (pre post : List Nat),
      IsFrame b c (pre ++ (ints_encoding fs ++ post)) → b.position = 4 + pre.length →
      (∀ f ∈ fs, f.2 < f.1.bound) →
      read_ints b (fs.map Prod.fst) = some (fs.map Prod.snd,
        { b with position := b.position + (ints_encoding fs).length }) := by
  intro fs
  induction fs with
  | nil =>
    intro b pre post _ _ _
    simp [read_ints, ints_encoding]
  | cons f fs ih =>
    intro b pre post h hp hr
    simp only [ints_encoding, List.append_assoc] at h
    have r0 := read_next_int_frame f.1 f.2 (hr f (List.mem_cons_self _ _)) h hp
    have h1 : IsFrame { b with position := b.position + f.1.size } c
        ((pre ++ le_bytes f.1.size f.2) ++ (ints_encoding fs ++ post)) := by
      simpa using h.with_position (b.position + f.1.size)
    have r1 := ih _ _ _ h1 (by simp [le_bytes_length]; omega)
      (fun g hg => hr g (List.mem_cons_of_mem _ hg))
    simp only [List.map_cons, read_ints, r0, Option.some_bind, r1, Option.map_some',
      ints_encoding, List.length_append, le_bytes_length, Nat.add_assoc]

/-! ## Strings -/

theorem can_read_ntstring_loop_found :
    ∀ (s front rest : List Nat) (n : Nat), (∀ x ∈ s, x ≠ 0) → s.length < n →
      can_read_ntstring_loop (front ++ (s ++ 0 :: rest)) n front.length = some true := by
  intro s
  induction s with
  | nil =>
    intro front rest n _ hn
    cases n with
    | zero => omega
    | succ n =>
      simp only [can_read_ntstring_loop, List.nil_append]
      rw [List.getElem?_append_right (Nat.le_refl _)]
      simp
  | cons x s ih =>
    intro front rest n hs hn
    cases n with
    | zero => omega
    | succ n =>
      simp only [List.length_cons] at hn
      have hx : x ≠ 0 := hs x (List.mem_cons_self _ _)
      have := ih (front ++ [x]) rest n (fun y hy => hs y (List.mem_cons_of_mem _ hy))
        (by omega)
      simp only [List.append_assoc, List.singleton_append, List.length_append,
        List.length_singleton] at this
      simp only [can_read_ntstring_loop, List.cons_append]
      rw [List.getElem?_append_right (Nat.le_refl _)]
      simp only [Nat.sub_self, List.getElem?_cons_zero, Option.some_bind, if_neg hx]
      exact this

theorem IsFrame.can_read_ntstring {b : packet_buffer_t} {c : Nat} {pre s post : List Nat}
    (h : IsFrame b c (pre ++ (s ++ 0 :: post))) (hp : b.position = 4 + pre.length)
    (hs : ∀ x ∈ s, x ≠ 0) : can_read_ntstring b = some true := by
  obtain ⟨junk, hd, _⟩ := h.split
  have hl := h.get_length
  simp only [CattleChat.can_read_ntstring, assert, h.valid, if_true, hl,
    Option.bind_eq_bind, Option.some_bind, hp]
  have e : b.data = (0xFF :: c :: ((4 + (pre ++ (s ++ 0 :: post)).length) % 256) ::
      ((4 + (pre ++ (s ++ 0 :: post)).length) / 256) :: pre) ++ (s ++ 0 :: (post ++ junk)) := by
    rw [hd]; simp
  have hlen : (0xFF :: c :: ((4 + (pre ++ (s ++ 0 :: post)).length) % 256) ::
      ((4 + (pre ++ (s ++ 0 :: post)).length) / 256) :: pre).length = 4 + pre.length := by
    simp; omega
  rw [e, ← hlen]
  apply can_read_ntstring_loop_found _ _ _ _ hs
  simp only [List.length_cons, List.length_append]
  omega

theorem read_next_ntstring_loop_stop (n : Nat) (b : packet_buffer_t) (out : List Nat) :
    read_next_ntstring_loop n 0 b out = some (out, b) := by
  cases n <;> simp [read_next_ntstring_loop]

theorem ntstring_char_zero : ntstring_char 0 = 0 := by
  simp [ntstring_char]

theorem read_next_ntstring_loop_frame (c ml : Nat) (data : List Nat) :
    ∀ (s : List Nat) (n next pos : Nat) (pre post out : List Nat),
      IsFrame ⟨pos, ml, data, true⟩ c (pre ++ (s ++ 0 :: post)) → pos = 4 + pre.length →
      (∀ x ∈ s, x ≠ 0) → next ≠ 0 →
      read_next_ntstring_loop n next ⟨pos, ml, data, true⟩ out =
        some (out ++ ((s ++ [0]).take n).map ntstring_char,
          ⟨pos + min n (s.length + 1), ml, data, true⟩) := by
  intro s
  induction s with
  | nil =>
    intro n next pos pre post out h hp _ hnext
    cases n with
    | zero => simp [read_next_ntstring_loop]
    | succ n =>
      simp only [List.nil_append] at h
      have r := read_next_int8_explicit h hp
      simp only [read_next_ntstring_loop, if_neg hnext, r, Option.some_bind,
        read_next_ntstring_loop_stop]
      simp
  | cons x s ih =>
    intro n next pos pre post out h hp hs hnext
    cases n with
    | zero => simp [read_next_ntstring_loop]
    | succ n =>
      simp only [List.cons_append] at h
      have r := read_next_int8_explicit h hp
      have hx : x ≠ 0 := hs x (List.mem_cons_self _ _)
      have h1 : IsFrame ⟨pos + 1, ml, data, true⟩ c ((pre ++ [x]) ++ (s ++ 0 :: post)) := by
        simpa using h.move (pos + 1)
      have := ih n x (pos + 1) (pre ++ [x]) post (out ++ [ntstring_char x]) h1
        (by simp; omega) (fun y hy => hs y (List.mem_cons_of_mem _ hy)) hx
      simp only [read_next_ntstring_loop, if_neg hnext, r, Option.some_bind, this]
      simp only [List.cons_append, List.take_succ_cons, List.map_cons, List.append_assoc,
        List.singleton_append, List.length_cons]
      congr 3
      omega

theorem read_next_ntstring_frame {b : packet_buffer_t} {c : Nat} {pre s post : List Nat}
    (h : IsFrame b c (pre ++ (s ++ 0 :: post))) (hp : b.position = 4 + pre.length)
    (hs : ∀ x ∈ s, x ≠ 0) (m : Nat) (hm : m < 65536) :
    read_next_ntstring b m =
      some (((s ++ [0]).take (m - 1)).map ntstring_char ++ [0],
        { b with position := b.position + min (m - 1) (s.length + 1) }) := by
  have hcan := h.can_read_ntstring hp hs
  obtain ⟨pos, ml, data, v⟩ := b
  have hv : v = true := h.valid
  subst hv
  simp only at hp
  have := read_next_ntstring_loop_frame c ml data s (m - 1) 0xFF pos pre post [] h hp hs
    (by decide)
  simp only [read_next_ntstring, assert, if_true, hcan, Option.bind_eq_bind,
    Option.some_bind, Nat.mod_eq_of_lt hm, this, Option.pure_def, List.nil_append]

theorem ntstring_char_printable (x : Nat) (h : 0x20 ≤ x ∧ x ≤ 0x7E) : ntstring_char x = x := by
  unfold ntstring_char
  rw [if_pos]
  right
  omega

theorem c_string_terminated (s rest : List Nat) (hs : ∀ x ∈ s, x ≠ 0) :
    c_string (s ++ 0 :: rest) = s := by
  unfold c_string
  induction s with
  | nil => simp
  | cons x s ih =>
    have hx : x ≠ 0 := hs x (List.mem_cons_self _ _)
    simp only [List.cons_append]
    rw [List.takeWhile_cons_of_pos (by simpa using hx),
      ih (fun y hy => hs y (List.mem_cons_of_mem _ hy))]

/-! ## The transport -/

theorem memcpy_loop (src front : List Nat) :
    ∀ (todo done old : List Nat), src = done ++ todo → old.length = todo.length →
      for_loop (fun i d => (src[i]?).bind (fun x => store d (front.length + i) x))
        todo.length done.length (front ++ done ++ old) = some (front ++ done ++ todo) := by
  intro todo
  induction todo with
  | nil =>
    intro done old _ ho
    have : old = [] := List.eq_nil_of_length_eq_zero (by simpa using ho)
    simp [for_loop, this]
  | cons x todo ih =>
    intro done old hsrc ho
    cases old with
    | nil => simp at ho
    | cons o old =>
      have hx : src[done.length]? = some x := by
        rw [hsrc, List.getElem?_append_right (Nat.le_refl _)]
        simp
      have hst : store (front ++ done ++ o :: old) (front.length + done.length) x =
          some (front ++ done ++ x :: old) := by
        have := store_tail (front ++ done) o old x
        simpa using this
      have := ih (done ++ [x]) old (by simp [hsrc]) (by simpa using ho)
      simp only [List.length_append, List.length_singleton, List.append_assoc,
        List.singleton_append] at this hst
      simp only [List.length_cons, for_loop, hx, Option.some_bind, List.append_assoc, hst]
      exact this

theorem memcpy_malloc (data : List Nat) :
    memcpy (malloc (data.length + 4)) 4 data data.length = some (0 :: 0 :: 0 :: 0 :: data) := by
  have hm := memcpy_loop data [0, 0, 0, 0] data [] (List.replicate data.length 0) rfl
    (by simp)
  have hmal : malloc (data.length + 4) = [0, 0, 0, 0] ++ [] ++ List.replicate data.length 0 := by
    rw [Nat.add_comm, malloc, List.replicate_add]
    rfl
  rw [hmal, memcpy]
  exact hm

theorem create_buffer_data_eq (code length : Nat) (data : List Nat)
    (hl : length + 4 < 65536) (hd : data.length = length) :
    create_buffer_data code length data =
      some ⟨4, length + 4, 0xFF :: (code % 256) :: ((4 + data.length) % 256) ::
        ((4 + data.length) / 256) :: data, true⟩ := by
  subst hd
  simp only [create_buffer_data, Nat.mod_eq_of_lt hl,
    Nat.mod_eq_of_lt (show data.length < 65536 by omega), memcpy_malloc,
    Option.bind_eq_bind, Option.some_bind]
  simp only [set_header, set_code, assert, if_true, store, Option.bind_eq_bind,
    Option.some_bind, Option.pure_def, List.length_cons, Nat.zero_lt_succ, List.set_cons_zero,
    Nat.one_lt_succ_succ, List.set_cons_succ]
  rw [set_length_explicit _ _ _ _ _ _ _ hl]
  simp only [Nat.add_comm data.length 4]

theorem create_buffer_data_frame (code : Nat) (data : List Nat) (hc : code < 256)
    (hb : ∀ x ∈ data, x < 256) (hl : data.length + 4 < 65536) :
    ∃ b, create_buffer_data code data.length data = some b ∧ IsFrame b code data ∧
      b.position = 4 ∧ b.max_length = data.length + 4 := by
  refine ⟨_, create_buffer_data_eq code data.length data hl rfl, ?_, rfl, rfl⟩
  rw [Nat.mod_eq_of_lt hc]
  exact IsFrame.of_split [] rfl hc hb (by simp only; omega) (by simp)
    (by simp; omega)

theorem read_buffer_resync_marker (s : List Nat) : read_buffer_resync 0xFF s = some s := by
  cases s <;> simp [read_buffer_resync]

theorem wire_length (L : Nat) (hL : L < 65536) :
    (((0 ||| L % 256) % 65536) ||| ((L / 256) <<< 8)) % 65536 = L := by
  have h1 : (0 ||| L % 256) % 65536 = L % 256 := by
    rw [Nat.zero_or]; omega
  rw [h1, length_of_bytes _ _ (by omega) (by omega)]
  omega

/-- What `read_buffer` does after a marker, a code and a length `L`. -/
theorem read_buffer_header (code L : Nat) (rest : List Nat) (hL : L < 65536) :
    read_buffer (0xFF :: code :: (L % 256) :: (L / 256) :: rest) =
      if L < 4 then some (read_result.fatal, rest)
      else if L > MAX_PACKET then some (read_result.fatal, rest)
      else if (rest.take (L - 4)).length ≠ L - 4 then
        some (read_result.null, rest.drop (L - 4))
      else (create_buffer_data code (L - 4) (rest.take (L - 4))).map
        (fun b => (read_result.packet b, rest.drop (L - 4))) := by
  have hm : (L - 4) % 65536 = L - 4 := Nat.mod_eq_of_lt (by omega)
  simp only [read_buffer, read, List.take_succ_cons, List.take_zero, List.drop_succ_cons,
    List.drop_zero, read_buffer_resync_marker, wire_length L hL, hm]

theorem read_buffer_skip (x y : Nat) (s : List Nat) (hx : x ≠ 0xFF) :
    read_buffer (x :: y :: s) = read_buffer (y :: s) := by
  simp only [read_buffer, read, List.take_succ_cons, List.take_zero, List.drop_succ_cons,
    List.drop_zero, read_buffer_resync, if_neg hx]

theorem read_buffer_discard :
    ∀ (junk : List Nat) (y : Nat) (s : List Nat), (∀ x ∈ junk, x ≠ 0xFF) →
      read_buffer (junk ++ y :: s) = read_buffer (y :: s) := by
  intro junk
  induction junk with
  | nil => intro y s _; rfl
  | cons x junk ih =>
    intro y s h
    have hx := h x (List.mem_cons_self _ _)
    have hj := fun z hz => h z (List.mem_cons_of_mem _ hz)
    cases junk with
    | nil => exact read_buffer_skip x y s hx
    | cons z junk =>
      rw [List.cons_append, List.cons_append, read_buffer_skip x z _ hx]
      exact ih y s hj

theorem read_buffer_no_marker :
    ∀ (junk : List Nat), junk ≠ [] → (∀ x ∈ junk, x ≠ 0xFF) →
      read_buffer junk = some (read_result.null, []) := by
  intro junk
  induction junk with
  | nil => intro h _; exact absurd rfl h
  | cons x junk ih =>
    intro _ h
    have hx := h x (List.mem_cons_self _ _)
    cases junk with
    | nil =>
      simp [read_buffer, read, read_buffer_resync, hx]
    | cons z junk =>
      rw [read_buffer_skip x z _ hx]
      exact ih (by simp) (fun w hw => h w (List.mem_cons_of_mem _ hw))

theorem read_buffer_frame (code : Nat) (pl rest : List Nat) (hc : code < 256)
    (hb : ∀ x ∈ pl, x < 256) (hl : 4 + pl.length ≤ MAX_PACKET) :
    ∃ b, read_buffer (frame_bytes code pl ++ rest) = some (read_result.packet b, rest) ∧
      IsFrame b code pl ∧ b.position = 4 := by
  have hM : MAX_PACKET = 9600 := rfl
  obtain ⟨b, hb1, hf, hp, _⟩ := create_buffer_data_frame code pl hc hb (by omega)
  refine ⟨b, ?_, hf, hp⟩
  have h := read_buffer_header code (4 + pl.length) (pl ++ rest) (by omega)
  have e : 4 + pl.length - 4 = pl.length := by omega
  simp only [e, List.take_left', List.drop_left', hb1, Option.map_some'] at h
  rw [if_neg (by omega), if_neg (by omega), if_neg (by simp)] at h
  simpa [frame_bytes] using h

/-! ## Properties of the codec -/

theorem sample_buffer_created : create_buffer 1 = some sample_buffer :=
  create_buffer_eq 1

theorem sample_buffer_frame : IsFrame sample_buffer 1 [] :=
  IsFrame.of_split (List.replicate 60 0) rfl (by decide) (by simp) (by decide) rfl
    (by simp [sample_buffer])

theorem encoding_append (fs gs : List Field) :
    encoding (fs ++ gs) = encoding fs ++ encoding gs := by
  induction fs with
  | nil => rfl
  | cons f fs ih => simp [encoding, ih]

theorem encoding_take_length (fs : List Field) (j : Nat) :
    (encoding (fs.take j)).length ≤ (encoding fs).length := by
  have h := encoding_append (fs.take j) (fs.drop j)
  rw [List.take_append_drop] at h
  rw [h, List.length_append]
  omega

/-- C1: for every code `c` and every sequence of 8-, 16- and 32-bit unsigned values whose
encoding keeps the frame within `MAX_PACKET` bytes, appending them in order to
`create_buffer c` and reading them back in the same order returns exactly the values
appended, `get_code` returns `c`, and afterwards `can_read_int8` is false. -/
theorem C1_integer_round_trip (c : Nat) (fs : List (Width × Nat)) (hc : c < 256)
    (hfs : ∀ f ∈ fs, f.2 < f.1.bound)
    (hlen : 4 + (fs.map (fun f => f.1.size)).sum ≤ MAX_PACKET) :
    ∃ b b', (create_buffer c).bind (fun b0 => add_ints b0 fs) = some b ∧
      read_ints b (fs.map Prod.fst) = some (fs.map Prod.snd, b') ∧
      get_code b = some c ∧ get_code b' = some c ∧ can_read_int8 b' = some false := by
  obtain ⟨b0, hb0, hf0, hp0⟩ := create_buffer_frame c hc
  rw [← ints_encoding_length] at hlen
  obtain ⟨b, hb, hf, hp⟩ := add_ints_frame c fs b0 [] hf0 (by simpa using hlen)
  simp only [List.nil_append] at hf
  have hf' : IsFrame b c ([] ++ (ints_encoding fs ++ [])) := by simpa using hf
  have hr := read_ints_frame c fs b [] [] hf' (by simp [hp, hp0]) hfs
  have hf2 := hf.with_position (b.position + (ints_encoding fs).length)
  refine ⟨b, _, ?_, hr, hf.get_code, hf2.get_code, ?_⟩
  · rw [hb0]; exact hb
  · rw [hf2.can_read_int8]
    simp [hp, hp0]

/-- C1 at the code 7 and the fields `0x12` (8 bits), `0x3456` (16 bits), `0x789ABCDE`
(32 bits). -/
theorem C1_integer_round_trip_witness :
    ∃ b b', (create_buffer 7).bind (fun b0 => add_ints b0
        [(Width.w8, 0x12), (Width.w16, 0x3456), (Width.w32, 0x789ABCDE)]) = some b ∧
      read_ints b [Width.w8, Width.w16, Width.w32] = some ([0x12, 0x3456, 0x789ABCDE], b') ∧
      get_code b = some 7 ∧ get_code b' = some 7 ∧ can_read_int8 b' = some false :=
  C1_integer_round_trip 7 [(Width.w8, 0x12), (Width.w16, 0x3456), (Width.w32, 0x789ABCDE)]
    (by decide) (by simp [Width.bound, Width.size]) (by simp [Width.size, MAX_PACKET])

/-- C2: for every string `s` of bytes in `0x20..0x7E` and every cap `m >= len(s) + 2`,
`add_ntstring s` on a frame whose earlier fields have been read, followed by
`read_next_ntstring` with cap `m`, returns exactly `s` and advances the read position by
`len(s) + 1`; and an integer field appended after `s` is read back by the next read. -/
theorem C2_string_round_trip (b : packet_buffer_t) (c : Nat) (pl s : List Nat) (m : Nat)
    (w : Width) (v : Nat) (h : IsFrame b c pl) (hp : b.position = 4 + pl.length)
    (hs : ∀ x ∈ s, 0x20 ≤ x ∧ x ≤ 0x7E) (hm : s.length + 2 ≤ m) (hm16 : m < 65536)
    (hv : v < w.bound) (hroom : 4 + pl.length + (s.length + 1) + w.size ≤ MAX_PACKET) :
    ∃ b1 out1 r1 b2 out2 r2,
      add_ntstring b s = some b1 ∧
      read_next_ntstring b1 m = some (out1, r1) ∧ c_string out1 = s ∧
      r1.position = b.position + (s.length + 1) ∧
      add_int b1 w v = some b2 ∧
      read_next_ntstring b2 m = some (out2, r2) ∧ c_string out2 = s ∧
      r2.position = b.position + (s.length + 1) ∧
      (read_next_int r2 w).map Prod.fst = some v := by
  have hs0 : ∀ x ∈ s, x ≠ 0 := fun x hx => by have := hs x hx; omega
  have hs1 : ∀ x ∈ s, x ≠ 0 ∧ x < 256 := fun x hx => by have := hs x hx; omega
  have hmap : ((s ++ [0]).take (m - 1)).map ntstring_char = s ++ [0] := by
    rw [List.take_of_length_le (by simp; omega), List.map_append]
    simp only [List.map_cons, List.map_nil, ntstring_char_zero]
    congr 1
    calc s.map ntstring_char = s.map id :=
          List.map_congr_left (fun x hx => ntstring_char_printable x (hs x hx))
      _ = s := List.map_id s
  have hmin : min (m - 1) (s.length + 1) = s.length + 1 := by omega
  obtain ⟨b1, hb1, hf1, hp1⟩ := add_ntstring_frame h s hs1 (by omega)
  obtain ⟨b2, hb2, hf2, hp2⟩ := add_int_frame hf1 w v (by simp; omega)
  have hf1' : IsFrame b1 c (pl ++ (s ++ 0 :: [])) := hf1
  have hf2' : IsFrame b2 c (pl ++ (s ++ 0 :: le_bytes w.size v)) := by simpa using hf2
  have hr1 := read_next_ntstring_frame hf1' (by rw [hp1, hp]) hs0 m hm16
  have hr2 := read_next_ntstring_frame hf2' (by rw [hp2, hp1, hp]) hs0 m hm16
  rw [hmap, hmin] at hr1 hr2
  have hf3 : IsFrame { b2 with position := b2.position + (s.length + 1) } c
      ((pl ++ (s ++ [0])) ++ (le_bytes w.size v ++ [])) := by
    simpa using hf2.with_position (b2.position + (s.length + 1))
  have hr3 := read_next_int_frame w v hv hf3 (by simp [hp2, hp1, hp]; omega)
  refine ⟨b1, _, _, b2, _, _, hb1, hr1, ?_, ?_, hb2, hr2, ?_, ?_, ?_⟩
  · simpa using c_string_terminated s [0] hs0
  · simp [hp1]
  · simpa using c_string_terminated s [0] hs0
  · simp [hp2, hp1]
  · rw [hr3]; rfl

/-- C2 on the empty frame with code 1, the string `"Hi"`, the cap 4 and a following 16-bit
field `0x0302`. -/
theorem C2_string_round_trip_witness :
    ∃ b1 out1 r1 b2 out2 r2,
      add_ntstring sample_buffer [0x48, 0x69] = some b1 ∧
      read_next_ntstring b1 4 = some (out1, r1) ∧ c_string out1 = [0x48, 0x69] ∧
      r1.position = sample_buffer.position + 3 ∧
      add_int b1 Width.w16 0x0302 = some b2 ∧
      read_next_ntstring b2 4 = some (out2, r2) ∧ c_string out2 = [0x48, 0x69] ∧
      r2.position = sample_buffer.position + 3 ∧
      (read_next_int r2 Width.w16).map Prod.fst = some 0x0302 :=
  C2_string_round_trip sample_buffer 1 [] [0x48, 0x69] 4 Width.w16 0x0302
    sample_buffer_frame rfl (by simp) (by simp) (by decide)
    (by simp [Width.bound, Width.size]) (by simp [Width.size, MAX_PACKET])

/-- C3, the code at the failing input: a two-byte blob appended by `add_bytes` as the last
field of a fresh frame leaves two unread bytes (`position + 2 <= get_length`), yet
`can_read_bytes buffer 2` is false and `read_next_bytes buffer 2` fails its assertion. -/
theorem C3_blob_as_last_field :
    ∃ b, (create_buffer 1).bind (fun b0 => add_bytes b0 [1, 2] 2) = some b ∧
      get_length b = some 6 ∧ b.position + 2 ≤ 6 ∧
      can_read_bytes b 2 = some false ∧ read_next_bytes b 2 = none := by
  obtain ⟨b, hb, hf, hp⟩ := add_bytes_frame sample_buffer_frame [1, 2] (by simp)
    (by simp [MAX_PACKET])
  have hl := hf.get_length
  have hp' : b.position = 4 := by rw [hp]; rfl
  simp only [List.nil_append, List.length_cons, List.length_nil] at hl hb
  have hc : can_read_bytes b 2 = some false := by
    simp [can_read_bytes, assert, hf.valid, hl, hp']
  refine ⟨b, ?_, hl, by omega, hc, ?_⟩
  · rw [sample_buffer_created]; exact hb
  · simp [read_next_bytes, assert, hf.valid, hc]

/-- C4: for every code `c` and every sequence of well-formed fields appended to
`create_buffer c` within `MAX_PACKET` bytes, after every individual append (after the first
`j` fields, for every `j`) the first four bytes of the buffer are `0xFF`, `c`,
`(4 + k) mod 256`, `(4 + k) div 256`, `get_length` returns `4 + k`, and bytes `4 .. 4 + k - 1`
are the appended bytes in append order, `k` being the number of payload bytes so far. -/
theorem C4_header_invariant (c : Nat) (fs : List Field) (j : Nat) (hc : c < 256)
    (hwf : ∀ f ∈ fs, f.wf) (hlen : 4 + (encoding fs).length ≤ MAX_PACKET) :
    ∃ b, (create_buffer c).bind (fun b0 => add_fields b0 (fs.take j)) = some b ∧
      b.data.take 4 = [0xFF, c, (4 + (encoding (fs.take j)).length) % 256,
        (4 + (encoding (fs.take j)).length) / 256] ∧
      get_length b = some (4 + (encoding (fs.take j)).length) ∧
      (b.data.drop 4).take (encoding (fs.take j)).length = encoding (fs.take j) := by
  obtain ⟨b0, hb0, hf0, _⟩ := create_buffer_frame c hc
  have hle := encoding_take_length fs j
  obtain ⟨b, hb, hf, _⟩ := add_fields_frame c (fs.take j) b0 [] hf0
    (fun f hf => hwf f (List.mem_of_mem_take hf)) (by simp; omega)
  simp only [List.nil_append] at hf
  obtain ⟨junk, hd, _⟩ := hf.split
  refine ⟨b, ?_, ?_, hf.get_length, ?_⟩
  · rw [hb0]; exact hb
  · rw [hd]; simp
  · rw [hd]; simp

/-- C4 at the code 9 and the fields `0x0302` (16 bits), the string `"Hi"`, the blob
`[1, 2, 3]`, after the first two appends. -/
theorem C4_header_invariant_witness :
    ∃ b, (create_buffer 9).bind (fun b0 => add_fields b0
        [Field.int Width.w16 0x0302, Field.ntstring [0x48, 0x69]]) = some b ∧
      b.data.take 4 = [0xFF, 9, 9, 0] ∧ get_length b = some 9 ∧
      (b.data.drop 4).take 5 = [0x02, 0x03, 0x48, 0x69, 0x00] :=
  C4_header_invariant 9
    [Field.int Width.w16 0x0302, Field.ntstring [0x48, 0x69], Field.bytes [1, 2, 3]] 2
    (by decide) (by simp [Field.wf, Width.bound, Width.size])
    (by simp [encoding, Field.encoding, le_bytes, Width.size, MAX_PACKET])

/-- C5: on a buffer holding a frame with room left, `add_int16 v` appends exactly the two
bytes `[v mod 256, v div 256]`; `add_int32 v` appends exactly the four bytes
`[v & 0xFF, (v >> 8) & 0xFF, (v >> 16) & 0xFF, (v >> 24) & 0xFF]`; `add_ntstring s` appends
the bytes of `s` followed by exactly one `0x00`; `add_bytes d n` appends exactly the `n`
bytes of `d`. -/
theorem C5_field_encodings (b : packet_buffer_t) (c : Nat) (pl : List Nat)
    (v16 v32 : Nat) (s d : List Nat) (h : IsFrame b c pl)
    (h16 : v16 < 65536)
    (hs : ∀ x ∈ s, x ≠ 0 ∧ x < 256) (hd : ∀ x ∈ d, x < 256)
    (hroom16 : 4 + pl.length + 2 ≤ MAX_PACKET) (hroom32 : 4 + pl.length + 4 ≤ MAX_PACKET)
    (hrooms : 4 + pl.length + (s.length + 1) ≤ MAX_PACKET)
    (hroomd : 4 + pl.length + d.length ≤ MAX_PACKET) :
    (∃ b', add_int16 b v16 = some b' ∧ IsFrame b' c (pl ++ [v16 % 256, v16 / 256])) ∧
    (∃ b', add_int32 b v32 = some b' ∧ IsFrame b' c (pl ++ [v32 &&& 0xFF,
      (v32 >>> 8) &&& 0xFF, (v32 >>> 16) &&& 0xFF, (v32 >>> 24) &&& 0xFF])) ∧
    (∃ b', add_ntstring b s = some b' ∧ IsFrame b' c (pl ++ (s ++ [0]))) ∧
    (∃ b', add_bytes b d d.length = some b' ∧ IsFrame b' c (pl ++ d)) := by
  refine ⟨?_, ?_, ?_, ?_⟩
  · obtain ⟨b', hb', hf', _⟩ := add_int16_frame h v16 hroom16
    have e : v16 / 256 % 256 = v16 / 256 := by omega
    rw [e] at hf'
    exact ⟨b', hb', hf'⟩
  · obtain ⟨b', hb', hf', _⟩ := add_int32_frame h v32 hroom32
    have e0 := byte_of v32 0
    have e1 := byte_of v32 8
    have e2 := byte_of v32 16
    have e3 := byte_of v32 24
    simp only [pow_zero, Nat.div_one, Nat.reducePow, Nat.shiftRight_zero] at e0 e1 e2 e3
    rw [e0, e1, e2, e3]
    exact ⟨b', hb', hf'⟩
  · obtain ⟨b', hb', hf', _⟩ := add_ntstring_frame h s hs hrooms
    exact ⟨b', hb', hf'⟩
  · obtain ⟨b', hb', hf', _⟩ := add_bytes_frame h d hd hroomd
    exact ⟨b', hb', hf'⟩

/-- C5 on the empty frame with code 1, with `0x0302`, `0x07060504`, the string `"Hi"` and
the blob `[1, 2, 3]`. -/
theorem C5_field_encodings_witness :
    (∃ b', add_int16 sample_buffer 0x0302 = some b' ∧ IsFrame b' 1 ([] ++ [0x02, 0x03])) ∧
    (∃ b', add_int32 sample_buffer 0x07060504 = some b' ∧
      IsFrame b' 1 ([] ++ [0x04, 0x05, 0x06, 0x07])) ∧
    (∃ b', add_ntstring sample_buffer [0x48, 0x69] = some b' ∧
      IsFrame b' 1 ([] ++ ([0x48, 0x69] ++ [0]))) ∧
    (∃ b', add_bytes sample_buffer [1, 2, 3] 3 = some b' ∧ IsFrame b' 1 ([] ++ [1, 2, 3])) :=
  C5_field_encodings sample_buffer 1 [] 0x0302 0x07060504 [0x48, 0x69] [1, 2, 3]
    sample_buffer_frame (by decide) (by simp) (by simp)
    (by simp [MAX_PACKET]) (by simp [MAX_PACKET]) (by simp [MAX_PACKET])
    (by simp [MAX_PACKET])

/-- C6: for every stream that starts with the marker `0xFF`, a code byte and two length
bytes `lo`, `hi` encoding the total length `L = lo + 256 * hi`, `read_buffer` returns the
fatal result when `L < 4` or `L > MAX_PACKET`, whatever bytes follow; and when
`4 <= L <= MAX_PACKET` it returns a result that is not the fatal one. -/
theorem C6_bad_length_fatal (code lo hi : Nat) (rest : List Nat) (hlo : lo < 256)
    (hhi : hi < 256) :
    ((lo + hi * 256 < 4 ∨ MAX_PACKET < lo + hi * 256) →
      read_buffer (0xFF :: code :: lo :: hi :: rest) = some (read_result.fatal, rest)) ∧
    ((4 ≤ lo + hi * 256 ∧ lo + hi * 256 ≤ MAX_PACKET) →
      ∃ r s, read_buffer (0xFF :: code :: lo :: hi :: rest) = some (r, s) ∧
        r ≠ read_result.fatal) := by
  have h := read_buffer_header code (lo + hi * 256) rest (by omega)
  have e1 : (lo + hi * 256) % 256 = lo := by omega
  have e2 : (lo + hi * 256) / 256 = hi := by omega
  rw [e1, e2] at h
  constructor
  · intro hbad
    rw [h]
    by_cases h4 : lo + hi * 256 < 4
    · rw [if_pos h4]
    · rw [if_neg h4, if_pos (by omega)]
  · intro hok
    have hM : MAX_PACKET = 9600 := rfl
    rw [h, if_neg (by omega), if_neg (by omega)]
    by_cases hshort : (rest.take (lo + hi * 256 - 4)).length ≠ lo + hi * 256 - 4
    · rw [if_pos hshort]
      exact ⟨_, _, rfl, by simp⟩
    · rw [if_neg hshort, create_buffer_data_eq _ _ _ (by omega) (not_not.1 hshort)]
      exact ⟨_, _, rfl, by simp⟩

/-- C6 on the streams `FF 01 03 00 09` (length 3, fatal) and `FF 01 05 00 09` (length 5,
not fatal). -/
theorem C6_bad_length_fatal_witness :
    read_buffer [0xFF, 1, 3, 0, 9] = some (read_result.fatal, [9]) ∧
    ∃ r s, read_buffer [0xFF, 1, 5, 0, 9] = some (r, s) ∧ r ≠ read_result.fatal :=
  ⟨(C6_bad_length_fatal 1 3 0 [9] (by decide) (by decide)).1 (Or.inl (by decide)),
   (C6_bad_length_fatal 1 5 0 [9] (by decide) (by decide)).2 ⟨by decide, by decide⟩⟩

/-- C7 as stated fails: of the six-byte frame `FF 01 06 00 41 42` only the first five
bytes have arrived.  `read_buffer` returns `NULL` and leaves the socket empty (the five bytes
are consumed); the call made once the last byte has arrived discards it and returns `NULL`
again, whereas the six bytes together are read as a frame.  And on a socket with no byte at
all the result is the fatal one, not `NULL`. -/
theorem C7_incomplete_frame_consumed :
    read_buffer [0xFF, 1, 6, 0, 0x41] = some (read_result.null, []) ∧
    read_buffer [0x42] = some (read_result.null, []) ∧
    (∃ b, read_buffer [0xFF, 1, 6, 0, 0x41, 0x42] = some (read_result.packet b, []) ∧
      IsFrame b 1 [0x41, 0x42]) ∧
    read_buffer [] = some (read_result.fatal, []) := by
  refine ⟨?_, read_buffer_no_marker [0x42] (by simp) (by simp), ?_, rfl⟩
  · have h := read_buffer_header 1 6 [0x41] (by decide)
    simpa [MAX_PACKET] using h
  · obtain ⟨b, hb, hf, _⟩ := read_buffer_frame 1 [0x41, 0x42] [] (by decide) (by simp)
      (by simp [MAX_PACKET])
    exact ⟨b, by simpa [frame_bytes] using hb, hf⟩

/-- C7, amended: for every stream that holds at least one byte but fewer bytes than its
frame (one to three bytes, or a header `0xFF`, code, length `L = lo + 256 * hi` with
`4 <= L <= MAX_PACKET` followed by fewer than `L - 4` payload bytes), `read_buffer` reports
the recoverable `NULL`; on a stream that holds no byte it reports the fatal result. -/
theorem C7_incomplete_arrival (s : List Nat) (code lo hi : Nat) (payload : List Nat)
    (h : (s ≠ [] ∧ s.length < 4) ∨
      (s = 0xFF :: code :: lo :: hi :: payload ∧ lo < 256 ∧ hi < 256 ∧
        4 ≤ lo + hi * 256 ∧ lo + hi * 256 ≤ MAX_PACKET ∧
        payload.length < lo + hi * 256 - 4)) :
    (∃ s', read_buffer s = some (read_result.null, s')) ∧
    read_buffer [] = some (read_result.fatal, []) := by
  refine ⟨?_, rfl⟩
  rcases h with ⟨hne, hlen⟩ | ⟨hs, hlo, hhi, h4, hmax, hshort⟩
  · match s, hne, hlen with
    | [a], _, _ =>
      by_cases ha : a = 0xFF <;> simp [read_buffer, read, read_buffer_resync, ha]
    | [a, b], _, _ =>
      by_cases ha : a = 0xFF <;> by_cases hb : b = 0xFF <;>
        simp [read_buffer, read, read_buffer_resync, ha, hb]
    | [a, b, c], _, _ =>
      by_cases ha : a = 0xFF <;> by_cases hb : b = 0xFF <;> by_cases hc : c = 0xFF <;>
        simp [read_buffer, read, read_buffer_resync, ha, hb, hc]
    | _ :: _ :: _ :: _ :: _, _, h4 => simp at h4; omega
  · have hM : MAX_PACKET = 9600 := rfl
    have hh := read_buffer_header code (lo + hi * 256) payload (by omega)
    have e1 : (lo + hi * 256) % 256 = lo := by omega
    have e2 : (lo + hi * 256) / 256 = hi := by omega
    rw [e1, e2] at hh
    rw [hs, hh, if_neg (by omega), if_neg (by omega), if_pos]
    · exact ⟨_, rfl⟩
    · rw [List.length_take]; omega

/-- C7, amended, on the five bytes `FF 01 06 00 41` of a six-byte frame. -/
theorem C7_incomplete_arrival_witness :
    (∃ s', read_buffer [0xFF, 1, 6, 0, 0x41] = some (read_result.null, s')) ∧
    read_buffer [] = some (read_result.fatal, []) :=
  C7_incomplete_arrival [0xFF, 1, 6, 0, 0x41] 1 6 0 [0x41]
    (Or.inr ⟨rfl, by decide, by decide, by decide, by decide, by decide⟩)

/-- C8: for every stream made of `n >= 1` bytes different from `0xFF` followed by a complete
valid frame, `read_buffer` discards the leading bytes and returns the buffer (code, length,
payload, read position 4) that it returns for the frame alone; and a stream of `n >= 1` bytes
that holds no `0xFF` gives the recoverable `NULL`. -/
theorem C8_resynchronisation (junk : List Nat) (code : Nat) (pl rest : List Nat)
    (hj : junk ≠ []) (hjm : ∀ x ∈ junk, x ≠ 0xFF) (hc : code < 256)
    (hb : ∀ x ∈ pl, x < 256) (hl : 4 + pl.length ≤ MAX_PACKET) :
    (∃ b, read_buffer (frame_bytes code pl ++ rest) = some (read_result.packet b, rest) ∧
      read_buffer (junk ++ (frame_bytes code pl ++ rest)) =
        some (read_result.packet b, rest) ∧
      IsFrame b code pl ∧ b.position = 4) ∧
    read_buffer junk = some (read_result.null, []) := by
  obtain ⟨b, hb1, hf, hp⟩ := read_buffer_frame code pl rest hc hb hl
  refine ⟨⟨b, hb1, ?_, hf, hp⟩, read_buffer_no_marker junk hj hjm⟩
  rw [← hb1]
  exact read_buffer_discard junk 0xFF _ hjm

/-- C8 on the stray bytes `07 08` followed by the frame `FF 01 06 00 41 42`. -/
theorem C8_resynchronisation_witness :
    (∃ b, read_buffer (frame_bytes 1 [0x41, 0x42] ++ []) = some (read_result.packet b, []) ∧
      read_buffer ([7, 8] ++ (frame_bytes 1 [0x41, 0x42] ++ [])) =
        some (read_result.packet b, []) ∧
      IsFrame b 1 [0x41, 0x42] ∧ b.position = 4) ∧
    read_buffer [7, 8] = some (read_result.null, []) :=
  C8_resynchronisation [7, 8] 1 [0x41, 0x42] [] (by simp) (by simp) (by decide) (by simp)
    (by simp [MAX_PACKET])

/-- C9: for every buffer holding a frame of total length between 4 and `MAX_PACKET`,
`send_buffer` writes exactly the `get_length` bytes `data[0 .. length)`, and `read_buffer`
on a stream that delivers those bytes returns a buffer with the same code, the same length
and the same payload, its read position at 4. -/
theorem C9_frame_round_trip (b : packet_buffer_t) (c : Nat) (pl s : List Nat)
    (h : IsFrame b c pl) (hl : 4 + pl.length ≤ MAX_PACKET) :
    get_length b = some (4 + pl.length) ∧
    send_buffer b s = some (4 + pl.length, s ++ b.data.take (4 + pl.length)) ∧
    ∃ b', read_buffer (b.data.take (4 + pl.length)) = some (read_result.packet b', []) ∧
      get_code b' = get_code b ∧ get_length b' = get_length b ∧ IsFrame b' c pl ∧
      b'.position = 4 := by
  obtain ⟨b', hb', hf', hp'⟩ := read_buffer_frame c pl [] h.code8 h.bytes hl
  have hfit : 4 + pl.length ≤ b.data.length := by rw [h.alloc]; exact h.fits
  refine ⟨h.get_length, ?_, b', ?_, ?_, ?_, hf', hp'⟩
  · simp only [send_buffer, assert, h.valid, if_true, h.get_length, Option.bind_eq_bind,
      Option.some_bind, if_pos hfit, Option.pure_def]
  · rw [h.contents]
    simpa [frame_bytes] using hb'
  · rw [hf'.get_code, h.get_code]
  · rw [hf'.get_length, h.get_length]

/-- C9 on the empty frame with code 1. -/
theorem C9_frame_round_trip_witness :
    get_length sample_buffer = some (4 + ([] : List Nat).length) ∧
    send_buffer sample_buffer [] = some (4 + ([] : List Nat).length,
      [] ++ sample_buffer.data.take (4 + ([] : List Nat).length)) ∧
    ∃ b', read_buffer (sample_buffer.data.take (4 + ([] : List Nat).length)) =
        some (read_result.packet b', []) ∧
      get_code b' = get_code sample_buffer ∧ get_length b' = get_length sample_buffer ∧
      IsFrame b' 1 [] ∧ b'.position = 4 :=
  C9_frame_round_trip sample_buffer 1 [] [] sample_buffer_frame (by simp [MAX_PACKET])

/-- C10, the code at the failing input: the payload byte `0x7F` (DEL), which lies outside
`0x20..0x7E` and is not the terminator, is returned raw by `read_next_ntstring`, not
replaced by the filler `'.'` (`0x2E`). -/
theorem C10_del_not_defused :
    ∃ b out r, (create_buffer 1).bind (fun b0 => add_ntstring b0 [0x7F]) = some b ∧
      can_read_ntstring b = some true ∧
      read_next_ntstring b 16 = some (out, r) ∧ c_string out = [0x7F] := by
  obtain ⟨b, hb, hf, hp⟩ := add_ntstring_frame sample_buffer_frame [0x7F] (by simp)
    (by simp [MAX_PACKET])
  have hf' : IsFrame b 1 ([] ++ ([0x7F] ++ 0 :: [])) := hf
  have hp' : b.position = 4 + ([] : List Nat).length := by rw [hp]; rfl
  have hr := read_next_ntstring_frame hf' hp' (by simp) 16 (by decide)
  refine ⟨b, _, _, ?_, hf'.can_read_ntstring hp' (by simp), hr, ?_⟩
  · rw [sample_buffer_created]; exact hb
  · simp [ntstring_char, c_string]

/-! ## Sequencing lemmas -/

@[simp] theorem and_then_eq {α β : Type} (x : Option α) (f : α → Option β) :
    (x >>= f) = x.bind f := by
  cases x <;> rfl

@[simp] theorem exec_pure {α : Type} (a : α) : (pure a : Option α) = some a := rfl

theorem for_each_append {α σ : Type} (body : α → σ → Option σ) (xs ys : List α) (s : σ) :
    for_each body (xs ++ ys) s = (for_each body xs s).bind (for_each body ys) := by
  induction xs generalizing s with
  | nil => simp [for_each]
  | cons x xs ih =>
    simp only [List.cons_append, for_each]
    cases body x s with
    | none => rfl
    | some s1 => simpa using ih s1

/-! ## C strings -/

theorem c_string_no_nul (s : List Nat) : ∀ x ∈ c_string s, x ≠ 0 := by
  intro x hx
  have := List.mem_takeWhile_imp hx
  simpa using this

theorem c_string_of_no_nul (s : List Nat) (h : ∀ x ∈ s, x ≠ 0) : c_string s = s := by
  unfold c_string
  rw [List.takeWhile_eq_self_iff]
  intro x hx
  simpa using h x hx

theorem c_string_idem (s : List Nat) : c_string (c_string s) = c_string s :=
  c_string_of_no_nul _ (c_string_no_nul s)

theorem strlen_eq (s : List Nat) : strlen s = (c_string s).length := rfl

theorem c_string_length_le (s : List Nat) : (c_string s).length ≤ s.length :=
  (List.takeWhile_prefix _).length_le

theorem c_string_getD (s : List Nat) (k : Nat) (hk : k ≤ (c_string s).length) :
    s.getD k 0 = (c_string s ++ [0]).getD k 0 := by
  induction s generalizing k with
  | nil => cases k <;> simp [c_string]
  | cons x s ih =>
    by_cases hx : x = 0
    · subst hx
      have : c_string (0 :: s) = [] := by simp [c_string]
      rw [this] at hk ⊢
      have : k = 0 := by simpa using hk
      subst this
      simp
    · have hc : c_string (x :: s) = x :: c_string s := by
        simp [c_string, List.takeWhile_cons, hx]
      rw [hc] at hk ⊢
      cases k with
      | zero => simp
      | succ k =>
        have := ih k (by simpa using hk)
        simpa using this

/-- `add_ntstring` appends the characters of the string, as bytes, and one NUL. -/
theorem add_ntstring_general {b : packet_buffer_t} {c : Nat} {pl : List Nat}
    (h : IsFrame b c pl) (s : List Nat)
    (hroom : 4 + pl.length + ((c_string s).length + 1) ≤ MAX_PACKET) :
    ∃ b', add_ntstring b s = some b' ∧
      IsFrame b' c (pl ++ ((c_string s).map (fun x => x % 256) ++ [0])) ∧
      b'.position = b.position := by
  obtain ⟨b1, hb1, hf1, hp1⟩ := for_loop_add_int8 c (fun i b => add_int8 b (s.getD i 0))
    (c_string s ++ [0]) 0 b pl h (by simpa using hroom)
    (by
      intro k hk b1
      simp only [Nat.zero_add]
      congr 1
      apply c_string_getD
      simp only [List.length_append, List.length_singleton] at hk
      omega)
  refine ⟨b1, ?_, ?_, hp1⟩
  · simp only [add_ntstring, assert, h.valid, if_true, Option.bind_eq_bind, Option.some_bind,
      strlen_eq]
    simpa using hb1
  · simpa using hf1

/-! ## Packets sent by the server -/

theorem send_buffer_frame {b : packet_buffer_t} {c : Nat} {pl : List Nat} (h : IsFrame b c pl)
    (s : List Nat) : send_buffer b s = some (4 + pl.length, s ++ frame_bytes c pl) := by
  have hfit : 4 + pl.length ≤ b.data.length := by rw [h.alloc]; exact h.fits
  simp only [send_buffer, assert, h.valid, if_true, h.get_length, Option.bind_eq_bind,
    Option.some_bind, if_pos hfit, Option.pure_def, h.contents, frame_bytes]

theorem socket_send_frame {b : packet_buffer_t} {c : Nat} {pl : List Nat} (h : IsFrame b c pl)
    (st : server_t) (s : Nat) :
    socket_send st b s = some { st with sent := st.sent ++ [(s, frame_bytes c pl)] } := by
  simp [socket_send, send_buffer_frame h]

theorem destroy_buffer_frame {b : packet_buffer_t} {c : Nat} {pl : List Nat}
    (h : IsFrame b c pl) : ∃ b', destroy_buffer b = some b' := by
  simp [destroy_buffer, assert, h.valid]

/-- The text of a string argument, as it goes on the wire. -/
theorem wire_text_length (s : List Nat) :
    ((c_string s).map (fun x => x % 256) ++ [0]).length = (c_string s).length + 1 := by
  simp

/-! ## The bounds checks -/

theorem frame_bytes_length (c : Nat) (pl : List Nat) :
    (frame_bytes c pl).length = 4 + pl.length := by
  simp [frame_bytes]; omega

theorem IsFrame.take_eq {b : packet_buffer_t} {c : Nat} {pl : List Nat} (h : IsFrame b c pl) :
    b.data.take (4 + pl.length) = frame_bytes c pl := h.contents

theorem IsFrame.getElem_lt {b : packet_buffer_t} {c : Nat} {pl : List Nat} (h : IsFrame b c pl)
    (i : Nat) (hi : i < 4 + pl.length) : b.data[i]? = (frame_bytes c pl)[i]? := by
  rw [← h.take_eq, List.getElem?_take_of_lt hi]

theorem frame_bytes_drop (c : Nat) (pl : List Nat) (p : Nat) (hp : 4 ≤ p) :
    (frame_bytes c pl).drop p = pl.drop (p - 4) := by
  obtain ⟨q, rfl⟩ : ∃ q, p = q + 4 := ⟨p - 4, by omega⟩
  simp [frame_bytes]

/-- The payload split at a position with `n` bytes left to read. -/
theorem payload_split (pl : List Nat) (p n : Nat) (hp : 4 ≤ p) (hn : p + n ≤ 4 + pl.length) :
    pl = pl.take (p - 4) ++ ((pl.drop (p - 4)).take n ++ pl.drop (p - 4 + n)) ∧
      (pl.take (p - 4)).length = p - 4 ∧ ((pl.drop (p - 4)).take n).length = n := by
  refine ⟨?_, ?_, ?_⟩
  · rw [← List.drop_drop, List.take_append_drop, List.take_append_drop]
  · simp; omega
  · simp; omega

theorem can_read_ntstring_loop_spec (data : List Nat) :
    ∀ (n i : Nat), i + n ≤ data.length →
      ∃ r, can_read_ntstring_loop data n i = some r ∧
        (r = true ↔ ∃ j, i ≤ j ∧ j < i + n ∧ data[j]? = some 0) := by
  intro n
  induction n with
  | zero =>
    intro i _
    exact ⟨false, rfl, by simp; intro j h1 h2; omega⟩
  | succ n ih =>
    intro i hi
    have hlt : i < data.length := by omega
    simp only [can_read_ntstring_loop, List.getElem?_eq_getElem hlt, Option.some_bind]
    by_cases hz : data[i] = 0
    · refine ⟨true, by simp [hz], ?_⟩
      simp only [true_iff]
      exact ⟨i, le_refl _, by omega, by simp [List.getElem?_eq_getElem hlt, hz]⟩
    · obtain ⟨r, hr, hiff⟩ := ih (i + 1) (by omega)
      refine ⟨r, by simp [hz, hr], ?_⟩
      rw [hiff]
      constructor
      · rintro ⟨j, h1, h2, h3⟩
        exact ⟨j, by omega, by omega, h3⟩
      · rintro ⟨j, h1, h2, h3⟩
        have hne : j ≠ i := by
          rintro rfl
          rw [List.getElem?_eq_getElem hlt] at h3
          exact hz (Option.some.inj h3)
        exact ⟨j, by omega, by omega, h3⟩

theorem can_read_ntstring_iff {b : packet_buffer_t} {c : Nat} {pl : List Nat}
    (h : IsFrame b c pl) :
    ∃ r, can_read_ntstring b = some r ∧
      (r = true ↔ ∃ j, b.position ≤ j ∧ j < 4 + pl.length ∧ b.data[j]? = some 0) := by
  simp only [can_read_ntstring, assert, h.valid, if_true, h.get_length, Option.bind_eq_bind,
    Option.some_bind, and_then_eq]
  by_cases hp : b.position ≤ 4 + pl.length
  · obtain ⟨r, hr, hiff⟩ := can_read_ntstring_loop_spec b.data (4 + pl.length - b.position)
      b.position (by rw [h.alloc]; have := h.fits; omega)
    refine ⟨r, hr, ?_⟩
    rw [hiff]
    constructor
    · rintro ⟨j, h1, h2, h3⟩
      exact ⟨j, h1, by omega, h3⟩
    · rintro ⟨j, h1, h2, h3⟩
      exact ⟨j, h1, by omega, h3⟩
  · have h0 : 4 + pl.length - b.position = 0 := by omega
    rw [h0]
    refine ⟨false, rfl, ?_⟩
    simp only [Bool.false_eq_true, false_iff, not_exists, not_and]
    intro j h1 h2
    omega

/-- A list that holds a zero splits at its first zero. -/
theorem split_first_zero (l : List Nat) (h : 0 ∈ l) :
    ∃ s post, l = s ++ 0 :: post ∧ ∀ x ∈ s, x ≠ 0 := by
  induction l with
  | nil => simp at h
  | cons x l ih =>
    by_cases hx : x = 0
    · exact ⟨[], l, by simp [hx], by simp⟩
    · have h1 : 0 ∈ l := by
        rcases List.mem_cons.mp h with h | h
        · exact absurd h.symm hx
        · exact h
      obtain ⟨s, post, hl, hs⟩ := ih h1
      refine ⟨x :: s, post, by simp [hl], ?_⟩
      intro y hy
      rcases List.mem_cons.mp hy with h | h
      · rw [h]; exact hx
      · exact hs y h

theorem read_next_ntstring_mod (b : packet_buffer_t) (m : Nat) :
    read_next_ntstring b m = read_next_ntstring b (m % 65536) := by
  simp only [read_next_ntstring, Nat.mod_mod]

theorem read_next_int8_none {b : packet_buffer_t} {c : Nat} {pl : List Nat} (h : IsFrame b c pl)
    (hn : ¬ b.position + 1 ≤ 4 + pl.length) : read_next_int8 b = none := by
  simp [read_next_int8, h.can_read_int8, hn, assert]

theorem read_next_int16_none {b : packet_buffer_t} {c : Nat} {pl : List Nat} (h : IsFrame b c pl)
    (hn : ¬ b.position + 2 ≤ 4 + pl.length) : read_next_int16 b = none := by
  simp [read_next_int16, h.can_read_int16, hn, assert, h.valid]

theorem read_next_int32_none {b : packet_buffer_t} {c : Nat} {pl : List Nat} (h : IsFrame b c pl)
    (hn : ¬ b.position + 4 ≤ 4 + pl.length) : read_next_int32 b = none := by
  simp [read_next_int32, h.can_read_int32, hn, assert, h.valid]

theorem read_next_ntstring_none {b : packet_buffer_t} (m : Nat)
    (hn : can_read_ntstring b = some false) : read_next_ntstring b m = none := by
  simp [read_next_ntstring, hn, assert]

/-- The bytes of the frame from a position on, when `n` of them are left. -/
theorem frame_window {b : packet_buffer_t} {c : Nat} {pl : List Nat} (h : IsFrame b c pl)
    (hp : 4 ≤ b.position) (n : Nat) (hn : b.position + n ≤ 4 + pl.length) :
    ∃ w post, w.length = n ∧ ((frame_bytes c pl).drop b.position).take n = w ∧
      IsFrame b c (pl.take (b.position - 4) ++ (w ++ post)) ∧
      b.position = 4 + (pl.take (b.position - 4)).length := by
  obtain ⟨e1, e2, e3⟩ := payload_split pl b.position n hp hn
  refine ⟨(pl.drop (b.position - 4)).take n, pl.drop (b.position - 4 + n), e3, ?_, ?_, ?_⟩
  · rw [frame_bytes_drop c pl _ hp]
  · rw [← e1]; exact h
  · rw [e2]; omega

theorem read_next_ntstring_window {b : packet_buffer_t} {c : Nat} {pl : List Nat}
    (h : IsFrame b c pl) (hp : 4 ≤ b.position) (hc : can_read_ntstring b = some true) (m : Nat) :
    ∃ k, b.position + k ≤ 4 + pl.length ∧
      read_next_ntstring b m =
        some ((((frame_bytes c pl).drop b.position).take k).map ntstring_char ++ [0],
          { b with position := b.position + k }) := by
  obtain ⟨r, hr, hiff⟩ := can_read_ntstring_iff h
  rw [hc] at hr
  obtain ⟨j, hj1, hj2, hj3⟩ := hiff.mp (Option.some.inj hr).symm
  have hmem : 0 ∈ pl.drop (b.position - 4) := by
    rw [h.getElem_lt j hj2] at hj3
    have : ((frame_bytes c pl).drop b.position)[j - b.position]? = some 0 := by
      rw [List.getElem?_drop]
      rw [show b.position + (j - b.position) = j by omega]
      exact hj3
    rw [frame_bytes_drop c pl _ hp] at this
    exact List.mem_iff_getElem?.mpr ⟨_, this⟩
  obtain ⟨s, post, hsplit, hs⟩ := split_first_zero _ hmem
  have hpl : pl = pl.take (b.position - 4) ++ (s ++ 0 :: post) := by
    rw [← hsplit, List.take_append_drop]
  have hlen : pl.length = (pl.take (b.position - 4)).length + (s.length + 1 + post.length) := by
    conv_lhs => rw [hpl]
    simp
    omega
  have hle : b.position - 4 ≤ pl.length := by
    have := List.length_pos_of_mem hmem
    simp at this
    omega
  have hpre : (pl.take (b.position - 4)).length = b.position - 4 := by
    simp; omega
  have h1 : IsFrame b c (pl.take (b.position - 4) ++ (s ++ 0 :: post)) := by
    rw [← hpl]; exact h
  have key := read_next_ntstring_frame h1 (by rw [hpre]; omega) hs (m % 65536)
    (Nat.mod_lt _ (by decide))
  refine ⟨min (m % 65536 - 1) (s.length + 1), ?_, ?_⟩
  · have := Nat.min_le_right (m % 65536 - 1) (s.length + 1)
    omega
  · have ht : (s ++ 0 :: post).take (min (m % 65536 - 1) (s.length + 1)) =
        (s ++ [0]).take (m % 65536 - 1) := by
      rw [← List.take_take]
      congr 1
      rw [show s ++ 0 :: post = (s ++ [0]) ++ post by simp]
      rw [List.take_append_of_le_length (by simp)]
      rw [List.take_of_length_le (by simp)]
    rw [read_next_ntstring_mod, key, frame_bytes_drop c pl _ hp, hsplit, ht]

theorem sample_chat_buffer_frame : IsFrame sample_chat_buffer 9 [0x68, 0x69, 0, 1, 2] :=
  IsFrame.of_split [] rfl (by decide) (by decide) (by decide) rfl rfl

/-! ## Errors sent to a user -/

theorem get_socket_of {st : server_t} {user : Nat} {u : user_t} (h : st.users[user]? = some u) :
    get_socket st user = some u.socket := by
  simp [get_socket, h]

theorem get_user_state_of {st : server_t} {user : Nat} {u : user_t}
    (h : st.users[user]? = some u) : get_user_state st user = some u.state := by
  simp [get_user_state, h]

theorem get_username_of {st : server_t} {user : Nat} {u : user_t}
    (h : st.users[user]? = some u) : get_username st user = some u.username := by
  simp [get_username, h]

theorem send_error_eq (st : server_t) (user : Nat) (u : user_t) (text : List Nat)
    (hu : st.users[user]? = some u) (ht : ∀ x ∈ text, x ≠ 0 ∧ x < 256)
    (hl : 4 + (text.length + 1) ≤ MAX_PACKET) :
    send_error st user text =
      some { st with sent := st.sent ++ [(u.socket, frame_bytes SID_ERROR (text ++ [0]))] } := by
  obtain ⟨b0, hb0, hf0, -⟩ := create_buffer_frame SID_ERROR (by decide)
  obtain ⟨b1, hb1, hf1, -⟩ := add_ntstring_frame hf0 text ht (by simpa using hl)
  obtain ⟨b2, hb2⟩ := destroy_buffer_frame hf1
  simp only [send_error, and_then_eq, hb0, Option.some_bind, hb1, get_socket_of hu,
    socket_send_frame hf1, hb2, exec_pure, List.nil_append]

theorem error_text_1 : ∀ x ∈ str "SID_CLIENT_INFORMATION Invalid in this state",
    x ≠ 0 ∧ x < 256 := by decide

theorem process_next_packet_frame (SHA1 : List Nat → List Nat) (st : server_t) (user : Nat)
    (u : user_t) (code : Nat) (pl rest : List Nat) (hu : st.users[user]? = some u)
    (hin : socket_input st u.socket = frame_bytes code pl ++ rest) (hc : code < 256)
    (hb : ∀ x ∈ pl, x < 256) (hl : 4 + pl.length ≤ MAX_PACKET) :
    ∃ b, IsFrame b code pl ∧ b.position = 4 ∧
      process_next_packet SHA1 st user =
        (process_packet SHA1 (set_socket_input st u.socket rest) user b).map
          (fun st1 => (true, st1)) := by
  obtain ⟨b, hrb, hf, hp⟩ := read_buffer_frame code pl rest hc hb hl
  refine ⟨b, hf, hp, ?_⟩
  simp only [process_next_packet, and_then_eq, get_socket_of hu, Option.some_bind, hin, hrb,
    exec_pure]
  cases process_packet SHA1 (set_socket_input st u.socket rest) user b <;> rfl

/-! ## The switch of `process_next_packet` -/

theorem error_text_3 : ∀ x ∈ str "SID_LOGIN Invalid in this state", x ≠ 0 ∧ x < 256 := by
  decide

theorem error_text_5 : ∀ x ∈ str "SID_CREATE Invalid in this state", x ≠ 0 ∧ x < 256 := by
  decide

theorem error_text_9 : ∀ x ∈ str "SID_CHATCOMMAND Invalid in this state",
    x ≠ 0 ∧ x < 256 := by decide

theorem error_text_server : ∀ x ∈ str "Client isn't allowed to send that",
    x ≠ 0 ∧ x < 256 := by decide

theorem error_text_unknown : ∀ x ∈ str "Unknown packet", x ≠ 0 ∧ x < 256 := by decide

theorem set_socket_input_users (st : server_t) (s : Nat) (bytes : List Nat) :
    (set_socket_input st s bytes).users = st.users := rfl

theorem set_socket_input_sent (st : server_t) (s : Nat) (bytes : List Nat) :
    (set_socket_input st s bytes).sent = st.sent := rfl

theorem process_packet_code {b : packet_buffer_t} {c : Nat} {pl : List Nat}
    (h : IsFrame b c pl) (SHA1 : List Nat → List Nat) (st : server_t) (user : Nat) :
    process_packet SHA1 st user b =
      if c = SID_NULL then process_SID_NULL st user b
      else if c = SID_CLIENT_INFORMATION then process_SID_CLIENT_INFORMATION st user b
      else if c = SID_LOGIN then process_SID_LOGIN SHA1 st user b
      else if c = SID_CREATE then process_SID_CREATE st user b
      else if c = SID_REQUEST_ROOM_LIST then process_SID_REQUEST_ROOM_LIST st user b
      else if c = SID_CHATCOMMAND then process_SID_CHATCOMMAND st user b
      else if c = SID_ERROR then process_SID_ERROR st user b
      else if c = SID_SERVER_INFORMATION ∨ c = SID_LOGIN_RESPONSE ∨
          c = SID_CREATE_RESPONSE ∨ c = SID_ROOM_LIST ∨ c = SID_CHATEVENT then
        send_error st user (str "Client isn't allowed to send that")
      else send_error st user (str "Unknown packet") := by
  simp only [process_packet, and_then_eq, h.get_code, Option.some_bind]

theorem client_information_wrong_state {b : packet_buffer_t} {c : Nat} {pl : List Nat}
    (h : IsFrame b c pl) (st : server_t) (user : Nat) (u : user_t)
    (hu : st.users[user]? = some u) (hs : u.state ≠ user_states_t.CONNECTED) :
    process_SID_CLIENT_INFORMATION st user b =
      send_error st user (str "SID_CLIENT_INFORMATION Invalid in this state") := by
  obtain ⟨b2, hb2⟩ := destroy_buffer_frame h
  simp only [process_SID_CLIENT_INFORMATION, and_then_eq, get_user_state_of hu,
    Option.some_bind, ne_eq, hs, not_false_eq_true, if_true, hb2, exec_pure]
  cases send_error st user (str "SID_CLIENT_INFORMATION Invalid in this state") <;> rfl

theorem login_wrong_state (SHA1 : List Nat → List Nat) (b : packet_buffer_t) (st : server_t)
    (user : Nat) (u : user_t) (hu : st.users[user]? = some u)
    (hs : u.state ≠ user_states_t.SENT_CLIENT_INFORMATION) :
    process_SID_LOGIN SHA1 st user b =
      send_error st user (str "SID_LOGIN Invalid in this state") := by
  simp only [process_SID_LOGIN, and_then_eq, get_user_state_of hu,
    Option.some_bind, ne_eq, hs, not_false_eq_true, if_true]

theorem create_wrong_state (b : packet_buffer_t) (st : server_t)
    (user : Nat) (u : user_t) (hu : st.users[user]? = some u)
    (hs : u.state ≠ user_states_t.SENT_CLIENT_INFORMATION) :
    process_SID_CREATE st user b =
      send_error st user (str "SID_CREATE Invalid in this state") := by
  simp only [process_SID_CREATE, and_then_eq, get_user_state_of hu,
    Option.some_bind, ne_eq, hs, not_false_eq_true, if_true]

theorem chatcommand_wrong_state (b : packet_buffer_t) (st : server_t)
    (user : Nat) (u : user_t) (hu : st.users[user]? = some u)
    (hs : u.state = user_states_t.CONNECTED ∨
      u.state = user_states_t.SENT_CLIENT_INFORMATION) :
    process_SID_CHATCOMMAND st user b =
      send_error st user (str "SID_CHATCOMMAND Invalid in this state") := by
  have h1 : u.state ≠ user_states_t.JOINED_CHANNEL ∧ u.state ≠ user_states_t.NOT_IN_CHANNEL := by
    rcases hs with h | h <;> rw [h] <;> decide
  simp only [process_SID_CHATCOMMAND, and_then_eq, get_user_state_of hu,
    Option.some_bind, ne_eq, h1, not_false_eq_true, and_self, if_true]

/-- A packet that the switch answers with an error: one `SID_ERROR` frame for the sender,
the packet taken off its socket, nothing else changed. -/
theorem process_next_packet_error (SHA1 : List Nat → List Nat) (st : server_t) (user : Nat)
    (u : user_t) (code : Nat) (pl rest text : List Nat) (hu : st.users[user]? = some u)
    (hin : socket_input st u.socket = frame_bytes code pl ++ rest) (hc : code < 256)
    (hb : ∀ x ∈ pl, x < 256) (hl : 4 + pl.length ≤ MAX_PACKET)
    (ht : ∀ x ∈ text, x ≠ 0 ∧ x < 256) (htl : 4 + (text.length + 1) ≤ MAX_PACKET)
    (hp : ∀ b, IsFrame b code pl → process_packet SHA1 (set_socket_input st u.socket rest) user b
      = send_error (set_socket_input st u.socket rest) user text) :
    process_next_packet SHA1 st user =
      some (true, { set_socket_input st u.socket rest with
        sent := st.sent ++ [(u.socket, frame_bytes SID_ERROR (text ++ [0]))] }) := by
  obtain ⟨b, hf, -, hpn⟩ := process_next_packet_frame SHA1 st user u code pl rest hu hin hc hb hl
  rw [hpn, hp b hf, send_error_eq _ user u text (by simpa using hu) ht htl]
  rfl

/-! ## The handshake -/

theorem le_bytes_mod32 (v : Nat) : le_bytes 4 (v % 4294967296) = le_bytes 4 v := by
  simp only [le_bytes_w32]
  congr 1
  · omega
  congr 1
  · omega
  congr 1
  · omega
  congr 1
  omega

theorem le_bytes_value32 (v : Nat) (hv : v < 4294967296) :
    v % 256 + v / 256 % 256 * 256 + v / 65536 % 256 * 65536 + v / 16777216 % 256 * 16777216
      = v := by
  omega

/-- Reading a 32-bit field that was written as `le_bytes 4 v`. -/
theorem read_next_int32_le {b : packet_buffer_t} {c : Nat} (pre : List Nat) {post : List Nat}
    (v : Nat)
    (h : IsFrame b c (pre ++ (le_bytes 4 v ++ post))) (hp : b.position = 4 + pre.length) :
    read_next_int32 b = some (v % 4294967296, { b with position := b.position + 4 }) := by
  have h1 : IsFrame b c (pre ++ (v % 4294967296) % 256 :: (v % 4294967296) / 256 % 256 ::
      (v % 4294967296) / 65536 % 256 :: (v % 4294967296) / 16777216 % 256 :: post) := by
    have := le_bytes_mod32 v
    rw [le_bytes_w32] at this
    rw [← le_bytes_mod32, le_bytes_w32] at h
    simpa using h
  rw [read_next_int32_frame h1 hp, le_bytes_value32 _ (Nat.mod_lt _ (by decide))]

/-- Reading a string field that ends before the cap. -/
theorem read_next_ntstring_whole {b : packet_buffer_t} {c : Nat} (pre s post : List Nat)
    (h : IsFrame b c (pre ++ (s ++ 0 :: post))) (hp : b.position = 4 + pre.length)
    (hs : ∀ x ∈ s, x ≠ 0) (m : Nat) (hm : m < 65536) (hcap : s.length + 2 ≤ m) :
    read_next_ntstring b m =
      some (s.map ntstring_char ++ [0, 0],
        { b with position := b.position + (s.length + 1) }) := by
  rw [read_next_ntstring_frame h hp hs m hm]
  have e1 : (s ++ [0]).take (m - 1) = s ++ [0] := List.take_of_length_le (by simp; omega)
  have e2 : min (m - 1) (s.length + 1) = s.length + 1 := by omega
  rw [e1, e2]
  simp [ntstring_char_zero]

theorem store_user_users (st : server_t) (user : Nat) (u : user_t) :
    (store_user st user u).users = st.users.set user u := rfl

theorem set_client_token_of {st : server_t} {user : Nat} {u : user_t}
    (h : st.users[user]? = some u) (token : Nat) :
    set_client_token st user token =
      some (store_user st user { u with client_token := token % 4294967296 }) := by
  simp [set_client_token, h]

theorem set_user_state_of {st : server_t} {user : Nat} {u : user_t}
    (h : st.users[user]? = some u) (s : user_states_t) :
    set_user_state st user s = some (store_user st user { u with state := s }) := by
  simp [set_user_state, h]

theorem get_server_token_of {st : server_t} {user : Nat} {u : user_t}
    (h : st.users[user]? = some u) :
    get_server_token st user = some (u.server_token % 4294967296) := by
  simp [get_server_token, h]

theorem get_client_token_of {st : server_t} {user : Nat} {u : user_t}
    (h : st.users[user]? = some u) :
    get_client_token st user = some (u.client_token % 4294967296) := by
  simp [get_client_token, h]

theorem store_user_get {st : server_t} {user : Nat} {u : user_t} (v : user_t)
    (h : st.users[user]? = some u) : (store_user st user v).users[user]? = some v := by
  have hlt : user < st.users.length := by
    by_contra hn
    rw [List.getElem?_eq_none (by omega)] at h
    exact absurd h (by simp)
  simp [store_user, List.getElem?_set, hlt]

theorem store_user_twice (st : server_t) (user : Nat) (v w : user_t) :
    store_user (store_user st user v) user w = store_user st user w := by
  simp [store_user, List.set_set]

theorem sha1_text : ∀ x ∈ str "sha1", x ≠ 0 ∧ x < 256 := by decide

/-- The reads of `process_SID_CLIENT_INFORMATION` on a well-formed payload. -/
theorem client_information_reads {b : packet_buffer_t} {c : Nat} (t a v : Nat)
    (s1 s2 post : List Nat)
    (h : IsFrame b c (le_bytes 4 t ++ (le_bytes 4 a ++ (le_bytes 4 v ++
      (s1 ++ 0 :: (s2 ++ 0 :: post))))))
    (hp : b.position = 4) (h1 : ∀ x ∈ s1, x ≠ 0) (h2 : ∀ x ∈ s2, x ≠ 0) :
    ∃ len b1 b2 b3 b4 b5 o1 o2, get_length b = some len ∧
      read_next_int32 b = some (t % 4294967296, b1) ∧
      read_next_int32 b1 = some (a % 4294967296, b2) ∧
      read_next_int32 b2 = some (v % 4294967296, b3) ∧
      get_length b3 = some len ∧ read_next_ntstring b3 len = some (o1, b4) ∧
      get_length b4 = some len ∧ read_next_ntstring b4 len = some (o2, b5) := by
  have hlen := h.length_bound
  simp only [List.length_append, le_bytes_length, List.length_cons] at hlen
  have r1 := read_next_int32_le [] t (by simpa using h) (by simpa using hp)
  have hb1 := h.with_position (b.position + 4)
  have r2 := read_next_int32_le (le_bytes 4 t) a (by simpa using hb1)
    (by simp [le_bytes_length, hp])
  have hb2 := hb1.with_position (b.position + 4 + 4)
  have r3 := read_next_int32_le (le_bytes 4 t ++ le_bytes 4 a) v (by simpa using hb2)
    (by simp [le_bytes_length, hp])
  have hb3 := hb2.with_position (b.position + 4 + 4 + 4)
  have r4 := read_next_ntstring_whole (le_bytes 4 t ++ le_bytes 4 a ++ le_bytes 4 v)
    s1 (s2 ++ 0 :: post) (by simpa using hb3) (by simp [le_bytes_length, hp])
    h1 (4 + (le_bytes 4 t ++ (le_bytes 4 a ++ (le_bytes 4 v ++
      (s1 ++ 0 :: (s2 ++ 0 :: post))))).length)
    (by simp [le_bytes_length]; omega) (by simp [le_bytes_length]; omega)
  have hb4 := hb3.with_position (b.position + 4 + 4 + 4 + (s1.length + 1))
  have r5 := read_next_ntstring_whole
    (le_bytes 4 t ++ le_bytes 4 a ++ le_bytes 4 v ++ (s1 ++ [0]))
    s2 post (by simpa using hb4) (by simp [le_bytes_length, hp]; omega)
    h2 (4 + (le_bytes 4 t ++ (le_bytes 4 a ++ (le_bytes 4 v ++
      (s1 ++ 0 :: (s2 ++ 0 :: post))))).length)
    (by simp [le_bytes_length]; omega) (by simp [le_bytes_length]; omega)
  exact ⟨_, _, _, _, _, _, _, _, h.get_length, r1, r2, r3, hb3.get_length, r4, hb4.get_length,
    r5⟩

/-- The response of `process_SID_CLIENT_INFORMATION`. -/
theorem server_information_packet (token : Nat) :
    ∃ r0 r1 r2 r3 r4 r5, create_buffer SID_SERVER_INFORMATION = some r0 ∧
      add_int32 r0 token = some r1 ∧ add_int32 r1 1 = some r2 ∧
      add_ntstring r2 (str "sha1") = some r3 ∧ add_ntstring r3 (str "") = some r4 ∧
      add_ntstring r4 (str "") = some r5 ∧
      IsFrame r5 SID_SERVER_INFORMATION
        (le_bytes 4 token ++ le_bytes 4 1 ++ str "sha1" ++ [0] ++ [0] ++ [0]) := by
  obtain ⟨r0, e0, f0, -⟩ := create_buffer_frame SID_SERVER_INFORMATION (by decide)
  obtain ⟨r1, e1, f1, -⟩ := add_int32_frame f0 token (by simp [MAX_PACKET])
  obtain ⟨r2, e2, f2, -⟩ := add_int32_frame f1 1 (by simp [MAX_PACKET])
  obtain ⟨r3, e3, f3, -⟩ := add_ntstring_frame f2 (str "sha1") sha1_text
    (by simp [MAX_PACKET, str])
  obtain ⟨r4, e4, f4, -⟩ := add_ntstring_frame f3 (str "") (by simp [str])
    (by simp [MAX_PACKET, str])
  obtain ⟨r5, e5, f5, -⟩ := add_ntstring_frame f4 (str "") (by simp [str])
    (by simp [MAX_PACKET, str])
  refine ⟨r0, r1, r2, r3, r4, r5, e0, e1, e2, e3, e4, e5, ?_⟩
  simpa [le_bytes_w32, str] using f5

theorem process_SID_CLIENT_INFORMATION_eq {b : packet_buffer_t} {c : Nat} (st : server_t)
    (user : Nat) (u : user_t) (t a v : Nat) (s1 s2 post : List Nat)
    (hu : st.users[user]? = some u) (hs : u.state = user_states_t.CONNECTED)
    (h : IsFrame b c (le_bytes 4 t ++ (le_bytes 4 a ++ (le_bytes 4 v ++
      (s1 ++ 0 :: (s2 ++ 0 :: post))))))
    (hp : b.position = 4) (h1 : ∀ x ∈ s1, x ≠ 0) (h2 : ∀ x ∈ s2, x ≠ 0) :
    process_SID_CLIENT_INFORMATION st user b =
      some { st with
        users := st.users.set user
          { u with client_token := t % 4294967296,
                   state := user_states_t.SENT_CLIENT_INFORMATION },
        sent := st.sent ++ [(u.socket, frame_bytes SID_SERVER_INFORMATION
          (le_bytes 4 u.server_token ++ le_bytes 4 1 ++ str "sha1" ++ [0] ++ [0] ++ [0]))] } := by
  obtain ⟨len, b1, b2, b3, b4, b5, o1, o2, e0, e1, e2, e3, e4, e5, e6, e7⟩ :=
    client_information_reads t a v s1 s2 post h hp h1 h2
  obtain ⟨r0, r1, r2, r3, r4, r5, c0, c1, c2, c3, c4, c5, f5⟩ :=
    server_information_packet (u.server_token % 4294967296)
  obtain ⟨d1, hd1⟩ := destroy_buffer_frame f5
  obtain ⟨d2, hd2⟩ := destroy_buffer_frame h
  have hlt : user < st.users.length := by
    by_contra hn
    rw [List.getElem?_eq_none (by omega)] at hu
    exact absurd hu (by simp)
  simp only [process_SID_CLIENT_INFORMATION, and_then_eq, get_user_state_of hu, hs,
    Option.some_bind, ne_eq, not_true_eq_false, if_false, e0, e1, e2, e3, e4, e5, e6, e7,
    set_client_token_of hu, exec_pure]
  simp only [set_user_state, store_user, List.getElem?_set_self hlt, Option.map_some',
    Option.some_bind, c0, get_server_token, c1, c2, c3, c4, c5, get_socket,
    socket_send_frame f5, hd1, hd2, List.set_set, Nat.mod_mod, le_bytes_mod32, hs]

/-! ## password.c -/

theorem for_loop_copy (h : List Nat) :
    ∀ (n i0 : Nat) (t : List Nat), i0 + n ≤ h.length →
      for_loop (fun i t => (h[i]?).map (fun x => t ++ [x])) n i0 t =
        some (t ++ (h.drop i0).take n) := by
  intro n
  induction n with
  | zero => intro i0 t _; simp [for_loop]
  | succ n ih =>
    intro i0 t hle
    have hlt : i0 < h.length := by omega
    simp only [for_loop, List.getElem?_eq_getElem hlt, Option.map_some', Option.some_bind]
    rw [ih (i0 + 1) _ (by omega)]
    congr 1
    rw [List.append_assoc]
    congr 1
    rw [List.drop_eq_getElem_cons hlt, List.take_succ_cons]
    rfl

theorem mask_byte (x k : Nat) : ((x &&& (0xFF <<< k)) >>> k) = x / 2 ^ k % 256 := by
  rw [← byte_of]
  apply Nat.eq_of_testBit_eq
  intro i
  simp only [Nat.testBit_shiftRight, Nat.testBit_and, Nat.testBit_shiftLeft]
  have : k + i - k = i := by omega
  simp [this]

theorem token_bytes (x : Nat) :
    [((x % 4294967296 &&& 0x000000FF) >>> 0) % 256,
     ((x % 4294967296 &&& 0x0000FF00) >>> 8) % 256,
     ((x % 4294967296 &&& 0x00FF0000) >>> 16) % 256,
     ((x % 4294967296 &&& 0xFF000000) >>> 24) % 256] = le_bytes 4 x := by
  have e0 : (x % 4294967296 &&& 0x000000FF) >>> 0 = x % 4294967296 / 1 % 256 :=
    mask_byte (x % 4294967296) 0
  have e1 : (x % 4294967296 &&& 0x0000FF00) >>> 8 = x % 4294967296 / 256 % 256 :=
    mask_byte (x % 4294967296) 8
  have e2 : (x % 4294967296 &&& 0x00FF0000) >>> 16 = x % 4294967296 / 65536 % 256 :=
    mask_byte (x % 4294967296) 16
  have e3 : (x % 4294967296 &&& 0xFF000000) >>> 24 = x % 4294967296 / 16777216 % 256 :=
    mask_byte (x % 4294967296) 24
  rw [le_bytes_w32, e0, e1, e2, e3]
  congr 1
  · omega
  congr 1
  · omega
  congr 1
  · omega
  congr 1
  omega

theorem password_hash_second_eq (SHA1 : List Nat → List Nat) (h : List Nat) (ct st : Nat)
    (hh : 20 ≤ h.length) :
    password_hash_second SHA1 h ct st =
      some (SHA1 (le_bytes 4 ct ++ le_bytes 4 st ++ h.take 20)) := by
  have e := for_loop_copy h 20 0 (le_bytes 4 ct ++ le_bytes 4 st) (by omega)
  simp only [List.drop_zero] at e
  simp only [password_hash_second, and_then_eq, HASH_LENGTH, exec_pure]
  rw [show ∀ a b c d e f g i : Nat, [a, b, c, d, e, f, g, i] = [a, b, c, d] ++ [e, f, g, i] from
    fun _ _ _ _ _ _ _ _ => rfl, token_bytes, token_bytes, e]
  rfl

/-! ## account.c -/

theorem strchr_none_iff (s : List Nat) (c : Nat) : strchr s c = none ↔ c ∉ c_string s := by
  simp only [strchr]
  constructor
  · intro h hc
    have := List.indexOf_lt_length.mpr hc
    simp [this] at h
  · intro hc
    have : ¬ List.indexOf c (c_string s) < (c_string s).length := by
      intro hlt
      exact hc (List.indexOf_lt_length.mp hlt)
    simp [this]

theorem for_loop_digits (h : List Nat) :
    ∀ (n i0 : Nat) (t : List Nat), i0 + n ≤ h.length →
      for_loop (fun i t => (h[i]?).map (fun x =>
        t ++ [hex_digit ((x % 256) / 16), hex_digit ((x % 256) % 16)])) n i0 t =
        some (t ++ hash_digits ((h.drop i0).take n)) := by
  intro n
  induction n with
  | zero => intro i0 t _; simp [for_loop, hash_digits]
  | succ n ih =>
    intro i0 t hle
    have hlt : i0 < h.length := by omega
    simp only [for_loop, List.getElem?_eq_getElem hlt, Option.map_some', Option.some_bind]
    rw [ih (i0 + 1) _ (by omega), List.drop_eq_getElem_cons hlt, List.take_succ_cons]
    simp [hash_digits]

theorem add_account_eq (file name password : List Nat) (hn : 0x3B ∉ c_string name)
    (hp : HASH_LENGTH ≤ password.length) :
    add_account file name password = some (file ++ account_line name password) := by
  have e := for_loop_digits password HASH_LENGTH 0 [] (by omega)
  simp only [add_account, and_then_eq, (strchr_none_iff name 0x3B).mpr hn, Option.isNone_none,
    assert, if_true, Option.some_bind, e, exec_pure, account_line]
  simp

theorem find_account_lines_total (name : List Nat) :
    ∀ lines, ∃ r, find_account_lines name false lines = some r := by
  intro lines
  induction lines with
  | nil => exact ⟨none, rfl⟩
  | cons line lines ih =>
    simp only [find_account_lines]
    split
    · exact ih
    · split
      · exact ⟨_, rfl⟩
      · exact ih

theorem find_account_total (file name : List Nat) :
    ∃ r, find_account file name false = some r :=
  find_account_lines_total name _

theorem account_create_eq (file name password : List Nat) :
    account_create file name password =
      if strlen name < MIN_NAME then some (NAME_TOO_SHORT, file)
      else if strlen name ≥ MAX_NAME then some (NAME_TOO_LONG, file)
      else if (c_string name).any (fun c => !(isprint c) || c == 0x3B) then
        some (NAME_ILLEGAL, file)
      else (find_account file name false).bind (fun r =>
        match r with
        | some _ => some (ACCOUNT_EXISTS, file)
        | none => (add_account file name password).map (fun f => (LOGIN_SUCCESS, f))) := by
  simp only [account_create, and_then_eq, exec_pure]
  split
  · rfl
  split
  · rfl
  split
  · rfl
  cases find_account file name false with
  | none => rfl
  | some r =>
    cases r with
    | none => simp only [Option.some_bind]; cases add_account file name password <;> rfl
    | some r => rfl

/-! ## account.c: the record written by `add_account` is found by `find_account` -/

theorem fgets_all_append (size : Nat) (b : List Nat) :
    ∀ (a cur : List Nat),
      fgets_all size (a ++ [0x0A] ++ b) cur =
        fgets_all size (a ++ [0x0A]) cur ++ fgets_all size b [] := by
  intro a
  induction a with
  | nil => intro cur; simp [fgets_all]
  | cons c a ih =>
    intro cur
    simp only [List.cons_append, fgets_all]
    split
    · exact congrArg _ (ih [])
    · exact ih (c :: cur)

theorem find_account_lines_append (name : List Nat) (w : Bool) :
    ∀ (l1 l2 : List (List Nat)), find_account_lines name w l1 = some none →
      find_account_lines name w (l1 ++ l2) = find_account_lines name w l2 := by
  intro l1
  induction l1 with
  | nil => intro l2 _; rfl
  | cons line l1 ih =>
    intro l2 h
    cases hs : strchr (c_string line) 0x3B with
    | none =>
      simp only [List.cons_append, find_account_lines, hs] at h ⊢
      exact ih l2 h
    | some d =>
      simp only [List.cons_append, find_account_lines, hs] at h ⊢
      by_cases hcmp : strcmp_eq (List.take d (c_string line)) name = true
      · exfalso
        rw [if_pos hcmp] at h
        cases w with
        | false => simp at h
        | true =>
          simp only [Bool.not_true, Bool.false_eq_true, if_false] at h
          split at h
          · exact absurd h (by simp)
          · cases hfa : find_account_hash HASH_LENGTH
              (List.drop (d + 1) (c_string line)) with
            | none => rw [hfa] at h; exact absurd h (by simp)
            | some v => rw [hfa] at h; exact absurd h (by simp)
      · rw [if_neg hcmp] at h ⊢
        exact ih l2 h

theorem find_account_lines_absent (name : List Nat) :
    ∀ (lines : List (List Nat)), find_account_lines name false lines = some none →
      find_account_lines name true lines = some none := by
  intro lines
  induction lines with
  | nil => intro _; rfl
  | cons line lines ih =>
    intro h
    cases hs : strchr (c_string line) 0x3B with
    | none =>
      simp only [find_account_lines, hs] at h ⊢
      exact ih h
    | some d =>
      simp only [find_account_lines, hs] at h ⊢
      by_cases hcmp : strcmp_eq (List.take d (c_string line)) name = true
      · rw [if_pos hcmp] at h
        simp at h
      · rw [if_neg hcmp] at h ⊢
        exact ih h

theorem hex_digit_spec : ∀ v, v < 16 →
    isxdigit (hex_digit v) = true ∧ hex_value (hex_digit v) = v ∧ hex_digit v ≠ 0 ∧
      hex_digit v ≠ 0x0A ∧ hex_digit v ≠ 0x3B := by
  decide

theorem hash_digits_length (xs : List Nat) : (hash_digits xs).length = 2 * xs.length := by
  induction xs with
  | nil => rfl
  | cons x xs ih => simp [hash_digits, ih]; omega

theorem hash_digits_mem (xs : List Nat) :
    ∀ d ∈ hash_digits xs, d ≠ 0 ∧ d ≠ 0x0A ∧ d ≠ 0x3B := by
  induction xs with
  | nil => intro d hd; simp [hash_digits] at hd
  | cons x xs ih =>
    intro d hd
    simp only [hash_digits, List.mem_cons] at hd
    have h1 := hex_digit_spec (x % 256 / 16) (by omega)
    have h2 := hex_digit_spec (x % 256 % 16) (by omega)
    rcases hd with h | h | h
    · rw [h]; exact ⟨h1.2.2.1, h1.2.2.2.1, h1.2.2.2.2⟩
    · rw [h]; exact ⟨h2.2.2.1, h2.2.2.2.1, h2.2.2.2.2⟩
    · exact ih d h

theorem find_account_hash_digits (tail : List Nat) :
    ∀ (xs : List Nat), find_account_hash xs.length (hash_digits xs ++ tail) =
      some (xs.map (fun x => x % 256)) := by
  intro xs
  induction xs with
  | nil => rfl
  | cons x xs ih =>
    have h1 := hex_digit_spec (x % 256 / 16) (by omega)
    have h2 := hex_digit_spec (x % 256 % 16) (by omega)
    have hc : c_string [hex_digit (x % 256 / 16), hex_digit (x % 256 % 16)] =
        [hex_digit (x % 256 / 16), hex_digit (x % 256 % 16)] :=
      c_string_of_no_nul _ (by
        intro y hy
        simp only [List.mem_cons, List.mem_singleton, List.not_mem_nil, or_false] at hy
        rcases hy with h | h
        · rw [h]; exact h1.2.2.1
        · rw [h]; exact h2.2.2.1)
    have hv : (x % 256 / 16 * 16 + x % 256 % 16) &&& 0x00FF = x % 256 := by
      have h8 : (x % 256 / 16 * 16 + x % 256 % 16) &&& 0x00FF =
          (x % 256 / 16 * 16 + x % 256 % 16) % 256 :=
        Nat.and_pow_two_sub_one_eq_mod (x % 256 / 16 * 16 + x % 256 % 16) 8
      rw [h8]
      omega
    simp only [List.length_cons, find_account_hash, hash_digits, List.cons_append,
      List.take_succ_cons, List.take_zero, hc, List.getD_cons_zero, List.getD_cons_succ,
      h1.1, h2.1, Bool.and_self, if_true, List.drop_succ_cons, List.drop_zero, ih,
      Option.map_some', h1.2.1, h2.2.1, hv, List.map_cons]

theorem account_login_compare_eq (good p : List Nat) :
    ∀ (n i : Nat), i + n ≤ good.length → i + n ≤ p.length →
      account_login_compare good p n i =
        some (if (good.drop i).take n = (p.drop i).take n then LOGIN_SUCCESS
          else INCORRECT_PASSWORD) := by
  intro n
  induction n with
  | zero => intro i _ _; simp [account_login_compare]
  | succ n ih =>
    intro i hg hp
    have h1 : i < good.length := by omega
    have h2 : i < p.length := by omega
    simp only [account_login_compare, List.getElem?_eq_getElem h1, List.getElem?_eq_getElem h2,
      Option.some_bind, List.drop_eq_getElem_cons h1, List.drop_eq_getElem_cons h2,
      List.take_succ_cons, List.cons.injEq]
    by_cases he : good[i] = p[i]
    · simp only [he, ne_eq, not_true_eq_false, if_false, true_and]
      exact ih (i + 1) (by omega) (by omega)
    · simp [he]

theorem fgets_all_line (size : Nat) :
    ∀ (xs cur : List Nat), (∀ x ∈ xs, x ≠ 0x0A) → cur.length + xs.length ≤ size - 1 →
      cur.length < size - 1 →
      fgets_all size (xs ++ [0x0A]) cur =
        if cur.length + xs.length < size - 1 then [cur.reverse ++ xs ++ [0x0A]]
        else [cur.reverse ++ xs, [0x0A]] := by
  intro xs
  induction xs with
  | nil =>
    intro cur _ _ hlt
    simp [fgets_all, hlt]
  | cons c xs ih =>
    intro cur hne hle hlt
    have hc : c ≠ 0x0A := hne c (List.mem_cons_self _ _)
    simp only [List.length_cons] at hle
    simp only [List.cons_append, fgets_all, hc, false_or]
    by_cases hb : cur.length + 1 = size - 1
    · have hxs : xs = [] := List.eq_nil_of_length_eq_zero (by omega)
      subst hxs
      simp [hb, fgets_all]
    · rw [if_neg hb]
      refine (ih (c :: cur) (fun x hx => hne x (List.mem_cons_of_mem _ hx))
        (by simp only [List.length_cons]; omega)
        (by simp only [List.length_cons]; omega)).trans ?_
      simp only [List.length_cons, List.reverse_cons, List.append_assoc, List.singleton_append]
      have e : cur.length + 1 + xs.length = cur.length + (xs.length + 1) := by omega
      rw [e]

/-- The first string that `fgets` returns for a line is the line, with or without its
newline. -/
theorem fgets_all_line_head (size : Nat) (body : List Nat) (hne : ∀ x ∈ body, x ≠ 0x0A)
    (hlen : body.length ≤ size - 1) (hpos : 0 < size - 1) :
    ∃ tail more, fgets_all size (body ++ [0x0A]) [] = (body ++ tail) :: more ∧
      (tail = [] ∨ tail = [0x0A]) := by
  rw [fgets_all_line size body [] hne (by simpa using hlen) (by simpa using hpos)]
  split
  · exact ⟨[0x0A], [], by simp, Or.inr rfl⟩
  · exact ⟨[], [[0x0A]], by simp, Or.inl rfl⟩

theorem indexOf_after (pre post : List Nat) (c : Nat) (h : c ∉ pre) :
    (pre ++ c :: post).indexOf c = pre.length := by
  induction pre with
  | nil => simp
  | cons x pre ih =>
    have hx : x ≠ c := fun e => h (e ▸ List.mem_cons_self _ _)
    have hp : c ∉ pre := fun hm => h (List.mem_cons_of_mem _ hm)
    simp [List.indexOf_cons_ne _ hx, ih hp]

/-- `find_account` on the string read for the line that `add_account` wrote. -/
theorem find_account_lines_record (name h tail : List Nat) (more : List (List Nat))
    (hsemi : 0x3B ∉ c_string name) (hn : (c_string name).length ≤ MAX_NAME - 1)
    (hh : h.length = HASH_LENGTH) (ht : ∀ x ∈ tail, x ≠ 0) :
    find_account_lines name true
        ((c_string name ++ [0x3B] ++ hash_digits h ++ tail) :: more) =
      some (some ⟨c_string name, h.map (fun x => x % 256)⟩) := by
  have hnul : ∀ x ∈ c_string name ++ [0x3B] ++ hash_digits h ++ tail, x ≠ 0 := by
    intro x hx
    simp only [List.mem_append, List.mem_singleton] at hx
    rcases hx with ((hx | hx) | hx) | hx
    · exact c_string_no_nul name x hx
    · rw [hx]; decide
    · exact (hash_digits_mem h x hx).1
    · exact ht x hx
  have hbuf := c_string_of_no_nul _ hnul
  have hidx : (c_string name ++ [0x3B] ++ hash_digits h ++ tail).indexOf 0x3B =
      (c_string name).length := by
    rw [List.append_assoc, List.append_assoc]
    exact indexOf_after _ _ _ hsemi
  have hchr : strchr (c_string name ++ [0x3B] ++ hash_digits h ++ tail) 0x3B =
      some (c_string name).length := by
    simp only [strchr, hbuf, hidx]
    rw [if_pos (by simp)]
  have htake : (c_string name ++ [0x3B] ++ hash_digits h ++ tail).take (c_string name).length =
      c_string name := by
    rw [List.append_assoc, List.append_assoc, List.take_left' rfl]
  have hdrop : (c_string name ++ [0x3B] ++ hash_digits h ++ tail).drop
      ((c_string name).length + 1) = hash_digits h ++ tail := by
    rw [show c_string name ++ [0x3B] ++ hash_digits h ++ tail =
      (c_string name ++ [0x3B]) ++ (hash_digits h ++ tail) by simp]
    rw [List.drop_left' (by simp)]
  have hrest : ∀ x ∈ hash_digits h ++ tail, x ≠ 0 := by
    intro x hx
    rcases List.mem_append.mp hx with hx | hx
    · exact (hash_digits_mem h x hx).1
    · exact ht x hx
  have hstrlen : ¬ strlen (hash_digits h ++ tail) < HASH_LENGTH * 2 := by
    rw [strlen_of_no_nul _ hrest, List.length_append, hash_digits_length, hh]
    simp only [HASH_LENGTH]
    omega
  have hhash := find_account_hash_digits tail h
  rw [hh] at hhash
  have hcmp : strcmp_eq (c_string name) name = true := by
    simp [strcmp_eq, c_string_idem]
  simp only [find_account_lines, hbuf, hchr, htake, hcmp, if_true, Bool.not_true,
    Bool.false_eq_true, if_false, hdrop, hstrlen, hhash, Option.map_some',
    List.take_of_length_le hn]

theorem find_account_after_create (file name h : List Nat)
    (hfile : file = [] ∨ ∃ pre, file = pre ++ [0x0A])
    (habs : find_account file name false = some none)
    (hprint : ∀ c ∈ c_string name, isprint c = true ∧ c ≠ 0x3B)
    (hn : strlen name < MAX_NAME) (hh : h.length = HASH_LENGTH) :
    find_account (file ++ account_line name h) name true =
      some (some ⟨c_string name, h.map (fun x => x % 256)⟩) := by
  have hsemi : 0x3B ∉ c_string name := fun hm => (hprint _ hm).2 rfl
  have htake : h.take HASH_LENGTH = h := List.take_of_length_le (by omega)
  have hbody : ∀ x ∈ c_string name ++ [0x3B] ++ hash_digits h, x ≠ 0x0A := by
    intro x hx
    simp only [List.mem_append, List.mem_singleton] at hx
    rcases hx with (hx | hx) | hx
    · have := (hprint x hx).1
      simp only [isprint, decide_eq_true_eq] at this
      omega
    · rw [hx]; decide
    · exact (hash_digits_mem h x hx).2.1
  have hlen : (c_string name ++ [0x3B] ++ hash_digits h).length ≤ MAX_RECORD - 1 - 1 := by
    simp only [List.length_append, List.length_singleton, hash_digits_length, hh, HASH_LENGTH,
      MAX_RECORD, MAX_NAME]
    simp only [strlen_eq, MAX_NAME] at hn
    omega
  obtain ⟨tail, more, hchunks, htail⟩ := fgets_all_line_head (MAX_RECORD - 1) _ hbody hlen
    (by decide)
  have hrec : find_account_lines name true (fgets_all (MAX_RECORD - 1)
      (account_line name h) []) = some (some ⟨c_string name, h.map (fun x => x % 256)⟩) := by
    simp only [account_line, htake]
    rw [hchunks]
    refine find_account_lines_record name h tail more hsemi ?_ hh ?_
    · simp only [strlen_eq] at hn
      simp only [MAX_NAME] at hn ⊢
      omega
    · intro x hx
      rcases htail with ht | ht
      · rw [ht] at hx; simp at hx
      · rw [ht] at hx
        simp only [List.mem_singleton] at hx
        rw [hx]; decide
  rcases hfile with hf | ⟨pre, hf⟩
  · subst hf
    simpa [find_account] using hrec
  · subst hf
    simp only [find_account] at habs ⊢
    rw [fgets_all_append, find_account_lines_append _ _ _ _
      (find_account_lines_absent _ _ habs)]
    exact hrec

theorem account_login_found (SHA1 : List Nat → List Nat) (file name p : List Nat)
    (ct st : Nat) (r : account_record) (hsha : ∀ x, (SHA1 x).length = HASH_LENGTH)
    (hfind : find_account file name true = some (some r))
    (hr : HASH_LENGTH ≤ r.password.length) (hp : p.length = HASH_LENGTH) :
    account_login SHA1 file name p ct st =
      some (if SHA1 (le_bytes 4 ct ++ le_bytes 4 st ++ r.password.take HASH_LENGTH) = p
        then LOGIN_SUCCESS else INCORRECT_PASSWORD) := by
  simp only [HASH_LENGTH] at hr hp
  have hs := hsha (le_bytes 4 ct ++ le_bytes 4 st ++ r.password.take 20)
  simp only [HASH_LENGTH] at hs
  simp only [account_login, and_then_eq, hfind, Option.some_bind,
    password_hash_second_eq SHA1 r.password ct st hr, HASH_LENGTH]
  rw [account_login_compare_eq _ _ 20 0 (by omega) (by omega)]
  simp only [List.drop_zero, List.take_of_length_le (le_of_eq hs),
    List.take_of_length_le (le_of_eq hp)]

theorem account_login_absent (SHA1 : List Nat → List Nat) (file name p : List Nat)
    (ct st : Nat) (habs : find_account file name false = some none) :
    account_login SHA1 file name p ct st = some UNKNOWN_ACCOUNT := by
  have h : find_account file name true = some none := find_account_lines_absent _ _ habs
  simp only [account_login, and_then_eq, h, Option.some_bind, exec_pure]

/-! ## account.c: a name that logs in has fewer than `MAX_NAME` characters -/

theorem fgets_all_chunk_length (size : Nat) (hs : 0 < size - 1) :
    ∀ (file cur : List Nat), cur.length < size - 1 →
      ∀ chunk ∈ fgets_all size file cur, chunk.length ≤ size - 1 := by
  intro file
  induction file with
  | nil =>
    intro cur hc chunk hmem
    simp only [fgets_all] at hmem
    split at hmem
    · simp at hmem
    · simp only [List.mem_singleton] at hmem
      rw [hmem, List.length_reverse]
      omega
  | cons c rest ih =>
    intro cur hc chunk hmem
    simp only [fgets_all] at hmem
    split at hmem
    · rcases List.mem_cons.mp hmem with h | h
      · rw [h, List.length_reverse, List.length_cons]
        omega
      · exact ih [] (by simpa using hs) chunk h
    · rename_i hb
      refine ih (c :: cur) ?_ chunk hmem
      simp only [List.length_cons]
      have : ¬ cur.length + 1 = size - 1 := fun e => hb (Or.inr e)
      omega

theorem strchr_lt {s : List Nat} {c d : Nat} (h : strchr s c = some d) :
    d < (c_string s).length := by
  simp only [strchr] at h
  split at h
  · rename_i hlt
    rw [← Option.some.inj h]
    exact hlt
  · exact absurd h (by simp)

theorem find_account_lines_found (name : List Nat) (r : account_record) :
    ∀ (lines : List (List Nat)), (∀ l ∈ lines, l.length ≤ MAX_RECORD - 1 - 1) →
      find_account_lines name true lines = some (some r) →
      (c_string name).length ≤ MAX_NAME - 1 := by
  intro lines
  induction lines with
  | nil => intro _ h; simp [find_account_lines] at h
  | cons line lines ih =>
    intro hlen h
    have hrest : ∀ l ∈ lines, l.length ≤ MAX_RECORD - 1 - 1 :=
      fun l hl => hlen l (List.mem_cons_of_mem _ hl)
    cases hs : strchr (c_string line) 0x3B with
    | none =>
      simp only [find_account_lines, hs] at h
      exact ih hrest h
    | some d =>
      simp only [find_account_lines, hs] at h
      by_cases hcmp : strcmp_eq (List.take d (c_string line)) name = true
      · rw [if_pos hcmp] at h
        simp only [Bool.not_true, Bool.false_eq_true, if_false] at h
        split at h
        · exact absurd h (by simp)
        · rename_i hstr
          have hd := strchr_lt hs
          rw [c_string_idem] at hd
          have hline := hlen line (List.mem_cons_self _ _)
          have hcl := c_string_length_le line
          have hdrop : strlen (List.drop (d + 1) (c_string line)) ≤
              (c_string line).length - (d + 1) := by
            rw [strlen_eq]
            exact (c_string_length_le _).trans (by simp)
          have hname : c_string name = List.take d (c_string line) := by
            simp only [strcmp_eq, beq_iff_eq] at hcmp
            rw [← hcmp]
            refine c_string_of_no_nul _ ?_
            intro x hx
            exact c_string_no_nul line x (List.mem_of_mem_take hx)
          rw [hname, List.length_take]
          simp only [HASH_LENGTH, MAX_RECORD, MAX_NAME] at hstr hline ⊢
          omega
      · rw [if_neg hcmp] at h
        exact ih hrest h

theorem account_login_success_length (SHA1 : List Nat → List Nat) (file name p : List Nat)
    (ct st : Nat) (h : account_login SHA1 file name p ct st = some LOGIN_SUCCESS) :
    (c_string name).length ≤ MAX_NAME - 1 := by
  simp only [account_login, and_then_eq] at h
  cases hf : find_account file name true with
  | none => rw [hf] at h; simp at h
  | some r =>
    cases r with
    | none =>
      rw [hf] at h
      simp [UNKNOWN_ACCOUNT, LOGIN_SUCCESS] at h
    | some r =>
      refine find_account_lines_found name r _ ?_ hf
      intro l hl
      exact fgets_all_chunk_length (MAX_RECORD - 1) (by decide) file [] (by decide) l hl

/-! ## Login -/

theorem read_next_bytes_loop_frame (c : Nat) :
    ∀ (d pre post out : List Nat) (b : packet_buffer_t),
      IsFrame b c (pre ++ (d ++ post)) → b.position = 4 + pre.length →
      read_next_bytes_loop d.length b out =
        some (out ++ d, { b with position := b.position + d.length }) := by
  intro d
  induction d with
  | nil => intro pre post out b _ _; simp [read_next_bytes_loop]
  | cons x d ih =>
    intro pre post out b h hp
    have h1 : IsFrame b c (pre ++ x :: (d ++ post)) := by simpa using h
    have h2 : IsFrame { b with position := b.position + 1 } c ((pre ++ [x]) ++ (d ++ post)) := by
      have := h.with_position (b.position + 1)
      simpa using this
    simp only [List.length_cons, read_next_bytes_loop, read_next_int8_frame h1 hp,
      Option.some_bind]
    rw [ih (pre ++ [x]) post (out ++ [x]) _ h2 (by simp [hp]; omega)]
    simp only [List.append_assoc, List.singleton_append, Option.some.injEq, Prod.mk.injEq,
      true_and]
    congr 1
    omega

theorem read_next_bytes_frame {b : packet_buffer_t} {c : Nat} (d post : List Nat)
    (h : IsFrame b c (d ++ post)) (hp : b.position = 4) (hd : d.length < 65536)
    (hpost : post ≠ []) :
    read_next_bytes b d.length =
      some (d, { b with position := b.position + d.length }) := by
  have hpos : 0 < post.length := List.length_pos.mpr hpost
  have hlt : b.position + d.length < 4 + (d ++ post).length := by
    rw [hp, List.length_append]
    omega
  have hcan : can_read_bytes b d.length = some true := by
    simp only [can_read_bytes, Option.bind_eq_bind, Option.pure_def, Nat.mod_eq_of_lt hd,
      assert, h.valid, if_true, Option.some_bind, h.get_length, hlt, decide_True]
  have hloop := read_next_bytes_loop_frame c d [] post [] b (by simpa using h)
    (by simpa using hp)
  rw [List.nil_append] at hloop
  rw [← hloop]
  simp only [read_next_bytes, Option.bind_eq_bind, Nat.mod_eq_of_lt hd, assert, h.valid,
    if_true, Option.some_bind, hcan]

theorem ntstring_char_ne_zero {x : Nat} (h : x ≠ 0) : ntstring_char x ≠ 0 := by
  simp only [ntstring_char]
  split
  · exact h
  · decide

theorem ntstring_char_lt (x : Nat) : ntstring_char x < 256 := by
  simp only [ntstring_char]
  split
  · rename_i hx
    rcases hx with hx | hx <;> omega
  · decide

theorem ntstring_text (s : List Nat) (hs : ∀ x ∈ s, x ≠ 0) :
    ∀ x ∈ s.map ntstring_char, x ≠ 0 ∧ x < 256 := by
  intro x hx
  obtain ⟨y, hy, rfl⟩ := List.mem_map.mp hx
  exact ⟨ntstring_char_ne_zero (hs y hy), ntstring_char_lt y⟩

/-- The reads of `process_SID_LOGIN` and `process_SID_CREATE` on a well-formed payload. -/
theorem login_reads {b : packet_buffer_t} {c : Nat} (proof name post : List Nat)
    (h : IsFrame b c (proof ++ (name ++ 0 :: post))) (hp : b.position = 4)
    (hproof : proof.length = 20) (hname : ∀ x ∈ name, x ≠ 0) :
    ∃ len b1 b2 out, get_length b = some len ∧ read_next_bytes b 20 = some (proof, b1) ∧
      get_length b1 = some len ∧ read_next_ntstring b1 (len + 65536 - 1) = some (out, b2) ∧
      c_string out = name.map ntstring_char := by
  have hlen := h.length_bound
  simp only [List.length_append, List.length_cons, hproof] at hlen
  have r1 := read_next_bytes_frame proof (name ++ 0 :: post) h hp (by omega) (by simp)
  rw [hproof] at r1
  have hb1 := h.with_position (b.position + 20)
  have r2 := read_next_ntstring_whole proof name post hb1 (by simp [hp, hproof]) hname
    ((4 + (proof ++ (name ++ 0 :: post)).length + 65536 - 1) % 65536)
    (Nat.mod_lt _ (by decide))
    (by simp only [List.length_append, List.length_cons, hproof]; omega)
  refine ⟨_, _, _, _, h.get_length, r1, hb1.get_length,
    (read_next_ntstring_mod _ _).trans r2, ?_⟩
  · rw [show name.map ntstring_char ++ [0, 0] = name.map ntstring_char ++ 0 :: [0] by rfl]
    exact c_string_terminated _ _ (fun x hx => (ntstring_text name hname x hx).1)

/-- The response of `process_SID_LOGIN` and `process_SID_CREATE`. -/
theorem response_packet (code status : Nat) (name : List Nat) (hc : code < 256)
    (hn : ∀ x ∈ name, x ≠ 0 ∧ x < 256) (hl : name.length + 9 ≤ MAX_PACKET) :
    ∃ r0 r1 r2, create_buffer code = some r0 ∧ add_int32 r0 status = some r1 ∧
      add_ntstring r1 name = some r2 ∧
      IsFrame r2 code (le_bytes 4 status ++ name ++ [0]) := by
  obtain ⟨r0, e0, f0, -⟩ := create_buffer_frame code hc
  obtain ⟨r1, e1, f1, -⟩ := add_int32_frame f0 status (by simp [MAX_PACKET])
  obtain ⟨r2, e2, f2, -⟩ := add_ntstring_frame f1 name hn (by simp; omega)
  refine ⟨r0, r1, r2, e0, e1, e2, ?_⟩
  simpa [le_bytes_w32] using f2

theorem users_index_lt {st : server_t} {user : Nat} {u : user_t}
    (hu : st.users[user]? = some u) : user < st.users.length := by
  by_contra hn
  rw [List.getElem?_eq_none (by omega)] at hu
  exact absurd hu (by simp)

/-- What `process_SID_LOGIN` does with a well-formed Login, given the status that the lookup
in `old_users` and `account_login` produce. -/
theorem process_SID_LOGIN_eq (SHA1 : List Nat → List Nat) {b : packet_buffer_t} {c : Nat}
    (st : server_t) (user : Nat) (u : user_t) (proof name post : List Nat) (status : Nat)
    (hu : st.users[user]? = some u) (hs : u.state = user_states_t.SENT_CLIENT_INFORMATION)
    (h : IsFrame b c (proof ++ (name ++ 0 :: post))) (hp : b.position = 4)
    (hproof : proof.length = 20) (hname : ∀ x ∈ name, x ≠ 0)
    (hl : name.length + 9 ≤ MAX_PACKET)
    (hstatus : (match table_find st.old_users (name.map ntstring_char) with
      | some _ => some ACCOUNT_IN_USE
      | none => account_login SHA1 st.accounts (name.map ntstring_char) proof
          (u.client_token % 4294967296) (u.server_token % 4294967296)) = some status) :
    process_SID_LOGIN SHA1 st user b =
      some (if status = LOGIN_SUCCESS then
        { st with
          users := st.users.set user
            { u with username := (name.map ntstring_char).take (MAX_NAME - 1),
                     state := user_states_t.NOT_IN_CHANNEL },
          new_users := (list_remove_value st.new_users user).2,
          old_users := table_add st.old_users ((name.map ntstring_char).take (MAX_NAME - 1))
            user,
          sent := st.sent ++ [(u.socket, frame_bytes SID_LOGIN_RESPONSE
            (le_bytes 4 status ++ name.map ntstring_char ++ [0]))] }
      else
        { st with sent := st.sent ++ [(u.socket, frame_bytes SID_LOGIN_RESPONSE
            (le_bytes 4 status ++ name.map ntstring_char ++ [0]))] }) := by
  obtain ⟨len, b1, b2, out, e0, e1, e2, e3, e4⟩ := login_reads proof name post h hp hproof hname
  have htext := ntstring_text name hname
  obtain ⟨r0, r1, r2, c0, c1, c2, f2⟩ := response_packet SID_LOGIN_RESPONSE status
    (name.map ntstring_char) (by decide) htext (by simpa using hl)
  obtain ⟨d1, hd1⟩ := destroy_buffer_frame f2
  have hlt := users_index_lt hu
  have hcs : c_string (name.map ntstring_char) = name.map ntstring_char :=
    c_string_of_no_nul _ (fun x hx => (htext x hx).1)
  have hfinish : ∀ st1 : server_t, st1 = st →
      ((create_buffer SID_LOGIN_RESPONSE).bind fun a_1 =>
        (add_int32 a_1 status).bind fun a_2 =>
          (add_ntstring a_2 (List.map ntstring_char name)).bind fun a_3 =>
            (get_socket st1 user).bind fun a_4 =>
              (socket_send st1 a_3 a_4).bind fun a_5 =>
                (destroy_buffer a_3).bind fun _ =>
                  if status = LOGIN_SUCCESS then
                    (set_username a_5 user (List.map ntstring_char name)).bind fun st =>
                      (set_user_state st user user_states_t.NOT_IN_CHANNEL).bind fun st =>
                        (get_username
                          { st with new_users := (list_remove_value st.new_users user).2 }
                          user).bind fun name =>
                          some { st with
                            new_users := (list_remove_value st.new_users user).2,
                            old_users := table_add st.old_users name user }
                  else some a_5) =
      some (if status = LOGIN_SUCCESS then
        { st with
          users := st.users.set user
            { u with username := (name.map ntstring_char).take (MAX_NAME - 1),
                     state := user_states_t.NOT_IN_CHANNEL },
          new_users := (list_remove_value st.new_users user).2,
          old_users := table_add st.old_users ((name.map ntstring_char).take (MAX_NAME - 1))
            user,
          sent := st.sent ++ [(u.socket, frame_bytes SID_LOGIN_RESPONSE
            (le_bytes 4 status ++ name.map ntstring_char ++ [0]))] }
      else
        { st with sent := st.sent ++ [(u.socket, frame_bytes SID_LOGIN_RESPONSE
            (le_bytes 4 status ++ name.map ntstring_char ++ [0]))] }) := by
    intro st1 hst1
    subst hst1
    simp only [Option.some_bind, c0, c1, c2, get_socket_of hu, socket_send_frame f2, hd1]
    by_cases hsucc : status = LOGIN_SUCCESS
    · simp only [hsucc, if_true, set_username, set_user_state, store_user, get_username, hu,
        Option.map_some', Option.some_bind, List.getElem?_set_self hlt, List.set_set, hcs]
    · simp only [hsucc, if_false]
  simp only [process_SID_LOGIN, and_then_eq, get_user_state_of hu, hs, Option.some_bind,
    ne_eq, not_true_eq_false, if_false, e0, e1, e2, e3, e4, exec_pure]
  cases hfind : table_find st.old_users (name.map ntstring_char) with
  | some q =>
    rw [hfind] at hstatus
    have h3 : status = ACCOUNT_IN_USE := (Option.some.inj hstatus).symm
    simp only [Option.some_bind, ← h3]
    exact hfinish st rfl
  | none =>
    rw [hfind] at hstatus
    replace hstatus : account_login SHA1 st.accounts (name.map ntstring_char) proof
        (u.client_token % 4294967296) (u.server_token % 4294967296) = some status := hstatus
    simp only [get_client_token_of hu, get_server_token_of hu, Option.some_bind, hstatus]
    exact hfinish st rfl

theorem table_add_absent {V : Type} (t : table_t V) (key : List Nat) (v : V)
    (h : table_find t key = none) : table_add t key v = t ++ [(c_string key, v)] := by
  induction t with
  | nil => rfl
  | cons node rest ih =>
    simp only [table_find] at h
    split at h
    · exact absurd h (by simp)
    · rename_i hne
      have hne1 : ¬ strcmp_eq key node.1 = true := by
        intro hc
        apply hne
        simp only [strcmp_eq, beq_iff_eq] at hc ⊢
        exact hc.symm
      simp only [table_add, hne1, Bool.false_eq_true, if_false, List.cons_append, ih h]

theorem sample_login_buffer_frame :
    IsFrame sample_login_buffer SID_LOGIN
      (encoding [Field.bytes ((password_hash_second sample_hash (List.replicate 20 0xAB)
        0x1111 1234).getD []), Field.ntstring (str "alice")]) :=
  IsFrame.of_split [] rfl (by decide) (by decide) (by decide) (by decide) (by decide)

/-! ## Chat events -/

theorem chatevent_packet_frame (subtype : Nat) (name text : List Nat)
    (hl : strlen name + strlen text + 10 ≤ MAX_PACKET) :
    ∃ b, chatevent_packet subtype name text = some b ∧
      IsFrame b SID_CHATEVENT (le_bytes 4 subtype ++ ntstring_bytes name ++ ntstring_bytes text) := by
  simp only [strlen_eq] at hl
  obtain ⟨b0, e0, f0, -⟩ := create_buffer_frame SID_CHATEVENT (by decide)
  obtain ⟨b1, e1, f1, -⟩ := add_int32_frame f0 subtype (by simp [MAX_PACKET])
  obtain ⟨b2, e2, f2, -⟩ := add_ntstring_general f1 name (by simp; omega)
  obtain ⟨b3, e3, f3, -⟩ := add_ntstring_general f2 text (by simp; omega)
  refine ⟨b3, ?_, ?_⟩
  · simp only [chatevent_packet, and_then_eq, e0, Option.some_bind, e1, e2, e3]
  · simpa [le_bytes_w32, ntstring_bytes] using f3

theorem send_chat_eq (st : server_t) (subtype : Nat) (dest sender text : List Nat) (t : Nat)
    (x : user_t) (hfind : table_find st.old_users dest = some t)
    (hx : st.users[t]? = some x) (hl : strlen sender + strlen text + 10 ≤ MAX_PACKET) :
    send_chat st subtype dest sender text =
      some (true, { st with
        sent := st.sent ++ [(x.socket, chatevent_frame subtype sender text)] }) := by
  obtain ⟨b, eb, fb⟩ := chatevent_packet_frame subtype sender text hl
  obtain ⟨d, hd⟩ := destroy_buffer_frame fb
  simp only [send_chat, hfind, and_then_eq, eb, Option.some_bind, get_socket_of hx,
    socket_send_frame fb, hd, exec_pure, chatevent_frame]

theorem send_chat_absent (st : server_t) (subtype : Nat) (dest sender text : List Nat)
    (hfind : table_find st.old_users dest = none) :
    send_chat st subtype dest sender text = some (false, st) := by
  simp only [send_chat, hfind]

theorem send_chat_self_eq (st : server_t) (subtype user : Nat) (text : List Nat) (u x : user_t)
    (t : Nat) (hu : st.users[user]? = some u)
    (hfind : table_find st.old_users u.username = some t) (hx : st.users[t]? = some x)
    (hl : strlen u.username + strlen text + 10 ≤ MAX_PACKET) :
    send_chat_self st subtype user text =
      some { st with
        sent := st.sent ++ [(x.socket, chatevent_frame subtype u.username text)] } := by
  simp only [send_chat_self, and_then_eq, get_username_of hu, Option.some_bind,
    send_chat_eq st subtype u.username u.username text t x hfind hx hl, exec_pure]

/-- A packet sent to each user of a list. -/
theorem for_each_send {b : packet_buffer_t} {c : Nat} {pl : List Nat} (h : IsFrame b c pl) :
    ∀ (users : List Nat) (st : server_t), (∀ m ∈ users, m < st.users.length) →
      for_each (fun user st => (get_socket st user).bind (socket_send st b)) users st =
        some { st with
          sent := st.sent ++ (sockets_of st users).map (fun s => (s, frame_bytes c pl)) } := by
  intro users
  induction users with
  | nil => intro st _; simp [for_each, sockets_of]
  | cons m users ih =>
    intro st hv
    have hm : m < st.users.length := hv m (List.mem_cons_self _ _)
    have hget : get_socket st m = some (st.users[m]).socket := by
      simp [get_socket, List.getElem?_eq_getElem hm]
    have hstep : (fun user st => (get_socket st user).bind (socket_send st b)) m st =
        some { st with sent := st.sent ++ [((st.users[m]).socket, frame_bytes c pl)] } := by
      simp only [hget, Option.some_bind, socket_send_frame h]
    show ((fun user st => (get_socket st user).bind (socket_send st b)) m st).bind
      (for_each (fun user st => (get_socket st user).bind (socket_send st b)) users) = _
    rw [hstep, Option.some_bind]
    refine (ih _ ?_).trans ?_
    · exact fun k hk => hv k (List.mem_cons_of_mem _ hk)
    · simp [sockets_of, get_socket, List.getElem?_eq_getElem hm]
      rfl

theorem room_message_eq (st : server_t) (room subtype : Nat) (sender text : List Nat)
    (r : room_t) (hr : st.room_heap[room]? = some r)
    (hv : ∀ m ∈ get_values r.users, m < st.users.length)
    (hl : strlen sender + strlen text + 10 ≤ MAX_PACKET) :
    room_message st room subtype sender text =
      some { st with
        sent := st.sent ++ (sockets_of st (get_values r.users)).map
          (fun s => (s, chatevent_frame subtype sender text)) } := by
  obtain ⟨b, eb, fb⟩ := chatevent_packet_frame subtype sender text hl
  obtain ⟨d, hd⟩ := destroy_buffer_frame fb
  simp only [room_message, and_then_eq, hr, Option.some_bind, eb, for_each_send fb _ st hv, hd,
    exec_pure, chatevent_frame]

/-! ## `process_SID_CHATCOMMAND` -/

theorem chatcommand_read {b : packet_buffer_t} {c : Nat} (text post : List Nat)
    (h : IsFrame b c (text ++ 0 :: post)) (hp : b.position = 4) (htext : ∀ x ∈ text, x ≠ 0) :
    ∃ len b2 out, get_length b = some len ∧ read_next_ntstring b len = some (out, b2) ∧
      c_string out = text.map ntstring_char := by
  have hlen := h.length_bound
  simp only [List.length_append, List.length_cons] at hlen
  have r := read_next_ntstring_whole [] text post (by simpa using h) (by simpa using hp) htext
    (4 + (text ++ 0 :: post).length) h.length_bound
    (by simp only [List.length_append, List.length_cons]; omega)
  refine ⟨_, _, _, h.get_length, r, ?_⟩
  rw [show text.map ntstring_char ++ [0, 0] = text.map ntstring_char ++ 0 :: [0] by rfl]
  exact c_string_terminated _ _ (fun x hx => (ntstring_text text htext x hx).1)

theorem get_user_room_of {st : server_t} {user : Nat} {u : user_t}
    (h : st.users[user]? = some u) : get_user_room st user = some u.room := by
  simp [get_user_room, h]

/-- The handler on a well-formed ChatCommand from an authenticated user: a command when the
text starts with `/`, a message for the room of the user when it does not. -/
theorem process_SID_CHATCOMMAND_eq {b : packet_buffer_t} {c : Nat} (st : server_t) (user : Nat)
    (u : user_t) (text post : List Nat) (hu : st.users[user]? = some u)
    (hs : u.state = user_states_t.NOT_IN_CHANNEL ∨ u.state = user_states_t.JOINED_CHANNEL)
    (h : IsFrame b c (text ++ 0 :: post)) (hp : b.position = 4) (htext : ∀ x ∈ text, x ≠ 0) :
    process_SID_CHATCOMMAND st user b =
      if (text.map ntstring_char).head? = some 0x2F then
        run_command st user (command_words (text.map ntstring_char)).1
          (command_words (text.map ntstring_char)).2
      else
        match u.room with
        | none => send_chat_self st EID_ERROR user
            (str "You can only send chat if you're in a room")
        | some room => (table_find st.rooms room).bind (fun target =>
            room_message st target EID_TALK u.username (text.map ntstring_char)) := by
  obtain ⟨len, b2, out, e0, e1, e2⟩ := chatcommand_read text post h hp htext
  have hstate : ¬ (u.state ≠ user_states_t.JOINED_CHANNEL ∧
      u.state ≠ user_states_t.NOT_IN_CHANNEL) := by
    rcases hs with h1 | h1 <;> rw [h1] <;> decide
  simp only [process_SID_CHATCOMMAND, and_then_eq, get_user_state_of hu, Option.some_bind,
    hstate, if_false, get_user_room_of hu, e0, e1, e2]
  by_cases hslash : (text.map ntstring_char).head? = some 0x2F
  · simp only [hslash, if_true, run_command, command_words]
  · simp only [hslash, if_false]
    cases u.room with
    | none => rfl
    | some room =>
      simp only [and_then_eq, get_username_of hu, Option.some_bind]

/-! ## Cutting a message into words -/

theorem c_string_append (a l : List Nat) (ha : ∀ x ∈ a, x ≠ 0) :
    c_string (a ++ l) = a ++ c_string l := by
  induction a with
  | nil => rfl
  | cons x a ih =>
    have hx : x ≠ 0 := ha x (List.mem_cons_self _ _)
    have e : c_string (x :: (a ++ l)) = x :: c_string (a ++ l) := by
      simp [c_string, List.takeWhile_cons, hx]
    rw [List.cons_append, e, ih (fun y hy => ha y (List.mem_cons_of_mem _ hy))]
    rfl

theorem strchr_split (a b : List Nat) (c : Nat) (hc : c ∉ a) (ha : ∀ x ∈ a, x ≠ 0)
    (hc0 : c ≠ 0) : strchr (a ++ c :: b) c = some a.length := by
  have e : c_string (a ++ c :: b) = a ++ c :: c_string b := by
    rw [c_string_append a _ ha]
    congr 1
    simp [c_string, List.takeWhile_cons, hc0]
  simp only [strchr, e, indexOf_after a _ c hc]
  rw [if_pos (by simp)]

theorem map_ntstring_char_printable (s : List Nat) (h : ∀ x ∈ s, 0x20 ≤ x ∧ x ≤ 0x7E) :
    s.map ntstring_char = s := by
  induction s with
  | nil => rfl
  | cons x s ih =>
    rw [List.map_cons, ih (fun y hy => h y (List.mem_cons_of_mem _ hy)),
      ntstring_char_printable x (h x (List.mem_cons_self _ _))]

theorem command_words_split (cmd param : List Nat) (hc : 0x20 ∉ cmd)
    (hn : ∀ x ∈ cmd, x ≠ 0) :
    command_words (0x2F :: (cmd ++ 0x20 :: param)) = (cmd, param) := by
  simp only [command_words, List.drop_succ_cons, List.drop_zero,
    strchr_split cmd param 0x20 hc hn (by decide)]
  have hd : (cmd ++ 0x20 :: param).drop (cmd.length + 1) = param := by
    rw [show cmd ++ 0x20 :: param = (cmd ++ [0x20]) ++ param by simp]
    exact List.drop_left' (by simp)
  rw [List.take_left' rfl, hd]

theorem command_words_single (cmd : List Nat) (hc : 0x20 ∉ c_string cmd) :
    command_words (0x2F :: cmd) = (cmd, str "") := by
  simp only [command_words, List.drop_succ_cons, List.drop_zero,
    (strchr_none_iff cmd 0x20).mpr hc]

/-- `process_command_w` when the user named is not logged in. -/
theorem process_command_w_absent (st : server_t) (user : Nat) (target msg : List Nat)
    (ht : 0x20 ∉ target) (hn : ∀ x ∈ target, x ≠ 0) (hm : ∀ x ∈ msg, x ≠ 0)
    (habsent : table_find st.old_users target = none) :
    process_command_w st user (target ++ 0x20 :: msg) =
      send_chat_self st EID_ERROR user (str "User not logged on") := by
  have hparam : c_string (target ++ 0x20 :: msg) = target ++ 0x20 :: msg := by
    refine c_string_of_no_nul _ ?_
    intro x hx
    rcases List.mem_append.mp hx with h | h
    · exact hn x h
    · rcases List.mem_cons.mp h with h | h
      · rw [h]; decide
      · exact hm x h
  simp only [process_command_w, strchr_split target msg 0x20 ht hn (by decide), hparam,
    List.take_left' rfl, habsent]

/-! ## `process_command_join` in parts -/

theorem and_then_some {α β : Type} (a : α) (f : α → Option β) : and_then (some a) f = f a := rfl
theorem and_then_none {α β : Type} (f : α → Option β) : and_then none f = none := rfl
theorem process_command_join_eq (st : server_t) (user : Nat) (param : List Nat) :
    process_command_join st user param =
      if strcasecmp_eq param (str "backstage") then
        send_chat_self st EID_ERROR user (str "Sorry, that room is restricted")
      else if strlen param > 0 ∧ strlen param < MIN_ROOM_LENGTH then
        send_chat_self st EID_ERROR user (str "Sorry, the name of that room is too short")
      else if strlen param ≥ MAX_ROOM_LENGTH then
        send_chat_self st EID_ERROR user (str "Sorry, the name of that room is too long")
      else (join_leave st user).bind (fun st =>
        if strlen param = 0 then join_nowhere st user
        else (join_find st user param).bind (fun r => join_enter r.1 user param r.2)) := by
  unfold process_command_join
  split
  · rfl
  split
  · rfl
  split
  · rfl
  unfold join_leave
  cases get_user_room st user with
  | none => rfl
  | some room =>
    show (and_then _ _) = Option.bind (and_then _ _) _
    rw [and_then_some, and_then_some]
    dsimp only
    cases room.bind (table_find st.rooms) with
    | none =>
      dsimp only
      show (and_then (some st) _) = Option.bind (some st) _
      rw [and_then_some, Option.some_bind]
      split
      · rfl
      · unfold join_find
        cases table_find st.rooms param with
        | some r => rfl
        | none =>
          dsimp only
          show (and_then _ _) = Option.bind (and_then _ _) _
          cases send_chat_self st EID_INFO user (str "Creating new channel for you") with
          | none => rfl
          | some s => rfl
    | some old =>
      dsimp only
      show (and_then _ _) = Option.bind (and_then _ _) _
      cases room_remove_user st old user with
      | none => rfl
      | some s1 =>
        rw [and_then_some, and_then_some]
        cases get_username s1 user with
        | none => rfl
        | some name =>
          show (and_then _ _) = Option.bind (and_then _ _) _
          rw [and_then_some, and_then_some]
          cases room_message s1 old EID_USER_LEAVE_CHANNEL name (str "") with
          | none => rfl
          | some s2 =>
            show (and_then _ _) = Option.bind (some s2) _
            rw [and_then_some, Option.some_bind]
            split
            · rfl
            · unfold join_find
              cases table_find s2.rooms param with
              | some r => rfl
              | none =>
                dsimp only
                show (and_then _ _) = Option.bind (and_then _ _) _
                cases send_chat_self s2 EID_INFO user (str "Creating new channel for you") with
                | none => rfl
                | some s => rfl

/-! ## The parts of `process_command_join`, exactly -/

theorem valid_members_lt {st : server_t} {members : List Nat} (h : valid_members st members) :
    ∀ m ∈ members, m < st.users.length := by
  intro m hm
  obtain ⟨x, hx, -⟩ := h m hm
  exact users_index_lt hx

theorem room_remove_user_of {st : server_t} {room user : Nat} {r : room_t} {u : user_t}
    (hr : st.room_heap[room]? = some r) (hu : st.users[user]? = some u) :
    room_remove_user st room user =
      some (store_room st room { r with users := (table_remove r.users u.username).2 }) := by
  simp only [room_remove_user, and_then_eq, hr, Option.some_bind, get_username_of hu, exec_pure]

theorem room_add_user_of {st : server_t} {room user : Nat} {r : room_t} {u : user_t}
    (hr : st.room_heap[room]? = some r) (hu : st.users[user]? = some u) :
    room_add_user st room user =
      some (store_room st room { r with users := table_add r.users u.username user }) := by
  simp only [room_add_user, and_then_eq, hr, Option.some_bind, get_username_of hu, exec_pure]

theorem set_user_room_of {st : server_t} {user : Nat} {u : user_t}
    (h : st.users[user]? = some u) (room : Option (List Nat)) :
    set_user_room st user room = some (store_user st user { u with room := room.map c_string }) := by
  simp [set_user_room, h]

theorem heap_index_lt {st : server_t} {room : Nat} {r : room_t}
    (hr : st.room_heap[room]? = some r) : room < st.room_heap.length := by
  by_contra hn
  rw [List.getElem?_eq_none (by omega)] at hr
  exact absurd hr (by simp)

theorem join_leave_none (st : server_t) (user : Nat) (u : user_t)
    (hu : st.users[user]? = some u) (hold : u.room.bind (table_find st.rooms) = none) :
    join_leave st user = some st := by
  simp only [join_leave, and_then_eq, get_user_room_of hu, Option.some_bind, hold, exec_pure]

theorem join_leave_some (st : server_t) (user : Nat) (u : user_t) (y : Nat) (ry : room_t)
    (hu : st.users[user]? = some u) (hold : u.room.bind (table_find st.rooms) = some y)
    (hy : st.room_heap[y]? = some ry)
    (hv : ∀ m ∈ get_values (table_remove ry.users u.username).2, m < st.users.length)
    (hl : strlen u.username < MAX_NAME) :
    join_leave st user =
      some { st with
        room_heap := st.room_heap.set y
          { ry with users := (table_remove ry.users u.username).2 },
        sent := st.sent ++ (sockets_of st (get_values (table_remove ry.users u.username).2)).map
          (fun s => (s, chatevent_frame EID_USER_LEAVE_CHANNEL u.username (str ""))) } := by
  have hlt := heap_index_lt hy
  have hu1 : (store_room st y { ry with users := (table_remove ry.users u.username).2 }).users[
      user]? = some u := hu
  have hy1 : (store_room st y { ry with users := (table_remove ry.users u.username).2
      }).room_heap[y]? = some { ry with users := (table_remove ry.users u.username).2 } := by
    simp [store_room, List.getElem?_set_self hlt]
  simp only [MAX_NAME] at hl
  simp only [join_leave, and_then_eq, get_user_room_of hu, Option.some_bind, hold,
    room_remove_user_of hy hu, get_username_of hu1]
  rw [room_message_eq _ y _ _ _ _ hy1 hv (by simp [strlen, str, MAX_PACKET] at hl ⊢; omega)]
  rfl

theorem for_each_in_channel (s : Nat) :
    ∀ (members : List Nat) (st : server_t), valid_members st members →
      for_each (fun user st => do
          let name ← get_username st user
          let packet ← chatevent_packet EID_USER_IN_CHANNEL name (str "")
          let st ← socket_send st packet s
          let _ ← destroy_buffer packet
          pure st) members st =
        some { st with
          sent := st.sent ++ (usernames_of st members).map
            (fun n => (s, chatevent_frame EID_USER_IN_CHANNEL n (str ""))) } := by
  intro members
  induction members with
  | nil => intro st _; simp [for_each, usernames_of]
  | cons m members ih =>
    intro st hv
    obtain ⟨x, hx, hl⟩ := hv m (List.mem_cons_self _ _)
    simp only [MAX_NAME] at hl
    obtain ⟨b, eb, fb⟩ := chatevent_packet_frame EID_USER_IN_CHANNEL x.username (str "")
      (by simp [strlen, str, MAX_PACKET] at hl ⊢; omega)
    obtain ⟨d, hd⟩ := destroy_buffer_frame fb
    have hstep : (fun user st => do
          let name ← get_username st user
          let packet ← chatevent_packet EID_USER_IN_CHANNEL name (str "")
          let st ← socket_send st packet s
          let _ ← destroy_buffer packet
          pure st) m st =
        some { st with sent := st.sent ++
          [(s, chatevent_frame EID_USER_IN_CHANNEL x.username (str ""))] } := by
      simp only [and_then_eq, get_username_of hx, Option.some_bind, eb, socket_send_frame fb, hd,
        exec_pure, chatevent_frame]
    show Option.bind ((fun user st => do
          let name ← get_username st user
          let packet ← chatevent_packet EID_USER_IN_CHANNEL name (str "")
          let st ← socket_send st packet s
          let _ ← destroy_buffer packet
          pure st) m st) (for_each _ members) = _
    rw [hstep, Option.some_bind]
    refine (ih _ ?_).trans ?_
    · exact fun k hk => hv k (List.mem_cons_of_mem _ hk)
    · have hn : get_username st m = some x.username := get_username_of hx
      simp only [usernames_of, List.filterMap_cons, hn, List.map_cons, List.append_assoc,
        List.singleton_append]
      rfl

theorem room_send_users_in_channel_eq (st : server_t) (room s : Nat) (r : room_t)
    (hr : st.room_heap[room]? = some r) (hv : valid_members st (get_values r.users)) :
    room_send_users_in_channel st room s =
      some { st with
        sent := st.sent ++ (usernames_of st (get_values r.users)).map
          (fun n => (s, chatevent_frame EID_USER_IN_CHANNEL n (str ""))) } := by
  unfold room_send_users_in_channel
  show and_then (st.room_heap[room]?) _ = _
  rw [hr, and_then_some]
  exact for_each_in_channel s _ st hv

theorem join_nowhere_eq (st : server_t) (user : Nat) (u : user_t)
    (hu : st.users[user]? = some u) (hreg : table_find st.old_users u.username = some user)
    (hl : strlen u.username < MAX_NAME) :
    join_nowhere st user =
      some { st with
        users := st.users.set user
          { u with state := user_states_t.NOT_IN_CHANNEL, room := none },
        sent := st.sent ++ [(u.socket, chatevent_frame EID_INFO u.username (str "Leaving chat")),
          (u.socket, chatevent_frame EID_CHANNEL u.username (str ""))] } := by
  have hlt := users_index_lt hu
  simp only [MAX_NAME] at hl
  have e1 := send_chat_self_eq st EID_INFO user (str "Leaving chat") u u user hu hreg hu
    (by simp [strlen, str, MAX_PACKET] at hl ⊢; omega)
  have e2 := send_chat_self_eq { st with sent := st.sent ++
      [(u.socket, chatevent_frame EID_INFO u.username (str "Leaving chat"))] }
    EID_CHANNEL user (str "") u u user hu hreg hu
    (by simp [strlen, str, MAX_PACKET] at hl ⊢; omega)
  simp only [join_nowhere, and_then_eq, e1, Option.some_bind, e2]
  simp only [set_user_state, set_user_room, store_user, hu, Option.map_some', Option.some_bind,
    List.getElem?_set_self hlt, List.set_set, Option.map_none', List.append_assoc,
    List.singleton_append]

theorem join_find_some (st : server_t) (user : Nat) (param : List Nat) (r : Nat)
    (hfind : table_find st.rooms param = some r) :
    join_find st user param = some (st, r) := by
  simp only [join_find, hfind, exec_pure]

theorem join_find_none (st : server_t) (user : Nat) (u : user_t) (param : List Nat)
    (hu : st.users[user]? = some u) (hreg : table_find st.old_users u.username = some user)
    (hl : strlen u.username < MAX_NAME) (hfind : table_find st.rooms param = none) :
    join_find st user param =
      some ({ st with
        room_heap := st.room_heap ++ [room_create param],
        rooms := st.rooms ++ [(c_string param, st.room_heap.length)],
        sent := st.sent ++ [(u.socket, chatevent_frame EID_INFO u.username
          (str "Creating new channel for you"))] }, st.room_heap.length) := by
  simp only [MAX_NAME] at hl
  have e1 := send_chat_self_eq st EID_INFO user (str "Creating new channel for you") u u user
    hu hreg hu (by simp [strlen, str, MAX_PACKET] at hl ⊢; omega)
  simp only [join_find, hfind, and_then_eq, e1, Option.some_bind, exec_pure,
    table_add_absent _ _ _ hfind]

theorem get_values_table_add {V : Type} (t : table_t V) (k : List Nat) (v : V) :
    ∀ m ∈ get_values (table_add t k v), m ∈ get_values t ∨ m = v := by
  induction t with
  | nil =>
    intro m hm
    simp only [table_add, get_values, List.map_cons, List.map_nil, List.mem_singleton] at hm
    exact Or.inr hm
  | cons node rest ih =>
    intro m hm
    simp only [table_add] at hm
    split at hm
    · simp only [get_values, List.map_cons, List.mem_cons] at hm ⊢
      rcases hm with h | h
      · exact Or.inr h
      · exact Or.inl (Or.inr h)
    · simp only [get_values, List.map_cons, List.mem_cons] at hm ⊢
      rcases hm with h | h
      · exact Or.inl (Or.inl h)
      · rcases ih m h with h1 | h1
        · exact Or.inl (Or.inr h1)
        · exact Or.inr h1

theorem sockets_of_congr (st st1 : server_t) (members : List Nat)
    (h : ∀ m, get_socket st1 m = get_socket st m) :
    sockets_of st1 members = sockets_of st members := by
  simp only [sockets_of]
  congr 1
  funext m
  exact h m

theorem get_socket_set (st : server_t) (user : Nat) (u v : user_t)
    (hu : st.users[user]? = some u) (hs : v.socket = u.socket) (users : List user_t)
    (hset : users = st.users.set user v) (m : Nat) :
    (users[m]?).map (fun x => x.socket) = get_socket st m := by
  subst hset
  simp only [get_socket, List.getElem?_set]
  split
  · rename_i hm
    subst hm
    split
    · simp [hu, hs]
    · rename_i hlt
      rw [List.getElem?_eq_none (by omega)]
  · rfl

/-- The part of `process_command_join` that enters a room, exactly. -/
theorem join_enter_eq (st : server_t) (user : Nat) (u : user_t) (param : List Nat)
    (room : Nat) (rr : room_t)
    (hu : st.users[user]? = some u) (hreg : table_find st.old_users u.username = some user)
    (hl : strlen u.username < MAX_NAME) (hp : strlen param < MAX_ROOM_LENGTH)
    (hr : st.room_heap[room]? = some rr) (hv : valid_members st (get_values rr.users)) :
    join_enter st user param room =
      some { st with
        users := st.users.set user
          { u with state := user_states_t.JOINED_CHANNEL, room := some (c_string param) },
        room_heap := st.room_heap.set room
          { rr with users := table_add rr.users u.username user },
        sent := st.sent ++
          ((u.socket, chatevent_frame EID_CHANNEL u.username param) ::
            (usernames_of st (get_values rr.users)).map
              (fun n => (u.socket, chatevent_frame EID_USER_IN_CHANNEL n (str "")))) ++
          (sockets_of st (get_values (table_add rr.users u.username user))).map
            (fun s => (s, chatevent_frame EID_USER_JOIN_CHANNEL u.username (str ""))) } := by
  have hlt := users_index_lt hu
  have hrlt := heap_index_lt hr
  simp only [MAX_NAME] at hl
  simp only [MAX_ROOM_LENGTH] at hp
  obtain ⟨log1, hlog1⟩ : ∃ log1, log1 =
      [(u.socket, chatevent_frame EID_CHANNEL u.username param)] := ⟨_, rfl⟩
  obtain ⟨st1, hst1⟩ : ∃ st1 : server_t, st1 = { st with sent := st.sent ++ log1 } :=
    ⟨_, rfl⟩
  have e1 : send_chat_self st EID_CHANNEL user param = some st1 := by
    rw [hst1, hlog1]
    exact send_chat_self_eq st EID_CHANNEL user param u u user hu hreg hu
      (by simp only [MAX_PACKET]; omega)
  have hu1 : st1.users[user]? = some u := by rw [hst1]; exact hu
  have hr1 : st1.room_heap[room]? = some rr := by rw [hst1]; exact hr
  have hv1 : valid_members st1 (get_values rr.users) := by rw [hst1]; exact hv
  obtain ⟨log2, hlog2⟩ : ∃ log2, log2 = (usernames_of st1 (get_values rr.users)).map
      (fun n => (u.socket, chatevent_frame EID_USER_IN_CHANNEL n (str ""))) := ⟨_, rfl⟩
  obtain ⟨st2, hst2⟩ : ∃ st2 : server_t, st2 = { st1 with sent := st1.sent ++ log2 } :=
    ⟨_, rfl⟩
  have e2 : room_send_users_in_channel st1 room u.socket = some st2 := by
    rw [hst2, hlog2]
    exact room_send_users_in_channel_eq st1 room u.socket rr hr1 hv1
  have hu2 : st2.users[user]? = some u := by rw [hst2]; exact hu1
  obtain ⟨u4, hu4def⟩ : ∃ u4 : user_t, u4 =
      { u with state := user_states_t.JOINED_CHANNEL, room := some (c_string param) } :=
    ⟨_, rfl⟩
  obtain ⟨st4, hst4⟩ : ∃ st4 : server_t, st4 = { st2 with users := st2.users.set user u4 } :=
    ⟨_, rfl⟩
  have e34 : (set_user_state st2 user user_states_t.JOINED_CHANNEL).bind
      (fun s => set_user_room s user (some param)) = some st4 := by
    have hlt2 : user < st2.users.length := users_index_lt hu2
    rw [hst4, hu4def]
    simp only [set_user_state, set_user_room, store_user, hu2, Option.map_some',
      Option.some_bind, List.getElem?_set_self hlt2, List.set_set]
  have hu4 : st4.users[user]? = some u4 := by
    rw [hst4]
    exact List.getElem?_set_self (users_index_lt hu2)
  have hname4 : u4.username = u.username := by rw [hu4def]
  have hr4 : st4.room_heap[room]? = some rr := by rw [hst4, hst2]; exact hr1
  obtain ⟨r5, hr5def⟩ : ∃ r5 : room_t, r5 =
      { rr with users := table_add rr.users u.username user } := ⟨_, rfl⟩
  obtain ⟨st5, hst5⟩ : ∃ st5 : server_t,
      st5 = { st4 with room_heap := st4.room_heap.set room r5 } := ⟨_, rfl⟩
  have e5 : room_add_user st4 room user = some st5 := by
    rw [hst5, hr5def, ← hname4]
    exact room_add_user_of hr4 hu4
  have hu5 : st5.users[user]? = some u4 := by rw [hst5]; exact hu4
  have hr5 : st5.room_heap[room]? = some r5 := by
    rw [hst5]
    exact List.getElem?_set_self (heap_index_lt hr4)
  have hr5u : r5.users = table_add rr.users u.username user := by rw [hr5def]
  have hlen5 : st5.users.length = st.users.length := by
    rw [hst5, hst4, hst2, hst1]
    simp
  have hv5 : ∀ m ∈ get_values (table_add rr.users u.username user), m < st5.users.length := by
    intro m hm
    rw [hlen5]
    rcases get_values_table_add _ _ _ m hm with h | h
    · exact valid_members_lt hv m h
    · rw [h]; exact hlt
  have e6 := room_message_eq st5 room EID_USER_JOIN_CHANNEL u.username (str "") _ hr5
    (by rw [hr5u]; exact hv5) (by simp [strlen, str, MAX_PACKET] at hl ⊢; omega)
  have hsock : sockets_of st5 (get_values (table_add rr.users u.username user)) =
      sockets_of st (get_values (table_add rr.users u.username user)) := by
    refine sockets_of_congr st st5 _ ?_
    intro m
    refine get_socket_set st user u u4 hu (by rw [hu4def]) st5.users ?_ m
    rw [hst5, hst4, hst2, hst1]
  have hnames : usernames_of st1 (get_values rr.users) = usernames_of st (get_values rr.users) := by
    rw [hst1]
    rfl
  have hbind : ∀ (k : server_t → Option server_t),
      (set_user_state st2 user user_states_t.JOINED_CHANNEL).bind
        (fun s => (set_user_room s user (some param)).bind k) = k st4 := by
    intro k
    have := congrArg (fun o => o.bind k) e34
    simpa [Option.bind_assoc] using this
  simp only [join_enter, and_then_eq, e1, Option.some_bind, get_socket_of hu1, e2, hbind, e5,
    get_username_of hu5, hname4, e6, hr5u, hsock]
  rw [hst5, hst4, hst2, hlog2, hnames, hst1, hlog1, hr5def, hu4def]
  simp

/-! ## `process_command_join` from its parts -/

theorem process_command_join_nowhere (st st1 : server_t) (user : Nat) (param : List Nat)
    (hempty : strlen param = 0) (hleave : join_leave st user = some st1) :
    process_command_join st user param = join_nowhere st1 user := by
  have hc : c_string param = [] := List.eq_nil_of_length_eq_zero hempty
  have hb : ¬ strcasecmp_eq param (str "backstage") = true := by
    simp only [strcasecmp_eq, hc]
    decide
  rw [process_command_join_eq, if_neg hb, if_neg (by omega),
    if_neg (by simp only [MAX_ROOM_LENGTH]; omega), hleave, Option.some_bind, if_pos hempty]

theorem process_command_join_enter (st st1 st2 : server_t) (user room : Nat)
    (param : List Nat) (hb : strcasecmp_eq param (str "backstage") = false)
    (h1 : 0 < strlen param) (h2 : strlen param < MAX_ROOM_LENGTH)
    (hleave : join_leave st user = some st1)
    (hfind : join_find st1 user param = some (st2, room)) :
    process_command_join st user param = join_enter st2 user param room := by
  rw [process_command_join_eq, if_neg (by simp [hb]),
    if_neg (by simp only [MIN_ROOM_LENGTH]; omega), if_neg (by omega), hleave,
    Option.some_bind, if_neg (by omega), hfind, Option.some_bind]

theorem table_find_absent {V : Type} (t : table_t V) (key : List Nat)
    (hk : ∀ k ∈ get_keys t, c_string k = k) (hnot : c_string key ∉ get_keys t) :
    table_find t key = none := by
  induction t with
  | nil => rfl
  | cons node rest ih =>
    have hne : ¬ strcmp_eq node.1 key = true := by
      intro hc
      apply hnot
      simp only [strcmp_eq, beq_iff_eq] at hc
      rw [← hc, hk node.1 (by simp [get_keys])]
      simp [get_keys]
    simp only [table_find, hne, Bool.false_eq_true, if_false]
    refine ih (fun k hm => hk k ?_) (fun hm => hnot ?_)
    · simp only [get_keys, List.map_cons, List.mem_cons] at hm ⊢
      exact Or.inr hm
    · simp only [get_keys, List.map_cons, List.mem_cons] at hm ⊢
      exact Or.inr hm

theorem table_remove_find {V : Type} (t : table_t V) (key : List Nat)
    (hn : (get_keys t).Nodup) (hk : ∀ k ∈ get_keys t, c_string k = k) :
    table_find (table_remove t key).2 key = none := by
  induction t with
  | nil => rfl
  | cons node rest ih =>
    simp only [get_keys, List.map_cons, List.nodup_cons] at hn
    have hk1 : ∀ k ∈ get_keys rest, c_string k = k := by
      intro k hm
      refine hk k ?_
      simp only [get_keys, List.map_cons, List.mem_cons] at hm ⊢
      exact Or.inr hm
    simp only [table_remove]
    split
    · rename_i heq
      have hnode : c_string key = node.1 := by
        simp only [strcmp_eq, beq_iff_eq] at heq
        rw [heq]
        exact hk node.1 (by simp [get_keys])
      refine table_find_absent rest key hk1 ?_
      rw [hnode]
      exact hn.1
    · rename_i hne
      have hcmp : ¬ strcmp_eq node.1 key = true := by
        intro hc
        apply hne
        simp only [strcmp_eq, beq_iff_eq] at hc ⊢
        exact hc.symm
      simp only [table_find, hcmp, Bool.false_eq_true, if_false]
      exact ih hn.2 hk1

theorem who_not_found (st : server_t) (user : Nat) (param : List Nat)
    (hp : strlen param ≠ 0)
    (hroom : table_find st.rooms param = none ∨
      ∃ y ry, table_find st.rooms param = some y ∧ st.room_heap[y]? = some ry ∧
        ry.users = []) :
    process_command_who st user param =
      send_chat_self st EID_ERROR user (str
        "Room not found.  If you were searching for a user, not a room, please use /whois <username>") := by
  rcases hroom with h | ⟨y, ry, h1, h2, h3⟩
  · simp only [process_command_who, hp, if_false, h]
  · simp only [process_command_who, hp, if_false, h1, and_then_eq, room_get_users, h2,
      Option.map_some', Option.some_bind, h3, get_values, List.map_nil, List.length_nil, if_true]

/-- Joining a room that exists, from the state `st1` that leaving the old room gives. -/
theorem join_existing (st st1 : server_t) (user : Nat) (u : user_t) (X : List Nat) (x : Nat)
    (rx : room_t) (hb : strcasecmp_eq X (str "backstage") = false)
    (h1 : 0 < strlen X) (h2 : strlen X < MAX_ROOM_LENGTH)
    (hleave : join_leave st user = some st1)
    (hu : st1.users[user]? = some u) (hreg : table_find st1.old_users u.username = some user)
    (hl : strlen u.username < MAX_NAME) (hfind : table_find st1.rooms X = some x)
    (hr : st1.room_heap[x]? = some rx) (hv : valid_members st1 (get_values rx.users)) :
    process_command_join st user X =
      some { st1 with
        users := st1.users.set user
          { u with state := user_states_t.JOINED_CHANNEL, room := some (c_string X) },
        room_heap := st1.room_heap.set x
          { rx with users := table_add rx.users u.username user },
        sent := st1.sent ++
          ((u.socket, chatevent_frame EID_CHANNEL u.username X) ::
            (usernames_of st1 (get_values rx.users)).map
              (fun n => (u.socket, chatevent_frame EID_USER_IN_CHANNEL n (str "")))) ++
          (sockets_of st1 (get_values (table_add rx.users u.username user))).map
            (fun s => (s, chatevent_frame EID_USER_JOIN_CHANNEL u.username (str ""))) } := by
  rw [process_command_join_enter st st1 st1 user x X hb h1 h2 hleave
    (join_find_some st1 user X x hfind)]
  exact join_enter_eq st1 user u X x rx hu hreg hl h2 hr hv

/-- Joining a room that does not exist yet, from the state `st1` that leaving the old room
gives. -/
theorem join_new (st st1 : server_t) (user : Nat) (u : user_t) (X : List Nat)
    (hb : strcasecmp_eq X (str "backstage") = false)
    (h1 : 0 < strlen X) (h2 : strlen X < MAX_ROOM_LENGTH)
    (hleave : join_leave st user = some st1)
    (hu : st1.users[user]? = some u) (hreg : table_find st1.old_users u.username = some user)
    (hl : strlen u.username < MAX_NAME) (hfind : table_find st1.rooms X = none) :
    process_command_join st user X =
      some { st1 with
        users := st1.users.set user
          { u with state := user_states_t.JOINED_CHANNEL, room := some (c_string X) },
        room_heap := st1.room_heap ++
          [{ users := [(c_string u.username, user)], name := c_string X,
             topic := str "No topic" }],
        rooms := st1.rooms ++ [(c_string X, st1.room_heap.length)],
        sent := st1.sent ++
          [(u.socket, chatevent_frame EID_INFO u.username (str "Creating new channel for you")),
            (u.socket, chatevent_frame EID_CHANNEL u.username X),
            (u.socket, chatevent_frame EID_USER_JOIN_CHANNEL u.username (str ""))] } := by
  rw [process_command_join_enter st st1 _ user _ X hb h1 h2 hleave
    (join_find_none st1 user u X hu hreg hl hfind)]
  have hname : (c_string X).take (MAX_ROOM_LENGTH - 1) = c_string X := by
    refine List.take_of_length_le ?_
    rw [← strlen_eq]
    omega
  refine (join_enter_eq _ user u X st1.room_heap.length (room_create X) ?_ ?_ hl h2 ?_ ?_).trans
    ?_
  · exact hu
  · exact hreg
  · simp
  · intro m hm
    simp [room_create, table_create, get_values] at hm
  · have hsock : get_socket st1 user = some u.socket := get_socket_of hu
    simp [room_create, table_create, table_add, get_values, usernames_of, sockets_of, hname,
      get_socket, hu]

theorem table_find_append {V : Type} (t : table_t V) (key : List Nat) (v : V)
    (h : table_find t key = none) : table_find (t ++ [(c_string key, v)]) key = some v := by
  induction t with
  | nil => simp [table_find, strcmp_eq, c_string_idem]
  | cons node rest ih =>
    simp only [table_find] at h
    split at h
    · exact absurd h (by simp)
    · rename_i hne
      simp only [List.cons_append, table_find, hne, Bool.false_eq_true, if_false]
      exact ih h

theorem table_find_congr {V : Type} (t : table_t V) (k1 k2 : List Nat)
    (h : c_string k1 = c_string k2) : table_find t k1 = table_find t k2 := by
  induction t with
  | nil => rfl
  | cons node rest ih =>
    simp only [table_find, strcmp_eq, h, ih]

theorem table_find_append_left {V : Type} (t l : table_t V) (key : List Nat) (v : V)
    (h : table_find t key = some v) : table_find (t ++ l) key = some v := by
  induction t with
  | nil => simp [table_find] at h
  | cons node rest ih =>
    simp only [table_find] at h
    simp only [List.cons_append, table_find]
    split
    · rename_i heq
      rw [if_pos heq] at h
      exact h
    · rename_i hne
      rw [if_neg hne] at h
      exact ih h

/-- `/who` for a room that has no users, or for a name that is no key of `rooms`. -/
theorem who_not_found_eq (st : server_t) (q : Nat) (uq : user_t) (param : List Nat)
    (hq : st.users[q]? = some uq) (hreg : table_find st.old_users uq.username = some q)
    (hl : strlen uq.username < MAX_NAME) (hp : 0 < strlen param)
    (hroom : table_find st.rooms param = none ∨
      ∃ y ry, table_find st.rooms param = some y ∧ st.room_heap[y]? = some ry ∧
        ry.users = []) :
    process_command_who st q param =
      some { st with
        sent := st.sent ++ [(uq.socket, chatevent_frame EID_ERROR uq.username (str
          "Room not found.  If you were searching for a user, not a room, please use /whois <username>"))] } := by
  simp only [MAX_NAME] at hl
  rw [who_not_found st q param (by omega) hroom]
  exact send_chat_self_eq st EID_ERROR q _ uq uq q hq hreg hq
    (by simp [strlen, str, MAX_PACKET] at hl ⊢; omega)

/-! ## Handlers that only write -/

theorem and_then_def {α β : Type} (x : Option α) (f : α → Option β) :
    and_then x f = x.bind f := by
  cases x <;> rfl

theorem writes_only_refl (st : server_t) : writes_only st st :=
  ⟨[], by simp⟩

theorem writes_only_trans {a b c : server_t} (h1 : writes_only a b) (h2 : writes_only b c) :
    writes_only a c := by
  obtain ⟨l1, rfl⟩ := h1
  obtain ⟨l2, rfl⟩ := h2
  exact ⟨l1 ++ l2, by simp⟩

theorem socket_send_writes {st st1 : server_t} {p : packet_buffer_t} {s : Nat}
    (h : socket_send st p s = some st1) : writes_only st st1 := by
  simp only [socket_send, Option.map_eq_some'] at h
  obtain ⟨r, _, rfl⟩ := h
  exact ⟨_, rfl⟩

theorem for_each_writes {α : Type} (body : α → server_t → Option server_t)
    (hbody : ∀ x s s1, body x s = some s1 → writes_only s s1) (xs : List α) :
    ∀ st st1, for_each body xs st = some st1 → writes_only st st1 := by
  induction xs with
  | nil =>
    intro st st1 h
    simp only [for_each, Option.some.injEq] at h
    subst h
    exact writes_only_refl _
  | cons x xs ih =>
    intro st st1 h
    simp only [for_each, Option.bind_eq_some] at h
    obtain ⟨s, h1, h2⟩ := h
    exact writes_only_trans (hbody x st s h1) (ih s st1 h2)

theorem send_error_writes {st st1 : server_t} {user : Nat} {text : List Nat}
    (h : send_error st user text = some st1) : writes_only st st1 := by
  simp only [send_error, and_then_eq, exec_pure, Option.bind_eq_some, Option.some.injEq] at h
  obtain ⟨p1, _, p2, _, s, _, st2, h1, _, _, rfl⟩ := h
  exact socket_send_writes h1

theorem send_chat_writes {st : server_t} {subtype : Nat} {dest sender message : List Nat}
    {r : Bool × server_t} (h : send_chat st subtype dest sender message = some r) :
    writes_only st r.2 := by
  unfold send_chat at h
  cases hf : table_find st.old_users dest with
  | none =>
    simp only [hf, Option.some.injEq] at h
    subst h
    exact writes_only_refl _
  | some d =>
    simp only [hf, and_then_eq, exec_pure, Option.bind_eq_some, Option.some.injEq] at h
    obtain ⟨p, _, s, _, st2, h1, _, _, rfl⟩ := h
    exact socket_send_writes h1

theorem send_chat_self_writes {st st1 : server_t} {subtype user : Nat} {message : List Nat}
    (h : send_chat_self st subtype user message = some st1) : writes_only st st1 := by
  simp only [send_chat_self, and_then_eq, exec_pure, Option.bind_eq_some,
    Option.some.injEq] at h
  obtain ⟨d, _, s, _, r, h1, rfl⟩ := h
  exact send_chat_writes h1

/-- `send_chat_self` answers only when the user exists. -/
theorem send_chat_self_user {st st1 : server_t} {subtype user : Nat} {message : List Nat}
    (h : send_chat_self st subtype user message = some st1) :
    ∃ u, st.users[user]? = some u := by
  simp only [send_chat_self, and_then_eq, exec_pure, Option.bind_eq_some,
    Option.some.injEq] at h
  obtain ⟨d, hd, _⟩ := h
  simp only [get_username, Option.map_eq_some'] at hd
  obtain ⟨u, hu, _⟩ := hd
  exact ⟨u, hu⟩

theorem room_message_writes {st st1 : server_t} {room subtype : Nat} {sender message : List Nat}
    (h : room_message st room subtype sender message = some st1) : writes_only st st1 := by
  simp only [room_message, and_then_eq, exec_pure, Option.bind_eq_some,
    Option.some.injEq] at h
  obtain ⟨r, _, p, _, st2, h1, _, _, rfl⟩ := h
  refine for_each_writes _ ?_ _ _ _ h1
  intro x s s1 hb
  simp only [Option.bind_eq_some] at hb
  obtain ⟨sock, _, h2⟩ := hb
  exact socket_send_writes h2

theorem room_send_users_in_channel_writes {st st1 : server_t} {room s : Nat}
    (h : room_send_users_in_channel st room s = some st1) : writes_only st st1 := by
  simp only [room_send_users_in_channel, and_then_eq, exec_pure, Option.bind_eq_some] at h
  obtain ⟨r, _, h1⟩ := h
  refine for_each_writes _ ?_ _ _ _ h1
  intro x s0 s1 hb
  simp only [and_then_eq, exec_pure, Option.bind_eq_some, Option.some.injEq] at hb
  obtain ⟨n, _, p, _, st2, h2, _, _, rfl⟩ := hb
  exact socket_send_writes h2

/-! ## The commands that only write -/

theorem process_command_rooms_writes {st st1 : server_t} {user : Nat} {param : List Nat}
    (h : process_command_rooms st user param = some st1) : writes_only st st1 := by
  unfold process_command_rooms at h
  split at h
  · exact send_chat_self_writes h
  · simp only [and_then_eq, Option.bind_eq_some] at h
    obtain ⟨st2, h1, h2⟩ := h
    refine writes_only_trans (send_chat_self_writes h1) (for_each_writes _ ?_ _ _ _ h2)
    intro x s s1 hb
    simp only [and_then_eq, exec_pure, Option.bind_eq_some] at hb
    obtain ⟨count, _, hb⟩ := hb
    by_cases hc : count > 0
    · rw [if_pos hc] at hb
      simp only [and_then_eq, and_then_def, Option.bind_eq_some] at hb
      obtain ⟨n, _, c, _, hb⟩ := hb
      exact send_chat_self_writes hb
    · rw [if_neg hc] at hb
      simp only [Option.some.injEq] at hb
      subst hb
      exact writes_only_refl _

theorem process_command_who_writes {st st1 : server_t} {user : Nat} {param : List Nat}
    (h : process_command_who st user param = some st1) : writes_only st st1 := by
  unfold process_command_who at h
  split at h
  · exact send_chat_self_writes h
  · split at h
    · exact send_chat_self_writes h
    · simp only [and_then_eq, Option.bind_eq_some] at h
      obtain ⟨users, _, h⟩ := h
      split at h
      · exact send_chat_self_writes h
      · simp only [Option.bind_eq_some] at h
        obtain ⟨st2, h1, h2⟩ := h
        refine writes_only_trans (send_chat_self_writes h1) (for_each_writes _ ?_ _ _ _ h2)
        intro x s s1 hb
        simp only [and_then_eq, Option.bind_eq_some] at hb
        obtain ⟨n, _, ip, _, hb⟩ := hb
        exact send_chat_self_writes hb

theorem process_command_finger_writes {st st1 : server_t} {user : Nat} {param : List Nat}
    (h : process_command_finger st user param = some st1) : writes_only st st1 := by
  unfold process_command_finger at h
  split at h
  · exact send_chat_self_writes h
  · split at h
    · exact send_chat_self_writes h
    · simp only [and_then_eq, Option.bind_eq_some] at h
      obtain ⟨n, _, ip, _, room, _, h⟩ := h
      exact send_chat_self_writes h

theorem send_two_writes {st st1 : server_t} {user : Nat} {a b : List Nat}
    (h : (send_chat_self st EID_INFO user a).bind (fun st =>
      send_chat_self st EID_INFO user b) = some st1) : writes_only st st1 := by
  simp only [Option.bind_eq_some] at h
  obtain ⟨s1, h1, h2⟩ := h
  exact writes_only_trans (send_chat_self_writes h1) (send_chat_self_writes h2)

theorem send_four_writes {st st1 : server_t} {user : Nat} {a b c d : List Nat}
    (h : (send_chat_self st EID_INFO user a).bind (fun st =>
      (send_chat_self st EID_INFO user b).bind (fun st =>
        (send_chat_self st EID_INFO user c).bind (fun st =>
          send_chat_self st EID_INFO user d))) = some st1) : writes_only st st1 := by
  simp only [Option.bind_eq_some] at h
  obtain ⟨s1, h1, s2, h2, s3, h3, h4⟩ := h
  exact writes_only_trans (send_chat_self_writes h1) (writes_only_trans
    (send_chat_self_writes h2) (writes_only_trans (send_chat_self_writes h3)
      (send_chat_self_writes h4)))

theorem process_command_help_writes {st st1 : server_t} {user : Nat} {param : List Nat}
    (h : process_command_help st user param = some st1) : writes_only st st1 := by
  unfold process_command_help at h
  simp only [and_then_eq] at h
  split at h
  · exact send_two_writes h
  split at h
  · exact send_four_writes h
  split at h
  · exact send_four_writes h
  split at h
  · exact send_four_writes h
  split at h
  · exact send_four_writes h
  split at h
  · exact send_four_writes h
  split at h
  · exact send_four_writes h
  · simp only [exec_pure, Option.some.injEq] at h
    subst h
    exact writes_only_refl _

theorem process_command_w_writes {st st1 : server_t} {user : Nat} {param : List Nat}
    (h : process_command_w st user param = some st1) : writes_only st st1 := by
  unfold process_command_w at h
  split at h
  · exact send_chat_self_writes h
  · simp only at h
    split at h
    · exact send_chat_self_writes h
    · simp only [and_then_eq, exec_pure, Option.bind_eq_some, Option.some.injEq] at h
      obtain ⟨n1, _, n2, _, r1, h1, n3, _, n4, _, r2, h2, rfl⟩ := h
      exact writes_only_trans (send_chat_writes h1) (send_chat_writes h2)

/-! ## What `process_command_join` changes -/

theorem writes_only.to_rooms_only {a b : server_t} (h : writes_only a b) : rooms_only a b := by
  obtain ⟨log, rfl⟩ := h
  exact ⟨_, _, _, rfl⟩

theorem rooms_only_refl (st : server_t) : rooms_only st st :=
  ⟨_, _, _, rfl⟩

theorem rooms_only_trans {a b c : server_t} (h1 : rooms_only a b) (h2 : rooms_only b c) :
    rooms_only a c := by
  obtain ⟨x1, y1, z1, rfl⟩ := h1
  obtain ⟨x2, y2, z2, rfl⟩ := h2
  exact ⟨_, _, _, rfl⟩

theorem rooms_only.same_users {a b : server_t} (h : rooms_only a b) : b.users = a.users := by
  obtain ⟨x1, y1, z1, rfl⟩ := h
  rfl

theorem rooms_only.stored {a b : server_t} (h : rooms_only a b) (user : Nat) (u : user_t) :
    rooms_only (store_user a user u) (store_user b user u) := by
  obtain ⟨x1, y1, z1, rfl⟩ := h
  exact ⟨_, _, _, rfl⟩

theorem room_remove_user_rooms {st st1 : server_t} {room user : Nat}
    (h : room_remove_user st room user = some st1) : rooms_only st st1 := by
  simp only [room_remove_user, and_then_eq, exec_pure, Option.bind_eq_some,
    Option.some.injEq] at h
  obtain ⟨r, _, n, _, rfl⟩ := h
  exact ⟨_, _, _, rfl⟩

theorem room_add_user_rooms {st st1 : server_t} {room user : Nat}
    (h : room_add_user st room user = some st1) : rooms_only st st1 := by
  simp only [room_add_user, and_then_eq, exec_pure, Option.bind_eq_some,
    Option.some.injEq] at h
  obtain ⟨r, _, n, _, rfl⟩ := h
  exact ⟨_, _, _, rfl⟩

theorem join_leave_rooms {st st1 : server_t} {user : Nat}
    (h : join_leave st user = some st1) : rooms_only st st1 := by
  simp only [join_leave, and_then_eq, and_then_def, Option.bind_eq_some] at h
  obtain ⟨room, _, h⟩ := h
  split at h
  · simp only [and_then_eq, and_then_def, Option.bind_eq_some] at h
    obtain ⟨s1, h1, n, _, h2⟩ := h
    exact rooms_only_trans (room_remove_user_rooms h1) (room_message_writes h2).to_rooms_only
  · simp only [exec_pure, Option.some.injEq] at h
    subst h
    exact rooms_only_refl _

theorem join_find_rooms {st : server_t} {user : Nat} {param : List Nat} {r : server_t × Nat}
    (h : join_find st user param = some r) : rooms_only st r.1 := by
  unfold join_find at h
  split at h
  · simp only [and_then_eq, and_then_def, exec_pure, Option.bind_eq_some,
      Option.some.injEq] at h
    obtain ⟨s1, h1, rfl⟩ := h
    exact rooms_only_trans (send_chat_self_writes h1).to_rooms_only ⟨_, _, _, rfl⟩
  · simp only [exec_pure, Option.some.injEq] at h
    subst h
    exact rooms_only_refl _

theorem set_user_state_store {st st1 : server_t} {user : Nat} {s : user_states_t}
    (h : set_user_state st user s = some st1) :
    ∃ u, st.users[user]? = some u ∧ st1 = store_user st user { u with state := s } := by
  simp only [set_user_state, Option.map_eq_some'] at h
  obtain ⟨u, hu, rfl⟩ := h
  exact ⟨u, hu, rfl⟩

theorem set_user_room_store {st st1 : server_t} {user : Nat} {r : Option (List Nat)}
    (h : set_user_room st user r = some st1) :
    ∃ u, st.users[user]? = some u ∧
      st1 = store_user st user { u with room := r.map c_string } := by
  simp only [set_user_room, Option.map_eq_some'] at h
  obtain ⟨u, hu, rfl⟩ := h
  exact ⟨u, hu, rfl⟩

theorem store_user_store (st : server_t) (user : Nat) (u v : user_t) :
    store_user (store_user st user u) user v = store_user st user v := by
  simp [store_user, List.set_set]

theorem store_user_lookup {st : server_t} {user : Nat} {u v : user_t}
    (h : st.users[user]? = some u) : (store_user st user v).users[user]? = some v := by
  have hlt : user < st.users.length := by
    by_contra hge
    rw [List.getElem?_eq_none (by omega)] at h
    cases h
  simp only [store_user]
  exact List.getElem?_set_self hlt

/-- Setting the state and then the room of a user, from a state in which only rooms and
writes were changed. -/
theorem set_state_room {st s2 s3 s4 : server_t} {user : Nat} {u : user_t}
    {s : user_states_t} {r : Option (List Nat)}
    (hu : st.users[user]? = some u) (h2 : rooms_only st s2)
    (h3 : set_user_state s2 user s = some s3) (h4 : set_user_room s3 user r = some s4) :
    rooms_only (store_user st user { u with state := s, room := r.map c_string }) s4 := by
  obtain ⟨u3, hu3, rfl⟩ := set_user_state_store h3
  obtain ⟨u4, hu4, rfl⟩ := set_user_room_store h4
  rw [h2.same_users, hu] at hu3
  cases hu3
  rw [store_user_lookup (by rw [h2.same_users]; exact hu)] at hu4
  cases hu4
  rw [store_user_store]
  exact h2.stored _ _

theorem join_nowhere_rooms {st st1 : server_t} {user : Nat} {u : user_t}
    (hu : st.users[user]? = some u) (h : join_nowhere st user = some st1) :
    rooms_only (store_user st user
      { u with state := user_states_t.NOT_IN_CHANNEL, room := none }) st1 := by
  simp only [join_nowhere, and_then_eq, and_then_def, Option.bind_eq_some] at h
  obtain ⟨s1, h1, s2, h2, s3, h3, h4⟩ := h
  exact set_state_room hu (writes_only_trans (send_chat_self_writes h1)
    (send_chat_self_writes h2)).to_rooms_only h3 h4

theorem join_enter_rooms {st st1 : server_t} {user room : Nat} {param : List Nat} {u : user_t}
    (hu : st.users[user]? = some u) (h : join_enter st user param room = some st1) :
    rooms_only (store_user st user
      { u with state := user_states_t.JOINED_CHANNEL, room := some (c_string param) })
      st1 := by
  simp only [join_enter, and_then_eq, and_then_def, Option.bind_eq_some] at h
  obtain ⟨s1, h1, s, _, s2, h2, s3, h3, s4, h4, s5, h5, n, _, h6⟩ := h
  exact rooms_only_trans (set_state_room hu (writes_only_trans (send_chat_self_writes h1)
    (room_send_users_in_channel_writes h2)).to_rooms_only h3 h4)
    (rooms_only_trans (room_add_user_rooms h5) (room_message_writes h6).to_rooms_only)

/-- What `process_command_join` changes: the rooms, the writes, and the state and the room of
the user. -/
theorem process_command_join_effect {st st1 : server_t} {user : Nat} {param : List Nat}
    (h : process_command_join st user param = some st1) :
    ∃ u, st.users[user]? = some u ∧
      (rooms_only st st1 ∨
        (strlen param = 0 ∧ rooms_only (store_user st user
          { u with state := user_states_t.NOT_IN_CHANNEL, room := none }) st1) ∨
        (0 < strlen param ∧ rooms_only (store_user st user
          { u with state := user_states_t.JOINED_CHANNEL,
                   room := some (c_string param) }) st1)) := by
  rw [process_command_join_eq] at h
  split at h
  · obtain ⟨u, hu⟩ := send_chat_self_user h
    exact ⟨u, hu, Or.inl (send_chat_self_writes h).to_rooms_only⟩
  split at h
  · obtain ⟨u, hu⟩ := send_chat_self_user h
    exact ⟨u, hu, Or.inl (send_chat_self_writes h).to_rooms_only⟩
  split at h
  · obtain ⟨u, hu⟩ := send_chat_self_user h
    exact ⟨u, hu, Or.inl (send_chat_self_writes h).to_rooms_only⟩
  simp only [Option.bind_eq_some] at h
  obtain ⟨s1, h1, h2⟩ := h
  have hl := join_leave_rooms h1
  have huser : ∃ u, st.users[user]? = some u := by
    simp only [join_leave, and_then_eq, and_then_def, Option.bind_eq_some, get_user_room,
      Option.map_eq_some'] at h1
    obtain ⟨_, ⟨u, hu, _⟩, _⟩ := h1
    exact ⟨u, hu⟩
  obtain ⟨u, hu⟩ := huser
  have hu1 : s1.users[user]? = some u := by
    rw [hl.same_users]
    exact hu
  refine ⟨u, hu, ?_⟩
  split at h2
  · rename_i hz
    right; left
    refine ⟨hz, ?_⟩
    exact rooms_only_trans (hl.stored _ _) (join_nowhere_rooms hu1 h2)
  · rename_i hz
    right; right
    refine ⟨by omega, ?_⟩
    simp only [Option.bind_eq_some] at h2
    obtain ⟨r, hr, h3⟩ := h2
    have hf := join_find_rooms hr
    have hu2 : r.1.users[user]? = some u := by
      rw [hf.same_users]
      exact hu1
    exact rooms_only_trans ((rooms_only_trans hl hf).stored _ _) (join_enter_rooms hu2 h3)

/-! ## What the packet handlers change -/

theorem writes_only.stored_user {a b : server_t} (h : writes_only a b) (user : Nat) (u : user_t) :
    writes_only (store_user a user u) (store_user b user u) := by
  obtain ⟨log, rfl⟩ := h
  exact ⟨log, rfl⟩

theorem writes_only.kept_users {a b : server_t} (h : writes_only a b) : b.users = a.users := by
  obtain ⟨log, rfl⟩ := h
  rfl

theorem set_client_token_store {st st1 : server_t} {user token : Nat}
    (h : set_client_token st user token = some st1) :
    ∃ u, st.users[user]? = some u ∧
      st1 = store_user st user { u with client_token := token % 4294967296 } := by
  simp only [set_client_token, Option.map_eq_some'] at h
  obtain ⟨u, hu, rfl⟩ := h
  exact ⟨u, hu, rfl⟩

theorem get_user_state_some {st : server_t} {user : Nat} {s : user_states_t}
    (h : get_user_state st user = some s) : ∃ u, st.users[user]? = some u ∧ u.state = s := by
  simp only [get_user_state, Option.map_eq_some'] at h
  exact h

/-- `process_SID_CLIENT_INFORMATION` either only writes, or takes a `CONNECTED` user to
`SENT_CLIENT_INFORMATION` with a new client token. -/
theorem process_SID_CLIENT_INFORMATION_effect {st st1 : server_t} {user : Nat}
    {packet : packet_buffer_t}
    (h : process_SID_CLIENT_INFORMATION st user packet = some st1) :
    writes_only st st1 ∨
      ∃ u t, st.users[user]? = some u ∧ u.state = user_states_t.CONNECTED ∧
        writes_only (store_user st user
          { u with client_token := t,
                   state := user_states_t.SENT_CLIENT_INFORMATION }) st1 := by
  simp only [process_SID_CLIENT_INFORMATION, and_then_eq, and_then_def, exec_pure,
    Option.bind_eq_some] at h
  obtain ⟨state, hstate, h1⟩ := h
  obtain ⟨u, hu, rfl⟩ := get_user_state_some hstate
  by_cases hc : u.state ≠ user_states_t.CONNECTED
  · rw [if_pos hc] at h1
    simp only [Option.bind_eq_some, Option.some.injEq] at h1
    obtain ⟨s1, h1, _, _, rfl⟩ := h1
    exact Or.inl (send_error_writes h1)
  · rw [if_neg hc] at h1
    simp only [Option.bind_eq_some, Option.some.injEq] at h1
    obtain ⟨_, _, r1, _, s2, h2, r2, _, r3, _, _, _, r4, _, _, _, r5, _, s3, h3, _, _, _, _,
      _, _, _, _, _, _, _, _, _, _, sock, _, s4, h4, _, _, _, rfl, _, _, rfl⟩ := h1
    right
    obtain ⟨u2, hu2, rfl⟩ := set_client_token_store h2
    rw [hu] at hu2
    cases hu2
    obtain ⟨u3, hu3, rfl⟩ := set_user_state_store h3
    rw [store_user_lookup hu] at hu3
    cases hu3
    rw [store_user_store] at h4
    refine ⟨u, _, hu, ?_, socket_send_writes h4⟩
    simpa using hc

theorem set_username_store {st st1 : server_t} {user : Nat} {name : List Nat}
    (h : set_username st user name = some st1) :
    ∃ u, st.users[user]? = some u ∧
      st1 = store_user st user { u with username := (c_string name).take (MAX_NAME - 1) } := by
  simp only [set_username, Option.map_eq_some'] at h
  obtain ⟨u, hu, rfl⟩ := h
  exact ⟨u, hu, rfl⟩

/-- `process_SID_LOGIN` either only writes, or logs a user in `SENT_CLIENT_INFORMATION` in
under a name that is not a key of `old_users` and for which `account_login` succeeds. -/
theorem process_SID_LOGIN_effect {SHA1 : List Nat → List Nat} {st st1 : server_t} {user : Nat}
    {packet : packet_buffer_t} (h : process_SID_LOGIN SHA1 st user packet = some st1) :
    writes_only st st1 ∨
      ∃ u name proof, st.users[user]? = some u ∧
        u.state = user_states_t.SENT_CLIENT_INFORMATION ∧
        table_find st.old_users (c_string name) = none ∧
        account_login SHA1 st.accounts (c_string name) proof (u.client_token % 4294967296)
          (u.server_token % 4294967296) = some LOGIN_SUCCESS ∧
        writes_only { store_user st user
            { u with username := (c_string name).take (MAX_NAME - 1),
                     state := user_states_t.NOT_IN_CHANNEL } with
          new_users := (list_remove_value st.new_users user).2,
          old_users := table_add st.old_users ((c_string name).take (MAX_NAME - 1)) user }
          st1 := by
  simp only [process_SID_LOGIN, and_then_eq, and_then_def, exec_pure,
    Option.bind_eq_some] at h
  obtain ⟨state, hstate, h1⟩ := h
  obtain ⟨u, hu, rfl⟩ := get_user_state_some hstate
  by_cases hc : u.state ≠ user_states_t.SENT_CLIENT_INFORMATION
  · rw [if_pos hc] at h1
    exact Or.inl (send_error_writes h1)
  · rw [if_neg hc] at h1
    simp only [Option.bind_eq_some] at h1
    obtain ⟨_, _, r1, hr1, len, _, r2, hr2, h1⟩ := h1
    cases hf : table_find st.old_users (c_string r2.1) with
    | some v =>
      rw [hf] at h1
      simp only [Option.some_bind, Option.bind_eq_some] at h1
      obtain ⟨p1, _, p2, _, p3, _, s, _, s2, h2, _, _, h3⟩ := h1
      rw [if_neg (by decide)] at h3
      cases h3
      exact Or.inl (socket_send_writes h2)
    | none =>
      rw [hf] at h1
      simp only [Option.bind_eq_some] at h1
      obtain ⟨ct, hct, stk, hstk, y, hy, p1, _, p2, _, p3, _, s, _, s2, h2, _, _, h3⟩ := h1
      by_cases hy0 : y = LOGIN_SUCCESS
      · rw [if_pos hy0] at h3
        simp only [Option.bind_eq_some, Option.some.injEq] at h3
        obtain ⟨s3, h4, s4, h5, n, hn, rfl⟩ := h3
        have hw := socket_send_writes h2
        obtain ⟨u3, hu3, rfl⟩ := set_username_store h4
        rw [hw.kept_users, hu] at hu3
        cases hu3
        obtain ⟨u4, hu4, rfl⟩ := set_user_state_store h5
        rw [store_user_lookup (by rw [hw.kept_users]; exact hu)] at hu4
        cases hu4
        rw [store_user_store] at hn ⊢
        have hn2 : n = (c_string (c_string r2.1)).take (MAX_NAME - 1) := by
          simp only [get_username, Option.map_eq_some'] at hn
          obtain ⟨u5, hu5, rfl⟩ := hn
          have := store_user_lookup (v := { u with
            username := (c_string (c_string r2.1)).take (MAX_NAME - 1),
            state := user_states_t.NOT_IN_CHANNEL }) (show s2.users[user]? = some u by
              rw [hw.kept_users]; exact hu)
          simp only [store_user] at this hu5
          rw [this] at hu5
          cases hu5
          rfl
        subst hn2
        simp only [get_client_token, get_server_token, hu, Option.map_some',
          Option.some.injEq] at hct hstk
        subst hct hstk
        subst hy0
        refine Or.inr ⟨u, r2.1, r1.1, hu, by simpa using hc, hf, hy, ?_⟩
        obtain ⟨log, rfl⟩ := hw
        rw [c_string_idem]
        exact ⟨log, rfl⟩
      · rw [if_neg hy0] at h3
        cases h3
        exact Or.inl (socket_send_writes h2)

theorem process_SID_CREATE_effect {st st1 : server_t} {user : Nat} {packet : packet_buffer_t}
    (h : process_SID_CREATE st user packet = some st1) : create_effect st st1 := by
  simp only [process_SID_CREATE, and_then_eq, and_then_def, exec_pure,
    Option.bind_eq_some] at h
  obtain ⟨state, hstate, h1⟩ := h
  by_cases hc : state ≠ user_states_t.SENT_CLIENT_INFORMATION
  · rw [if_pos hc] at h1
    obtain ⟨log, rfl⟩ := send_error_writes h1
    exact ⟨st.accounts, log, rfl⟩
  · rw [if_neg hc] at h1
    simp only [Option.bind_eq_some, Option.some.injEq] at h1
    obtain ⟨_, _, r1, _, len, _, r2, _, r3, _, p1, _, p2, _, p3, _, s, _, s2, h2, _, _, rfl⟩ :=
      h1
    obtain ⟨log, rfl⟩ := socket_send_writes h2
    exact ⟨r3.2, log, rfl⟩

theorem process_SID_ERROR_effect {st st1 : server_t} {user : Nat} {packet : packet_buffer_t}
    (h : process_SID_ERROR st user packet = some st1) : st1 = st := by
  simp only [process_SID_ERROR, and_then_eq, and_then_def, exec_pure,
    Option.bind_eq_some, Option.some.injEq] at h
  obtain ⟨_, _, _, _, rfl⟩ := h
  rfl

/-- `process_SID_CHATCOMMAND` only writes, unless the command is `/join` or `/channel`. -/
theorem process_SID_CHATCOMMAND_effect {st st1 : server_t} {user : Nat}
    {packet : packet_buffer_t} (h : process_SID_CHATCOMMAND st user packet = some st1) :
    writes_only st st1 ∨ ∃ param, join_effect st user packet param st1 := by
  simp only [process_SID_CHATCOMMAND, and_then_eq, and_then_def, exec_pure,
    Option.bind_eq_some] at h
  obtain ⟨state, hstate, h1⟩ := h
  obtain ⟨u, hu, rfl⟩ := get_user_state_some hstate
  by_cases hc : u.state ≠ user_states_t.JOINED_CHANNEL ∧
      u.state ≠ user_states_t.NOT_IN_CHANNEL
  · rw [if_pos hc] at h1
    exact Or.inl (send_error_writes h1)
  · rw [if_neg hc] at h1
    simp only [Option.bind_eq_some] at h1
    obtain ⟨room, _, len, hlen, r, hr, h1⟩ := h1
    by_cases hslash : (c_string r.1).head? = some 0x2F
    · rw [if_pos hslash] at h1
      by_cases hj : (strcasecmp_eq (command_words (c_string r.1)).1 (str "join") ||
          strcasecmp_eq (command_words (c_string r.1)).1 (str "channel")) = true
      · right
        refine ⟨_, u, len, r.1, r.2, hu, ?_, hlen, hr, hslash, hj, rfl, ?_⟩
        · by_cases h2 : u.state = user_states_t.NOT_IN_CHANNEL
          · exact Or.inl h2
          · by_cases h3 : u.state = user_states_t.JOINED_CHANNEL
            · exact Or.inr h3
            · exact absurd ⟨h3, h2⟩ hc
        · have e : run_command st user (command_words (c_string r.1)).1
              (command_words (c_string r.1)).2 =
              process_command_join st user (command_words (c_string r.1)).2 := by
            unfold run_command
            rw [if_pos hj]
          rw [← e, ← h1]
          simp only [run_command, command_words]
      · left
        have e : run_command st user (command_words (c_string r.1)).1
            (command_words (c_string r.1)).2 = some st1 := by
          rw [← h1]
          simp only [run_command, command_words]
        unfold run_command at e
        rw [if_neg hj] at e
        split at e
        · exact process_command_help_writes e
        split at e
        · exact process_command_finger_writes e
        split at e
        · exact process_command_w_writes e
        split at e
        · exact process_command_who_writes e
        split at e
        · exact process_command_rooms_writes e
        · exact send_chat_self_writes e
    · rw [if_neg hslash] at h1
      left
      split at h1
      · exact send_chat_self_writes h1
      · simp only [and_then_eq, and_then_def, Option.bind_eq_some] at h1
        obtain ⟨t, _, n, _, h2⟩ := h1
        exact room_message_writes h2

/-- What a handled packet changes, by its code. -/
theorem process_packet_effect {SHA1 : List Nat → List Nat} {st st1 : server_t} {user : Nat}
    {packet : packet_buffer_t} (h : process_packet SHA1 st user packet = some st1) :
    writes_only st st1 ∨
      (get_code packet = some SID_CLIENT_INFORMATION ∧ informed_effect st user st1) ∨
      (get_code packet = some SID_LOGIN ∧ login_effect SHA1 st user st1) ∨
      (get_code packet = some SID_CREATE ∧ create_effect st st1) ∨
      (get_code packet = some SID_CHATCOMMAND ∧ ∃ param, join_effect st user packet param st1) := by
  simp only [process_packet, and_then_eq, and_then_def, Option.bind_eq_some] at h
  obtain ⟨code, hcode, h⟩ := h
  by_cases h0 : code = SID_NULL
  · rw [if_pos h0] at h
    simp only [process_SID_NULL, Option.some.injEq] at h
    subst h
    exact Or.inl (writes_only_refl _)
  rw [if_neg h0] at h
  by_cases h1 : code = SID_CLIENT_INFORMATION
  · rw [if_pos h1] at h
    subst h1
    rcases process_SID_CLIENT_INFORMATION_effect h with hw | he
    · exact Or.inl hw
    · exact Or.inr (Or.inl ⟨hcode, he⟩)
  rw [if_neg h1] at h
  by_cases h3 : code = SID_LOGIN
  · rw [if_pos h3] at h
    subst h3
    rcases process_SID_LOGIN_effect h with hw | he
    · exact Or.inl hw
    · exact Or.inr (Or.inr (Or.inl ⟨hcode, he⟩))
  rw [if_neg h3] at h
  by_cases h5 : code = SID_CREATE
  · rw [if_pos h5] at h
    subst h5
    exact Or.inr (Or.inr (Or.inr (Or.inl ⟨hcode, process_SID_CREATE_effect h⟩)))
  rw [if_neg h5] at h
  by_cases h7 : code = SID_REQUEST_ROOM_LIST
  · rw [if_pos h7] at h
    exact Or.inl (send_error_writes h)
  rw [if_neg h7] at h
  by_cases h9 : code = SID_CHATCOMMAND
  · rw [if_pos h9] at h
    subst h9
    rcases process_SID_CHATCOMMAND_effect h with hw | he
    · exact Or.inl hw
    · exact Or.inr (Or.inr (Or.inr (Or.inr ⟨hcode, he⟩)))
  rw [if_neg h9] at h
  by_cases h11 : code = SID_ERROR
  · rw [if_pos h11] at h
    rw [process_SID_ERROR_effect h]
    exact Or.inl (writes_only_refl _)
  rw [if_neg h11] at h
  split at h
  · exact Or.inl (send_error_writes h)
  · exact Or.inl (send_error_writes h)

/-- The three outcomes of `process_next_packet`. -/
theorem process_next_packet_cases {SHA1 : List Nat → List Nat} {st st1 : server_t}
    {user : Nat} {ok : Bool} (h : process_next_packet SHA1 st user = some (ok, st1)) :
    ∃ s rest, get_socket st user = some s ∧
      ((ok = true ∧ read_buffer (socket_input st s) = some (read_result.null, rest) ∧
          st1 = set_socket_input st s rest) ∨
        (ok = false ∧ read_buffer (socket_input st s) = some (read_result.fatal, rest) ∧
          st1 = set_socket_input st s rest) ∨
        (ok = true ∧ ∃ packet,
          read_buffer (socket_input st s) = some (read_result.packet packet, rest) ∧
          process_packet SHA1 (set_socket_input st s rest) user packet = some st1)) := by
  simp only [process_next_packet, and_then_eq, and_then_def, exec_pure,
    Option.bind_eq_some] at h
  obtain ⟨s, hs, r, hr, h⟩ := h
  obtain ⟨res, rest⟩ := r
  refine ⟨s, rest, hs, ?_⟩
  cases res with
  | null =>
    simp only [Option.some.injEq, Prod.mk.injEq] at h
    exact Or.inl ⟨h.1.symm, hr, h.2.symm⟩
  | fatal =>
    simp only [Option.some.injEq, Prod.mk.injEq] at h
    exact Or.inr (Or.inl ⟨h.1.symm, hr, h.2.symm⟩)
  | packet p =>
    simp only [and_then_eq, and_then_def, exec_pure, Option.bind_eq_some, Option.some.injEq,
      Prod.mk.injEq] at h
    obtain ⟨s2, h2, h3, rfl⟩ := h
    exact Or.inr (Or.inr ⟨h3.symm, p, hr, h2⟩)

/-! ## The state of a session along its frames -/

theorem get_user_state_iff {st : server_t} {user : Nat} {u : user_t}
    (hu : st.users[user]? = some u) (s : user_states_t) :
    get_user_state st user = some s ↔ u.state = s := by
  simp [get_user_state, hu]

theorem rooms_only_lookup {st b : server_t} {user : Nat} {u w : user_t}
    (h : rooms_only (store_user st user w) b) (hu : st.users[user]? = some u) :
    b.users[user]? = some w := by
  rw [h.same_users]
  exact store_user_lookup hu

/-- What one step does to the state of the user. -/
theorem session_step_state {SHA1 : List Nat → List Nat} {user : Nat} {a b : server_t}
    (h : session_step SHA1 user a b) (u : user_t) (hu : a.users[user]? = some u) :
    ∃ v, b.users[user]? = some v ∧
      (v.state = u.state ∨ client_information_accepted a b user ∨
        login_succeeded SHA1 a b user ∨ join_accepted a b user ∨
        ((u.state = user_states_t.NOT_IN_CHANNEL ∨ u.state = user_states_t.JOINED_CHANNEL) ∧
          v.state = user_states_t.NOT_IN_CHANNEL)) := by
  have same : b.users = a.users → ∃ v, b.users[user]? = some v ∧
      (v.state = u.state ∨ client_information_accepted a b user ∨
        login_succeeded SHA1 a b user ∨ join_accepted a b user ∨
        ((u.state = user_states_t.NOT_IN_CHANNEL ∨ u.state = user_states_t.JOINED_CHANNEL) ∧
          v.state = user_states_t.NOT_IN_CHANNEL)) := by
    intro e
    exact ⟨u, by rw [e]; exact hu, Or.inl rfl⟩
  rcases h with ⟨ok, hp⟩ | hsame
  · obtain ⟨s, rest, hs, hcases⟩ := process_next_packet_cases hp
    have hu0 : (set_socket_input a s rest).users[user]? = some u := hu
    rcases hcases with ⟨_, _, rfl⟩ | ⟨_, _, rfl⟩ | ⟨_, packet, hr, hpk⟩
    · exact same rfl
    · exact same rfl
    · rcases process_packet_effect hpk with hw | ⟨hcode, he⟩ | ⟨hcode, he⟩ | ⟨hcode, he⟩ |
        ⟨hcode, param, he⟩
      · exact same hw.kept_users
      · have he0 := he
        obtain ⟨u1, t, hu1, hstate, hw⟩ := he
        rw [hu0] at hu1
        cases hu1
        have hb := rooms_only_lookup hw.to_rooms_only hu0
        refine ⟨_, hb, Or.inr (Or.inl ⟨?_, ?_, s, rest, packet, hs, hr, hcode, he0⟩)⟩
        · exact (get_user_state_iff hu _).mpr hstate
        · exact (get_user_state_iff hb _).mpr rfl
      · have he0 := he
        obtain ⟨u1, name, proof, hu1, hstate, _, _, hw⟩ := he
        rw [hu0] at hu1
        cases hu1
        have hb : b.users[user]? = some { u with
            username := (c_string name).take (MAX_NAME - 1),
            state := user_states_t.NOT_IN_CHANNEL } := by
          rw [hw.kept_users]
          exact store_user_lookup hu0
        refine ⟨_, hb, Or.inr (Or.inr (Or.inl ⟨?_, ?_, s, rest, packet, hs, hr, hcode, he0⟩))⟩
        · exact (get_user_state_iff hu _).mpr hstate
        · exact (get_user_state_iff hb _).mpr rfl
      · obtain ⟨accounts, hw⟩ := he
        exact same hw.kept_users
      · have he0 := he
        obtain ⟨u1, len, message, rest1, hu1, hstate, _, _, _, _, _, hjoin⟩ := he
        rw [hu0] at hu1
        cases hu1
        obtain ⟨u2, hu2, hj⟩ := process_command_join_effect hjoin
        rw [hu0] at hu2
        cases hu2
        rcases hj with hro | ⟨hz, hro⟩ | ⟨hz, hro⟩
        · exact same hro.same_users
        · exact ⟨_, rooms_only_lookup hro hu0, Or.inr (Or.inr (Or.inr (Or.inr ⟨hstate, rfl⟩)))⟩
        · have hb := rooms_only_lookup hro hu0
          refine ⟨_, hb, Or.inr (Or.inr (Or.inr (Or.inl ⟨?_, ?_, s, rest, packet, hs, hr, hcode,
            param, hz, he0⟩)))⟩
          · rcases hstate with h1 | h1
            · exact Or.inl ((get_user_state_iff hu _).mpr h1)
            · exact Or.inr ((get_user_state_iff hu _).mpr h1)
          · exact (get_user_state_iff hb _).mpr rfl
  · exact ⟨u, by rw [hsame]; exact hu, Or.inl rfl⟩

/-- One step moves the stage of the user forward by at most one, and never back below
`NOT_IN_CHANNEL`. -/
theorem session_step_stage {SHA1 : List Nat → List Nat} {user : Nat} {a b : server_t}
    (h : session_step SHA1 user a b) (u : user_t) (hu : a.users[user]? = some u) :
    ∃ v, b.users[user]? = some v ∧ stage v.state ≤ stage u.state + 1 ∧
      (2 ≤ stage u.state → 2 ≤ stage v.state) := by
  obtain ⟨v, hv, hc⟩ := session_step_state h u hu
  refine ⟨v, hv, ?_⟩
  rcases hc with e | ⟨h1, h2, _⟩ | ⟨h1, h2, _⟩ | ⟨h1, h2, _⟩ | ⟨h1, h2⟩
  · rw [e]
    exact ⟨by omega, fun x => x⟩
  · rw [(get_user_state_iff hu _).mp h1, (get_user_state_iff hv _).mp h2]
    decide
  · rw [(get_user_state_iff hu _).mp h1, (get_user_state_iff hv _).mp h2]
    decide
  · rw [(get_user_state_iff hv _).mp h2]
    rcases h1 with h1 | h1 <;> rw [(get_user_state_iff hu _).mp h1] <;> decide
  · rw [h2]
    rcases h1 with h1 | h1 <;> rw [h1] <;> decide

/-- The frames that must have been accepted for the user to be at its stage. -/
theorem session_milestones (SHA1 : List Nat → List Nat) (user : Nat) (σ : Nat → server_t)
    (n : Nat) (socket : Nat) (ip : List Nat) (token : Nat)
    (h0 : (σ 0).users[user]? = some (create_user socket ip token))
    (hstep : ∀ i, i < n → session_step SHA1 user (σ i) (σ (i + 1))) :
    ∀ m, m ≤ n → ∃ u, (σ m).users[user]? = some u ∧
      (1 ≤ stage u.state → ∃ i, i < m ∧ client_information_accepted (σ i) (σ (i + 1)) user) ∧
      (2 ≤ stage u.state → ∃ i j, i < j ∧ j < m ∧
        client_information_accepted (σ i) (σ (i + 1)) user ∧
        login_succeeded SHA1 (σ j) (σ (j + 1)) user) ∧
      (3 ≤ stage u.state → ∃ i j k, i < j ∧ j < k ∧ k < m ∧
        client_information_accepted (σ i) (σ (i + 1)) user ∧
        login_succeeded SHA1 (σ j) (σ (j + 1)) user ∧
        join_accepted (σ k) (σ (k + 1)) user) := by
  intro m
  induction m with
  | zero =>
    intro _
    refine ⟨_, h0, ?_, ?_, ?_⟩ <;> intro h <;> simp [create_user, stage] at h
  | succ m ih =>
    intro hm
    obtain ⟨u, hu, p1, p2, p3⟩ := ih (by omega)
    obtain ⟨v, hv, hc⟩ := session_step_state (hstep m (by omega)) u hu
    refine ⟨v, hv, ?_⟩
    rcases hc with e | hci | hlg | hjn | ⟨h1, h2⟩
    · rw [e]
      refine ⟨fun h => ?_, fun h => ?_, fun h => ?_⟩
      · obtain ⟨i, hi, c⟩ := p1 h
        exact ⟨i, by omega, c⟩
      · obtain ⟨i, j, hi, hj, c⟩ := p2 h
        exact ⟨i, j, hi, by omega, c⟩
      · obtain ⟨i, j, k, hi, hj, hk, c⟩ := p3 h
        exact ⟨i, j, k, hi, hj, by omega, c⟩
    · have hs := (get_user_state_iff hv _).mp hci.2.1
      rw [hs]
      refine ⟨fun _ => ⟨m, by omega, hci⟩, fun h => ?_, fun h => ?_⟩ <;> simp [stage] at h
    · have hs := (get_user_state_iff hv _).mp hlg.2.1
      have hb := (get_user_state_iff hu _).mp hlg.1
      rw [hs]
      rw [hb] at p1
      obtain ⟨i, hi, c⟩ := p1 (by decide)
      refine ⟨fun _ => ⟨i, by omega, c⟩, fun _ => ⟨i, m, hi, by omega, c, hlg⟩, fun h => ?_⟩
      simp [stage] at h
    · have hs := (get_user_state_iff hv _).mp hjn.2.1
      have hb : 2 ≤ stage u.state := by
        rcases hjn.1 with h1 | h1 <;> rw [(get_user_state_iff hu _).mp h1] <;> decide
      rw [hs]
      obtain ⟨i, j, hi, hj, c1, c2⟩ := p2 hb
      exact ⟨fun _ => ⟨i, by omega, c1⟩, fun _ => ⟨i, j, hi, by omega, c1, c2⟩,
        fun _ => ⟨i, j, m, hi, hj, by omega, c1, c2, hjn⟩⟩
    · have hb : 2 ≤ stage u.state := by
        rcases h1 with h1 | h1 <;> rw [h1] <;> decide
      rw [h2]
      obtain ⟨i, j, hi, hj, c1, c2⟩ := p2 hb
      refine ⟨fun _ => ⟨i, by omega, c1⟩, fun _ => ⟨i, j, hi, by omega, c1, c2⟩, fun h => ?_⟩
      simp [stage] at h

/-- Once at `NOT_IN_CHANNEL` or beyond, a session stays there. -/
theorem session_stays (SHA1 : List Nat → List Nat) (user : Nat) (σ : Nat → server_t)
    (n : Nat) (hstep : ∀ i, i < n → session_step SHA1 user (σ i) (σ (i + 1)))
    (i : Nat) (u : user_t) (hu : (σ i).users[user]? = some u) (hs : 2 ≤ stage u.state) :
    ∀ d, i + d ≤ n → ∃ v, (σ (i + d)).users[user]? = some v ∧ 2 ≤ stage v.state := by
  intro d
  induction d with
  | zero =>
    intro _
    exact ⟨u, hu, hs⟩
  | succ d ih =>
    intro hd
    obtain ⟨v, hv, hsv⟩ := ih (by omega)
    obtain ⟨w, hw, _, hk⟩ := session_step_stage (hstep (i + d) (by omega)) v hv
    exact ⟨w, hw, hk hsv⟩

/-! ## Tables with distinct keys -/

theorem table_remove_sublist {V : Type} (t : table_t V) (key : List Nat) :
    List.Sublist (table_remove t key).2 t := by
  induction t with
  | nil => exact List.Sublist.refl _
  | cons node rest ih =>
    simp only [table_remove]
    split
    · exact List.sublist_cons_self _ _
    · exact List.Sublist.cons₂ _ ih

theorem list_remove_value_sublist (l : List Nat) (v : Nat) :
    List.Sublist (list_remove_value l v).2 l := by
  induction l with
  | nil => exact List.Sublist.refl _
  | cons node rest ih =>
    simp only [list_remove_value]
    split
    · exact List.sublist_cons_self _ _
    · exact List.Sublist.cons₂ _ ih

/-- The members of a table after `table_add`: the old ones, or the one added, whose key is
the string of the key given. -/
theorem mem_table_add {V : Type} (t : table_t V) (key : List Nat) (v : V)
    (hk : ∀ e ∈ t, c_string e.1 = e.1) :
    ∀ e ∈ table_add t key v, e ∈ t ∨ (e.1 = c_string key ∧ e.2 = v) := by
  induction t with
  | nil =>
    intro e he
    simp only [table_add, List.mem_singleton] at he
    subst he
    exact Or.inr ⟨rfl, rfl⟩
  | cons node rest ih =>
    intro e he
    simp only [table_add] at he
    split at he
    · rename_i heq
      rcases List.mem_cons.mp he with rfl | hr
      · right
        refine ⟨?_, rfl⟩
        simp only [strcmp_eq, beq_iff_eq] at heq
        show node.1 = c_string key
        rw [heq]
        exact (hk node (List.mem_cons_self _ _)).symm
      · exact Or.inl (List.mem_cons_of_mem _ hr)
    · rcases List.mem_cons.mp he with rfl | hr
      · exact Or.inl (List.mem_cons_self _ _)
      · rcases ih (fun e he => hk e (List.mem_cons_of_mem _ he)) e hr with h1 | h1
        · exact Or.inl (List.mem_cons_of_mem _ h1)
        · exact Or.inr h1

/-- The keys of a table after `table_add`. -/
theorem keys_table_add {V : Type} (t : table_t V) (key : List Nat) (v : V)
    (hk : ∀ e ∈ t, c_string e.1 = e.1) :
    get_keys (table_add t key v) = get_keys t ∨
      (c_string key ∉ get_keys t ∧ get_keys (table_add t key v) = get_keys t ++ [c_string key]) := by
  induction t with
  | nil =>
    right
    exact ⟨by simp [get_keys], rfl⟩
  | cons node rest ih =>
    simp only [table_add]
    split
    · left
      rfl
    · rename_i hne
      rcases ih (fun e he => hk e (List.mem_cons_of_mem _ he)) with h1 | ⟨h1, h2⟩
      · left
        simp only [get_keys, List.map_cons] at h1 ⊢
        rw [h1]
      · right
        refine ⟨?_, ?_⟩
        · simp only [get_keys, List.map_cons, List.mem_cons, not_or] at h1 ⊢
          refine ⟨?_, h1⟩
          intro hc
          apply hne
          simp only [strcmp_eq, beq_iff_eq]
          rw [hc, hk node (List.mem_cons_self _ _)]
        · simp only [get_keys, List.map_cons, List.cons_append] at h2 ⊢
          rw [h2]

theorem keys_table_add_nodup {V : Type} (t : table_t V) (key : List Nat) (v : V)
    (hk : ∀ e ∈ t, c_string e.1 = e.1) (hn : (get_keys t).Nodup) :
    (get_keys (table_add t key v)).Nodup := by
  rcases keys_table_add t key v hk with h | ⟨h1, h2⟩
  · rw [h]
    exact hn
  · rw [h2]
    exact List.Nodup.append hn (List.nodup_singleton _) (by simpa using h1)

/-- In a table with distinct keys a key has one value. -/
theorem nodup_keys_value {V : Type} (t : table_t V) (hn : (get_keys t).Nodup)
    (a b : List Nat × V) (ha : a ∈ t) (hb : b ∈ t) (hab : a.1 = b.1) : a = b := by
  induction t with
  | nil => cases ha
  | cons node rest ih =>
    simp only [get_keys, List.map_cons, List.nodup_cons] at hn
    rcases List.mem_cons.mp ha with rfl | ha1
    · rcases List.mem_cons.mp hb with rfl | hb1
      · rfl
      · exfalso
        apply hn.1
        rw [hab]
        exact List.mem_map_of_mem _ hb1
    · rcases List.mem_cons.mp hb with rfl | hb1
      · exfalso
        apply hn.1
        rw [← hab]
        exact List.mem_map_of_mem _ ha1
      · exact ih hn.2 ha1 hb1

/-! ## `old_users` holds each logged-in user once, under its name -/

theorem registered_congr {a b : server_t} (hu : b.users = a.users)
    (ho : b.old_users = a.old_users) (h : registered a) : registered b := by
  unfold registered at h ⊢
  rw [hu, ho]
  exact h

theorem registered_writes {a b : server_t} (hw : writes_only a b) (h : registered a) :
    registered b := by
  obtain ⟨log, rfl⟩ := hw
  exact registered_congr rfl rfl h

theorem registered_rooms {a b : server_t} (hw : rooms_only a b) (h : registered a) :
    registered b := by
  obtain ⟨x, y, z, rfl⟩ := hw
  exact registered_congr rfl rfl h

theorem users_set_lookup_ne {st : server_t} {user p : Nat} (w : user_t) (h : p ≠ user) :
    (store_user st user w).users[p]? = st.users[p]? := by
  simp only [store_user]
  exact List.getElem?_set_ne (Ne.symm h)

/-- Storing a user keeps `registered` when the new value suits the entry of the user in
`old_users`, if it has one. -/
theorem registered_store_user {st : server_t} {user : Nat} {u w : user_t}
    (h : registered st) (hu : st.users[user]? = some u)
    (hw : ∀ e ∈ st.old_users, e.2 = user → w.username = e.1 ∧
      (w.state = user_states_t.NOT_IN_CHANNEL ∨ w.state = user_states_t.JOINED_CHANNEL)) :
    registered (store_user st user w) := by
  refine ⟨h.1, ?_⟩
  intro e he
  obtain ⟨hc, x, hx, hn, hs⟩ := h.2 e he
  refine ⟨hc, ?_⟩
  by_cases hp : e.2 = user
  · refine ⟨w, ?_, (hw e he hp).1, (hw e he hp).2⟩
    rw [hp]
    exact store_user_lookup hu
  · exact ⟨x, by rw [users_set_lookup_ne w hp]; exact hx, hn, hs⟩

/-- A user that is not logged in has no entry in `old_users`. -/
theorem registered_not_entry {st : server_t} {user : Nat} {u : user_t}
    (h : registered st) (hu : st.users[user]? = some u)
    (hs : u.state = user_states_t.CONNECTED ∨ u.state = user_states_t.SENT_CLIENT_INFORMATION) :
    ∀ e ∈ st.old_users, e.2 ≠ user := by
  intro e he hp
  obtain ⟨_, x, hx, _, hxs⟩ := h.2 e he
  rw [hp, hu] at hx
  cases hx
  rcases hs with hs | hs <;> rcases hxs with hxs | hxs <;> rw [hs] at hxs <;> cases hxs

theorem take_c_string_fixed (name : List Nat) (n : Nat) :
    c_string ((c_string name).take n) = (c_string name).take n :=
  c_string_of_no_nul _ (fun x hx => c_string_no_nul name x (List.mem_of_mem_take hx))

theorem registered_informed {st st1 : server_t} {user : Nat}
    (he : informed_effect st user st1) (h : registered st) : registered st1 := by
  obtain ⟨u, t, hu, hs, hw⟩ := he
  refine registered_writes hw (registered_store_user h hu ?_)
  intro e hmem hp
  exact absurd hp (registered_not_entry h hu (Or.inl hs) e hmem)

theorem registered_login {SHA1 : List Nat → List Nat} {st st1 : server_t} {user : Nat}
    (he : login_effect SHA1 st user st1) (h : registered st) : registered st1 := by
  obtain ⟨u, name, proof, hu, hs, _, _, hw⟩ := he
  refine registered_writes hw ?_
  have hkeys : ∀ e ∈ st.old_users, c_string e.1 = e.1 := fun e he => (h.2 e he).1
  refine ⟨keys_table_add_nodup _ _ _ hkeys h.1, ?_⟩
  intro e hmem
  rcases mem_table_add _ _ _ hkeys e hmem with hold | ⟨hk, hv⟩
  · obtain ⟨hc, x, hx, hn, hxs⟩ := h.2 e hold
    have hp := registered_not_entry h hu (Or.inr hs) e hold
    refine ⟨hc, x, ?_, hn, hxs⟩
    show (store_user st user _).users[e.2]? = some x
    rw [users_set_lookup_ne _ hp]
    exact hx
  · rw [take_c_string_fixed] at hk
    refine ⟨by rw [hk]; exact take_c_string_fixed _ _,
      { u with username := (c_string name).take (MAX_NAME - 1),
               state := user_states_t.NOT_IN_CHANNEL }, ?_, hk.symm, Or.inl rfl⟩
    show (store_user st user _).users[e.2]? = some _
    rw [hv]
    exact store_user_lookup hu

theorem registered_join {st st1 : server_t} {user : Nat} {param : List Nat}
    (hj : process_command_join st user param = some st1) (h : registered st) :
    registered st1 := by
  obtain ⟨u, hu, hc⟩ := process_command_join_effect hj
  have key : ∀ (s : user_states_t) (r : Option (List Nat)),
      (s = user_states_t.NOT_IN_CHANNEL ∨ s = user_states_t.JOINED_CHANNEL) →
      registered (store_user st user { u with state := s, room := r }) := by
    intro s r hs
    refine registered_store_user h hu ?_
    intro e he hp
    obtain ⟨_, x, hx, hn, _⟩ := h.2 e he
    rw [hp, hu] at hx
    cases hx
    exact ⟨hn, hs⟩
  rcases hc with hro | ⟨_, hro⟩ | ⟨_, hro⟩
  · exact registered_rooms hro h
  · exact registered_rooms hro (key _ _ (Or.inl rfl))
  · exact registered_rooms hro (key _ _ (Or.inr rfl))

theorem registered_packet {SHA1 : List Nat → List Nat} {st st1 : server_t} {user : Nat}
    {packet : packet_buffer_t} (hp : process_packet SHA1 st user packet = some st1)
    (h : registered st) : registered st1 := by
  rcases process_packet_effect hp with hw | ⟨_, he⟩ | ⟨_, he⟩ | ⟨_, he⟩ | ⟨_, param, he⟩
  · exact registered_writes hw h
  · exact registered_informed he h
  · exact registered_login he h
  · obtain ⟨accounts, hw⟩ := he
    exact registered_writes hw (registered_congr rfl rfl h)
  · obtain ⟨_, _, _, _, _, _, _, _, _, _, _, hj⟩ := he
    exact registered_join hj h

theorem registered_next {SHA1 : List Nat → List Nat} {st st1 : server_t} {user : Nat}
    {ok : Bool} (hp : process_next_packet SHA1 st user = some (ok, st1))
    (h : registered st) : registered st1 := by
  obtain ⟨s, rest, _, hc⟩ := process_next_packet_cases hp
  have h0 : registered (set_socket_input st s rest) := registered_congr rfl rfl h
  rcases hc with ⟨_, _, rfl⟩ | ⟨_, _, rfl⟩ | ⟨_, packet, _, hpk⟩
  · exact h0
  · exact h0
  · exact registered_packet hpk h0

/-! ## `registered` along the cycles of `do_select` -/

theorem for_each_invariant {α σ : Type} (P : σ → Prop) (body : α → σ → Option σ)
    (hbody : ∀ x s s1, P s → body x s = some s1 → P s1) (xs : List α) :
    ∀ st st1, P st → for_each body xs st = some st1 → P st1 := by
  induction xs with
  | nil =>
    intro st st1 hp h
    simp only [for_each, Option.some.injEq] at h
    subst h
    exact hp
  | cons x xs ih =>
    intro st st1 hp h
    simp only [for_each, Option.bind_eq_some] at h
    obtain ⟨s, h1, h2⟩ := h
    exact ih s st1 (hbody x st s hp h1) h2

theorem registered_sublist {st : server_t} {t : table_t Nat} (h : registered st)
    (hs : List.Sublist t st.old_users) : registered { st with old_users := t } := by
  refine ⟨List.Nodup.sublist (List.Sublist.map _ hs) h.1, ?_⟩
  intro e he
  exact h.2 e (hs.subset he)

/-- The outcomes of the body of the loop of `do_select` over the authenticated users. -/
theorem select_old_user_cases {SHA1 : List Nat → List Nat} {fds : List Nat} {user : Nat}
    {st st1 : server_t} (h : select_old_user SHA1 fds user st = some st1) :
    st1 = st ∨ process_next_packet SHA1 st user = some (true, st1) ∨
      ∃ s1 name s, process_next_packet SHA1 st user = some (false, s1) ∧
        st1 = { s1 with old_users := (table_remove s1.old_users name).2,
                         closed := s1.closed ++ [s] } := by
  simp only [select_old_user, and_then_eq, and_then_def, exec_pure,
    Option.bind_eq_some] at h
  obtain ⟨s, _, h⟩ := h
  by_cases hc : fds.contains s = true
  · rw [if_pos hc] at h
    simp only [Option.bind_eq_some] at h
    obtain ⟨r, hr, h⟩ := h
    obtain ⟨ok, s1⟩ := r
    cases ok with
    | false =>
      simp only [if_true, Option.bind_eq_some, Option.some.injEq] at h
      obtain ⟨name, _, s2, _, rfl⟩ := h
      exact Or.inr (Or.inr ⟨s1, name, s2, hr, rfl⟩)
    | true =>
      simp only [Bool.true_eq_false, if_false, Option.some.injEq] at h
      subst h
      exact Or.inr (Or.inl hr)
  · rw [if_neg hc] at h
    simp only [Option.some.injEq] at h
    exact Or.inl h.symm

/-- The outcomes of the body of the loop of `do_select` over the new users. -/
theorem select_new_user_cases {SHA1 : List Nat → List Nat} {fds : List Nat} {user : Nat}
    {st st1 : server_t} (h : select_new_user SHA1 fds user st = some st1) :
    st1 = st ∨ process_next_packet SHA1 st user = some (true, st1) ∨
      ∃ s1 s, process_next_packet SHA1 st user = some (false, s1) ∧
        st1 = { s1 with new_users := (list_remove_value s1.new_users user).2,
                         closed := s1.closed ++ [s] } := by
  simp only [select_new_user, and_then_eq, and_then_def, exec_pure,
    Option.bind_eq_some] at h
  obtain ⟨s, _, h⟩ := h
  by_cases hc : fds.contains s = true
  · rw [if_pos hc] at h
    simp only [Option.bind_eq_some] at h
    obtain ⟨r, hr, h⟩ := h
    obtain ⟨ok, s1⟩ := r
    cases ok with
    | false =>
      simp only [if_true, Option.bind_eq_some, Option.some.injEq] at h
      obtain ⟨s2, _, rfl⟩ := h
      exact Or.inr (Or.inr ⟨s1, s2, hr, rfl⟩)
    | true =>
      simp only [Bool.true_eq_false, if_false, Option.some.injEq] at h
      subst h
      exact Or.inr (Or.inl hr)
  · rw [if_neg hc] at h
    simp only [Option.some.injEq] at h
    exact Or.inl h.symm

theorem select_old_user_registered {SHA1 : List Nat → List Nat} {fds : List Nat}
    {user : Nat} {st st1 : server_t} (hr : registered st)
    (h : select_old_user SHA1 fds user st = some st1) : registered st1 := by
  rcases select_old_user_cases h with rfl | hp | ⟨s1, name, s, hp, rfl⟩
  · exact hr
  · exact registered_next hp hr
  · exact registered_congr rfl rfl
      (registered_sublist (registered_next hp hr) (table_remove_sublist _ name))

theorem select_new_user_registered {SHA1 : List Nat → List Nat} {fds : List Nat}
    {user : Nat} {st st1 : server_t} (hr : registered st)
    (h : select_new_user SHA1 fds user st = some st1) : registered st1 := by
  rcases select_new_user_cases h with rfl | hp | ⟨s1, s, hp, rfl⟩
  · exact hr
  · exact registered_next hp hr
  · exact registered_congr (a := s1) rfl rfl (registered_next hp hr)

theorem send_all_writes {st st1 : server_t} {packet : packet_buffer_t} {users : List Nat}
    (h : for_each (fun user st => (get_socket st user).bind (socket_send st packet)) users st =
      some st1) : writes_only st st1 := by
  refine for_each_writes _ ?_ _ _ _ h
  intro x s s1 hb
  simp only [Option.bind_eq_some] at hb
  obtain ⟨sock, _, h2⟩ := hb
  exact socket_send_writes h2

theorem do_keepalive_writes {st st1 : server_t} {new_user_list old_user_list : List Nat}
    (h : do_keepalive st new_user_list old_user_list = some st1) : writes_only st st1 := by
  simp only [do_keepalive, and_then_eq, and_then_def, exec_pure, Option.bind_eq_some,
    Option.some.injEq] at h
  obtain ⟨k, _, s1, h1, s2, h2, _, _, rfl⟩ := h
  exact writes_only_trans (send_all_writes h1) (send_all_writes h2)

theorem accept_connection_registered {st : server_t} (s : Nat) (ip : List Nat) (token : Nat)
    (h : registered st) : registered (accept_connection st s ip token) := by
  refine ⟨h.1, ?_⟩
  intro e he
  obtain ⟨hc, x, hx, hn, hs⟩ := h.2 e he
  refine ⟨hc, x, ?_, hn, hs⟩
  show (st.users ++ _)[e.2]? = some x
  rw [List.getElem?_append_left (users_index_lt hx)]
  exact hx

/-- The two parts of a cycle of `do_select` in which sockets can be read. -/
theorem do_select_ready {SHA1 : List Nat → List Nat} {st st1 : server_t} {fds : List Nat}
    {accepted : Option (Nat × List Nat × Nat)}
    (h : do_select SHA1 st (select_result.ready fds accepted) = some st1) :
    ∃ s1, for_each (select_old_user SHA1 fds) (get_values st.old_users)
        (match accepted with
          | some (new_socket, ip, token) => accept_connection st new_socket ip token
          | none => st) = some s1 ∧
      for_each (select_new_user SHA1 fds) (list_get_array st.new_users) s1 = some st1 := by
  simp only [do_select, and_then_eq, and_then_def, Option.bind_eq_some] at h
  obtain ⟨_, _, _, _, s1, h1, h2⟩ := h
  exact ⟨s1, h1, h2⟩

theorem do_select_timeout {SHA1 : List Nat → List Nat} {st st1 : server_t}
    (h : do_select SHA1 st select_result.timeout = some st1) : writes_only st st1 := by
  simp only [do_select, and_then_eq, and_then_def, Option.bind_eq_some] at h
  obtain ⟨_, _, _, _, h1⟩ := h
  exact do_keepalive_writes h1

theorem do_select_failed {SHA1 : List Nat → List Nat} {st st1 : server_t}
    (h : do_select SHA1 st select_result.failed = some st1) : False := by
  simp only [do_select, and_then_eq, and_then_def, Option.bind_eq_some] at h
  obtain ⟨_, _, _, _, h1⟩ := h
  cases h1

theorem do_select_registered {SHA1 : List Nat → List Nat} {st st1 : server_t}
    {event : select_result} (hr : registered st) (h : do_select SHA1 st event = some st1) :
    registered st1 := by
  cases event with
  | failed => exact (do_select_failed h).elim
  | timeout => exact registered_writes (do_select_timeout h) hr
  | ready fds accepted =>
    obtain ⟨s1, h1, h2⟩ := do_select_ready h
    have hnew : registered s1 → registered st1 := fun hs =>
      for_each_invariant registered (select_new_user SHA1 fds)
        (fun x s s1 hp hb => select_new_user_registered hp hb) _ _ _ hs h2
    have hold : ∀ s0, registered s0 →
        for_each (select_old_user SHA1 fds) (get_values st.old_users) s0 = some s1 →
        registered s1 := fun s0 h0 h1 =>
      for_each_invariant registered (select_old_user SHA1 fds)
        (fun x s s1 hp hb => select_old_user_registered hp hb) _ _ _ h0 h1
    cases accepted with
    | none => exact hnew (hold _ hr h1)
    | some a =>
      obtain ⟨ns, ip, token⟩ := a
      exact hnew (hold _ (accept_connection_registered ns ip token hr) h1)

theorem server_run_registered (SHA1 : List Nat → List Nat) (events : List server_event) :
    ∀ st st1, registered st → server_run SHA1 st events = some st1 → registered st1 := by
  induction events with
  | nil =>
    intro st st1 hr h
    simp only [server_run, Option.some.injEq] at h
    subst h
    exact hr
  | cons e es ih =>
    intro st st1 hr h
    simp only [server_run, Option.bind_eq_some] at h
    obtain ⟨s, h1, h2⟩ := h
    refine ih s st1 ?_ h2
    cases e with
    | arrive sock bytes =>
      simp only [server_step, Option.some.injEq] at h1
      subst h1
      exact registered_congr rfl rfl hr
    | cycle event => exact do_select_registered hr h1

theorem registered_start (accounts : List Nat) : registered (server_start accounts) := by
  refine ⟨by simp [server_start, table_create, get_keys], ?_⟩
  intro e he
  simp [server_start, table_create] at he

/-- Two different users in `old_users` have different names. -/
theorem registered_unique {st : server_t} (h : registered st) (p q : Nat)
    (hp : p ∈ get_values st.old_users) (hq : q ∈ get_values st.old_users) (hpq : p ≠ q) :
    ∃ u v, st.users[p]? = some u ∧ st.users[q]? = some v ∧
      (u.state = user_states_t.NOT_IN_CHANNEL ∨ u.state = user_states_t.JOINED_CHANNEL) ∧
      (v.state = user_states_t.NOT_IN_CHANNEL ∨ v.state = user_states_t.JOINED_CHANNEL) ∧
      u.username ≠ v.username := by
  simp only [get_values, List.mem_map] at hp hq
  obtain ⟨a, ha, rfl⟩ := hp
  obtain ⟨b, hb, rfl⟩ := hq
  obtain ⟨_, u, hu, hun, hus⟩ := h.2 a ha
  obtain ⟨_, v, hv, hvn, hvs⟩ := h.2 b hb
  refine ⟨u, v, hu, hv, hus, hvs, ?_⟩
  intro hc
  apply hpq
  rw [nodup_keys_value _ h.1 a b ha hb (by rw [← hun, ← hvn, hc])]

/-! ## Steps that answer on allowed sockets -/

theorem only_sent_refl (A : Nat → Prop) (st : server_t) : only_sent A st st :=
  ⟨[], by simp, by simp⟩

theorem only_sent_trans {A : Nat → Prop} {a b c : server_t} (h1 : only_sent A a b)
    (h2 : only_sent A b c) : only_sent A a c := by
  obtain ⟨l1, rfl, p1⟩ := h1
  obtain ⟨l2, rfl, p2⟩ := h2
  refine ⟨l1 ++ l2, by simp, ?_⟩
  intro e he
  rcases List.mem_append.mp he with h | h
  · exact p1 e h
  · exact p2 e h

theorem only_sent.users_eq {A : Nat → Prop} {a b : server_t} (h : only_sent A a b) :
    b.users = a.users := by
  obtain ⟨l, rfl, _⟩ := h
  rfl

theorem only_sent.old_users_eq {A : Nat → Prop} {a b : server_t} (h : only_sent A a b) :
    b.old_users = a.old_users := by
  obtain ⟨l, rfl, _⟩ := h
  rfl

theorem only_sent.rooms_eq {A : Nat → Prop} {a b : server_t} (h : only_sent A a b) :
    b.rooms = a.rooms := by
  obtain ⟨l, rfl, _⟩ := h
  rfl

theorem only_sent.room_heap_eq {A : Nat → Prop} {a b : server_t} (h : only_sent A a b) :
    b.room_heap = a.room_heap := by
  obtain ⟨l, rfl, _⟩ := h
  rfl

theorem answers_here {A : Nat → Prop} {st : server_t} {f : server_t → Option server_t}
    (h : answers A st f) : ∃ s1, f st = some s1 ∧ only_sent A st s1 :=
  h st (only_sent_refl A st)

theorem answers_pure (A : Nat → Prop) (st : server_t) : answers A st (fun s => some s) :=
  fun s hs => ⟨s, rfl, hs⟩

theorem answers_bind {A : Nat → Prop} {st : server_t} {f g : server_t → Option server_t}
    (hf : answers A st f) (hg : answers A st g) : answers A st (fun s => (f s).bind g) := by
  intro s hs
  obtain ⟨s1, e1, h1⟩ := hf s hs
  obtain ⟨s2, e2, h2⟩ := hg s1 h1
  exact ⟨s2, by simp only [e1, Option.some_bind, e2], h2⟩

theorem answers_for_each {α : Type} {A : Nat → Prop} {st : server_t}
    {body : α → server_t → Option server_t} (xs : List α)
    (h : ∀ x ∈ xs, answers A st (body x)) : answers A st (for_each body xs) := by
  induction xs with
  | nil => exact fun s hs => ⟨s, rfl, hs⟩
  | cons x xs ih =>
    intro s hs
    obtain ⟨s1, e1, h1⟩ := h x (List.mem_cons_self _ _) s hs
    obtain ⟨s2, e2, h2⟩ := ih (fun y hy => h y (List.mem_cons_of_mem _ hy)) s1 h1
    exact ⟨s2, by simp only [for_each, e1, Option.some_bind, e2], h2⟩

theorem answers_congr {A : Nat → Prop} {st : server_t} {f g : server_t → Option server_t}
    (hf : answers A st f) (hfg : ∀ s, only_sent A st s → g s = f s) : answers A st g := by
  intro s hs
  rw [hfg s hs]
  exact hf s hs

/-- `send_chat` to a user that is logged in answers on the socket of that user. -/
theorem answers_send_chat {A : Nat → Prop} {st : server_t} (subtype : Nat)
    (dest sender text : List Nat) (t : Nat) (x : user_t)
    (hfind : table_find st.old_users dest = some t) (hx : st.users[t]? = some x)
    (hl : strlen sender + strlen text + 10 ≤ MAX_PACKET) (hA : A x.socket) :
    answers A st (fun s => (send_chat s subtype dest sender text).map Prod.snd) := by
  intro s hs
  have e := send_chat_eq s subtype dest sender text t x (by rw [hs.old_users_eq]; exact hfind)
    (by rw [hs.users_eq]; exact hx) hl
  have e1 : (fun s => (send_chat s subtype dest sender text).map Prod.snd) s =
      some { s with sent := s.sent ++ [(x.socket, chatevent_frame subtype sender text)] } := by
    show Option.map Prod.snd (send_chat s subtype dest sender text) = _
    rw [e]
    rfl
  refine ⟨_, e1, only_sent_trans hs ⟨_, rfl, ?_⟩⟩
  intro e he
  simp only [List.mem_singleton] at he
  subst he
  exact hA

/-- `send_chat_self` of a user that is logged in under its name answers on the socket of the
user. -/
theorem answers_send_chat_self {A : Nat → Prop} {st : server_t} (subtype user : Nat)
    (text : List Nat) (u : user_t) (hu : st.users[user]? = some u)
    (hreg : table_find st.old_users u.username = some user)
    (hl : strlen u.username + strlen text + 10 ≤ MAX_PACKET) (hA : A u.socket) :
    answers A st (fun s => send_chat_self s subtype user text) := by
  intro s hs
  have e := send_chat_self_eq s subtype user text u u user (by rw [hs.users_eq]; exact hu)
    (by rw [hs.old_users_eq]; exact hreg) (by rw [hs.users_eq]; exact hu) hl
  refine ⟨_, e, only_sent_trans hs ⟨_, rfl, ?_⟩⟩
  intro e he
  simp only [List.mem_singleton] at he
  subst he
  exact hA

theorem strlen_snprintf (size : Nat) (text : List Nat) :
    strlen (snprintf size text) ≤ size - 1 := by
  rw [strlen_eq]
  refine le_trans (c_string_length_le _) ?_
  simp only [snprintf, List.length_take]
  omega

/-! ## The query commands answer the requester -/

theorem table_find_mem {V : Type} (t : table_t V) (key : List Nat) (v : V)
    (h : table_find t key = some v) : ∃ e ∈ t, e.2 = v := by
  induction t with
  | nil => simp [table_find] at h
  | cons node rest ih =>
    simp only [table_find] at h
    split at h
    · simp only [Option.some.injEq] at h
      exact ⟨node, List.mem_cons_self _ _, h⟩
    · obtain ⟨e, he, hv⟩ := ih h
      exact ⟨e, List.mem_cons_of_mem _ he, hv⟩

theorem table_find_of_mem {V : Type} (t : table_t V) (hn : (get_keys t).Nodup)
    (hk : ∀ e ∈ t, c_string e.1 = e.1) (e : List Nat × V) (he : e ∈ t) :
    table_find t e.1 = some e.2 := by
  induction t with
  | nil => cases he
  | cons node rest ih =>
    simp only [get_keys, List.map_cons, List.nodup_cons] at hn
    simp only [table_find]
    rcases List.mem_cons.mp he with rfl | hr
    · simp [strcmp_eq]
    · have hne : ¬ strcmp_eq node.1 e.1 = true := by
        intro hc
        simp only [strcmp_eq, beq_iff_eq] at hc
        rw [hk node (List.mem_cons_self _ _), hk e he] at hc
        apply hn.1
        rw [hc]
        exact List.mem_map_of_mem _ hr
      rw [if_neg hne]
      exact ih hn.2 (fun x hx => hk x (List.mem_cons_of_mem _ hx)) hr

section commands

variable {A : Nat → Prop} {st : server_t} {user : Nat} {u : user_t}

/-- `send_chat_self` of the requester, for a text of at most `INPUT_LENGTH` characters. -/
theorem answers_self (hu : st.users[user]? = some u)
    (hreg : table_find st.old_users u.username = some user)
    (hl : strlen u.username < MAX_NAME) (hA : A u.socket) (subtype : Nat) (text : List Nat)
    (ht : strlen text ≤ INPUT_LENGTH) :
    answers A st (fun s => send_chat_self s subtype user text) := by
  refine answers_send_chat_self subtype user text u hu hreg ?_ hA
  simp only [MAX_NAME, INPUT_LENGTH, MAX_PACKET] at *
  omega

theorem answers_self_snprintf (hu : st.users[user]? = some u)
    (hreg : table_find st.old_users u.username = some user)
    (hl : strlen u.username < MAX_NAME) (hA : A u.socket) (subtype : Nat) (text : List Nat) :
    answers A st (fun s =>
      send_chat_self s subtype user (snprintf (INPUT_LENGTH - 1) text)) := by
  refine answers_self hu hreg hl hA subtype _ ?_
  have := strlen_snprintf (INPUT_LENGTH - 1) text
  simp only [INPUT_LENGTH] at *
  omega

theorem answers_two (hu : st.users[user]? = some u)
    (hreg : table_find st.old_users u.username = some user)
    (hl : strlen u.username < MAX_NAME) (hA : A u.socket) (a b : List Nat)
    (ha : strlen a ≤ INPUT_LENGTH) (hb : strlen b ≤ INPUT_LENGTH) :
    answers A st (fun s => (send_chat_self s EID_INFO user a).bind (fun s =>
      send_chat_self s EID_INFO user b)) :=
  answers_bind (answers_self hu hreg hl hA _ a ha) (answers_self hu hreg hl hA _ b hb)

theorem answers_four (hu : st.users[user]? = some u)
    (hreg : table_find st.old_users u.username = some user)
    (hl : strlen u.username < MAX_NAME) (hA : A u.socket) (a b c d : List Nat)
    (ha : strlen a ≤ INPUT_LENGTH) (hb : strlen b ≤ INPUT_LENGTH)
    (hc : strlen c ≤ INPUT_LENGTH) (hd : strlen d ≤ INPUT_LENGTH) :
    answers A st (fun s => (send_chat_self s EID_INFO user a).bind (fun s =>
      (send_chat_self s EID_INFO user b).bind (fun s =>
        (send_chat_self s EID_INFO user c).bind (fun s =>
          send_chat_self s EID_INFO user d)))) :=
  answers_bind (answers_self hu hreg hl hA _ a ha)
    (answers_bind (answers_self hu hreg hl hA _ b hb)
      (answers_bind (answers_self hu hreg hl hA _ c hc) (answers_self hu hreg hl hA _ d hd)))

theorem answers_rooms (hu : st.users[user]? = some u)
    (hreg : table_find st.old_users u.username = some user)
    (hl : strlen u.username < MAX_NAME) (hA : A u.socket) (hv : valid_rooms st)
    (param : List Nat) : answers A st (fun s => process_command_rooms s user param) := by
  intro s hs
  show ∃ s1, process_command_rooms s user param = some s1 ∧ _
  unfold process_command_rooms
  split
  · exact answers_self hu hreg hl hA _ _ (by decide) s hs
  · simp only [and_then_eq, and_then_def]
    obtain ⟨s1, e1, h1⟩ := answers_self hu hreg hl hA EID_INFO
      (str "Here is the list of channels") (by decide) s hs
    beta_reduce at e1
    rw [e1, Option.some_bind, hs.rooms_eq]
    refine answers_for_each _ ?_ s1 h1
    intro room hroom s2 hs2
    have hlt : room < s2.room_heap.length := by
      rw [hs2.room_heap_eq]
      exact hv.1 room hroom
    simp only [room_get_count, room_get_name, List.getElem?_eq_getElem hlt, Option.map_some',
      Option.some_bind, exec_pure]
    split
    · exact answers_self_snprintf hu hreg hl hA _ _ s2 hs2
    · exact ⟨s2, rfl, hs2⟩

theorem answers_who (hu : st.users[user]? = some u)
    (hreg : table_find st.old_users u.username = some user)
    (hl : strlen u.username < MAX_NAME) (hA : A u.socket) (hv : valid_rooms st)
    (param : List Nat) : answers A st (fun s => process_command_who s user param) := by
  intro s hs
  show ∃ s1, process_command_who s user param = some s1 ∧ _
  unfold process_command_who
  split
  · exact answers_self hu hreg hl hA _ _ (by decide) s hs
  · rw [hs.rooms_eq]
    cases hf : table_find st.rooms param with
    | none => exact answers_self hu hreg hl hA _ _ (by decide) s hs
    | some target =>
      obtain ⟨e, he, hev⟩ := table_find_mem _ _ _ hf
      have hlt : target < s.room_heap.length := by
        rw [hs.room_heap_eq, ← hev]
        exact hv.1 _ (List.mem_map_of_mem _ he)
      simp only [and_then_eq, and_then_def, room_get_users, List.getElem?_eq_getElem hlt,
        Option.map_some', Option.some_bind]
      split
      · exact answers_self hu hreg hl hA _ _ (by decide) s hs
      · obtain ⟨s1, e1, h1⟩ := answers_self_snprintf hu hreg hl hA EID_INFO
          (str "Users in room " ++ c_string param ++ str ":") s hs
        beta_reduce at e1
        rw [e1, Option.some_bind]
        refine answers_for_each _ ?_ s1 h1
        intro m hm s2 hs2
        have hroom : s.room_heap[target] ∈ st.room_heap := by
          rw [← hs.room_heap_eq]
          exact List.getElem_mem _
        have hmlt : m < s2.users.length := by
          rw [hs2.users_eq]
          exact hv.2 _ hroom m hm
        simp only [get_username, get_ip, List.getElem?_eq_getElem hmlt, Option.map_some',
          Option.some_bind]
        exact answers_self_snprintf hu hreg hl hA _ _ s2 hs2

theorem answers_finger (hu : st.users[user]? = some u)
    (hreg : table_find st.old_users u.username = some user)
    (hl : strlen u.username < MAX_NAME) (hA : A u.socket) (hr : registered st)
    (param : List Nat) : answers A st (fun s => process_command_finger s user param) := by
  intro s hs
  show ∃ s1, process_command_finger s user param = some s1 ∧ _
  unfold process_command_finger
  split
  · exact answers_self hu hreg hl hA _ _ (by decide) s hs
  · rw [hs.old_users_eq]
    cases hf : table_find st.old_users param with
    | none => exact answers_self hu hreg hl hA _ _ (by decide) s hs
    | some target =>
      obtain ⟨e, he, hev⟩ := table_find_mem _ _ _ hf
      obtain ⟨_, x, hx, _, _⟩ := hr.2 e he
      rw [hev] at hx
      simp only [and_then_eq, and_then_def, get_username, get_ip, get_user_room, hs.users_eq, hx,
        Option.map_some', Option.some_bind]
      exact answers_self_snprintf hu hreg hl hA _ _ s hs

set_option maxRecDepth 100000 in
theorem answers_help (hu : st.users[user]? = some u)
    (hreg : table_find st.old_users u.username = some user)
    (hl : strlen u.username < MAX_NAME) (hA : A u.socket)
    (param : List Nat) : answers A st (fun s => process_command_help s user param) := by
  intro s hs
  show ∃ s1, process_command_help s user param = some s1 ∧ _
  unfold process_command_help
  simp only [and_then_eq, and_then_def]
  split
  · exact answers_two hu hreg hl hA _ _ (by decide) (by decide) s hs
  split
  · exact answers_four hu hreg hl hA _ _ _ _ (by decide) (by decide) (by decide) (by decide)
      s hs
  split
  · exact answers_four hu hreg hl hA _ _ _ _ (by decide) (by decide) (by decide) (by decide)
      s hs
  split
  · exact answers_four hu hreg hl hA _ _ _ _ (by decide) (by decide) (by decide) (by decide)
      s hs
  split
  · exact answers_four hu hreg hl hA _ _ _ _ (by decide) (by decide) (by decide) (by decide)
      s hs
  split
  · exact answers_four hu hreg hl hA _ _ _ _ (by decide) (by decide) (by decide) (by decide)
      s hs
  split
  · exact answers_four hu hreg hl hA _ _ _ _ (by decide) (by decide) (by decide) (by decide)
      s hs
  · exact ⟨s, rfl, hs⟩

end commands

/-- `/w`: the sender is answered, and when the user named is logged in the message is
written on the socket of that user too. -/
theorem answers_w {A : Nat → Prop} {st : server_t} {user : Nat} {u : user_t}
    (hu : st.users[user]? = some u)
    (hreg : table_find st.old_users u.username = some user)
    (hl : strlen u.username < MAX_NAME) (hA : A u.socket) (hr : registered st)
    (hnames : ∀ x ∈ st.users, strlen x.username < MAX_NAME) (param : List Nat)
    (hw : ∀ s, whisper_socket st param = some s → A s)
    (hfit : strlen param + 42 ≤ MAX_PACKET) :
    answers A st (fun s => process_command_w s user param) := by
  intro s hs
  show ∃ s1, process_command_w s user param = some s1 ∧ _
  unfold process_command_w
  cases hi : strchr param 0x20 with
  | none => exact answers_self hu hreg hl hA _ _ (by decide) s hs
  | some i =>
    simp only [hs.old_users_eq]
    cases hf : table_find st.old_users ((c_string param).take i) with
    | none => exact answers_self hu hreg hl hA _ _ (by decide) s hs
    | some dest =>
      obtain ⟨e, he, hev⟩ := table_find_mem _ _ _ hf
      obtain ⟨_, x, hx, hxn, _⟩ := hr.2 e he
      rw [hev] at hx
      have hxreg : table_find st.old_users x.username = some dest := by
        rw [hxn, ← hev]
        exact table_find_of_mem _ hr.1 (fun e he => (hr.2 e he).1) e he
      have hxl : strlen x.username < MAX_NAME := hnames x (List.mem_iff_getElem?.mpr ⟨_, hx⟩)
      have hm : strlen ((c_string param).drop (i + 1)) ≤ strlen param := by
        rw [strlen_eq, strlen_eq]
        refine le_trans (c_string_length_le _) ?_
        simp only [List.length_drop]
        omega
      have hAx : A x.socket := by
        apply hw
        simp only [whisper_socket, hi, Option.some_bind, hf, get_socket, hx, Option.map_some']
      simp only [MAX_NAME] at hl hxl
      have e1 := send_chat_eq s EID_WHISPERFROM x.username u.username
        ((c_string param).drop (i + 1)) dest x (by rw [hs.old_users_eq]; exact hxreg)
        (by rw [hs.users_eq]; exact hx) (by omega)
      have e2 := send_chat_eq
        { s with sent := s.sent ++ [(x.socket, chatevent_frame EID_WHISPERFROM u.username
          ((c_string param).drop (i + 1)))] }
        EID_WHISPERTO u.username x.username
        ((c_string param).drop (i + 1)) user u (by rw [hs.old_users_eq]; exact hreg)
        (by rw [hs.users_eq]; exact hu) (by omega)
      have hus : s.users[user]? = some u := by rw [hs.users_eq]; exact hu
      have hxs : s.users[dest]? = some x := by rw [hs.users_eq]; exact hx
      simp only [and_then_eq, and_then_def, get_username, hus, hxs, Option.map_some',
        Option.some_bind, e1, e2, exec_pure]
      refine ⟨_, rfl, only_sent_trans hs (only_sent_trans ⟨[_], rfl, ?_⟩ ⟨[_], rfl, ?_⟩)⟩
      · intro y hy
        simp only [List.mem_singleton] at hy
        subst hy
        exact hAx
      · intro y hy
        simp only [List.mem_singleton] at hy
        subst hy
        exact hA

theorem sample_lobby_registered : registered sample_lobby_server := by
  refine ⟨by decide, ?_⟩
  intro e he
  simp only [sample_lobby_server, List.mem_cons, List.mem_singleton, List.not_mem_nil,
    or_false] at he
  rcases he with rfl | rfl
  · exact ⟨by decide, sample_alice, rfl, rfl, Or.inr rfl⟩
  · exact ⟨by decide, sample_bob, rfl, rfl, Or.inr rfl⟩

theorem strlen_command_parameter (message : List Nat) :
    strlen (command_words message).2 ≤ message.length := by
  unfold command_words
  split
  · rw [strlen_eq]
    refine le_trans (c_string_length_le _) ?_
    simp only [List.length_drop]
    omega
  · simp [strlen, str, c_string]

/-! ## More on tables with distinct keys -/

theorem table_find_no_key {V : Type} (t : table_t V) (key : List Nat)
    (hk : ∀ e ∈ t, c_string e.1 = e.1) (h : ∀ e ∈ t, e.1 ≠ c_string key) :
    table_find t key = none := by
  induction t with
  | nil => rfl
  | cons node rest ih =>
    simp only [table_find]
    have hne : ¬ strcmp_eq node.1 key = true := by
      intro hc
      simp only [strcmp_eq, beq_iff_eq] at hc
      rw [hk node (List.mem_cons_self _ _)] at hc
      exact h node (List.mem_cons_self _ _) hc
    rw [if_neg hne]
    exact ih (fun e he => hk e (List.mem_cons_of_mem _ he))
      (fun e he => h e (List.mem_cons_of_mem _ he))

theorem table_find_key {V : Type} (t : table_t V) (key : List Nat) (v : V)
    (hk : ∀ e ∈ t, c_string e.1 = e.1) (h : table_find t key = some v) :
    (c_string key, v) ∈ t := by
  induction t with
  | nil => simp [table_find] at h
  | cons node rest ih =>
    simp only [table_find] at h
    split at h
    · rename_i hc
      simp only [strcmp_eq, beq_iff_eq] at hc
      rw [hk node (List.mem_cons_self _ _)] at hc
      simp only [Option.some.injEq] at h
      rw [← hc, ← h]
      exact List.mem_cons_self _ _
    · exact List.mem_cons_of_mem _ (ih (fun e he => hk e (List.mem_cons_of_mem _ he)) h)

/-- What `table_remove` leaves of a table with distinct keys: the members with another
key. -/
theorem mem_table_remove {V : Type} (t : table_t V) (key : List Nat)
    (hn : (get_keys t).Nodup) (hk : ∀ e ∈ t, c_string e.1 = e.1) (e : List Nat × V) :
    e ∈ (table_remove t key).2 ↔ e ∈ t ∧ e.1 ≠ c_string key := by
  induction t with
  | nil => simp [table_remove]
  | cons node rest ih =>
    simp only [get_keys, List.map_cons, List.nodup_cons] at hn
    have hk1 := hk node (List.mem_cons_self _ _)
    have ih1 := ih hn.2 (fun e he => hk e (List.mem_cons_of_mem _ he))
    simp only [table_remove]
    split
    · rename_i hc
      simp only [strcmp_eq, beq_iff_eq] at hc
      rw [hk1] at hc
      constructor
      · intro he
        refine ⟨List.mem_cons_of_mem _ he, ?_⟩
        intro heq
        apply hn.1
        rw [← hc, ← heq]
        exact List.mem_map_of_mem _ he
      · rintro ⟨he, hne⟩
        rcases List.mem_cons.mp he with rfl | hr
        · exact absurd hc.symm hne
        · exact hr
    · rename_i hc
      simp only [strcmp_eq, beq_iff_eq] at hc
      rw [hk1] at hc
      simp only [List.mem_cons, ih1]
      constructor
      · rintro (rfl | ⟨he, hne⟩)
        · exact ⟨Or.inl rfl, fun heq => hc heq.symm⟩
        · exact ⟨Or.inr he, hne⟩
      · rintro ⟨rfl | he, hne⟩
        · exact Or.inl rfl
        · exact Or.inr ⟨he, hne⟩

theorem keys_table_remove_nodup {V : Type} (t : table_t V) (key : List Nat)
    (hn : (get_keys t).Nodup) : (get_keys (table_remove t key).2).Nodup :=
  List.Nodup.sublist (List.Sublist.map _ (table_remove_sublist t key)) hn

theorem mem_range_values {st : server_t} {R : List Nat} {r : Nat}
    (hv : get_values st.rooms = List.range st.room_heap.length) (h : (R, r) ∈ st.rooms) :
    r < st.room_heap.length := by
  have : r ∈ get_values st.rooms := List.mem_map_of_mem Prod.snd h
  rw [hv] at this
  exact List.mem_range.mp this

/-- In a table whose values are distinct, a value has one key. -/
theorem nodup_values_key {V : Type} (t : table_t V) (hn : (get_values t).Nodup)
    (a b : List Nat × V) (ha : a ∈ t) (hb : b ∈ t) (hab : a.2 = b.2) : a = b := by
  induction t with
  | nil => cases ha
  | cons node rest ih =>
    simp only [get_values, List.map_cons, List.nodup_cons] at hn
    rcases List.mem_cons.mp ha with rfl | ha1
    · rcases List.mem_cons.mp hb with rfl | hb1
      · rfl
      · exfalso
        apply hn.1
        rw [hab]
        exact List.mem_map_of_mem _ hb1
    · rcases List.mem_cons.mp hb with rfl | hb1
      · exfalso
        apply hn.1
        rw [← hab]
        exact List.mem_map_of_mem _ ha1
      · exact ih hn.2 ha1 hb1

/-! ## The invariant of rooms and sessions -/

theorem room_invariant_congr {a b : server_t} (hu : b.users = a.users)
    (ho : b.old_users = a.old_users) (hr : b.rooms = a.rooms)
    (hh : b.room_heap = a.room_heap) (h : room_invariant a) : room_invariant b := by
  obtain ⟨h1, h2, h3⟩ := h
  refine ⟨registered_congr hu ho h1, ?_, ?_⟩
  · unfold sessions_agree at h2 ⊢
    rw [hu, ho, hr, hh]
    exact h2
  · unfold rooms_agree at h3 ⊢
    rw [hu, hr, hh]
    exact h3

theorem room_invariant_writes {a b : server_t} (hw : writes_only a b) (h : room_invariant a) :
    room_invariant b := by
  obtain ⟨log, rfl⟩ := hw
  exact room_invariant_congr rfl rfl rfl rfl h

/-- A logged-in user is found in `old_users` under its name. -/
theorem invariant_find {st : server_t} (h : room_invariant st) {p : Nat} {x : user_t}
    (hx : st.users[p]? = some x)
    (hs : x.state = user_states_t.NOT_IN_CHANNEL ∨ x.state = user_states_t.JOINED_CHANNEL) :
    table_find st.old_users x.username = some p :=
  table_find_of_mem _ h.1.1 (fun e he => (h.1.2 e he).1) (x.username, p) ((h.2.1 p x hx).2.1 hs)

theorem invariant_name_fixed {st : server_t} (h : room_invariant st) {p : Nat} {x : user_t}
    (hx : st.users[p]? = some x)
    (hs : x.state = user_states_t.NOT_IN_CHANNEL ∨ x.state = user_states_t.JOINED_CHANNEL) :
    c_string x.username = x.username :=
  (h.1.2 (x.username, p) ((h.2.1 p x hx).2.1 hs)).1

/-- Two logged-in users with the same name are the same user. -/
theorem invariant_unique {st : server_t} (h : room_invariant st) {p q : Nat} {x y : user_t}
    (hx : st.users[p]? = some x) (hy : st.users[q]? = some y)
    (hxs : x.state = user_states_t.NOT_IN_CHANNEL ∨ x.state = user_states_t.JOINED_CHANNEL)
    (hys : y.state = user_states_t.NOT_IN_CHANNEL ∨ y.state = user_states_t.JOINED_CHANNEL)
    (hn : x.username = y.username) : p = q := by
  have h1 := invariant_find h hx hxs
  have h2 := invariant_find h hy hys
  rw [hn, h2] at h1
  exact (Option.some.inj h1).symm

/-- Storing a user that is not logged in, with its name and room as they were and a state in
which it is not logged in either. -/
theorem room_invariant_store_plain {st : server_t} {user : Nat} {u w : user_t}
    (h : room_invariant st) (hu : st.users[user]? = some u)
    (hs : u.state = user_states_t.CONNECTED ∨ u.state = user_states_t.SENT_CLIENT_INFORMATION)
    (hn : w.username = u.username) (hr : w.room = u.room)
    (hws : w.state = user_states_t.CONNECTED ∨
      w.state = user_states_t.SENT_CLIENT_INFORMATION) :
    room_invariant (store_user st user w) := by
  have hnj : u.state ≠ user_states_t.JOINED_CHANNEL := by
    rcases hs with e | e <;> rw [e] <;> decide
  have hwnj : w.state ≠ user_states_t.JOINED_CHANNEL := by
    rcases hws with e | e <;> rw [e] <;> decide
  refine ⟨registered_store_user h.1 hu ?_, ?_, h.2.2.1, h.2.2.2.1, h.2.2.2.2.1, ?_⟩
  · intro e he hp
    exact absurd hp (registered_not_entry h.1 hu hs e he)
  · intro p x hx
    by_cases hp : p = user
    · subst hp
      rw [store_user_lookup hu] at hx
      cases hx
      obtain ⟨a1, _, a3, _⟩ := h.2.1 p u hu
      refine ⟨by rw [hn]; exact a1, ?_, fun _ => by rw [hr]; exact a3 hnj,
        fun e => absurd e hwnj⟩
      intro e
      rcases hws with e1 | e1 <;> rcases e with e | e <;> rw [e1] at e <;> cases e
    · rw [users_set_lookup_ne w hp] at hx
      exact h.2.1 p x hx
  · intro r room hroom
    obtain ⟨b1, b2⟩ := h.2.2.2.2.2 r room hroom
    refine ⟨b1, ?_⟩
    intro e he
    obtain ⟨c1, x, R, hx, c2, c3, c4, c5⟩ := b2 e he
    refine ⟨c1, x, R, ?_, c2, c3, c4, c5⟩
    have hp : e.2 ≠ user := by
      intro hp
      rw [hp, hu] at hx
      cases hx
      exact hnj c3
    rw [users_set_lookup_ne w hp]
    exact hx

theorem room_invariant_informed {st st1 : server_t} {user : Nat}
    (he : informed_effect st user st1) (h : room_invariant st) : room_invariant st1 := by
  obtain ⟨u, t, hu, hs, hw⟩ := he
  exact room_invariant_writes hw
    (room_invariant_store_plain h hu (Or.inl hs) rfl rfl (Or.inr rfl))

theorem room_invariant_accept {st : server_t} (s : Nat) (ip : List Nat) (token : Nat)
    (h : room_invariant st) : room_invariant (accept_connection st s ip token) := by
  refine ⟨accept_connection_registered s ip token h.1, ?_, h.2.2.1, h.2.2.2.1, h.2.2.2.2.1, ?_⟩
  · intro p x hx
    have hx1 : (st.users ++ [create_user s ip token])[p]? = some x := hx
    by_cases hp : p < st.users.length
    · rw [List.getElem?_append_left hp] at hx1
      exact h.2.1 p x hx1
    · rw [List.getElem?_append_right (by omega)] at hx1
      have hx2 : x = create_user s ip token := by
        have hlt : p - st.users.length < 1 := by
          by_contra hge
          rw [List.getElem?_eq_none (by simp only [List.length_singleton]; omega)] at hx1
          cases hx1
        have h0 : p - st.users.length = 0 := by omega
        rw [h0] at hx1
        simpa using hx1.symm
      subst hx2
      refine ⟨by show strlen (str "Not logged in") < MAX_NAME; decide, ?_, fun _ => rfl, ?_⟩
      · intro e
        rcases e with e | e <;> cases e
      · intro e
        cases e
  · intro r room hroom
    obtain ⟨b1, b2⟩ := h.2.2.2.2.2 r room hroom
    refine ⟨b1, ?_⟩
    intro e he
    obtain ⟨c1, x, R, hx, c2, c3, c4, c5⟩ := b2 e he
    refine ⟨c1, x, R, ?_, c2, c3, c4, c5⟩
    show (st.users ++ _)[e.2]? = some x
    rw [List.getElem?_append_left (users_index_lt hx)]
    exact hx

theorem room_invariant_start (accounts : List Nat) : room_invariant (server_start accounts) := by
  refine ⟨registered_start accounts, ?_, by simp [server_start, table_create, get_keys], ?_, ?_,
    ?_⟩
  · intro p x hx
    simp [server_start] at hx
  · intro e he
    simp [server_start, table_create] at he
  · simp [server_start, table_create, get_values]
  · intro r room hroom
    simp [server_start] at hroom

/-- A user in `SENT_CLIENT_INFORMATION` becomes logged in under the name `k`. -/
theorem room_invariant_logged_in {st : server_t} {user : Nat} {u w : user_t} {k : List Nat}
    (new_users : List Nat) (h : room_invariant st) (hu : st.users[user]? = some u)
    (hs : u.state = user_states_t.SENT_CLIENT_INFORMATION)
    (hwn : w.username = k) (hws : w.state = user_states_t.NOT_IN_CHANNEL)
    (hwr : w.room = u.room) (hk : strlen k < MAX_NAME)
    (hreg : registered { store_user st user w with
      new_users := new_users, old_users := st.old_users ++ [(k, user)] }) :
    room_invariant { store_user st user w with
      new_users := new_users, old_users := st.old_users ++ [(k, user)] } := by
  have hnj : u.state ≠ user_states_t.JOINED_CHANNEL := by
    rw [hs]
    decide
  refine ⟨hreg, ?_, h.2.2.1, h.2.2.2.1, h.2.2.2.2.1, ?_⟩
  · intro p x hx
    have hx1 : (store_user st user w).users[p]? = some x := hx
    show _ ∧ (_ → (x.username, p) ∈ st.old_users ++ [(k, user)]) ∧ _ ∧
      (_ → ∃ R r room, _ ∧ (R, r) ∈ st.rooms ∧ st.room_heap[r]? = some room ∧ _)
    by_cases hp : p = user
    · subst hp
      rw [store_user_lookup hu] at hx1
      cases hx1
      obtain ⟨_, _, a3, _⟩ := h.2.1 p u hu
      refine ⟨by rw [hwn]; exact hk, fun _ => ?_, fun _ => by rw [hwr]; exact a3 hnj,
        fun e => ?_⟩
      · rw [hwn]
        exact List.mem_append_right _ (List.mem_singleton_self _)
      · rw [hws] at e
        cases e
    · rw [users_set_lookup_ne _ hp] at hx1
      obtain ⟨a1, a2, a3, a4⟩ := h.2.1 p x hx1
      exact ⟨a1, fun e => List.mem_append_left _ (a2 e), a3, a4⟩
  · intro r room hroom
    obtain ⟨b1, b2⟩ := h.2.2.2.2.2 r room hroom
    refine ⟨b1, ?_⟩
    intro e he
    obtain ⟨c1, x, R, hx, c2, c3, c4, c5⟩ := b2 e he
    refine ⟨c1, x, R, ?_, c2, c3, c4, c5⟩
    have hp : e.2 ≠ user := by
      intro hp
      rw [hp, hu] at hx
      cases hx
      exact hnj c3
    show (store_user st user _).users[e.2]? = some x
    rw [users_set_lookup_ne _ hp]
    exact hx

theorem room_invariant_login {SHA1 : List Nat → List Nat} {st st1 : server_t} {user : Nat}
    (he : login_effect SHA1 st user st1) (h : room_invariant st) : room_invariant st1 := by
  have hreg1 := registered_login he h.1
  obtain ⟨u, name, proof, hu, hs, habsent, hlogin, hw⟩ := he
  have hlen := account_login_success_length SHA1 _ _ _ _ _ hlogin
  rw [c_string_idem] at hlen
  have hk : (c_string name).take (MAX_NAME - 1) = c_string name := List.take_of_length_le hlen
  rw [hk] at hw
  have hadd : table_add st.old_users (c_string name) user =
      st.old_users ++ [(c_string name, user)] := by
    rw [table_add_absent _ _ _ habsent, c_string_idem]
  rw [hadd] at hw
  obtain ⟨log, rfl⟩ := hw
  have hlt : strlen (c_string name) < MAX_NAME := by
    rw [strlen_eq, c_string_idem]
    simp only [MAX_NAME] at hlen ⊢
    omega
  exact room_invariant_congr rfl rfl rfl rfl
    (room_invariant_logged_in (list_remove_value st.new_users user).2 h hu hs rfl rfl rfl hlt
      (registered_congr rfl rfl hreg1))

/-! ## Leaving and entering a room keep the invariant -/

theorem heap_set_lookup {st : server_t} {y : Nat} {ry : room_t} (q : room_t)
    (hy : st.room_heap[y]? = some ry) : (st.room_heap.set y q)[y]? = some q :=
  List.getElem?_set_self (heap_index_lt hy)

/-- A user in `JOINED_CHANNEL` is taken out of its room and put in `NOT_IN_CHANNEL`. -/
theorem room_invariant_leave {st : server_t} {user y : Nat} {u w : user_t} {Y : List Nat}
    {ry q : room_t} (h : room_invariant st) (hu : st.users[user]? = some u)
    (hs : u.state = user_states_t.JOINED_CHANNEL) (hroom : u.room = some Y)
    (hY : (Y, y) ∈ st.rooms) (hy : st.room_heap[y]? = some ry)
    (hwn : w.username = u.username) (hws : w.state = user_states_t.NOT_IN_CHANNEL)
    (hwr : w.room = none) (hry : q.users = (table_remove ry.users u.username).2) :
    room_invariant { store_user st user w with room_heap := st.room_heap.set y q } := by
  obtain ⟨hreg, hsess, hk, hkf, hvals, hrooms⟩ := h
  have hinv : room_invariant st := ⟨hreg, hsess, hk, hkf, hvals, hrooms⟩
  have hfix : c_string u.username = u.username := invariant_name_fixed hinv hu (Or.inr hs)
  obtain ⟨ky, hy5⟩ := hrooms y ry hy
  have hkeys : ∀ e ∈ ry.users, c_string e.1 = e.1 := fun e he => (hy5 e he).1
  have hmem : ∀ e, e ∈ q.users ↔ e ∈ ry.users ∧ e.1 ≠ u.username := by
    intro e
    rw [hry, mem_table_remove _ _ ky hkeys, hfix]
  refine ⟨?_, ?_, hk, hkf, ?_, ?_⟩
  · refine registered_congr (a := store_user st user w) rfl rfl
      (registered_store_user hreg hu ?_)
    intro e he hp
    obtain ⟨_, x, hx, hn, _⟩ := hreg.2 e he
    rw [hp, hu] at hx
    cases hx
    exact ⟨by rw [hwn]; exact hn, Or.inl hws⟩
  · intro p x hx
    have hx1 : (store_user st user w).users[p]? = some x := hx
    show _ ∧ (_ → (x.username, p) ∈ st.old_users) ∧ _ ∧
      (_ → ∃ R r room, _ ∧ (R, r) ∈ st.rooms ∧ (st.room_heap.set y q)[r]? = some room ∧ _)
    by_cases hp : p = user
    · subst hp
      rw [store_user_lookup hu] at hx1
      cases hx1
      obtain ⟨a1, a2, _, _⟩ := hsess p u hu
      refine ⟨by rw [hwn]; exact a1, fun _ => by rw [hwn]; exact a2 (Or.inr hs),
        fun _ => hwr, fun e => ?_⟩
      rw [hws] at e
      cases e
    · rw [users_set_lookup_ne _ hp] at hx1
      obtain ⟨a1, a2, a3, a4⟩ := hsess p x hx1
      refine ⟨a1, a2, a3, fun e => ?_⟩
      obtain ⟨R, r, room, b1, b2, b3, b4⟩ := a4 e
      by_cases hr : r = y
      · subst hr
        rw [hy] at b3
        cases b3
        refine ⟨R, r, q, b1, b2, heap_set_lookup q hy, (hmem _).mpr ⟨b4, ?_⟩⟩
        intro hn
        exact hp (invariant_unique hinv hx1 hu (Or.inr e) (Or.inr hs) hn)
      · refine ⟨R, r, room, b1, b2, ?_, b4⟩
        rw [List.getElem?_set_ne (Ne.symm hr)]
        exact b3
  · show get_values st.rooms = List.range (st.room_heap.set y q).length
    rw [List.length_set]
    exact hvals
  · intro r room hlook
    have hroom1 : (st.room_heap.set y q)[r]? = some room := hlook
    show _ ∧ ∀ e ∈ room.users, _ ∧ ∃ x R, (store_user st user w).users[e.2]? = some x ∧ _ ∧ _ ∧
      _ ∧ (R, r) ∈ st.rooms
    by_cases hr : r = y
    · subst hr
      rw [heap_set_lookup q hy] at hroom1
      cases hroom1
      refine ⟨by rw [hry]; exact keys_table_remove_nodup _ _ ky, ?_⟩
      intro e he
      obtain ⟨he1, he2⟩ := (hmem e).mp he
      obtain ⟨c1, x, R, hx, c2, c3, c4, c5⟩ := hy5 e he1
      refine ⟨c1, x, R, ?_, c2, c3, c4, c5⟩
      have hp : e.2 ≠ user := by
        intro hp
        rw [hp, hu] at hx
        cases hx
        exact he2 c2.symm
      rw [users_set_lookup_ne _ hp]
      exact hx
    · rw [List.getElem?_set_ne (Ne.symm hr)] at hroom1
      obtain ⟨kr, hr5⟩ := hrooms r room hroom1
      refine ⟨kr, ?_⟩
      intro e he
      obtain ⟨c1, x, R, hx, c2, c3, c4, c5⟩ := hr5 e he
      refine ⟨c1, x, R, ?_, c2, c3, c4, c5⟩
      have hp : e.2 ≠ user := by
        intro hp
        rw [hp, hu] at hx
        cases hx
        rw [hroom] at c4
        cases c4
        have := nodup_keys_value _ hk (Y, r) (Y, y) c5 hY rfl
        exact hr (Prod.mk.inj this).2
      rw [users_set_lookup_ne _ hp]
      exact hx

/-- No member of a room has the name of a user that is logged in and in no room. -/
theorem invariant_not_member {st : server_t} (h : room_invariant st) {user r : Nat}
    {u : user_t} {room : room_t} (hu : st.users[user]? = some u)
    (hs : u.state = user_states_t.NOT_IN_CHANNEL) (hr : st.room_heap[r]? = some room) :
    ∀ e ∈ room.users, e.1 ≠ u.username ∧ e.2 ≠ user := by
  intro e he
  obtain ⟨_, x, R, hx, c2, c3, _, _⟩ := (h.2.2.2.2.2 r room hr).2 e he
  have hne : e.2 ≠ user := by
    intro hp
    rw [hp, hu] at hx
    cases hx
    rw [hs] at c3
    cases c3
  refine ⟨?_, hne⟩
  intro hn
  exact hne (invariant_unique h hx hu (Or.inr c3) (Or.inl hs) (by rw [c2, hn]))

/-- A user in `NOT_IN_CHANNEL` enters a room of `rooms`. -/
theorem room_invariant_enter {st : server_t} {user x : Nat} {u w : user_t} {X : List Nat}
    {rx q : room_t} (h : room_invariant st) (hu : st.users[user]? = some u)
    (hs : u.state = user_states_t.NOT_IN_CHANNEL)
    (hX : (X, x) ∈ st.rooms) (hx : st.room_heap[x]? = some rx)
    (hwn : w.username = u.username) (hws : w.state = user_states_t.JOINED_CHANNEL)
    (hwr : w.room = some X) (hrx : q.users = table_add rx.users u.username user) :
    room_invariant { store_user st user w with room_heap := st.room_heap.set x q } := by
  have hfix : c_string u.username = u.username := invariant_name_fixed h hu (Or.inl hs)
  have hnot := fun r room (hr : st.room_heap[r]? = some room) =>
    invariant_not_member h hu hs hr
  obtain ⟨hreg, hsess, hk, hkf, hvals, hrooms⟩ := h
  obtain ⟨kx, hx5⟩ := hrooms x rx hx
  have hkeys : ∀ e ∈ rx.users, c_string e.1 = e.1 := fun e he => (hx5 e he).1
  have hadd : q.users = rx.users ++ [(u.username, user)] := by
    rw [hrx, table_add_absent _ _ _ (table_find_no_key _ _ hkeys
      (fun e he => by rw [hfix]; exact (hnot x rx hx e he).1)), hfix]
  refine ⟨?_, ?_, hk, hkf, ?_, ?_⟩
  · refine registered_congr (a := store_user st user w) rfl rfl
      (registered_store_user hreg hu ?_)
    intro e he hp
    obtain ⟨_, z, hz, hn, _⟩ := hreg.2 e he
    rw [hp, hu] at hz
    cases hz
    exact ⟨by rw [hwn]; exact hn, Or.inr hws⟩
  · intro p z hz
    have hz1 : (store_user st user w).users[p]? = some z := hz
    show _ ∧ (_ → (z.username, p) ∈ st.old_users) ∧ _ ∧
      (_ → ∃ R r room, _ ∧ (R, r) ∈ st.rooms ∧ (st.room_heap.set x q)[r]? = some room ∧ _)
    by_cases hp : p = user
    · subst hp
      rw [store_user_lookup hu] at hz1
      cases hz1
      obtain ⟨a1, a2, _, _⟩ := hsess p u hu
      refine ⟨by rw [hwn]; exact a1, fun _ => by rw [hwn]; exact a2 (Or.inl hs),
        fun e => absurd hws e, fun _ => ⟨X, x, q, hwr, hX, heap_set_lookup q hx, ?_⟩⟩
      rw [hadd, hwn]
      exact List.mem_append_right _ (List.mem_singleton_self _)
    · rw [users_set_lookup_ne _ hp] at hz1
      obtain ⟨a1, a2, a3, a4⟩ := hsess p z hz1
      refine ⟨a1, a2, a3, fun e => ?_⟩
      obtain ⟨R, r, room, b1, b2, b3, b4⟩ := a4 e
      by_cases hr : r = x
      · subst hr
        rw [hx] at b3
        cases b3
        refine ⟨R, r, q, b1, b2, heap_set_lookup q hx, ?_⟩
        rw [hadd]
        exact List.mem_append_left _ b4
      · refine ⟨R, r, room, b1, b2, ?_, b4⟩
        rw [List.getElem?_set_ne (Ne.symm hr)]
        exact b3
  · show get_values st.rooms = List.range (st.room_heap.set x q).length
    rw [List.length_set]
    exact hvals
  · intro r room hlook
    have hroom1 : (st.room_heap.set x q)[r]? = some room := hlook
    show _ ∧ ∀ e ∈ room.users, _ ∧ ∃ z R, (store_user st user w).users[e.2]? = some z ∧ _ ∧ _ ∧
      _ ∧ (R, r) ∈ st.rooms
    by_cases hr : r = x
    · subst hr
      rw [heap_set_lookup q hx] at hroom1
      cases hroom1
      refine ⟨?_, ?_⟩
      · rw [hadd]
        simp only [get_keys, List.map_append, List.map_cons, List.map_nil]
        refine List.Nodup.append kx (List.nodup_singleton _) (List.disjoint_singleton.2 ?_)
        simp only [List.mem_map, not_exists, not_and]
        intro e he hn
        exact (hnot r rx hx e he).1 hn
      · intro e he
        rw [hadd] at he
        rcases List.mem_append.mp he with he1 | he1
        · obtain ⟨c1, z, R, hz, c2, c3, c4, c5⟩ := hx5 e he1
          refine ⟨c1, z, R, ?_, c2, c3, c4, c5⟩
          rw [users_set_lookup_ne _ (hnot r rx hx e he1).2]
          exact hz
        · simp only [List.mem_singleton] at he1
          subst he1
          exact ⟨hfix, w, X, store_user_lookup hu, hwn, hws, hwr, hX⟩
    · rw [List.getElem?_set_ne (Ne.symm hr)] at hroom1
      obtain ⟨kr, hr5⟩ := hrooms r room hroom1
      refine ⟨kr, ?_⟩
      intro e he
      obtain ⟨c1, z, R, hz, c2, c3, c4, c5⟩ := hr5 e he
      refine ⟨c1, z, R, ?_, c2, c3, c4, c5⟩
      rw [users_set_lookup_ne _ (hnot r room hroom1 e he).2]
      exact hz

/-- A user in `NOT_IN_CHANNEL` enters a room that is made for it. -/
theorem room_invariant_create {st : server_t} {user : Nat} {u w : user_t} {X : List Nat}
    {n : room_t} (h : room_invariant st) (hu : st.users[user]? = some u)
    (hs : u.state = user_states_t.NOT_IN_CHANNEL)
    (hX : table_find st.rooms X = none) (hXf : c_string X = X)
    (hwn : w.username = u.username) (hws : w.state = user_states_t.JOINED_CHANNEL)
    (hwr : w.room = some X) (hrn : n.users = [(u.username, user)]) :
    room_invariant { store_user st user w with
      room_heap := st.room_heap ++ [n],
      rooms := st.rooms ++ [(X, st.room_heap.length)] } := by
  have hfix : c_string u.username = u.username := invariant_name_fixed h hu (Or.inl hs)
  have hnot := fun r room (hr : st.room_heap[r]? = some room) =>
    invariant_not_member h hu hs hr
  obtain ⟨hreg, hsess, hk, hkf, hvals, hrooms⟩ := h
  have hnew : ∀ e ∈ st.rooms, e.1 ≠ X := by
    intro e he hn
    have := table_find_of_mem _ hk hkf e he
    rw [hn, hX] at this
    cases this
  have hlast : (st.room_heap ++ [n])[st.room_heap.length]? = some n := by
    rw [List.getElem?_append_right (Nat.le_refl _)]
    simp
  refine ⟨?_, ?_, ?_, ?_, ?_, ?_⟩
  · refine registered_congr (a := store_user st user w) rfl rfl
      (registered_store_user hreg hu ?_)
    intro e he hp
    obtain ⟨_, z, hz, hn, _⟩ := hreg.2 e he
    rw [hp, hu] at hz
    cases hz
    exact ⟨by rw [hwn]; exact hn, Or.inr hws⟩
  · intro p z hz
    have hz1 : (store_user st user w).users[p]? = some z := hz
    show _ ∧ (_ → (z.username, p) ∈ st.old_users) ∧ _ ∧
      (_ → ∃ R r room, _ ∧ (R, r) ∈ st.rooms ++ [(X, st.room_heap.length)] ∧
        (st.room_heap ++ [n])[r]? = some room ∧ _)
    by_cases hp : p = user
    · subst hp
      rw [store_user_lookup hu] at hz1
      cases hz1
      obtain ⟨a1, a2, _, _⟩ := hsess p u hu
      refine ⟨by rw [hwn]; exact a1, fun _ => by rw [hwn]; exact a2 (Or.inl hs),
        fun e => absurd hws e, fun _ => ⟨X, st.room_heap.length, n, hwr,
          List.mem_append_right _ (List.mem_singleton_self _), hlast, ?_⟩⟩
      rw [hrn, hwn]
      exact List.mem_singleton_self _
    · rw [users_set_lookup_ne _ hp] at hz1
      obtain ⟨a1, a2, a3, a4⟩ := hsess p z hz1
      refine ⟨a1, a2, a3, fun e => ?_⟩
      obtain ⟨R, r, room, b1, b2, b3, b4⟩ := a4 e
      refine ⟨R, r, room, b1, List.mem_append_left _ b2, ?_, b4⟩
      rw [List.getElem?_append_left (heap_index_lt b3)]
      exact b3
  · show (get_keys (st.rooms ++ [(X, st.room_heap.length)])).Nodup
    simp only [get_keys, List.map_append, List.map_cons, List.map_nil]
    refine List.Nodup.append hk (List.nodup_singleton _) (List.disjoint_singleton.2 ?_)
    simp only [List.mem_map, not_exists, not_and]
    intro e he hn
    exact hnew e he hn
  · intro e he
    have he1 : e ∈ st.rooms ++ [(X, st.room_heap.length)] := he
    rcases List.mem_append.mp he1 with he2 | he2
    · exact hkf e he2
    · simp only [List.mem_singleton] at he2
      subst he2
      exact hXf
  · show get_values (st.rooms ++ [(X, st.room_heap.length)]) =
      List.range (st.room_heap ++ [n]).length
    simp only [get_values, List.map_append, List.map_cons, List.map_nil, List.length_append,
      List.length_singleton, List.range_succ]
    congr 1
  · intro r room hlook
    have hroom1 : (st.room_heap ++ [n])[r]? = some room := hlook
    show _ ∧ ∀ e ∈ room.users, _ ∧ ∃ z R, (store_user st user w).users[e.2]? = some z ∧ _ ∧ _ ∧
      _ ∧ (R, r) ∈ st.rooms ++ [(X, st.room_heap.length)]
    by_cases hr : r < st.room_heap.length
    · rw [List.getElem?_append_left hr] at hroom1
      obtain ⟨kr, hr5⟩ := hrooms r room hroom1
      refine ⟨kr, ?_⟩
      intro e he
      obtain ⟨c1, z, R, hz, c2, c3, c4, c5⟩ := hr5 e he
      refine ⟨c1, z, R, ?_, c2, c3, c4, List.mem_append_left _ c5⟩
      rw [users_set_lookup_ne _ (hnot r room hroom1 e he).2]
      exact hz
    · have hreq : r = st.room_heap.length := by
        have : r < (st.room_heap ++ [n]).length := by
          by_contra hge
          rw [List.getElem?_eq_none (by omega)] at hroom1
          cases hroom1
        simp only [List.length_append, List.length_singleton] at this
        omega
      subst hreq
      rw [hlast] at hroom1
      cases hroom1
      refine ⟨by rw [hrn]; simp [get_keys], ?_⟩
      intro e he
      rw [hrn] at he
      simp only [List.mem_singleton] at he
      subst he
      exact ⟨hfix, w, X, store_user_lookup hu, hwn, hws, hwr,
        List.mem_append_right _ (List.mem_singleton_self _)⟩

/-! ## `process_command_join` keeps the invariant -/

theorem users_set_same {l : List user_t} {i : Nat} {u : user_t} (h : l[i]? = some u) :
    l.set i u = l := by
  apply List.ext_getElem?
  intro j
  by_cases hj : i = j
  · subst hj
    have hlt : i < l.length := by
      by_contra hge
      rw [List.getElem?_eq_none (by omega)] at h
      cases h
    rw [List.getElem?_set_self hlt, h]
  · rw [List.getElem?_set_ne hj]

theorem table_find_c_string {V : Type} (t : table_t V) (key : List Nat) :
    table_find t (c_string key) = table_find t key := by
  induction t with
  | nil => rfl
  | cons node rest ih =>
    simp only [table_find, strcmp_eq, c_string_idem, ih]

/-- The part of `process_command_join` after the old room is left.  `a` is the state in which
the user is out of its old room and in `NOT_IN_CHANNEL`; `l` is the state that `join_leave`
returns, in which the user still has its old state. -/
theorem room_invariant_after_leave {st l a st1 : server_t} {user : Nat} {param : List Nat}
    {u w : user_t} (ha : room_invariant a) (hu : l.users[user]? = some u)
    (hwn : w.username = u.username) (hws : w.state = user_states_t.NOT_IN_CHANNEL)
    (hwr : w.room = none) (hwu : ∀ s r, { w with state := s, room := r } =
      { u with state := s, room := r })
    (hau : a.users = l.users.set user w) (hao : a.old_users = l.old_users)
    (har : a.rooms = l.rooms) (hah : a.room_heap = l.room_heap)
    (hleave : join_leave st user = some l)
    (hb : strcasecmp_eq param (str "backstage") = false)
    (h2 : strlen param < MAX_ROOM_LENGTH)
    (hj : process_command_join st user param = some st1) : room_invariant st1 := by
  have hlt := users_index_lt hu
  have haw : a.users[user]? = some w := by
    rw [hau]
    exact List.getElem?_set_self hlt
  have hreg : table_find l.old_users u.username = some user := by
    rw [← hao, ← hwn]
    exact invariant_find ha haw (Or.inl hws)
  have hl : strlen u.username < MAX_NAME := by
    rw [← hwn]
    exact (ha.2.1 user w haw).1
  have hfix : c_string u.username = u.username := by
    rw [← hwn]
    exact invariant_name_fixed ha haw (Or.inl hws)
  have hother : ∀ (m : Nat) (z : user_t), a.users[m]? = some z →
      ∃ z1 : user_t, l.users[m]? = some z1 ∧ strlen z1.username < MAX_NAME := by
    intro m z hz
    by_cases hm : m = user
    · subst hm
      exact ⟨u, hu, hl⟩
    · rw [hau, List.getElem?_set_ne (Ne.symm hm)] at hz
      refine ⟨z, hz, ?_⟩
      have : a.users[m]? = some z := by
        rw [hau, List.getElem?_set_ne (Ne.symm hm)]
        exact hz
      exact (ha.2.1 m z this).1
  by_cases hempty : strlen param = 0
  · rw [process_command_join_nowhere st l user param hempty hleave,
      join_nowhere_eq l user u hu hreg hl] at hj
    simp only [Option.some.injEq] at hj
    subst hj
    refine room_invariant_congr (a := a) ?_ hao.symm har.symm hah.symm ha
    show l.users.set user _ = a.users
    rw [hau, ← hwu, ← hws, ← hwr]
  · have h1 : 0 < strlen param := by omega
    cases hf : table_find l.rooms param with
    | some x =>
      have hmemx : (c_string param, x) ∈ a.rooms := by
        rw [har]
        exact table_find_key _ _ _ (fun e he => ha.2.2.2.1 e (by rw [har]; exact he)) hf
      have hxlt : x < l.room_heap.length := by
        rw [← hah]
        exact mem_range_values ha.2.2.2.2.1 hmemx
      obtain ⟨rx, hrx⟩ : ∃ rx, l.room_heap[x]? = some rx := ⟨_, List.getElem?_eq_getElem hxlt⟩
      have hv : valid_members l (get_values rx.users) := by
        intro m hm
        simp only [get_values, List.mem_map] at hm
        obtain ⟨e, he, rfl⟩ := hm
        obtain ⟨_, z, R, hz, _⟩ := (ha.2.2.2.2.2 x _ (by rw [hah]; exact hrx)).2 e he
        exact hother e.2 z hz
      rw [join_existing st l user u param x rx hb h1 h2 hleave hu hreg hl hf hrx hv] at hj
      simp only [Option.some.injEq] at hj
      subst hj
      obtain ⟨w1, hw1⟩ : ∃ w1 : user_t, w1 = { w with state := user_states_t.JOINED_CHANNEL,
                                                      room := some (c_string param) } := ⟨_, rfl⟩
      obtain ⟨rx1, hrx1⟩ : ∃ r1 : room_t, r1 = { rx with
          users := table_add rx.users u.username user } := ⟨_, rfl⟩
      have hinv := room_invariant_enter (w := w1) (q := rx1)
        ha haw hws hmemx (by rw [hah]; exact hrx) (by rw [hw1]) (by rw [hw1]) (by rw [hw1])
        (by rw [hrx1, hwn])
      rw [hw1, hrx1] at hinv
      refine room_invariant_congr ?_ ?_ ?_ ?_ hinv
      · show l.users.set user _ = (a.users.set user _)
        rw [hau, List.set_set, hwu]
      · exact hao.symm
      · exact har.symm
      · show l.room_heap.set x _ = a.room_heap.set x _
        rw [hah]
    | none =>
      rw [join_new st l user u param hb h1 h2 hleave hu hreg hl hf] at hj
      simp only [Option.some.injEq] at hj
      subst hj
      obtain ⟨w1, hw1⟩ : ∃ w1 : user_t, w1 = { w with state := user_states_t.JOINED_CHANNEL,
                                                      room := some (c_string param) } := ⟨_, rfl⟩
      obtain ⟨rn, hrn⟩ : ∃ r1 : room_t, r1 =
          room_t.mk [(c_string u.username, user)] (c_string param) (str "No topic") := ⟨_, rfl⟩
      have hinv := room_invariant_create (X := c_string param) (w := w1) (n := rn)
        ha haw hws (by rw [har, table_find_c_string]; exact hf) (c_string_idem _)
        (by rw [hw1]) (by rw [hw1]) (by rw [hw1]) (by rw [hrn, hfix, hwn])
      rw [hw1, hrn] at hinv
      refine room_invariant_congr ?_ ?_ ?_ ?_ hinv
      · show l.users.set user _ = (a.users.set user _)
        rw [hau, List.set_set, hwu]
      · exact hao.symm
      · show l.rooms ++ _ = a.rooms ++ _
        rw [har, hah]
      · show l.room_heap ++ _ = a.room_heap ++ _
        rw [hah]

/-- `process_command_join` of a logged-in user keeps the invariant. -/
theorem room_invariant_join {st st1 : server_t} {user : Nat} {param : List Nat} {u : user_t}
    (h : room_invariant st) (hu : st.users[user]? = some u)
    (hs : u.state = user_states_t.NOT_IN_CHANNEL ∨ u.state = user_states_t.JOINED_CHANNEL)
    (hj : process_command_join st user param = some st1) : room_invariant st1 := by
  have hj0 := hj
  rw [process_command_join_eq] at hj0
  by_cases hb : strcasecmp_eq param (str "backstage") = true
  · rw [if_pos hb] at hj0
    exact room_invariant_writes (send_chat_self_writes hj0) h
  rw [if_neg hb] at hj0
  by_cases hshort : strlen param > 0 ∧ strlen param < MIN_ROOM_LENGTH
  · rw [if_pos hshort] at hj0
    exact room_invariant_writes (send_chat_self_writes hj0) h
  rw [if_neg hshort] at hj0
  by_cases hlong : strlen param ≥ MAX_ROOM_LENGTH
  · rw [if_pos hlong] at hj0
    exact room_invariant_writes (send_chat_self_writes hj0) h
  have hb1 : strcasecmp_eq param (str "backstage") = false := by simpa using hb
  have h2 : strlen param < MAX_ROOM_LENGTH := by omega
  rcases hs with hs | hs
  · have hroom : u.room = none := (h.2.1 user u hu).2.2.1 (by rw [hs]; decide)
    have hleave := join_leave_none st user u hu (by rw [hroom]; rfl)
    exact room_invariant_after_leave (a := st) (l := st) (w := u) h hu rfl hs hroom
      (fun s r => rfl) (users_set_same hu).symm rfl rfl rfl hleave hb1 h2 hj
  · obtain ⟨Y, y, ry, hroom, hY, hy, hmem⟩ := (h.2.1 user u hu).2.2.2 hs
    have hfind : table_find st.rooms Y = some y :=
      table_find_of_mem _ h.2.2.1 h.2.2.2.1 (Y, y) hY
    have hl : strlen u.username < MAX_NAME := (h.2.1 user u hu).1
    have hv : ∀ m ∈ get_values (table_remove ry.users u.username).2,
        m < st.users.length := by
      intro m hm
      simp only [get_values, List.mem_map] at hm
      obtain ⟨e, he, rfl⟩ := hm
      obtain ⟨_, z, R, hz, _⟩ := (h.2.2.2.2.2 y ry hy).2 e
        ((table_remove_sublist _ _).subset he)
      exact users_index_lt hz
    have hleave := join_leave_some st user u y ry hu (by rw [hroom]; exact hfind) hy hv hl
    obtain ⟨w, hw⟩ : ∃ w : user_t, w = { u with state := user_states_t.NOT_IN_CHANNEL,
                                                room := none } := ⟨_, rfl⟩
    obtain ⟨ry1, hry1⟩ : ∃ r1 : room_t, r1 = { ry with
        users := (table_remove ry.users u.username).2 } := ⟨_, rfl⟩
    have ha := room_invariant_leave (w := w) (q := ry1) h hu hs hroom hY hy (by rw [hw])
      (by rw [hw]) (by rw [hw]) (by rw [hry1])
    refine room_invariant_after_leave (u := u) (w := w) ha ?_ (by rw [hw]) (by rw [hw]) (by rw [hw])
      (fun s r => by rw [hw]) ?_ ?_ ?_ ?_ hleave hb1 h2 hj
    · exact hu
    · rfl
    · rfl
    · rfl
    · show st.room_heap.set y ry1 = st.room_heap.set y _
      rw [hry1]

/-! ## The invariant along a run without a closed connection -/

theorem room_invariant_packet {SHA1 : List Nat → List Nat} {st st1 : server_t} {user : Nat}
    {packet : packet_buffer_t} (hp : process_packet SHA1 st user packet = some st1)
    (h : room_invariant st) : room_invariant st1 := by
  rcases process_packet_effect hp with hw | ⟨_, he⟩ | ⟨_, he⟩ | ⟨_, he⟩ | ⟨_, param, he⟩
  · exact room_invariant_writes hw h
  · exact room_invariant_informed he h
  · exact room_invariant_login he h
  · obtain ⟨accounts, hw⟩ := he
    exact room_invariant_writes hw (room_invariant_congr (a := st) rfl rfl rfl rfl h)
  · obtain ⟨u, _, _, _, hu, hs, _, _, _, _, _, hj⟩ := he
    exact room_invariant_join h hu hs hj

theorem writes_only.closed_eq {a b : server_t} (h : writes_only a b) : b.closed = a.closed := by
  obtain ⟨log, rfl⟩ := h
  rfl

theorem rooms_only.closed_same {a b : server_t} (h : rooms_only a b) : b.closed = a.closed := by
  obtain ⟨x, y, z, rfl⟩ := h
  rfl

theorem process_packet_closed {SHA1 : List Nat → List Nat} {st st1 : server_t} {user : Nat}
    {packet : packet_buffer_t} (hp : process_packet SHA1 st user packet = some st1) :
    st1.closed = st.closed := by
  rcases process_packet_effect hp with hw | ⟨_, he⟩ | ⟨_, he⟩ | ⟨_, he⟩ | ⟨_, param, he⟩
  · exact hw.closed_eq
  · obtain ⟨u, t, _, _, hw⟩ := he
    exact hw.closed_eq
  · obtain ⟨u, name, proof, _, _, _, _, hw⟩ := he
    exact hw.closed_eq
  · obtain ⟨accounts, hw⟩ := he
    exact hw.closed_eq
  · obtain ⟨u, _, _, _, hu, hs, _, _, _, _, _, hj⟩ := he
    obtain ⟨u1, _, hc⟩ := process_command_join_effect hj
    rcases hc with hro | ⟨_, hro⟩ | ⟨_, hro⟩
    · exact hro.closed_same
    · exact hro.closed_same
    · exact hro.closed_same

/-- A frame handled without closing the connection keeps the invariant and closes nothing. -/
theorem room_invariant_next {SHA1 : List Nat → List Nat} {st st1 : server_t} {user : Nat}
    {ok : Bool} (hp : process_next_packet SHA1 st user = some (ok, st1)) :
    st1.closed = st.closed ∧ (room_invariant st → room_invariant st1) := by
  obtain ⟨s, rest, _, hc⟩ := process_next_packet_cases hp
  rcases hc with ⟨_, _, rfl⟩ | ⟨_, _, rfl⟩ | ⟨_, packet, _, hpk⟩
  · exact ⟨rfl, fun h => room_invariant_congr (a := st) rfl rfl rfl rfl h⟩
  · exact ⟨rfl, fun h => room_invariant_congr (a := st) rfl rfl rfl rfl h⟩
  · have hcl : st1.closed = (set_socket_input st s rest).closed := process_packet_closed hpk
    have hin : room_invariant st → room_invariant (set_socket_input st s rest) :=
      fun h => room_invariant_congr (a := st) rfl rfl rfl rfl h
    exact ⟨hcl, fun h => room_invariant_packet hpk (hin h)⟩

theorem select_old_user_quiet {SHA1 : List Nat → List Nat} {fds : List Nat}
    {user : Nat} {st st1 : server_t}
    (hq : st.closed = [] → room_invariant st)
    (h : select_old_user SHA1 fds user st = some st1) :
    st1.closed = [] → room_invariant st1 := by
  intro hc
  rcases select_old_user_cases h with rfl | hp | ⟨s1, name, s, hp, rfl⟩
  · exact hq hc
  · obtain ⟨h1, h2⟩ := room_invariant_next hp
    exact h2 (hq (by rw [← h1]; exact hc))
  · simp at hc

theorem select_new_user_quiet {SHA1 : List Nat → List Nat} {fds : List Nat}
    {user : Nat} {st st1 : server_t}
    (hq : st.closed = [] → room_invariant st)
    (h : select_new_user SHA1 fds user st = some st1) :
    st1.closed = [] → room_invariant st1 := by
  intro hc
  rcases select_new_user_cases h with rfl | hp | ⟨s1, s, hp, rfl⟩
  · exact hq hc
  · obtain ⟨h1, h2⟩ := room_invariant_next hp
    exact h2 (hq (by rw [← h1]; exact hc))
  · simp at hc

theorem do_select_quiet {SHA1 : List Nat → List Nat} {st st1 : server_t}
    {event : select_result} (hq : st.closed = [] → room_invariant st)
    (h : do_select SHA1 st event = some st1) : st1.closed = [] → room_invariant st1 := by
  cases event with
  | failed => exact (do_select_failed h).elim
  | timeout =>
    intro hc
    have hw := do_select_timeout h
    exact room_invariant_writes hw (hq (by rw [← hw.closed_eq]; exact hc))
  | ready fds accepted =>
    obtain ⟨s1, h1, h2⟩ := do_select_ready h
    have hnew : (s1.closed = [] → room_invariant s1) →
        (st1.closed = [] → room_invariant st1) := fun hs =>
      for_each_invariant (fun s => s.closed = [] → room_invariant s)
        (select_new_user SHA1 fds)
        (fun x s s1 hp hb => select_new_user_quiet hp hb) _ _ _ hs h2
    have hold : ∀ s0 : server_t, (s0.closed = [] → room_invariant s0) →
        for_each (select_old_user SHA1 fds) (get_values st.old_users) s0 = some s1 →
        (s1.closed = [] → room_invariant s1) := fun s0 h0 h1 =>
      for_each_invariant (fun s => s.closed = [] → room_invariant s)
        (select_old_user SHA1 fds)
        (fun x s s1 hp hb => select_old_user_quiet hp hb) _ _ _ h0 h1
    cases accepted with
    | none => exact hnew (hold _ hq h1)
    | some a =>
      obtain ⟨ns, ip, token⟩ := a
      exact hnew (hold _ (fun hc => room_invariant_accept ns ip token (hq hc)) h1)

theorem server_run_quiet (SHA1 : List Nat → List Nat) (events : List server_event) :
    ∀ st st1, (st.closed = [] → room_invariant st) →
      server_run SHA1 st events = some st1 → st1.closed = [] → room_invariant st1 := by
  induction events with
  | nil =>
    intro st st1 hq h
    simp only [server_run, Option.some.injEq] at h
    subst h
    exact hq
  | cons e es ih =>
    intro st st1 hq h
    simp only [server_run, Option.bind_eq_some] at h
    obtain ⟨s, h1, h2⟩ := h
    refine ih s st1 ?_ h2
    cases e with
    | arrive sock bytes =>
      simp only [server_step, Option.some.injEq] at h1
      subst h1
      exact fun hc => room_invariant_congr (a := st) rfl rfl rfl rfl (hq hc)
    | cycle event => exact do_select_quiet hq h1

/-- The invariant gives the agreement of rooms and sessions. -/
theorem room_invariant_consistent {st : server_t} (h : room_invariant st) :
    room_consistent st := by
  have hvn : (get_values st.rooms).Nodup := by
    rw [h.2.2.2.2.1]
    exact List.nodup_range _
  refine ⟨?_, ?_⟩
  · intro e he
    obtain ⟨hc, x, hx, hn, hxs⟩ := h.1.2 e he
    obtain ⟨_, _, a3, a4⟩ := h.2.1 e.2 x hx
    have hfix : c_string x.username = x.username := by rw [hn]; exact hc
    have key : ∀ R r room, (R, r) ∈ st.rooms → st.room_heap[r]? = some room →
        room_member room x → x.room = some R ∧ table_find room.users x.username = some e.2 := by
      intro R r room hR hr hm
      obtain ⟨q, hq⟩ := Option.isSome_iff_exists.mp hm
      obtain ⟨kr, hr5⟩ := h.2.2.2.2.2 r room hr
      have hmem := table_find_key _ _ _ (fun e he => (hr5 e he).1) hq
      rw [hfix] at hmem
      obtain ⟨_, z, R1, hz, c2, c3, c4, c5⟩ := hr5 _ hmem
      have hqp : q = e.2 := invariant_unique h hz hx (Or.inr c3) hxs c2
      rw [hqp] at hz hq
      rw [hx] at hz
      have hzx : x = z := Option.some.inj hz
      rw [← hzx] at c4
      have := nodup_values_key _ hvn (R1, r) (R, r) c5 hR rfl
      rw [(Prod.mk.inj this).1] at c4
      exact ⟨c4, hq⟩
    have back : ∀ R r room, (R, r) ∈ st.rooms → st.room_heap[r]? = some room →
        x.room = some R → room_member room x := by
      intro R r room hR hr hroom
      have hj : x.state = user_states_t.JOINED_CHANNEL := by
        by_contra hne
        rw [a3 hne] at hroom
        cases hroom
      obtain ⟨R1, r1, room1, b1, b2, b3, b4⟩ := a4 hj
      rw [hroom] at b1
      have hRR : R = R1 := Option.some.inj b1
      rw [← hRR] at b2
      have := nodup_keys_value _ h.2.2.1 (R, r1) (R, r) b2 hR rfl
      rw [(Prod.mk.inj this).2, hr] at b3
      have hrr : room = room1 := Option.some.inj b3
      rw [← hrr] at b4
      obtain ⟨kr, hr5⟩ := h.2.2.2.2.2 r room hr
      have := table_find_of_mem _ kr (fun e he => (hr5 e he).1) _ b4
      show (table_find room.users x.username).isSome = true
      rw [this]
      rfl
    refine ⟨x, hx, hn, ⟨?_, ?_⟩, ?_, ?_, ?_⟩
    · intro hj
      obtain ⟨R, _, _, b1, _⟩ := a4 hj
      rw [b1]
      exact fun hc => by cases hc
    · intro hroom
      by_contra hne
      exact hroom (a3 hne)
    · intro R r room hR hr
      exact ⟨⟨fun hm => (key R r room hR hr hm).1, back R r room hR hr⟩,
        fun hm => (key R r room hR hr hm).2⟩
    · intro hnot R r room hR hr hm
      have := (key R r room hR hr hm).1
      rw [a3 (by rw [hnot]; decide)] at this
      cases this
    · intro R1 r1 room1 R2 r2 room2 h1 h2 g1 g2 hne hm
      have e1 := (key R1 r1 room1 h1 g1 hm.1).1
      have e2 := (key R2 r2 room2 h2 g2 hm.2).1
      rw [e1] at e2
      exact hne (Option.some.inj e2)
  · intro room hroom
    obtain ⟨r, hr⟩ := List.mem_iff_getElem?.mp hroom
    exact (h.2.2.2.2.2 r room hr).1

/-- C11 (bounds-checked integer and string reads): on a buffer that holds a frame, with
the position at or after the end of the header, `get_length` is the length of the frame;
each of `can_read_int8/16/32` returns whether `position + 1/2/4 <= get_length`; each of
`read_next_int8/16/32` returns a value exactly when the matching check holds, the value is
made of the bytes of the frame at the indices from `position` to `position + 1/2/4`
(excluded), all below `get_length`, and the position advances by `1/2/4`;
`can_read_ntstring` returns true exactly when some byte at an index between `position` and
`get_length` (excluded) is zero, and then `read_next_ntstring` returns the bytes of the
frame from `position` up to a new position that is at most `get_length`; without such a byte
it fails. -/
theorem C11_bounds_checked_reads {b : packet_buffer_t} {c : Nat} {pl : List Nat}
    (h : IsFrame b c pl) (hp : 4 ≤ b.position) :
    get_length b = some (4 + pl.length) ∧
    can_read_int8 b = some (decide (b.position + 1 ≤ 4 + pl.length)) ∧
    can_read_int16 b = some (decide (b.position + 2 ≤ 4 + pl.length)) ∧
    can_read_int32 b = some (decide (b.position + 4 ≤ 4 + pl.length)) ∧
    (b.position + 1 ≤ 4 + pl.length →
      ∃ x0, ((frame_bytes c pl).drop b.position).take 1 = [x0] ∧
        read_next_int8 b = some (x0, { b with position := b.position + 1 })) ∧
    (¬ b.position + 1 ≤ 4 + pl.length → read_next_int8 b = none) ∧
    (b.position + 2 ≤ 4 + pl.length →
      ∃ x0 x1, ((frame_bytes c pl).drop b.position).take 2 = [x0, x1] ∧
        read_next_int16 b = some (x0 + x1 * 256, { b with position := b.position + 2 })) ∧
    (¬ b.position + 2 ≤ 4 + pl.length → read_next_int16 b = none) ∧
    (b.position + 4 ≤ 4 + pl.length →
      ∃ x0 x1 x2 x3, ((frame_bytes c pl).drop b.position).take 4 = [x0, x1, x2, x3] ∧
        read_next_int32 b = some (x0 + x1 * 256 + x2 * 65536 + x3 * 16777216,
          { b with position := b.position + 4 })) ∧
    (¬ b.position + 4 ≤ 4 + pl.length → read_next_int32 b = none) ∧
    (∃ r, can_read_ntstring b = some r ∧
      (r = true ↔ ∃ j, b.position ≤ j ∧ j < 4 + pl.length ∧ b.data[j]? = some 0)) ∧
    (can_read_ntstring b = some true → ∀ m, ∃ k, b.position + k ≤ 4 + pl.length ∧
      read_next_ntstring b m =
        some ((((frame_bytes c pl).drop b.position).take k).map ntstring_char ++ [0],
          { b with position := b.position + k })) ∧
    (can_read_ntstring b = some false → ∀ m, read_next_ntstring b m = none) := by
  refine ⟨h.get_length, h.can_read_int8, h.can_read_int16, h.can_read_int32, ?_,
    read_next_int8_none h, ?_, read_next_int16_none h, ?_, read_next_int32_none h,
    can_read_ntstring_iff h, fun hc m => read_next_ntstring_window h hp hc m,
    fun hc m => read_next_ntstring_none m hc⟩
  · intro hn
    obtain ⟨w, post, hw, hwin, hf, hpos⟩ := frame_window h hp 1 hn
    match w, hw with
    | [x0], _ => exact ⟨x0, hwin, read_next_int8_frame hf hpos⟩
  · intro hn
    obtain ⟨w, post, hw, hwin, hf, hpos⟩ := frame_window h hp 2 hn
    match w, hw with
    | [x0, x1], _ => exact ⟨x0, x1, hwin, read_next_int16_frame hf hpos⟩
  · intro hn
    obtain ⟨w, post, hw, hwin, hf, hpos⟩ := frame_window h hp 4 hn
    match w, hw with
    | [x0, x1, x2, x3], _ => exact ⟨x0, x1, x2, x3, hwin, read_next_int32_frame hf hpos⟩

/-- C11 on the frame with code 9 and payload `68 69 00 01 02`, read from position 4. -/
theorem C11_bounds_checked_reads_witness :
    can_read_int32 sample_chat_buffer =
      some (decide (sample_chat_buffer.position + 4 ≤ 4 + [0x68, 0x69, 0, 1, 2].length)) ∧
    (∃ x0 x1, ((frame_bytes 9 [0x68, 0x69, 0, 1, 2]).drop sample_chat_buffer.position).take 2 =
        [x0, x1] ∧
      read_next_int16 sample_chat_buffer = some (x0 + x1 * 256,
        { sample_chat_buffer with position := sample_chat_buffer.position + 2 })) ∧
    (∃ k, sample_chat_buffer.position + k ≤ 4 + [0x68, 0x69, 0, 1, 2].length ∧
      read_next_ntstring sample_chat_buffer 16 =
        some ((((frame_bytes 9 [0x68, 0x69, 0, 1, 2]).drop sample_chat_buffer.position).take
          k).map ntstring_char ++ [0],
          { sample_chat_buffer with position := sample_chat_buffer.position + k })) :=
  ⟨(C11_bounds_checked_reads sample_chat_buffer_frame (by decide)).2.2.2.1,
   (C11_bounds_checked_reads sample_chat_buffer_frame (by decide)).2.2.2.2.2.2.1 (by decide),
   (C11_bounds_checked_reads sample_chat_buffer_frame (by decide)).2.2.2.2.2.2.2.2.2.2.2.1
     (by decide) 16⟩

/-- C12 (ClientInfo handshake): for a user in state `CONNECTED` and a packet that holds a
well-formed ClientInfo frame (three 32-bit integers, the first one the client token `t`, and
two NUL-terminated strings), read from the start of its payload,
`process_SID_CLIENT_INFORMATION` returns the state in which the client token of the user is
`t` and its state is `SENT_CLIENT_INFORMATION`, every other field of the user (the server
token among them) and every other user unchanged, and in which exactly one frame has been
appended to the writes, on the socket of that user: the `SID_SERVER_INFORMATION` frame whose
payload is the server token of the user, the integer 1 and the strings `"sha1"`, `""`, `""`. -/
theorem C12_client_information_handshake (st : server_t) (user : Nat) (u : user_t)
    (b : packet_buffer_t) (t a v : Nat) (s1 s2 : List Nat)
    (hu : st.users[user]? = some u) (hs : u.state = user_states_t.CONNECTED)
    (h : IsFrame b SID_CLIENT_INFORMATION (encoding [Field.int Width.w32 t,
      Field.int Width.w32 a, Field.int Width.w32 v, Field.ntstring s1, Field.ntstring s2]))
    (hp : b.position = 4) (ht : t < 4294967296)
    (h1 : ∀ x ∈ s1, x ≠ 0) (h2 : ∀ x ∈ s2, x ≠ 0) :
    process_SID_CLIENT_INFORMATION st user b =
      some { st with
        users := st.users.set user
          { u with client_token := t, state := user_states_t.SENT_CLIENT_INFORMATION },
        sent := st.sent ++ [(u.socket, frame_bytes SID_SERVER_INFORMATION
          (encoding [Field.int Width.w32 u.server_token, Field.int Width.w32 1,
            Field.ntstring (str "sha1"), Field.ntstring [], Field.ntstring []]))] } := by
  have h0 : IsFrame b SID_CLIENT_INFORMATION (le_bytes 4 t ++ (le_bytes 4 a ++ (le_bytes 4 v ++
      (s1 ++ 0 :: (s2 ++ 0 :: []))))) := by
    simpa [encoding, Field.encoding, Width.size] using h
  rw [process_SID_CLIENT_INFORMATION_eq st user u t a v s1 s2 [] hu hs h0 hp h1 h2,
    Nat.mod_eq_of_lt ht]
  simp [encoding, Field.encoding, Width.size]

/-- C12 on the new user of socket 5, with the server token 1234, and the ClientInfo frame
with the client token `0x1111`, the integers 0 and 1 and two empty strings. -/
theorem C12_client_information_handshake_witness :
    process_SID_CLIENT_INFORMATION (sample_server []) 0 sample_client_information_buffer =
      some { sample_server [] with
        users := (sample_server []).users.set 0
          { sample_user with client_token := 0x1111,
                             state := user_states_t.SENT_CLIENT_INFORMATION },
        sent := (sample_server []).sent ++ [(sample_user.socket,
          frame_bytes SID_SERVER_INFORMATION
            (encoding [Field.int Width.w32 sample_user.server_token, Field.int Width.w32 1,
              Field.ntstring (str "sha1"), Field.ntstring [], Field.ntstring []]))] } :=
  C12_client_information_handshake (sample_server []) 0 sample_user
    sample_client_information_buffer 0x1111 0 1 [] [] rfl rfl
    (IsFrame.of_split [] rfl (by decide) (by decide) (by decide) rfl rfl) rfl (by decide)
    (by simp) (by simp)

/-- C13 (wrong-state rejection): when the frame at the head of a session's socket is a
ClientInfo and the session is not `CONNECTED`, a Login or a Create and the session is not
`SENT_CLIENT_INFORMATION`, or a ChatCommand and the session is `CONNECTED` or
`SENT_CLIENT_INFORMATION`, `process_next_packet` returns `TRUE` and the state it leaves is
the one before with the frame taken off the socket and exactly one `SID_ERROR` frame, with
the text for that packet code, appended to the writes, on the socket of that session: the
users (state, tokens, username, room), `new_users`, `old_users` and `rooms` are unchanged. -/
theorem C13_wrong_state_rejected (SHA1 : List Nat → List Nat) (st : server_t) (user : Nat)
    (u : user_t) (code : Nat) (pl rest : List Nat) (hu : st.users[user]? = some u)
    (hin : socket_input st u.socket = frame_bytes code pl ++ rest)
    (hb : ∀ x ∈ pl, x < 256) (hl : 4 + pl.length ≤ MAX_PACKET) :
    (code = SID_CLIENT_INFORMATION → u.state ≠ user_states_t.CONNECTED →
      process_next_packet SHA1 st user =
        some (true, { set_socket_input st u.socket rest with
          sent := st.sent ++ [(u.socket, frame_bytes SID_ERROR
            (str "SID_CLIENT_INFORMATION Invalid in this state" ++ [0]))] })) ∧
    (code = SID_LOGIN → u.state ≠ user_states_t.SENT_CLIENT_INFORMATION →
      process_next_packet SHA1 st user =
        some (true, { set_socket_input st u.socket rest with
          sent := st.sent ++ [(u.socket, frame_bytes SID_ERROR
            (str "SID_LOGIN Invalid in this state" ++ [0]))] })) ∧
    (code = SID_CREATE → u.state ≠ user_states_t.SENT_CLIENT_INFORMATION →
      process_next_packet SHA1 st user =
        some (true, { set_socket_input st u.socket rest with
          sent := st.sent ++ [(u.socket, frame_bytes SID_ERROR
            (str "SID_CREATE Invalid in this state" ++ [0]))] })) ∧
    (code = SID_CHATCOMMAND → (u.state = user_states_t.CONNECTED ∨
        u.state = user_states_t.SENT_CLIENT_INFORMATION) →
      process_next_packet SHA1 st user =
        some (true, { set_socket_input st u.socket rest with
          sent := st.sent ++ [(u.socket, frame_bytes SID_ERROR
            (str "SID_CHATCOMMAND Invalid in this state" ++ [0]))] })) := by
  have hu1 : (set_socket_input st u.socket rest).users[user]? = some u := hu
  refine ⟨?_, ?_, ?_, ?_⟩
  · intro hcode hs
    subst hcode
    refine process_next_packet_error SHA1 st user u _ pl rest _ hu hin (by decide) hb hl
      error_text_1 (by decide) ?_
    intro b hf
    rw [process_packet_code hf, client_information_wrong_state hf _ user u hu1 hs]
    rfl
  · intro hcode hs
    subst hcode
    refine process_next_packet_error SHA1 st user u _ pl rest _ hu hin (by decide) hb hl
      error_text_3 (by decide) ?_
    intro b hf
    rw [process_packet_code hf, login_wrong_state SHA1 b _ user u hu1 hs]
    rfl
  · intro hcode hs
    subst hcode
    refine process_next_packet_error SHA1 st user u _ pl rest _ hu hin (by decide) hb hl
      error_text_5 (by decide) ?_
    intro b hf
    rw [process_packet_code hf, create_wrong_state b _ user u hu1 hs]
    rfl
  · intro hcode hs
    subst hcode
    refine process_next_packet_error SHA1 st user u _ pl rest _ hu hin (by decide) hb hl
      error_text_9 (by decide) ?_
    intro b hf
    rw [process_packet_code hf, chatcommand_wrong_state b _ user u hu1 hs]
    rfl

/-- C13 on a Login frame with an empty payload, followed by one more byte, sent by a user
that is still `CONNECTED`. -/
theorem C13_wrong_state_rejected_witness :
    process_next_packet sample_hash (sample_server (frame_bytes 3 [] ++ [7])) 0 =
      some (true, { set_socket_input (sample_server (frame_bytes 3 [] ++ [7])) 5 [7] with
        sent := [] ++ [(5, frame_bytes SID_ERROR
          (str "SID_LOGIN Invalid in this state" ++ [0]))] }) :=
  (C13_wrong_state_rejected sample_hash (sample_server (frame_bytes 3 [] ++ [7])) 0 sample_user
    3 [] [7] rfl rfl (by simp) (by simp [MAX_PACKET])).2.1 rfl (by decide)

/-- C18 (unknown or server-only codes): when the frame at the head of a session's socket has
a code that the server sends itself (2, 4, 6, 8, 10) or a code above `SID_ERROR`, whatever
its payload and whatever the state of the session, `process_next_packet` returns `TRUE` and
the state it leaves is the one before with the frame taken off the socket and exactly one
`SID_ERROR` frame appended to the writes, on the socket of the sender; no user, room or table
changes. -/
theorem C18_unknown_code_rejected (SHA1 : List Nat → List Nat) (st : server_t) (user : Nat)
    (u : user_t) (code : Nat) (pl rest : List Nat) (hu : st.users[user]? = some u)
    (hin : socket_input st u.socket = frame_bytes code pl ++ rest) (hc : code < 256)
    (hb : ∀ x ∈ pl, x < 256) (hl : 4 + pl.length ≤ MAX_PACKET) :
    ((code = SID_SERVER_INFORMATION ∨ code = SID_LOGIN_RESPONSE ∨ code = SID_CREATE_RESPONSE ∨
        code = SID_ROOM_LIST ∨ code = SID_CHATEVENT) →
      process_next_packet SHA1 st user =
        some (true, { set_socket_input st u.socket rest with
          sent := st.sent ++ [(u.socket, frame_bytes SID_ERROR
            (str "Client isn't allowed to send that" ++ [0]))] })) ∧
    (SID_ERROR < code →
      process_next_packet SHA1 st user =
        some (true, { set_socket_input st u.socket rest with
          sent := st.sent ++ [(u.socket, frame_bytes SID_ERROR
            (str "Unknown packet" ++ [0]))] })) := by
  refine ⟨?_, ?_⟩
  · intro hcode
    refine process_next_packet_error SHA1 st user u _ pl rest _ hu hin hc hb hl
      error_text_server (by decide) ?_
    intro b hf
    rw [process_packet_code hf]
    simp only [SID_SERVER_INFORMATION, SID_LOGIN_RESPONSE, SID_CREATE_RESPONSE, SID_ROOM_LIST,
      SID_CHATEVENT] at hcode
    rcases hcode with h | h | h | h | h <;> subst h <;> rfl
  · intro hcode
    refine process_next_packet_error SHA1 st user u _ pl rest _ hu hin hc hb hl
      error_text_unknown (by decide) ?_
    intro b hf
    rw [process_packet_code hf]
    simp only [SID_ERROR] at hcode
    simp only [SID_NULL, SID_CLIENT_INFORMATION, SID_LOGIN, SID_CREATE, SID_REQUEST_ROOM_LIST,
      SID_CHATCOMMAND, SID_ERROR, SID_SERVER_INFORMATION, SID_LOGIN_RESPONSE,
      SID_CREATE_RESPONSE, SID_ROOM_LIST, SID_CHATEVENT]
    have hne : ∀ k, k ≤ 11 → ¬ code = k := fun k hk => by omega
    simp only [hne 0 (by decide), hne 1 (by decide), hne 2 (by decide), hne 3 (by decide),
      hne 4 (by decide), hne 5 (by decide), hne 6 (by decide), hne 7 (by decide),
      hne 8 (by decide), hne 9 (by decide), hne 10 (by decide), hne 11 (by decide),
      if_false, or_self]

/-- C18 on a frame with the code 77 and the payload `01 02`, sent by a new user. -/
theorem C18_unknown_code_rejected_witness :
    process_next_packet sample_hash (sample_server (frame_bytes 77 [1, 2] ++ [])) 0 =
      some (true, { set_socket_input (sample_server (frame_bytes 77 [1, 2] ++ [])) 5 [] with
        sent := [] ++ [(5, frame_bytes SID_ERROR (str "Unknown packet" ++ [0]))] }) :=
  (C18_unknown_code_rejected sample_hash (sample_server (frame_bytes 77 [1, 2] ++ [])) 0
    sample_user 77 [1, 2] [] rfl rfl (by decide) (by simp) (by simp [MAX_PACKET])).2
    (by decide)

/-- C14 (no shortcut to a room): let a user be as `create_user` makes it, and let every step
from one state to the next either be `process_next_packet` for this user or leave the user
as it is.  Then the user is in `JOINED_CHANNEL` only if, earlier and in this order, a
ClientInfo frame of the user was accepted in `CONNECTED`, a Login frame of the user succeeded
in `SENT_CLIENT_INFORMATION`, and a `/join` of the user with a parameter that is not empty was
accepted; no step moves the state forward by more than one stage; and once the user is in
`NOT_IN_CHANNEL` or `JOINED_CHANNEL` it is never again in `CONNECTED` or
`SENT_CLIENT_INFORMATION`. -/
theorem C14_no_shortcut (SHA1 : List Nat → List Nat) (user : Nat) (σ : Nat → server_t)
    (n : Nat) (socket : Nat) (ip : List Nat) (token : Nat)
    (h0 : (σ 0).users[user]? = some (create_user socket ip token))
    (hstep : ∀ i, i < n → session_step SHA1 user (σ i) (σ (i + 1))) :
    (∀ m, m ≤ n → get_user_state (σ m) user = some user_states_t.JOINED_CHANNEL →
      ∃ i j k, i < j ∧ j < k ∧ k < m ∧
        client_information_accepted (σ i) (σ (i + 1)) user ∧
        login_succeeded SHA1 (σ j) (σ (j + 1)) user ∧
        join_accepted (σ k) (σ (k + 1)) user) ∧
    (∀ i, i < n → ∃ s t, get_user_state (σ i) user = some s ∧
      get_user_state (σ (i + 1)) user = some t ∧ stage t ≤ stage s + 1) ∧
    (∀ i m, i ≤ m → m ≤ n → ∀ s, get_user_state (σ i) user = some s → 2 ≤ stage s →
      get_user_state (σ m) user = some user_states_t.NOT_IN_CHANNEL ∨
      get_user_state (σ m) user = some user_states_t.JOINED_CHANNEL) := by
  have hm := session_milestones SHA1 user σ n socket ip token h0 hstep
  refine ⟨?_, ?_, ?_⟩
  · intro m hmn hj
    obtain ⟨u, hu, _, _, p3⟩ := hm m hmn
    rw [(get_user_state_iff hu _).mp hj] at p3
    exact p3 (by decide)
  · intro i hi
    obtain ⟨u, hu, _⟩ := hm i (by omega)
    obtain ⟨v, hv, hle, _⟩ := session_step_stage (hstep i hi) u hu
    exact ⟨u.state, v.state, (get_user_state_iff hu _).mpr rfl,
      (get_user_state_iff hv _).mpr rfl, hle⟩
  · intro i m him hmn s hs h2
    obtain ⟨u, hu, _⟩ := hm i (by omega)
    have hus := (get_user_state_iff hu _).mp hs
    obtain ⟨v, hv, hv2⟩ := session_stays SHA1 user σ n hstep i u hu (by rw [hus]; exact h2)
      (m - i) (by omega)
    rw [show i + (m - i) = m by omega] at hv
    cases hvs : v.state with
    | CONNECTED => rw [hvs] at hv2; simp [stage] at hv2
    | SENT_CLIENT_INFORMATION => rw [hvs] at hv2; simp [stage] at hv2
    | NOT_IN_CHANNEL => exact Or.inl ((get_user_state_iff hv _).mpr hvs)
    | JOINED_CHANNEL => exact Or.inr ((get_user_state_iff hv _).mpr hvs)

set_option maxRecDepth 100000 in
/-- C14 on the example session: the connection on socket 5 is accepted, then its ClientInfo,
its Login as `alice` and its `/join lobby` arrive and are handled, which leaves the user in
`JOINED_CHANNEL` after six steps. -/
theorem C14_no_shortcut_witness :
    get_user_state (sample_session 6) 0 = some user_states_t.JOINED_CHANNEL ∧
    ∃ i j k, i < j ∧ j < k ∧ k < 6 ∧
      client_information_accepted (sample_session i) (sample_session (i + 1)) 0 ∧
      login_succeeded sample_hash (sample_session j) (sample_session (j + 1)) 0 ∧
      join_accepted (sample_session k) (sample_session (k + 1)) 0 :=
  ⟨by decide,
    (C14_no_shortcut sample_hash 0 sample_session 6 5 (str "10.0.0.1") 1234 (by decide)
      (by
        intro i hi
        have hcases : i = 0 ∨ i = 1 ∨ i = 2 ∨ i = 3 ∨ i = 4 ∨ i = 5 := by omega
        rcases hcases with rfl | rfl | rfl | rfl | rfl | rfl
        · exact Or.inr (by decide)
        · exact Or.inl ⟨true, by decide⟩
        · exact Or.inr (by decide)
        · exact Or.inl ⟨true, by decide⟩
        · exact Or.inr (by decide)
        · exact Or.inl ⟨true, by decide⟩)).1 6 (Nat.le_refl 6) (by decide)⟩

/-- C15 (account in use): for a user in `SENT_CLIENT_INFORMATION` and a packet that holds a
well-formed Login frame whose name, as `read_next_ntstring` returns it, is a key of
`old_users`, `process_SID_LOGIN` returns the state before with exactly one frame appended to
the writes, on the socket of the user: the `SID_LOGIN_RESPONSE` with `ACCOUNT_IN_USE`
followed by the name.  The user, `new_users` and `old_users` are as before, for every proof,
every accounts file and every hash function.  And in every state that the server reaches
from its start, through any arrivals of bytes and any cycles of `do_select`, two different
users in `old_users` are logged in under different names. -/
theorem C15_account_in_use (SHA1 : List Nat → List Nat) (st : server_t) (user : Nat)
    (u : user_t) (b : packet_buffer_t) (proof name : List Nat) (q : Nat)
    (hu : st.users[user]? = some u) (hs : u.state = user_states_t.SENT_CLIENT_INFORMATION)
    (h : IsFrame b SID_LOGIN (encoding [Field.bytes proof, Field.ntstring name]))
    (hp : b.position = 4) (hproof : proof.length = HASH_LENGTH) (hname : ∀ x ∈ name, x ≠ 0)
    (hl : 4 + (encoding [Field.bytes proof, Field.ntstring name]).length ≤ MAX_PACKET)
    (hkey : table_find st.old_users (name.map ntstring_char) = some q) :
    process_SID_LOGIN SHA1 st user b =
      some { st with sent := st.sent ++ [(u.socket, frame_bytes SID_LOGIN_RESPONSE
        (encoding [Field.int Width.w32 ACCOUNT_IN_USE,
          Field.ntstring (name.map ntstring_char)]))] } ∧
    (∀ accounts events st1, server_run SHA1 (server_start accounts) events = some st1 →
      ∀ p r, p ∈ get_values st1.old_users → r ∈ get_values st1.old_users → p ≠ r →
        ∃ v w, st1.users[p]? = some v ∧ st1.users[r]? = some w ∧
          (v.state = user_states_t.NOT_IN_CHANNEL ∨ v.state = user_states_t.JOINED_CHANNEL) ∧
          (w.state = user_states_t.NOT_IN_CHANNEL ∨ w.state = user_states_t.JOINED_CHANNEL) ∧
          v.username ≠ w.username) := by
  refine ⟨?_, ?_⟩
  · have h0 : IsFrame b SID_LOGIN (proof ++ (name ++ 0 :: [])) := by
      simpa [encoding, Field.encoding] using h
    have hl0 : name.length + 9 ≤ MAX_PACKET := by
      simp only [encoding, Field.encoding, List.length_append, List.length_cons,
        List.append_nil, List.length_nil] at hl
      simp only [HASH_LENGTH] at hproof
      omega
    rw [process_SID_LOGIN_eq SHA1 st user u proof name [] ACCOUNT_IN_USE hu hs h0 hp hproof
      hname hl0 (by rw [hkey])]
    rw [if_neg (by decide)]
    simp [encoding, Field.encoding, Width.size]
  · intro accounts events st1 hrun p r hp hr hpr
    exact registered_unique
      (server_run_registered SHA1 events _ _ (registered_start accounts) hrun) p r hp hr hpr

set_option maxRecDepth 100000 in
/-- C15 on the server where user 1 is logged in as `alice` and user 0 sends the Login frame
of `alice`; and on the example history, in which the second login as `alice` is refused and
the two users end up logged in as `alice` and `bob`. -/
theorem C15_account_in_use_witness :
    process_SID_LOGIN sample_hash sample_in_use_server 0 sample_login_buffer =
      some { sample_in_use_server with
        sent := sample_in_use_server.sent ++ [(5, frame_bytes SID_LOGIN_RESPONSE
          (encoding [Field.int Width.w32 ACCOUNT_IN_USE,
            Field.ntstring ((str "alice").map ntstring_char)]))] } ∧
    ∃ st1, server_run sample_hash (server_start sample_accounts) sample_history = some st1 ∧
      st1.old_users = [(str "alice", 0), (str "bob", 1)] ∧
      ∃ v w, st1.users[0]? = some v ∧ st1.users[1]? = some w ∧
        (v.state = user_states_t.NOT_IN_CHANNEL ∨ v.state = user_states_t.JOINED_CHANNEL) ∧
        (w.state = user_states_t.NOT_IN_CHANNEL ∨ w.state = user_states_t.JOINED_CHANNEL) ∧
        v.username ≠ w.username := by
  have hc := C15_account_in_use sample_hash sample_in_use_server 0
    { sample_user with client_token := 0x1111,
                       state := user_states_t.SENT_CLIENT_INFORMATION }
    sample_login_buffer
    ((password_hash_second sample_hash (List.replicate 20 0xAB) 0x1111 1234).getD [])
    (str "alice") 1 rfl rfl sample_login_buffer_frame rfl (by decide) (by decide)
    (by decide) (by decide)
  refine ⟨hc.1, ?_⟩
  have hrun : (server_run sample_hash (server_start sample_accounts) sample_history).map
      (fun s => s.old_users) = some [(str "alice", 0), (str "bob", 1)] := by decide
  obtain ⟨st1, h1, h2⟩ := Option.map_eq_some'.mp hrun
  exact ⟨st1, h1, h2, hc.2 sample_accounts sample_history st1 h1 0 1
    (by rw [h2]; decide) (by rw [h2]; decide) (by decide)⟩

/-- C16 (login outcome): for a user in `SENT_CLIENT_INFORMATION` and a packet that holds a
well-formed Login frame (20 proof bytes and a NUL-terminated name, of at most `MAX_PACKET`
bytes), read from the start of its payload, let `name` be the name as `read_next_ntstring`
returns it; when `name` is not a key of `old_users` and `account_login` of `name`, the proof
and the two tokens of the user returns `status`, `process_SID_LOGIN` appends exactly one
frame to the writes, on the socket of the user, the `SID_LOGIN_RESPONSE` with `status`
followed by `name`; on `LOGIN_SUCCESS` the username of the user becomes `name`, its state
`NOT_IN_CHANNEL`, the user is taken out of `new_users` and `old_users` gets the new entry
`name` for it; on every other status nothing else changes. -/
theorem C16_login_outcome (SHA1 : List Nat → List Nat) (st : server_t) (user : Nat)
    (u : user_t) (b : packet_buffer_t) (proof name : List Nat) (status : Nat)
    (hu : st.users[user]? = some u) (hs : u.state = user_states_t.SENT_CLIENT_INFORMATION)
    (h : IsFrame b SID_LOGIN (encoding [Field.bytes proof, Field.ntstring name]))
    (hp : b.position = 4) (hproof : proof.length = HASH_LENGTH) (hname : ∀ x ∈ name, x ≠ 0)
    (hl : 4 + (encoding [Field.bytes proof, Field.ntstring name]).length ≤ MAX_PACKET)
    (hkey : table_find st.old_users (name.map ntstring_char) = none)
    (hlogin : account_login SHA1 st.accounts (name.map ntstring_char) proof
      (u.client_token % 4294967296) (u.server_token % 4294967296) = some status) :
    process_SID_LOGIN SHA1 st user b =
      some (if status = LOGIN_SUCCESS then
        { st with
          users := st.users.set user
            { u with username := name.map ntstring_char,
                     state := user_states_t.NOT_IN_CHANNEL },
          new_users := (list_remove_value st.new_users user).2,
          old_users := st.old_users ++ [(name.map ntstring_char, user)],
          sent := st.sent ++ [(u.socket, frame_bytes SID_LOGIN_RESPONSE
            (encoding [Field.int Width.w32 status, Field.ntstring (name.map ntstring_char)]))] }
      else
        { st with sent := st.sent ++ [(u.socket, frame_bytes SID_LOGIN_RESPONSE
            (encoding [Field.int Width.w32 status,
              Field.ntstring (name.map ntstring_char)]))] }) := by
  have h0 : IsFrame b SID_LOGIN (proof ++ (name ++ 0 :: [])) := by
    simpa [encoding, Field.encoding] using h
  have hl0 : name.length + 9 ≤ MAX_PACKET := by
    simp only [encoding, Field.encoding, List.length_append, List.length_singleton,
      List.append_nil, List.length_nil] at hl
    simp only [HASH_LENGTH] at hproof
    omega
  have hcs : c_string (name.map ntstring_char) = name.map ntstring_char :=
    c_string_of_no_nul _ (fun x hx => (ntstring_text name hname x hx).1)
  rw [process_SID_LOGIN_eq SHA1 st user u proof name [] status hu hs h0 hp hproof hname hl0
    (by rw [hkey]; exact hlogin)]
  by_cases hsucc : status = LOGIN_SUCCESS
  · have hlen := account_login_success_length SHA1 _ _ _ _ _ (hsucc ▸ hlogin)
    rw [hcs] at hlen
    have htake : (name.map ntstring_char).take (MAX_NAME - 1) = name.map ntstring_char :=
      List.take_of_length_le hlen
    rw [if_pos hsucc, if_pos hsucc, htake, table_add_absent _ _ _ hkey, hcs]
    simp [encoding, Field.encoding, Width.size]
  · rw [if_neg hsucc, if_neg hsucc]
    simp [encoding, Field.encoding, Width.size]

/-- C16 on the user of socket 5 after its ClientInfo, with the Login frame of `alice` that
carries the right proof. -/
theorem C16_login_outcome_witness :
    process_SID_LOGIN sample_hash sample_informed_server 0 sample_login_buffer =
      some (if LOGIN_SUCCESS = LOGIN_SUCCESS then
        { sample_informed_server with
          users := sample_informed_server.users.set 0
            { sample_user with client_token := 0x1111,
                               username := (str "alice").map ntstring_char,
                               state := user_states_t.NOT_IN_CHANNEL },
          new_users := (list_remove_value sample_informed_server.new_users 0).2,
          old_users := sample_informed_server.old_users ++
            [((str "alice").map ntstring_char, 0)],
          sent := sample_informed_server.sent ++ [(5, frame_bytes SID_LOGIN_RESPONSE
            (encoding [Field.int Width.w32 LOGIN_SUCCESS,
              Field.ntstring ((str "alice").map ntstring_char)]))] }
      else
        { sample_informed_server with
          sent := sample_informed_server.sent ++ [(5, frame_bytes SID_LOGIN_RESPONSE
            (encoding [Field.int Width.w32 LOGIN_SUCCESS,
              Field.ntstring ((str "alice").map ntstring_char)]))] }) :=
  C16_login_outcome sample_hash sample_informed_server 0
    { sample_user with client_token := 0x1111,
                       state := user_states_t.SENT_CLIENT_INFORMATION }
    sample_login_buffer
    ((password_hash_second sample_hash (List.replicate 20 0xAB) 0x1111 1234).getD [])
    (str "alice") LOGIN_SUCCESS rfl rfl sample_login_buffer_frame rfl (by decide) (by decide)
    (by decide) (by decide) (by decide)

/-- C17, the code at the failing inputs: a ClientInfo frame with a three-byte payload sent by
a `CONNECTED` user, a Login frame with 20 proof bytes and the unterminated name `ab` sent by a
user in `SENT_CLIENT_INFORMATION`, and a ChatCommand frame with the unterminated text `ab`
sent by an authenticated user each make `process_next_packet` fail an `assert` of a
`read_next_*` function (the result `none`): no error frame is sent and the call does not
return.  The same Login frame with its terminator is answered. -/
theorem C17_malformed_frame_aborts :
    sample_connected.bind (fun st => get_user_state st 0) = some user_states_t.CONNECTED ∧
    sample_connected.map (fun st => process_next_packet sample_hash
      (deliver st 5 (frame_bytes SID_CLIENT_INFORMATION [1, 2, 3])) 0) = some none ∧
    sample_informed.bind (fun st => get_user_state st 0) =
      some user_states_t.SENT_CLIENT_INFORMATION ∧
    sample_informed.map (fun st => process_next_packet sample_hash
      (deliver st 5 (frame_bytes SID_LOGIN (List.replicate 20 1 ++ [0x61, 0x62]))) 0) =
      some none ∧
    sample_informed.map (fun st => (process_next_packet sample_hash
      (deliver st 5 (frame_bytes SID_LOGIN (List.replicate 20 1 ++ [0x61, 0x62, 0, 0]))) 0).map
        (fun r => (r.1, r.2.sent.drop 1))) =
      some (some (true, [(5, frame_bytes SID_LOGIN_RESPONSE
        (le_bytes 4 UNKNOWN_ACCOUNT ++ [0x61, 0x62, 0]))])) ∧
    sample_authenticated.bind (fun st => get_user_state st 0) =
      some user_states_t.NOT_IN_CHANNEL ∧
    sample_authenticated.map (fun st => process_next_packet sample_hash
      (deliver st 5 (frame_bytes SID_CHATCOMMAND [0x61, 0x62])) 0) = some none := by
  set_option maxRecDepth 100000 in decide

/-- C19, the code at a failing input: `alice` (socket 5) and `bob` (socket 6) are logged in
and in the room `lobby`; the connection of `alice` closes, so `process_next_packet` returns
`FALSE` for her and `do_select` removes her from `old_users` and closes socket 5.  Afterwards
she is still a member of the room `lobby`, and when `bob` talks the room message is written
to the closed socket 5 as well. -/
theorem C19_closed_session_stays_in_room :
    sample_two_joined.map (fun st => (get_keys st.old_users,
      (process_next_packet sample_hash (deliver st 5 []) 0).map Prod.fst)) =
      some ([str "alice", str "bob"], some false) ∧
    sample_alice_closed.map (fun st => (get_keys st.old_users, st.closed)) =
      some ([str "bob"], [5]) ∧
    sample_alice_closed.bind (fun st => (table_find st.rooms (str "lobby")).bind (fun room =>
      (st.room_heap[room]?).map (fun r => get_keys r.users))) =
      some [str "alice", str "bob"] ∧
    sample_alice_closed.bind (fun st => sample_bob_talks.map (fun st1 =>
      (st1.sent.drop st.sent.length).map Prod.fst)) = some [5, 6] := by
  set_option maxRecDepth 100000 in decide

/-- C20 (room creation on first join): let `u` and `w` be two logged-in users that are in no
room, and `X` a name of 1 to 15 characters, not `backstage` in any case, that is not a key
of `rooms`.  `process_command_join` of `u` with `X` adds exactly one entry to `rooms`, the
key `X` for one new room with the name `X`, the topic `No topic` and `u` as its only member;
a following `process_command_join` of `w` with `X` leaves `rooms` as it is and makes `w` the
second member of that room. -/
theorem C20_room_creation (st : server_t) (user v : Nat) (u w : user_t) (X : List Nat)
    (hu : st.users[user]? = some u) (hw : st.users[v]? = some w) (huv : user ≠ v)
    (hureg : table_find st.old_users u.username = some user)
    (hwreg : table_find st.old_users w.username = some v)
    (hul : strlen u.username < MAX_NAME) (hwl : strlen w.username < MAX_NAME)
    (huroom : u.room = none) (hwroom : w.room = none)
    (hb : strcasecmp_eq X (str "backstage") = false)
    (h1 : 1 ≤ strlen X) (h2 : strlen X < MAX_ROOM_LENGTH)
    (hX : table_find st.rooms X = none) :
    ∃ st1 st2, process_command_join st user X = some st1 ∧
      process_command_join st1 v X = some st2 ∧
      st1.rooms = st.rooms ++ [(c_string X, st.room_heap.length)] ∧
      st1.room_heap = st.room_heap ++
        [{ users := [(c_string u.username, user)], name := c_string X,
           topic := str "No topic" }] ∧
      st2.rooms = st1.rooms ∧
      st2.room_heap = st.room_heap ++
        [{ users := [(c_string u.username, user), (c_string w.username, v)],
           name := c_string X, topic := str "No topic" }] := by
  have e1 := join_new st st user u X hb h1 h2
    (join_leave_none st user u hu (by rw [huroom]; rfl)) hu hureg hul hX
  have hlt := users_index_lt hu
  have hne : ¬ strcmp_eq w.username (c_string u.username) = true := by
    intro hc
    simp only [strcmp_eq, beq_iff_eq, c_string_idem] at hc
    have := table_find_congr st.old_users _ _ hc
    rw [hwreg, hureg] at this
    exact huv (Option.some.inj this).symm
  obtain ⟨st1, e1, hrooms, hheap, husers, hold⟩ : ∃ st1 : server_t,
      process_command_join st user X = some st1 ∧
      st1.rooms = st.rooms ++ [(c_string X, st.room_heap.length)] ∧
      st1.room_heap = st.room_heap ++
        [{ users := [(c_string u.username, user)], name := c_string X,
           topic := str "No topic" }] ∧
      (∃ u1 : user_t, u1.username = u.username ∧ st1.users = st.users.set user u1) ∧
      st1.old_users = st.old_users :=
    ⟨_, e1, rfl, rfl,
      ⟨{ u with state := .JOINED_CHANNEL, room := some (c_string X) }, rfl, rfl⟩, rfl⟩
  obtain ⟨u1, hu1name, husers⟩ := husers
  have hw1 : st1.users[v]? = some w := by
    rw [husers, List.getElem?_set_ne huv]
    exact hw
  have hfind1 : table_find st1.rooms X = some st.room_heap.length := by
    rw [hrooms]
    exact table_find_append st.rooms X _ hX
  have hr1 : st1.room_heap[st.room_heap.length]? =
      some { users := [(c_string u.username, user)], name := c_string X,
             topic := str "No topic" } := by
    rw [hheap]
    simp
  have e2 := join_existing st1 st1 v w X st.room_heap.length _
    hb h1 h2 (join_leave_none st1 v w hw1 (by rw [hwroom]; rfl)) hw1 (by rw [hold]; exact hwreg)
    hwl hfind1 hr1
    (by
      intro m hm
      simp only [get_values, List.map_cons, List.map_nil, List.mem_singleton] at hm
      subst hm
      refine ⟨u1, ?_, ?_⟩
      · rw [husers]
        exact List.getElem?_set_self hlt
      · rw [hu1name]
        exact hul)
  refine ⟨st1, _, e1, e2, hrooms, hheap, rfl, ?_⟩
  simp [hheap, table_add, hne]

/-- C20 on the server whose users `alice` and `bob` have left the room `lobby`, with the room
name `den`. -/
theorem C20_room_creation_witness :
    ∃ st1 st2, process_command_join sample_idle_server 0 (str "den") = some st1 ∧
      process_command_join st1 1 (str "den") = some st2 ∧
      st1.rooms = sample_idle_server.rooms ++
        [(c_string (str "den"), sample_idle_server.room_heap.length)] ∧
      st1.room_heap = sample_idle_server.room_heap ++
        [{ users := [(c_string (str "alice"), 0)], name := c_string (str "den"),
           topic := str "No topic" }] ∧
      st2.rooms = st1.rooms ∧
      st2.room_heap = sample_idle_server.room_heap ++
        [{ users := [(c_string (str "alice"), 0), (c_string (str "bob"), 1)],
           name := c_string (str "den"), topic := str "No topic" }] :=
  C20_room_creation sample_idle_server 0 1
    { sample_alice with state := user_states_t.NOT_IN_CHANNEL, room := none }
    { sample_bob with state := user_states_t.NOT_IN_CHANNEL, room := none }
    (str "den") rfl rfl (by decide) (by decide) (by decide) (by decide) (by decide) rfl rfl
    (by decide) (by decide) (by decide) (by decide)

/-- C21 (emptied rooms are retained but reported not found): let `u` be a logged-in user
whose room `X` is a key of `rooms`, and the only member of that room.  After
`process_command_join` of `u` with an empty parameter, with the name of a new room, or with
the name of another room that exists, `X` is still a key of `rooms`, for the same room with
its name and its topic and with no users.  And in every state in which `X` is the key of a
room without users, `process_command_who` of any logged-in user with `X` writes exactly one
frame, on the socket of that user: the `EID_ERROR` event `Room not found...`, the event that
it writes for a name that is no key of `rooms`; nothing else changes. -/
theorem C21_emptied_room (st : server_t) (user : Nat) (u : user_t) (X : List Nat) (y : Nat)
    (ry : room_t)
    (hu : st.users[user]? = some u) (hreg : table_find st.old_users u.username = some user)
    (hl : strlen u.username < MAX_NAME) (hroom : u.room = some X)
    (hX : table_find st.rooms X = some y) (hy : st.room_heap[y]? = some ry)
    (honly : (table_remove ry.users u.username).2 = []) (hXlen : 0 < strlen X) :
    (∀ param, strlen param = 0 →
      ∃ st1, process_command_join st user param = some st1 ∧
        table_find st1.rooms X = some y ∧
        st1.room_heap[y]? = some { ry with users := [] }) ∧
    (∀ Z, strcasecmp_eq Z (str "backstage") = false → 1 ≤ strlen Z →
      strlen Z < MAX_ROOM_LENGTH → table_find st.rooms Z = none →
      ∃ st1, process_command_join st user Z = some st1 ∧
        table_find st1.rooms X = some y ∧
        st1.room_heap[y]? = some { ry with users := [] }) ∧
    (∀ Z z rz, strcasecmp_eq Z (str "backstage") = false → 1 ≤ strlen Z →
      strlen Z < MAX_ROOM_LENGTH → table_find st.rooms Z = some z → z ≠ y →
      st.room_heap[z]? = some rz → valid_members st (get_values rz.users) →
      ∃ st1, process_command_join st user Z = some st1 ∧
        table_find st1.rooms X = some y ∧
        st1.room_heap[y]? = some { ry with users := [] }) ∧
    (∀ (s : server_t) (q : Nat) (uq : user_t) (r0 : room_t),
      table_find s.rooms X = some y → s.room_heap[y]? = some r0 → r0.users = [] →
      s.users[q]? = some uq → table_find s.old_users uq.username = some q →
      strlen uq.username < MAX_NAME →
      process_command_who s q X =
        some { s with
          sent := s.sent ++ [(uq.socket, chatevent_frame EID_ERROR uq.username (str
            "Room not found.  If you were searching for a user, not a room, please use /whois <username>"))] } ∧
      ∀ Z, 0 < strlen Z → table_find s.rooms Z = none →
        process_command_who s q Z =
          some { s with
            sent := s.sent ++ [(uq.socket, chatevent_frame EID_ERROR uq.username (str
              "Room not found.  If you were searching for a user, not a room, please use /whois <username>"))] }) := by
  have hylt := heap_index_lt hy
  have hvy : ∀ m ∈ get_values (table_remove ry.users u.username).2, m < st.users.length := by
    rw [honly]
    intro m hm
    simp [get_values] at hm
  have hold : u.room.bind (table_find st.rooms) = some y := by
    rw [hroom]
    exact hX
  have hleave := join_leave_some st user u y ry hu hold hy hvy hl
  refine ⟨?_, ?_, ?_, ?_⟩
  · intro param hempty
    rw [process_command_join_nowhere st _ user param hempty hleave]
    refine ⟨_, join_nowhere_eq _ user u ?_ ?_ hl, hX, ?_⟩
    · exact hu
    · exact hreg
    · show (st.room_heap.set y _)[y]? = _
      rw [honly]
      exact List.getElem?_set_self hylt
  · intro Z hb h1 h2 hZ
    refine ⟨_, join_new st _ user u Z hb h1 h2 hleave hu hreg hl hZ,
      table_find_append_left _ _ _ _ hX, ?_⟩
    show (st.room_heap.set y _ ++ _)[y]? = _
    rw [List.getElem?_append_left (by simpa using hylt), honly]
    exact List.getElem?_set_self hylt
  · intro Z z rz hb h1 h2 hZ hzy hz hvz
    have hz1 : (st.room_heap.set y
        { ry with users := (table_remove ry.users u.username).2 })[z]? = some rz := by
      rw [List.getElem?_set_ne (Ne.symm hzy)]
      exact hz
    refine ⟨_, join_existing st _ user u Z z rz hb h1 h2 hleave hu hreg hl hZ hz1 hvz, hX, ?_⟩
    show ((st.room_heap.set y _).set z _)[y]? = _
    rw [List.getElem?_set_ne hzy, honly]
    exact List.getElem?_set_self hylt
  · intro s q uq r0 hsX hsy hr0 hq hqreg hql
    refine ⟨who_not_found_eq s q uq X hq hqreg hql hXlen (Or.inr ⟨y, r0, hsX, hsy, hr0⟩), ?_⟩
    intro Z hZ hnone
    exact who_not_found_eq s q uq Z hq hqreg hql hZ (Or.inl hnone)

/-- C21 on the server with `alice` alone in `lobby`: she leaves chat, the room stays in
`rooms` without users; and `/who lobby` of `bob`, on the server where `lobby` has no users,
is answered with the one `Room not found` event. -/
theorem C21_emptied_room_witness :
    (∃ st1, process_command_join sample_solo_server 0 [] = some st1 ∧
      table_find st1.rooms (str "lobby") = some 0 ∧
      st1.room_heap[0]? =
        some { users := [], name := str "lobby", topic := str "No topic" }) ∧
    process_command_who sample_idle_server 1 (str "lobby") =
      some { sample_idle_server with
        sent := [(6, chatevent_frame EID_ERROR (str "bob") (str
          "Room not found.  If you were searching for a user, not a room, please use /whois <username>"))] } :=
  have h := C21_emptied_room sample_solo_server 0 sample_alice (str "lobby") 0
    { users := [(str "alice", 0)], name := str "lobby", topic := str "No topic" }
    rfl (by decide) (by decide) rfl (by decide) rfl (by decide) (by decide)
  ⟨h.1 [] rfl,
    (h.2.2.2 sample_idle_server 1
      { sample_bob with state := user_states_t.NOT_IN_CHANNEL, room := none }
      { users := [], name := str "lobby", topic := str "No topic" }
      (by decide) rfl rfl rfl (by decide) (by decide)).1⟩

/-- C22 (join with room switch): let `u` be a logged-in user whose room `Y` is a key of
`rooms`, with the other members of `Y` users of the server, and `X` a name of 1 to 15
characters that is not `backstage`.  `process_command_join` of `u` with `X` takes `u` out of
the user table of `Y` and writes one `EID_USER_LEAVE_CHANNEL` event naming `u` to each user
left in `Y`; then it writes to `u` an `EID_CHANNEL` event with `X` and one
`EID_USER_IN_CHANNEL` event for each member that `X` had; it sets the state of `u` to
`JOINED_CHANNEL` and its room to `X`, adds `u` to the user table of `X`, and writes one
`EID_USER_JOIN_CHANNEL` event naming `u` to each member of `X`, `u` included.  When `X` is
not yet a key of `rooms` the room is created first (one `EID_INFO` event for `u`) and `u` is
its only member.  When the keys of the user table of `Y` are distinct strings, the name of
`u` is no longer a key of it, so that no leave event is written for `u`. -/
theorem C22_join_switch (st : server_t) (user : Nat) (u : user_t) (X Y : List Nat) (y : Nat)
    (ry : room_t)
    (hu : st.users[user]? = some u) (hreg : table_find st.old_users u.username = some user)
    (hl : strlen u.username < MAX_NAME) (hroom : u.room = some Y)
    (hY : table_find st.rooms Y = some y) (hy : st.room_heap[y]? = some ry)
    (hvy : ∀ m ∈ get_values (table_remove ry.users u.username).2, m < st.users.length)
    (hb : strcasecmp_eq X (str "backstage") = false)
    (h1 : 1 ≤ strlen X) (h2 : strlen X < MAX_ROOM_LENGTH) :
    (∀ x rx, table_find st.rooms X = some x → x ≠ y → st.room_heap[x]? = some rx →
      valid_members st (get_values rx.users) →
      process_command_join st user X =
        some { st with
          users := st.users.set user
            { u with state := user_states_t.JOINED_CHANNEL, room := some (c_string X) },
          room_heap := (st.room_heap.set y
            { ry with users := (table_remove ry.users u.username).2 }).set x
            { rx with users := table_add rx.users u.username user },
          sent := st.sent ++
            (sockets_of st (get_values (table_remove ry.users u.username).2)).map
              (fun s => (s, chatevent_frame EID_USER_LEAVE_CHANNEL u.username (str ""))) ++
            ((u.socket, chatevent_frame EID_CHANNEL u.username X) ::
              (usernames_of st (get_values rx.users)).map
                (fun n => (u.socket, chatevent_frame EID_USER_IN_CHANNEL n (str "")))) ++
            (sockets_of st (get_values (table_add rx.users u.username user))).map
              (fun s => (s, chatevent_frame EID_USER_JOIN_CHANNEL u.username (str ""))) }) ∧
    (table_find st.rooms X = none →
      process_command_join st user X =
        some { st with
          users := st.users.set user
            { u with state := user_states_t.JOINED_CHANNEL, room := some (c_string X) },
          room_heap := st.room_heap.set y
            { ry with users := (table_remove ry.users u.username).2 } ++
            [{ users := [(c_string u.username, user)], name := c_string X,
               topic := str "No topic" }],
          rooms := st.rooms ++ [(c_string X, st.room_heap.length)],
          sent := st.sent ++
            (sockets_of st (get_values (table_remove ry.users u.username).2)).map
              (fun s => (s, chatevent_frame EID_USER_LEAVE_CHANNEL u.username (str ""))) ++
            [(u.socket, chatevent_frame EID_INFO u.username
                (str "Creating new channel for you")),
              (u.socket, chatevent_frame EID_CHANNEL u.username X),
              (u.socket, chatevent_frame EID_USER_JOIN_CHANNEL u.username (str ""))] }) ∧
    ((get_keys ry.users).Nodup → (∀ k ∈ get_keys ry.users, c_string k = k) →
      table_find (table_remove ry.users u.username).2 u.username = none) := by
  have hold : u.room.bind (table_find st.rooms) = some y := by
    rw [hroom]
    exact hY
  have hleave := join_leave_some st user u y ry hu hold hy hvy hl
  refine ⟨?_, ?_, fun hn hk => table_remove_find _ _ hn hk⟩
  · intro x rx hX hxy hx hvx
    refine (join_existing st _ user u X x rx hb h1 h2 hleave hu hreg hl hX ?_ hvx).trans ?_
    · show (st.room_heap.set y _)[x]? = some rx
      rw [List.getElem?_set_ne (Ne.symm hxy)]
      exact hx
    · simp only [List.append_assoc]
      rfl
  · intro hX
    refine (join_new st _ user u X hb h1 h2 hleave hu hreg hl hX).trans ?_
    simp

/-- C22 on the server with `alice` and `bob` in `lobby`, when `alice` joins the new room
`den`. -/
theorem C22_join_switch_witness :
    process_command_join sample_lobby_server 0 (str "den") =
      some { sample_lobby_server with
        users := sample_lobby_server.users.set 0
          { sample_alice with state := user_states_t.JOINED_CHANNEL,
                              room := some (c_string (str "den")) },
        room_heap := sample_lobby_server.room_heap.set 0
          { users := [(str "bob", 1)], name := str "lobby", topic := str "No topic" } ++
          [{ users := [(c_string (str "alice"), 0)], name := c_string (str "den"),
             topic := str "No topic" }],
        rooms := sample_lobby_server.rooms ++
          [(c_string (str "den"), sample_lobby_server.room_heap.length)],
        sent := [(6, chatevent_frame EID_USER_LEAVE_CHANNEL (str "alice") (str "")),
          (5, chatevent_frame EID_INFO (str "alice") (str "Creating new channel for you")),
          (5, chatevent_frame EID_CHANNEL (str "alice") (str "den")),
          (5, chatevent_frame EID_USER_JOIN_CHANNEL (str "alice") (str ""))] } :=
  (C22_join_switch sample_lobby_server 0 sample_alice (str "den") (str "lobby") 0
    { users := [(str "alice", 0), (str "bob", 1)], name := str "lobby",
      topic := str "No topic" }
    rfl (by decide) (by decide) rfl (by decide) rfl (by decide) (by decide) (by decide)
    (by decide)).2.1 (by decide)

/-- C23 (leaving chat): for a logged-in user `u` whose room `Y` is a key of `rooms`, with the
other members of that room users of the server, `process_command_join` with an empty
parameter returns the state before in which `u` is taken out of the user table of `Y`, the
state of `u` is `NOT_IN_CHANNEL` and its room is `NULL`, and the writes are followed by one
`EID_USER_LEAVE_CHANNEL` event naming `u` for each user left in `Y`, on the socket of that
user, and then by the `EID_INFO` event `Leaving chat` and an `EID_CHANNEL` event with an
empty name for `u`.  `rooms` is unchanged (no room is created) and so is every other room;
and when the keys of the user table of `Y` are distinct strings, the name of `u` is no
longer a key of it. -/
theorem C23_leaving_chat (st : server_t) (user : Nat) (u : user_t) (param Y : List Nat)
    (y : Nat) (ry : room_t)
    (hu : st.users[user]? = some u) (hreg : table_find st.old_users u.username = some user)
    (hl : strlen u.username < MAX_NAME) (hempty : strlen param = 0)
    (hroom : u.room = some Y) (hfind : table_find st.rooms Y = some y)
    (hy : st.room_heap[y]? = some ry)
    (hv : ∀ m ∈ get_values (table_remove ry.users u.username).2, m < st.users.length) :
    process_command_join st user param =
      some { st with
        users := st.users.set user
          { u with state := user_states_t.NOT_IN_CHANNEL, room := none },
        room_heap := st.room_heap.set y
          { ry with users := (table_remove ry.users u.username).2 },
        sent := st.sent ++
          (sockets_of st (get_values (table_remove ry.users u.username).2)).map
            (fun s => (s, chatevent_frame EID_USER_LEAVE_CHANNEL u.username (str ""))) ++
          [(u.socket, chatevent_frame EID_INFO u.username (str "Leaving chat")),
            (u.socket, chatevent_frame EID_CHANNEL u.username (str ""))] } ∧
    ((get_keys ry.users).Nodup → (∀ k ∈ get_keys ry.users, c_string k = k) →
      table_find (table_remove ry.users u.username).2 u.username = none) := by
  refine ⟨?_, fun hn hk => table_remove_find _ _ hn hk⟩
  have hold : u.room.bind (table_find st.rooms) = some y := by
    rw [hroom]
    exact hfind
  have hleave := join_leave_some st user u y ry hu hold hy hv hl
  rw [process_command_join_nowhere st _ user param hempty hleave]
  refine (join_nowhere_eq _ user u ?_ ?_ hl).trans ?_
  · exact hu
  · exact hreg
  · simp

/-- C23 on the server with `alice` and `bob` in `lobby`, when `alice` leaves chat. -/
theorem C23_leaving_chat_witness :
    process_command_join sample_lobby_server 0 [] =
      some { sample_lobby_server with
        users := sample_lobby_server.users.set 0
          { sample_alice with state := user_states_t.NOT_IN_CHANNEL, room := none },
        room_heap := sample_lobby_server.room_heap.set 0
          { users := [(str "bob", 1)], name := str "lobby", topic := str "No topic" },
        sent := [(6, chatevent_frame EID_USER_LEAVE_CHANNEL (str "alice") (str "")),
          (5, chatevent_frame EID_INFO (str "alice") (str "Leaving chat")),
          (5, chatevent_frame EID_CHANNEL (str "alice") (str ""))] } :=
  (C23_leaving_chat sample_lobby_server 0 sample_alice [] (str "lobby") 0
    { users := [(str "alice", 0), (str "bob", 1)], name := str "lobby",
      topic := str "No topic" }
    rfl (by decide) (by decide) rfl rfl (by decide) rfl (by decide)).1

/-- C25 (whisper to an absent user): for a logged-in user whose name is its key in
`old_users`, and a packet that holds the ChatCommand frame `/word target msg` with `word`
one of `w`, `whisper`, `m`, `msg`, a `target` of printable characters without a space that
is not a key of `old_users`, and any printable message, `process_SID_CHATCOMMAND` returns
the state before with exactly one frame appended to the writes, on the socket of the sender:
the `SID_CHATEVENT` of subtype `EID_ERROR` with the text `User not logged on`.  Nothing is
written on another socket and nothing else changes. -/
theorem C25_whisper_absent (st : server_t) (user : Nat) (u : user_t) (b : packet_buffer_t)
    (word target msg : List Nat)
    (hu : st.users[user]? = some u)
    (hs : u.state = user_states_t.NOT_IN_CHANNEL ∨ u.state = user_states_t.JOINED_CHANNEL)
    (hreg : table_find st.old_users u.username = some user)
    (hname : strlen u.username < MAX_NAME)
    (hword : word = str "w" ∨ word = str "whisper" ∨ word = str "m" ∨ word = str "msg")
    (ht : ∀ x ∈ target, 0x20 < x ∧ x ≤ 0x7E) (hm : ∀ x ∈ msg, 0x20 ≤ x ∧ x ≤ 0x7E)
    (h : IsFrame b SID_CHATCOMMAND
      (encoding [Field.ntstring (0x2F :: (word ++ 0x20 :: (target ++ 0x20 :: msg)))]))
    (hp : b.position = 4) (habsent : table_find st.old_users target = none) :
    process_SID_CHATCOMMAND st user b =
      some { st with
        sent := st.sent ++ [(u.socket, chatevent_frame EID_ERROR u.username
          (str "User not logged on"))] } := by
  have h0 : IsFrame b SID_CHATCOMMAND
      ((0x2F :: (word ++ 0x20 :: (target ++ 0x20 :: msg))) ++ 0 :: []) := by
    simpa [encoding, Field.encoding] using h
  have hword_print : ∀ x ∈ word, 0x20 < x ∧ x ≤ 0x7E := by
    rcases hword with e | e | e | e <;> subst e <;> decide
  have hprint : ∀ x ∈ 0x2F :: (word ++ 0x20 :: (target ++ 0x20 :: msg)),
      0x20 ≤ x ∧ x ≤ 0x7E := by
    intro x hx
    simp only [List.mem_cons, List.mem_append] at hx
    rcases hx with e | e | e | e | e | e
    · rw [e]; decide
    · have := hword_print x e; omega
    · rw [e]; decide
    · have := ht x e; omega
    · rw [e]; decide
    · exact hm x e
  have hnul : ∀ x ∈ 0x2F :: (word ++ 0x20 :: (target ++ 0x20 :: msg)), x ≠ 0 := by
    intro x hx
    have := hprint x hx
    omega
  have hwords : command_words (0x2F :: (word ++ 0x20 :: (target ++ 0x20 :: msg))) =
      (word, target ++ 0x20 :: msg) :=
    command_words_split word _ (fun hc => by have := hword_print _ hc; omega)
      (fun x hx => by have := hword_print x hx; omega)
  have hrun : run_command st user word (target ++ 0x20 :: msg) =
      process_command_w st user (target ++ 0x20 :: msg) := by
    simp only [run_command]
    rcases hword with e | e | e | e <;> subst e <;>
      rw [if_neg (by decide), if_neg (by decide), if_neg (by decide), if_pos (by decide)]
  simp only [MAX_NAME] at hname
  rw [process_SID_CHATCOMMAND_eq st user u _ [] hu hs h0 hp hnul,
    map_ntstring_char_printable _ hprint, if_pos (by rfl), hwords, hrun,
    process_command_w_absent st user target msg (fun hc => by have := ht _ hc; omega)
      (fun x hx => by have := ht x hx; omega) (fun x hx => by have := hm x hx; omega) habsent,
    send_chat_self_eq st EID_ERROR user _ u u user hu hreg hu
      (by simp only [strlen, str, MAX_PACKET] at hname ⊢; simp; omega)]

/-- C25 on the server with `alice` and `bob`, when `alice` sends `/w carol hello`. -/
theorem C25_whisper_absent_witness :
    process_SID_CHATCOMMAND sample_lobby_server 0
        (sample_command_buffer (str "/w carol hello")) =
      some { sample_lobby_server with
        sent := sample_lobby_server.sent ++ [(sample_alice.socket,
          chatevent_frame EID_ERROR sample_alice.username (str "User not logged on"))] } :=
  C25_whisper_absent sample_lobby_server 0 sample_alice
    (sample_command_buffer (str "/w carol hello")) (str "w") (str "carol") (str "hello")
    rfl (Or.inr rfl) (by decide) (by decide) (Or.inl rfl) (by decide) (by decide)
    (IsFrame.of_split [] rfl (by decide) (by decide) (by decide) (by decide) (by decide))
    rfl (by decide)

/-- C27 (username validation on account creation): for every accounts file, name and hash of
at least `HASH_LENGTH` bytes, `account_create` returns `NAME_TOO_SHORT` when the name has
fewer than 2 characters; otherwise `NAME_TOO_LONG` when it has 32 or more; otherwise
`NAME_ILLEGAL` when one of its characters is not printable or is `;`; otherwise
`ACCOUNT_EXISTS` when `find_account` finds the name in the file; otherwise the success code 0,
and then the file is the old one followed by exactly one line, `name;` with the 40 digits of
the hash.  `find_account` always answers here, and in every case but the last the file is
unchanged. -/
theorem C27_account_create_validation (file name password : List Nat)
    (hp : HASH_LENGTH ≤ password.length) :
    (strlen name < 2 → account_create file name password = some (NAME_TOO_SHORT, file)) ∧
    (2 ≤ strlen name → 32 ≤ strlen name →
      account_create file name password = some (NAME_TOO_LONG, file)) ∧
    (2 ≤ strlen name → strlen name < 32 →
      (∃ c ∈ c_string name, isprint c = false ∨ c = 0x3B) →
      account_create file name password = some (NAME_ILLEGAL, file)) ∧
    (2 ≤ strlen name → strlen name < 32 →
      (∀ c ∈ c_string name, isprint c = true ∧ c ≠ 0x3B) →
      ((∃ r, find_account file name false = some (some r)) ∨
        find_account file name false = some none) ∧
      ((∃ r, find_account file name false = some (some r)) →
        account_create file name password = some (ACCOUNT_EXISTS, file)) ∧
      (find_account file name false = some none →
        account_create file name password =
          some (CREATE_SUCCESS, file ++ account_line name password))) := by
  rw [account_create_eq]
  simp only [MIN_NAME, MAX_NAME]
  refine ⟨?_, ?_, ?_, ?_⟩
  · intro h
    rw [if_pos h]
  · intro h1 h2
    rw [if_neg (by omega), if_pos h2]
  · intro h1 h2 h3
    have hany : (c_string name).any (fun c => !(isprint c) || c == 0x3B) = true := by
      obtain ⟨c, hc, hbad⟩ := h3
      rw [List.any_eq_true]
      refine ⟨c, hc, ?_⟩
      rcases hbad with h | h <;> simp [h]
    rw [if_neg (by omega), if_neg (by omega), if_pos hany]
  · intro h1 h2 h3
    have hany : ¬ (c_string name).any (fun c => !(isprint c) || c == 0x3B) = true := by
      rw [List.any_eq_true]
      rintro ⟨c, hc, hbad⟩
      obtain ⟨hpr, hne⟩ := h3 c hc
      simp [hpr, hne] at hbad
    have hsemi : 0x3B ∉ c_string name := fun hmem => (h3 _ hmem).2 rfl
    rw [if_neg (by omega), if_neg (by omega), if_neg hany]
    refine ⟨?_, ?_, ?_⟩
    · obtain ⟨r, hr⟩ := find_account_total file name
      cases r with
      | none => exact Or.inr hr
      | some r => exact Or.inl ⟨r, hr⟩
    · rintro ⟨r, hr⟩
      rw [hr]
      rfl
    · intro hr
      rw [hr]
      simp only [Option.some_bind, add_account_eq file name password hsemi hp, Option.map_some']
      rfl

/-- C27 on the empty accounts file: the names `a`, `al;ce` and `alice`, with the hash of 20
bytes `AB`. -/
theorem C27_account_create_validation_witness :
    account_create [] (str "a") (List.replicate 20 0xAB) = some (NAME_TOO_SHORT, []) ∧
    account_create [] (str "al;ce") (List.replicate 20 0xAB) = some (NAME_ILLEGAL, []) ∧
    account_create [] (str "alice") (List.replicate 20 0xAB) =
      some (CREATE_SUCCESS, [] ++ account_line (str "alice") (List.replicate 20 0xAB)) :=
  ⟨(C27_account_create_validation [] (str "a") (List.replicate 20 0xAB) (by decide)).1
      (by decide),
   (C27_account_create_validation [] (str "al;ce") (List.replicate 20 0xAB) (by decide)).2.2.1
      (by decide) (by decide) ⟨0x3B, by decide, Or.inr rfl⟩,
   ((C27_account_create_validation [] (str "alice") (List.replicate 20 0xAB)
      (by decide)).2.2.2 (by decide) (by decide) (by decide)).2.2 (by decide)⟩

/-- C28 (create-then-login through the stored record): let the accounts file be empty or end
with a newline, as every file that `add_account` has written, and let `SHA1` give 20 bytes.
When `account_create` of `name` with the 20-byte hash `h` succeeds, the file becomes the old
one followed by the line for `name` and `h`, and for all tokens and every 20-byte proof `p`,
`account_login` of `name` returns `LOGIN_SUCCESS` exactly when `p` is
`password_hash_second(h, ct, st)` and `INCORRECT_PASSWORD` exactly when it is not; and for a
name that `find_account` does not find, `account_login` returns `UNKNOWN_ACCOUNT`. -/
theorem C28_create_then_login (SHA1 : List Nat → List Nat) (file file1 name h p : List Nat)
    (ct st : Nat) (hsha : ∀ x, (SHA1 x).length = HASH_LENGTH)
    (hfile : file = [] ∨ ∃ pre, file = pre ++ [0x0A])
    (hh : h.length = HASH_LENGTH) (hb : ∀ x ∈ h, x < 256) (hp : p.length = HASH_LENGTH)
    (hcreate : account_create file name h = some (CREATE_SUCCESS, file1)) :
    file1 = file ++ account_line name h ∧
    (account_login SHA1 file1 name p ct st = some LOGIN_SUCCESS ↔
      password_hash_second SHA1 h ct st = some p) ∧
    (account_login SHA1 file1 name p ct st = some INCORRECT_PASSWORD ↔
      password_hash_second SHA1 h ct st ≠ some p) ∧
    (∀ other, find_account file other false = some none →
      account_login SHA1 file other p ct st = some UNKNOWN_ACCOUNT) := by
  rw [account_create_eq] at hcreate
  have hlen : ¬ strlen name < MIN_NAME := by
    intro hc
    rw [if_pos hc] at hcreate
    simp [NAME_TOO_SHORT, NAME_TOO_LONG, NAME_ILLEGAL, CREATE_SUCCESS] at hcreate
  rw [if_neg hlen] at hcreate
  have hlong : ¬ strlen name ≥ MAX_NAME := by
    intro hc
    rw [if_pos hc] at hcreate
    simp [NAME_TOO_SHORT, NAME_TOO_LONG, NAME_ILLEGAL, CREATE_SUCCESS] at hcreate
  rw [if_neg hlong] at hcreate
  have hany : ¬ (c_string name).any (fun c => !(isprint c) || c == 0x3B) = true := by
    intro hc
    rw [if_pos hc] at hcreate
    simp [NAME_TOO_SHORT, NAME_TOO_LONG, NAME_ILLEGAL, CREATE_SUCCESS] at hcreate
  rw [if_neg hany] at hcreate
  have hprint : ∀ c ∈ c_string name, isprint c = true ∧ c ≠ 0x3B := by
    intro c hc
    rw [List.any_eq_true] at hany
    by_contra hbad
    apply hany
    refine ⟨c, hc, ?_⟩
    by_cases h1 : isprint c = true
    · have h2 : c = 0x3B := by
        by_contra h2
        exact hbad ⟨h1, h2⟩
      simp [h2]
    · simp [h1]
  have hsemi : 0x3B ∉ c_string name := fun hm => (hprint _ hm).2 rfl
  obtain ⟨r, hr⟩ := find_account_total file name
  rw [hr] at hcreate
  have habs : find_account file name false = some none := by
    cases r with
    | none => exact hr
    | some r => simp [ACCOUNT_EXISTS, CREATE_SUCCESS] at hcreate
  rw [habs] at hr
  have hr1 : r = none := (Option.some.inj hr).symm
  subst hr1
  simp only [Option.some_bind, add_account_eq file name h hsemi (le_of_eq hh.symm),
    Option.map_some', Option.some.injEq, Prod.mk.injEq] at hcreate
  have hf1 : file1 = file ++ account_line name h := hcreate.2.symm
  subst hf1
  have hfind := find_account_after_create file name h hfile habs hprint (by omega) hh
  have hlogin := account_login_found SHA1 _ name p ct st _ hsha hfind
    (by simp [hh]) hp
  have hmap : (h.map (fun x => x % 256)).take HASH_LENGTH = h := by
    rw [map_mod_bytes h hb, List.take_of_length_le (le_of_eq hh)]
  have hsecond := password_hash_second_eq SHA1 h ct st (by rw [hh]; decide)
  have hh20 : h.take 20 = h := List.take_of_length_le (by rw [hh]; decide)
  simp only [hmap] at hlogin
  rw [hh20] at hsecond
  refine ⟨rfl, ?_, ?_, fun other ho => account_login_absent SHA1 file other p ct st ho⟩
  · rw [hlogin, hsecond]
    by_cases he : SHA1 (le_bytes 4 ct ++ le_bytes 4 st ++ h) = p
    · rw [if_pos he, he]
      exact ⟨fun _ => rfl, fun _ => rfl⟩
    · rw [if_neg he]
      constructor
      · intro hc
        exact absurd (Option.some.inj hc) (by decide)
      · intro hc
        exact absurd (Option.some.inj hc) he
  · rw [hlogin, hsecond]
    by_cases he : SHA1 (le_bytes 4 ct ++ le_bytes 4 st ++ h) = p
    · rw [if_pos he, he]
      constructor
      · intro hc
        exact absurd (Option.some.inj hc) (by decide)
      · intro hc
        exact absurd rfl hc
    · rw [if_neg he]
      constructor
      · intro _ hc
        exact he (Option.some.inj hc)
      · intro _
        rfl

/-- C28 on the empty accounts file, with the stand-in hash of the examples, the name `alice`,
the hash of 20 bytes `AB`, the tokens `0x1111` and 1234, and the proof made for them. -/
theorem C28_create_then_login_witness :
    account_login sample_hash ([] ++ account_line (str "alice") (List.replicate 20 0xAB))
      (str "alice")
      ((password_hash_second sample_hash (List.replicate 20 0xAB) 0x1111 1234).getD [])
      0x1111 1234 = some LOGIN_SUCCESS :=
  (C28_create_then_login sample_hash []
    ([] ++ account_line (str "alice") (List.replicate 20 0xAB)) (str "alice")
    (List.replicate 20 0xAB)
    ((password_hash_second sample_hash (List.replicate 20 0xAB) 0x1111 1234).getD [])
    0x1111 1234 (by intro x; simp [sample_hash, HASH_LENGTH]) (Or.inl rfl) (by decide)
    (by decide) (by decide) (by decide)).2.1.mpr (by decide)

/-- C29 (login proof formula): for every first hash `h` of 20 bytes and all tokens,
`password_hash_second` returns `SHA1` of the 28 bytes made of the client token as 4 bytes,
least significant first, the server token likewise, and the 20 bytes of `h`; and for every
password `password_hash_twice` is `password_hash_second` of `password_hash_once`, which, when
`SHA1` gives 20 bytes for the password, is the login proof of the protocol,
`SHA1(client_token ‖ server_token ‖ SHA1(password))`. -/
theorem C29_login_proof_formula (SHA1 : List Nat → List Nat) (h : List Nat)
    (client_token server_token : Nat) (hh : h.length = HASH_LENGTH) :
    password_hash_second SHA1 h client_token server_token =
      some (SHA1 (le_bytes 4 client_token ++ le_bytes 4 server_token ++ h)) ∧
    (le_bytes 4 client_token ++ le_bytes 4 server_token ++ h).length = 28 ∧
    (∀ password, password_hash_twice SHA1 password client_token server_token =
      password_hash_second SHA1 (password_hash_once SHA1 password) client_token server_token) ∧
    (∀ password, (SHA1 (c_string password)).length = HASH_LENGTH →
      password_hash_twice SHA1 password client_token server_token =
        some (login_proof SHA1 (c_string password) client_token server_token)) := by
  simp only [HASH_LENGTH] at hh
  refine ⟨?_, ?_, fun _ => rfl, ?_⟩
  · rw [password_hash_second_eq SHA1 h _ _ (by omega), List.take_of_length_le (by omega)]
  · simp [le_bytes_length, hh]
  · intro password hlen
    simp only [HASH_LENGTH] at hlen
    rw [password_hash_twice, password_hash_once,
      password_hash_second_eq SHA1 _ _ _ (by omega), List.take_of_length_le (by omega)]
    rfl

/-- C29 with the stand-in hash of the examples, the first hash of 20 bytes `AB` and the
tokens `0x1111` and 1234. -/
theorem C29_login_proof_formula_witness :
    password_hash_second sample_hash (List.replicate 20 0xAB) 0x1111 1234 =
      some (sample_hash (le_bytes 4 0x1111 ++ le_bytes 4 1234 ++ List.replicate 20 0xAB)) :=
  (C29_login_proof_formula sample_hash (List.replicate 20 0xAB) 0x1111 1234 (by decide)).1

/-- C30 (room and session consistency): in every state that the server reaches from its
start (no user, no room) through arrivals of bytes and cycles of `do_select` in which no
connection is closed, rooms and sessions agree: each logged-in user is in `JOINED_CHANNEL`
exactly when it has a current room; its name is a member of a room of `rooms` exactly when
that room is its current room, and the member is then this user; a user in `NOT_IN_CHANNEL`
is a member of no room; no user is a member of two rooms; and no name is a key twice in the
user table of a room. -/
theorem C30_room_session_consistency (SHA1 : List Nat → List Nat) (accounts : List Nat)
    (events : List server_event) (st : server_t)
    (hrun : server_run SHA1 (server_start accounts) events = some st)
    (hquiet : st.closed = []) : room_consistent st :=
  room_invariant_consistent
    (server_run_quiet SHA1 events _ _ (fun _ => room_invariant_start accounts) hrun hquiet)

set_option maxRecDepth 100000 in
/-- C30 on the example history in which `alice` and `bob` log in and join `lobby` and
`alice` moves on to `den`. -/
theorem C30_room_session_consistency_witness :
    ∃ st, server_run sample_hash (server_start sample_accounts) sample_chat_history = some st ∧
      st.rooms = [(str "lobby", 0), (str "den", 1)] ∧
      st.room_heap.map (fun r => r.users) = [[(str "bob", 1)], [(str "alice", 0)]] ∧
      room_consistent st := by
  have hrun : (server_run sample_hash (server_start sample_accounts) sample_chat_history).map
      (fun s => (s.closed, s.rooms, s.room_heap.map (fun r => r.users))) =
      some ([], [(str "lobby", 0), (str "den", 1)],
        [[(str "bob", 1)], [(str "alice", 0)]]) := by decide
  obtain ⟨st, h1, h2⟩ := Option.map_eq_some'.mp hrun
  have h3 := Prod.mk.inj h2
  have h4 := Prod.mk.inj h3.2
  exact ⟨st, h1, h4.1, h4.2,
    C30_room_session_consistency sample_hash sample_accounts sample_chat_history st h1 h3.1⟩

/-! ## Tables: what `table_add` and `table_remove` change -/

theorem strcmp_eq_comm (a b : List Nat) : strcmp_eq a b = strcmp_eq b a := by
  simp only [strcmp_eq, Bool.beq_comm]

theorem strcmp_eq_c_string (a : List Nat) : strcmp_eq (c_string a) a = true := by
  simp [strcmp_eq, c_string_idem]

theorem table_find_add_same {V : Type} (t : table_t V) (k : List Nat) (v : V) :
    table_find (table_add t k v) k = some v := by
  induction t with
  | nil => simp [table_add, table_find, strcmp_eq_c_string]
  | cons node rest ih =>
    by_cases h : strcmp_eq k node.1 = true
    · have h2 : strcmp_eq node.1 k = true := by rw [strcmp_eq_comm]; exact h
      simp [table_add, table_find, h, h2]
    · have h2 : ¬ strcmp_eq node.1 k = true := by rw [strcmp_eq_comm]; exact h
      simp [table_add, table_find, h, h2, ih]

theorem strcmp_eq_trans {a b c : List Nat} (h1 : strcmp_eq a b = true)
    (h2 : strcmp_eq b c = true) : strcmp_eq a c = true := by
  simp only [strcmp_eq, beq_iff_eq] at *
  rw [h1, h2]

theorem table_find_add_other {V : Type} (t : table_t V) (k k2 : List Nat) (v : V)
    (hne : strcmp_eq k2 k = false) :
    table_find (table_add t k v) k2 = table_find t k2 := by
  induction t with
  | nil =>
    have h : strcmp_eq (c_string k) k2 = false := by
      simp only [strcmp_eq, c_string_idem] at hne ⊢
      rw [Bool.beq_comm]; exact hne
    simp [table_add, table_find, h]
  | cons node rest ih =>
    by_cases h : strcmp_eq k node.1 = true
    · have h3 : strcmp_eq node.1 k2 = false := by
        cases h4 : strcmp_eq node.1 k2 with
        | false => rfl
        | true =>
          have := strcmp_eq_trans h h4
          rw [strcmp_eq_comm, hne] at this
          cases this
      simp [table_add, table_find, h, h3]
    · by_cases h3 : strcmp_eq node.1 k2 = true
      · simp [table_add, table_find, h, h3]
      · simp [table_add, table_find, h, h3, ih]

theorem table_add_present {V : Type} (t : table_t V) (k : List Nat) (v : V)
    (h : table_find t k ≠ none) :
    get_keys (table_add t k v) = get_keys t ∧
      table_get_count (table_add t k v) = table_get_count t := by
  induction t with
  | nil => simp [table_find] at h
  | cons node rest ih =>
    by_cases h1 : strcmp_eq k node.1 = true
    · simp [table_add, h1, get_keys, table_get_count]
    · have h2 : ¬ strcmp_eq node.1 k = true := by rw [strcmp_eq_comm]; exact h1
      have h3 : table_find rest k ≠ none := by
        simpa [table_find, h2] using h
      obtain ⟨e1, e2⟩ := ih h3
      simp only [get_keys, table_get_count] at e1 e2
      simp [table_add, h1, get_keys, table_get_count, e1, e2]

theorem table_add_new {V : Type} (t : table_t V) (k : List Nat) (v : V)
    (h : table_find t k = none) :
    get_keys (table_add t k v) = get_keys t ++ [c_string k] ∧
      get_values (table_add t k v) = get_values t ++ [v] ∧
      table_get_count (table_add t k v) = table_get_count t + 1 := by
  rw [table_add_absent t k v h]
  simp [get_keys, get_values, table_get_count]

theorem distinct_keys_create {V : Type} : distinct_keys (table_create : table_t V) := by
  simp [distinct_keys, table_create, get_keys]

theorem distinct_keys_add {V : Type} {t : table_t V} (h : distinct_keys t) (k : List Nat)
    (v : V) : distinct_keys (table_add t k v) := by
  refine ⟨keys_table_add_nodup t k v h.2 h.1, ?_⟩
  intro e he
  rcases mem_table_add t k v h.2 e he with h1 | ⟨h1, -⟩
  · exact h.2 e h1
  · rw [h1, c_string_idem]

theorem distinct_keys_remove {V : Type} {t : table_t V} (h : distinct_keys t)
    (k : List Nat) : distinct_keys (table_remove t k).2 :=
  ⟨keys_table_remove_nodup t k h.1, fun e he => h.2 e ((table_remove_sublist t k).subset he)⟩

theorem distinct_keys_step {V : Type} {t : table_t V} (h : distinct_keys t)
    (c : table_call V) : distinct_keys (table_step t c) := by
  cases c with
  | add k v => exact distinct_keys_add h k v
  | remove k => exact distinct_keys_remove h k

theorem distinct_keys_foldl {V : Type} (calls : List (table_call V)) :
    ∀ t : table_t V, distinct_keys t → distinct_keys (calls.foldl table_step t) := by
  induction calls with
  | nil => intro t h; exact h
  | cons c cs ih => intro t h; exact ih _ (distinct_keys_step h c)

theorem distinct_keys_after {V : Type} (calls : List (table_call V)) :
    distinct_keys (table_after calls) :=
  distinct_keys_foldl calls _ distinct_keys_create

/-- Two keys of a table with distinct keys that `strcmp` finds equal are the same key. -/
theorem distinct_keys_strcmp {V : Type} {t : table_t V} (h : distinct_keys t) :
    (get_keys t).Pairwise (fun a b => strcmp_eq a b = false) := by
  have hk : ∀ a ∈ get_keys t, c_string a = a := by
    intro a ha
    simp only [get_keys, List.mem_map] at ha
    obtain ⟨e, he, rfl⟩ := ha
    exact h.2 e he
  refine (List.pairwise_iff_forall_sublist.mpr ?_)
  intro a b hab
  have hne : a ≠ b := by
    have hnd : [a, b].Nodup := List.Nodup.sublist hab h.1
    simpa using hnd
  have ha := hk a (hab.subset (by simp))
  have hb := hk b (hab.subset (by simp))
  simp only [strcmp_eq, ha, hb]
  simpa using hne

theorem table_remove_value {V : Type} (t : table_t V) (k : List Nat) :
    (table_remove t k).1 = table_find t k := by
  induction t with
  | nil => simp [table_remove, table_find]
  | cons node rest ih =>
    by_cases h : strcmp_eq k node.1 = true
    · have h2 : strcmp_eq node.1 k = true := by rw [strcmp_eq_comm]; exact h
      simp [table_remove, table_find, h, h2]
    · have h2 : ¬ strcmp_eq node.1 k = true := by rw [strcmp_eq_comm]; exact h
      simp [table_remove, table_find, h, h2, ih]

theorem table_remove_absent {V : Type} (t : table_t V) (k : List Nat)
    (h : table_find t k = none) : (table_remove t k).2 = t := by
  induction t with
  | nil => simp [table_remove]
  | cons node rest ih =>
    by_cases h1 : strcmp_eq node.1 k = true
    · simp [table_find, h1] at h
    · have h2 : ¬ strcmp_eq k node.1 = true := by rw [strcmp_eq_comm]; exact h1
      have h3 : table_find rest k = none := by simpa [table_find, h1] using h
      simp [table_remove, h2, ih h3]

theorem table_remove_other {V : Type} (t : table_t V) (k k2 : List Nat)
    (hne : strcmp_eq k2 k = false) :
    table_find (table_remove t k).2 k2 = table_find t k2 := by
  induction t with
  | nil => simp [table_remove, table_find]
  | cons node rest ih =>
    by_cases h : strcmp_eq k node.1 = true
    · have h3 : strcmp_eq node.1 k2 = false := by
        cases h4 : strcmp_eq node.1 k2 with
        | false => rfl
        | true =>
          have := strcmp_eq_trans h h4
          rw [strcmp_eq_comm, hne] at this
          cases this
      simp [table_remove, table_find, h, h3]
    · by_cases h3 : strcmp_eq node.1 k2 = true
      · simp [table_remove, table_find, h, h3]
      · simp [table_remove, table_find, h, h3, ih]

theorem table_remove_count {V : Type} (t : table_t V) (k : List Nat)
    (h : table_find t k ≠ none) :
    table_get_count (table_remove t k).2 + 1 = table_get_count t := by
  induction t with
  | nil => simp [table_find] at h
  | cons node rest ih =>
    by_cases h1 : strcmp_eq k node.1 = true
    · simp [table_remove, h1, table_get_count]
    · have h2 : ¬ strcmp_eq node.1 k = true := by rw [strcmp_eq_comm]; exact h1
      have h3 : table_find rest k ≠ none := by simpa [table_find, h2] using h
      have := ih h3
      simp only [table_get_count] at this
      simp [table_remove, h1, table_get_count, this]

/-! ## Lists: the ends and the removal of a value -/

theorem list_remove_end_loop_append (rest : List Nat) :
    ∀ old x, list_remove_end_loop (rest ++ [x]) old = (x, old :: rest) := by
  induction rest with
  | nil => intro old x; simp [list_remove_end_loop]
  | cons y rest ih => intro old x; simp [list_remove_end_loop, ih]

theorem list_remove_end_append (list : List Nat) (x : Nat) :
    list_remove_end (list ++ [x]) = (some x, list) := by
  cases list with
  | nil => simp [list_remove_end, list_remove_end_loop]
  | cons y rest => simp [list_remove_end, list_remove_end_loop_append]

theorem list_remove_value_erase (list : List Nat) (x : Nat) :
    list_remove_value list x = (if x ∈ list then some x else none, list.erase x) := by
  induction list with
  | nil => simp [list_remove_value]
  | cons y rest ih =>
    by_cases h : x = y
    · subst h
      simp [list_remove_value]
    · have h2 : ¬ (y == x) = true := by simpa using fun e : y = x => h e.symm
      simp only [list_remove_value, if_neg h, ih, List.mem_cons, h, false_or,
        List.erase_cons, h2]
      simp

theorem list_remove_value_loop_found (value : Option Nat) (list : List (Option Nat))
    (r : Option Nat) (linked : Bool) (hr : r ≠ none) :
    list_remove_value_loop value list r linked = (r, list) := by
  cases list with
  | nil => simp [list_remove_value_loop]
  | cons y rest => simp [list_remove_value_loop, hr]

theorem list_remove_value_loop_erase (x : Nat) (list : List (Option Nat)) :
    list_remove_value_loop (some x) list none true =
      (if some x ∈ list then some x else none, list.erase (some x)) := by
  induction list with
  | nil => simp [list_remove_value_loop]
  | cons y rest ih =>
    by_cases h : some x = y
    · subst h
      simp [list_remove_value_loop, list_remove_value_loop_found]
    · have h2 : ¬ (y == some x) = true := by simpa using fun e : y = some x => h e.symm
      simp only [list_remove_value_loop, ne_eq, not_true_eq_false, if_false, if_neg h, ih,
        List.mem_cons, h, false_or, List.erase_cons, h2]
      simp

/-! ## `room_set_topic` on the bytes -/

theorem store_end (s tail : List Nat) (c v : Nat) :
    store (s ++ c :: tail) s.length v = some (s ++ v :: tail) := by
  simp [store]

theorem store_outside (data : List Nat) (i v : Nat) (h : data.length ≤ i) :
    store data i v = none := by
  simp [store, Nat.not_lt.mpr h]

/-- A string of at least `MAX_TOPIC_LENGTH - 1` characters: the array `topic` gets the
first 1023 of them and keeps its last byte, and the string of the caller is cut there. -/
theorem room_set_topic_long (room : room_t) (front s tail : List Nat) (last c : Nat)
    (htopic : room.topic = front ++ [last]) (hfront : front.length = MAX_TOPIC_LENGTH - 1)
    (hs : ∀ x ∈ s, x ≠ 0) (hlen : s.length = MAX_TOPIC_LENGTH - 1) :
    room_set_topic room (s ++ c :: tail) =
      some ({ room with topic := s ++ [last] }, s ++ 0 :: tail) := by
  have hcs : c_string (s ++ c :: tail) = s ++ c_string (c :: tail) := c_string_append _ _ hs
  have hcopy : strncpy room.topic (s ++ c :: tail) (MAX_TOPIC_LENGTH - 1) =
      some (s ++ [last]) := by
    have hcond : MAX_TOPIC_LENGTH - 1 ≤ room.topic.length ∧
        (strlen (s ++ c :: tail) < (s ++ c :: tail).length ∨
          MAX_TOPIC_LENGTH - 1 ≤ (s ++ c :: tail).length) := by
      refine ⟨?_, Or.inr ?_⟩
      · rw [htopic]; simp [hfront]
      · simp [hlen]
    have hdrop : room.topic.drop (MAX_TOPIC_LENGTH - 1) = [last] := by
      rw [htopic, ← hfront]; simp
    have htake : (c_string (s ++ c :: tail)).take (MAX_TOPIC_LENGTH - 1) = s := by
      rw [hcs, ← hlen]; simp
    have hpad : MAX_TOPIC_LENGTH - 1 - strlen (s ++ c :: tail) = 0 := by
      rw [strlen_eq, hcs, List.length_append, hlen]; omega
    simp only [strncpy, if_pos hcond, hdrop, htake, hpad, List.replicate_zero,
      List.append_nil]
  have hstore : store (s ++ c :: tail) (MAX_TOPIC_LENGTH - 1) 0 = some (s ++ 0 :: tail) := by
    rw [← hlen]; exact store_end s tail c 0
  simp only [room_set_topic, and_then_eq, hcopy, Option.some_bind, hstore, exec_pure]

/-- A string in a block of fewer than `MAX_TOPIC_LENGTH` bytes: the write of the terminator
is outside the block. -/
theorem room_set_topic_outside (room : room_t) (new_topic : List Nat)
    (h : new_topic.length ≤ MAX_TOPIC_LENGTH - 1) : room_set_topic room new_topic = none := by
  simp only [room_set_topic, and_then_eq, store_outside new_topic _ 0 h, exec_pure]
  cases strncpy room.topic new_topic (MAX_TOPIC_LENGTH - 1) <;> rfl

/-- A string of fewer than `MAX_TOPIC_LENGTH - 1` characters in a block of
`MAX_TOPIC_LENGTH` bytes: the array `topic` gets the string and NUL bytes up to index 1022,
and the last byte of the block of the caller is written. -/
theorem room_set_topic_short (room : room_t) (front s tail : List Nat) (last c : Nat)
    (htopic : room.topic = front ++ [last]) (hfront : front.length = MAX_TOPIC_LENGTH - 1)
    (hs : ∀ x ∈ s, x ≠ 0) (hlen : s.length + 1 + tail.length = MAX_TOPIC_LENGTH - 1) :
    room_set_topic room (s ++ 0 :: tail ++ [c]) =
      some ({ room with topic := s ++ List.replicate (MAX_TOPIC_LENGTH - 1 - s.length) 0 ++
          [last] }, s ++ 0 :: tail ++ [0]) := by
  have hcs : c_string (s ++ 0 :: tail ++ [c]) = s := by
    rw [List.append_assoc, List.cons_append]; exact c_string_terminated s _ hs
  have hcopy : strncpy room.topic (s ++ 0 :: tail ++ [c]) (MAX_TOPIC_LENGTH - 1) =
      some (s ++ List.replicate (MAX_TOPIC_LENGTH - 1 - s.length) 0 ++ [last]) := by
    have hcond : MAX_TOPIC_LENGTH - 1 ≤ room.topic.length ∧
        (strlen (s ++ 0 :: tail ++ [c]) < (s ++ 0 :: tail ++ [c]).length ∨
          MAX_TOPIC_LENGTH - 1 ≤ (s ++ 0 :: tail ++ [c]).length) := by
      refine ⟨?_, Or.inl ?_⟩
      · rw [htopic]; simp [hfront]
      · rw [strlen_eq, hcs]; simp
    have hdrop : room.topic.drop (MAX_TOPIC_LENGTH - 1) = [last] := by
      rw [htopic, ← hfront]; simp
    have htake : (c_string (s ++ 0 :: tail ++ [c])).take (MAX_TOPIC_LENGTH - 1) = s := by
      rw [hcs]; exact List.take_of_length_le (by omega)
    rw [strncpy, if_pos hcond, hdrop, htake, strlen_eq, hcs]
  have hstore : store (s ++ 0 :: tail ++ [c]) (MAX_TOPIC_LENGTH - 1) 0 =
      some (s ++ 0 :: tail ++ [0]) := by
    have e := store_end (s ++ 0 :: tail) [] c 0
    rw [show (s ++ 0 :: tail).length = MAX_TOPIC_LENGTH - 1 by simp; omega] at e
    exact e
  simp only [room_set_topic, and_then_eq, hcopy, Option.some_bind, hstore, exec_pure]

theorem topic_string_none (s : List Nat) (hs : ∀ x ∈ s, x ≠ 0) : topic_string s = none := by
  have : c_string s = s := c_string_of_no_nul s hs
  simp [topic_string, strlen_eq, this]

theorem topic_string_some (s rest : List Nat) (hs : ∀ x ∈ s, x ≠ 0) :
    topic_string (s ++ 0 :: rest) = some s := by
  have : c_string (s ++ 0 :: rest) = s := c_string_terminated s rest hs
  simp [topic_string, strlen_eq, this]

theorem sample_topic_room_topic :
    sample_topic_room.topic =
      (str "No topic" ++ 0 :: List.replicate 1014 0x41) ++ [0x41] := by
  show (str "No topic" ++ 0 :: List.replicate 1015 0x41).take MAX_TOPIC_LENGTH = _
  have e : List.replicate 1015 0x41 = List.replicate 1014 0x41 ++ [0x41] :=
    List.replicate_succ' 1014 0x41
  rw [e]
  refine List.take_of_length_le ?_
  have h8 : (str "No topic").length = 8 := by decide
  simp only [List.length_append, List.length_cons, List.length_replicate, List.length_nil,
    h8, MAX_TOPIC_LENGTH]
  omega

/-! ## Reads of a string with a cap -/

/-- The string in `data_ret` after a read with room for `n` characters. -/
theorem c_string_read (s : List Nat) (hs : ∀ x ∈ s, x ≠ 0) (n : Nat) :
    c_string (((s ++ [0]).take n).map ntstring_char ++ [0]) =
      (s.take n).map ntstring_char := by
  have hmap : ∀ l : List Nat, (∀ x ∈ l, x ≠ 0) → ∀ x ∈ l.map ntstring_char, x ≠ 0 := by
    intro l hl x hx
    obtain ⟨y, hy, rfl⟩ := List.mem_map.mp hx
    exact ntstring_char_ne_zero (hl y hy)
  by_cases hn : n ≤ s.length
  · rw [List.take_append_of_le_length hn]
    exact c_string_terminated _ [] (hmap _ (fun x hx => hs x (List.mem_of_mem_take hx)))
  · rw [List.take_of_length_le (by simp; omega), List.take_of_length_le (by omega)]
    rw [List.map_append, List.append_assoc]
    exact c_string_terminated _ _ (hmap _ hs)

/-- A buffer on which `can_read_ntstring` holds has a string at its position: the bytes
before the first NUL. -/
theorem frame_string_split {b : packet_buffer_t} {c : Nat} {pl : List Nat}
    (h : IsFrame b c pl) (hp : 4 ≤ b.position) (hc : can_read_ntstring b = some true) :
    ∃ pre s post, pl = pre ++ (s ++ 0 :: post) ∧ b.position = 4 + pre.length ∧
      (∀ x ∈ s, x ≠ 0) ∧ (frame_bytes c pl).drop b.position = s ++ 0 :: post := by
  obtain ⟨r, hr, hiff⟩ := can_read_ntstring_iff h
  rw [hc] at hr
  obtain ⟨j, hj1, hj2, hj3⟩ := hiff.mp (Option.some.inj hr).symm
  have hmem : 0 ∈ pl.drop (b.position - 4) := by
    rw [h.getElem_lt j hj2] at hj3
    have : ((frame_bytes c pl).drop b.position)[j - b.position]? = some 0 := by
      rw [List.getElem?_drop]
      rw [show b.position + (j - b.position) = j by omega]
      exact hj3
    rw [frame_bytes_drop c pl _ hp] at this
    exact List.mem_iff_getElem?.mpr ⟨_, this⟩
  obtain ⟨s, post, hsplit, hs⟩ := split_first_zero _ hmem
  have hpl : pl = pl.take (b.position - 4) ++ (s ++ 0 :: post) := by
    rw [← hsplit, List.take_append_drop]
  have hle : b.position - 4 ≤ pl.length := by
    have := List.length_pos_of_mem hmem
    simp at this
    omega
  have hpre : (pl.take (b.position - 4)).length = b.position - 4 := by
    simp; omega
  refine ⟨pl.take (b.position - 4), s, post, hpl, by rw [hpre]; omega, hs, ?_⟩
  rw [frame_bytes_drop c pl _ hp, hsplit]

/-- A read with the cap `m` of the string `s` at the position of the buffer. -/
theorem read_capped {b : packet_buffer_t} {c : Nat} {pre s post : List Nat}
    (h : IsFrame b c (pre ++ (s ++ 0 :: post))) (hp : b.position = 4 + pre.length)
    (hs : ∀ x ∈ s, x ≠ 0) (m : Nat) (hm : m < 65536) :
    ∃ out, read_next_ntstring b m =
        some (out, { b with position := b.position + min (m - 1) (s.length + 1) }) ∧
      c_string out = (s.take (m - 1)).map ntstring_char ∧ (c_string out).length ≤ m - 1 := by
  refine ⟨_, read_next_ntstring_frame h hp hs m hm, c_string_read s hs (m - 1), ?_⟩
  rw [c_string_read s hs (m - 1)]
  simp only [List.length_map, List.length_take]
  exact Nat.min_le_left _ _

/-- After a read that stopped inside the string, the rest of the string is at the position
of the buffer. -/
theorem read_capped_rest {b : packet_buffer_t} {c : Nat} {pre s post : List Nat}
    (h : IsFrame b c (pre ++ (s ++ 0 :: post))) (hp : b.position = 4 + pre.length)
    (n : Nat) (hn : n < s.length) :
    IsFrame { b with position := b.position + n } c
        ((pre ++ s.take n) ++ (s.drop n ++ 0 :: post)) ∧
      ({ b with position := b.position + n } : packet_buffer_t).position =
        4 + (pre ++ s.take n).length := by
  refine ⟨?_, ?_⟩
  · have e : (pre ++ s.take n) ++ (s.drop n ++ 0 :: post) = pre ++ (s ++ 0 :: post) := by
      rw [List.append_assoc, ← List.append_assoc (s.take n), List.take_append_drop]
    rw [e]
    exact h.with_position _
  · simp only [List.length_append, List.length_take, hp]
    omega

/-! ## Frames beyond `MAX_PACKET`

`add_int8` has no upper limit of its own: the block is doubled as long as `max_length`, a
`uint16_t`, can hold the new size. -/

theorem add_int8_wide {b : packet_buffer_t} {c : Nat} {pl : List Nat} (h : IsFrame b c pl)
    (x : Nat) (hroom : 4 + pl.length < 32768) :
    ∃ b', add_int8 b x = some b' ∧ IsFrame b' c (pl ++ [x % 256]) ∧
      b'.position = b.position := by
  obtain ⟨junk, hd, hl⟩ := h.split
  have hv := h.valid
  have hm := h.max16
  obtain ⟨pos, ml, data, v⟩ := b
  simp only at hd hl hv hm
  subst hd hv
  have hbytes : ∀ y ∈ pl ++ [x % 256], y < 256 := by
    intro y hy
    rcases List.mem_append.1 hy with hy | hy
    · exact h.bytes y hy
    · simp at hy; omega
  cases junk with
  | cons j js =>
    have hml : 4 + pl.length ≠ ml := by simp at hl; omega
    refine ⟨⟨pos, ml, 0xFF :: c :: ((4 + (pl ++ [x % 256]).length) % 256) ::
        ((4 + (pl ++ [x % 256]).length) / 256) :: ((pl ++ [x % 256]) ++ js), true⟩,
      ?_, ?_, rfl⟩
    · rw [← add_int8_tail pos ml c pl j js x (by omega)]
      simp only [add_int8, assert, if_true, Option.bind_eq_bind, Option.some_bind,
        get_length_explicit pos ml c (4 + pl.length) _ (by omega), if_neg hml]
    · refine IsFrame.of_split js rfl h.code8 hbytes hm rfl ?_
      simp at hl ⊢; omega
  | nil =>
    have hml : 4 + pl.length = ml := by simpa using hl
    have hsh : (ml <<< 1) % 65536 = 2 * ml := by
      rw [Nat.shiftLeft_eq]; omega
    have hre : realloc (0xFF :: c :: ((4 + pl.length) % 256) :: ((4 + pl.length) / 256) ::
        (pl ++ [])) (2 * ml) = 0xFF :: c :: ((4 + pl.length) % 256) ::
        ((4 + pl.length) / 256) :: (pl ++ 0 :: List.replicate (ml - 1) 0) := by
      have e : 2 * ml - (pl.length + 1 + 1 + 1 + 1) = (ml - 1) + 1 := by omega
      rw [realloc, List.take_of_length_le (by simp; omega)]
      simp only [List.length_cons, List.length_append, List.length_nil, Nat.add_zero, e,
        List.replicate_succ]
      simp
    refine ⟨⟨pos, 2 * ml, 0xFF :: c :: ((4 + (pl ++ [x % 256]).length) % 256) ::
        ((4 + (pl ++ [x % 256]).length) / 256) ::
        ((pl ++ [x % 256]) ++ List.replicate (ml - 1) 0), true⟩, ?_, ?_, rfl⟩
    · rw [← add_int8_tail pos (2 * ml) c pl 0 (List.replicate (ml - 1) 0) x (by omega)]
      simp only [add_int8, assert, if_true, Option.bind_eq_bind, Option.some_bind,
        get_length_explicit pos ml c (4 + pl.length) _ (by omega), if_pos hml, hsh, hre]
    · refine IsFrame.of_split (List.replicate (ml - 1) 0) rfl h.code8 hbytes
        (by simp only; omega) rfl ?_
      simp; omega

theorem for_loop_add_int8_wide (c : Nat)
    (body : Nat → packet_buffer_t → Option packet_buffer_t) :
    ∀ (xs : List Nat) (i0 : Nat) (b : packet_buffer_t) (pl : List Nat),
      IsFrame b c pl → 4 + pl.length + xs.length ≤ 32768 →
      (∀ k, k < xs.length → ∀ b1, body (i0 + k) b1 = add_int8 b1 (xs.getD k 0)) →
      ∃ b', for_loop body xs.length i0 b = some b' ∧
        IsFrame b' c (pl ++ xs.map (fun x => x % 256)) ∧ b'.position = b.position := by
  intro xs
  induction xs with
  | nil =>
    intro i0 b pl h _ _
    exact ⟨b, rfl, by simpa using h, rfl⟩
  | cons x xs ih =>
    intro i0 b pl h hroom hbody
    simp only [List.length_cons] at hroom
    obtain ⟨b1, hb1, hf1, hp1⟩ := add_int8_wide h x (by omega)
    have hrest : ∀ k, k < xs.length → ∀ b', body (i0 + 1 + k) b' = add_int8 b' (xs.getD k 0) := by
      intro k hk b'
      have hk1 := hbody (k + 1) (by simp; omega) b'
      rw [show i0 + 1 + k = i0 + (k + 1) by omega, hk1]
      simp
    obtain ⟨b2, hb2, hf2, hp2⟩ := ih (i0 + 1) b1 (pl ++ [x % 256]) hf1 (by simp; omega) hrest
    have h0 := hbody 0 (by simp) b
    simp only [Nat.add_zero, List.getD_cons_zero] at h0
    refine ⟨b2, ?_, by simpa using hf2, by rw [hp2, hp1]⟩
    simp only [List.length_cons, for_loop, h0, hb1, Option.some_bind, hb2]

theorem add_ntstring_wide {b : packet_buffer_t} {c : Nat} {pl : List Nat}
    (h : IsFrame b c pl) (s : List Nat)
    (hroom : 4 + pl.length + ((c_string s).length + 1) ≤ 32768) :
    ∃ b', add_ntstring b s = some b' ∧
      IsFrame b' c (pl ++ ((c_string s).map (fun x => x % 256) ++ [0])) ∧
      b'.position = b.position := by
  have hbody : ∀ k, k < (c_string s ++ [0]).length → ∀ b1,
      (fun i b => add_int8 b (s.getD i 0)) (0 + k) b1 =
        add_int8 b1 ((c_string s ++ [0]).getD k 0) := by
    intro k hk b1
    simp only [Nat.zero_add]
    congr 1
    apply c_string_getD
    simp only [List.length_append, List.length_singleton] at hk
    omega
  obtain ⟨b1, hb1, hf1, hp1⟩ := for_loop_add_int8_wide c (fun i b => add_int8 b (s.getD i 0))
    (c_string s ++ [0]) 0 b pl h (by simpa using hroom) hbody
  refine ⟨b1, ?_, by simpa using hf1, hp1⟩
  simp only [add_ntstring, assert, h.valid, if_true, Option.bind_eq_bind, Option.some_bind,
    strlen_eq]
  simpa using hb1

theorem chatevent_packet_wide (subtype : Nat) (name text : List Nat)
    (hl : strlen name + strlen text + 10 ≤ 32768) :
    ∃ b, chatevent_packet subtype name text = some b ∧
      IsFrame b SID_CHATEVENT (le_bytes 4 subtype ++ ntstring_bytes name ++ ntstring_bytes text) := by
  simp only [strlen_eq] at hl
  obtain ⟨b0, e0, f0, -⟩ := create_buffer_frame SID_CHATEVENT (by decide)
  obtain ⟨b1, e1, f1, -⟩ := add_int32_frame f0 subtype (by simp [MAX_PACKET])
  obtain ⟨b2, e2, f2, -⟩ := add_ntstring_wide f1 name (by simp; omega)
  obtain ⟨b3, e3, f3, -⟩ := add_ntstring_wide f2 text (by simp; omega)
  refine ⟨b3, ?_, ?_⟩
  · simp only [chatevent_packet, and_then_eq, e0, Option.some_bind, e1, e2, e3]
  · simpa [le_bytes_w32, ntstring_bytes] using f3

theorem room_message_wide (st : server_t) (room subtype : Nat) (sender text : List Nat)
    (r : room_t) (hr : st.room_heap[room]? = some r)
    (hv : ∀ m ∈ get_values r.users, m < st.users.length)
    (hl : strlen sender + strlen text + 10 ≤ 32768) :
    room_message st room subtype sender text =
      some { st with
        sent := st.sent ++ (sockets_of st (get_values r.users)).map
          (fun s => (s, chatevent_frame subtype sender text)) } := by
  obtain ⟨b, eb, fb⟩ := chatevent_packet_wide subtype sender text hl
  obtain ⟨d, hd⟩ := destroy_buffer_frame fb
  simp only [room_message, and_then_eq, hr, Option.some_bind, eb, for_each_send fb _ st hv, hd,
    exec_pure, chatevent_frame]

/-! ## A message as long as a frame allows -/

/-- In the room `lobby` of the example server, `alice` sends a message that fills a frame:
the message goes to both users of the room in a chat event that is longer than the frame
it came in, by the subtype, the name of `alice` and its terminator. -/
theorem long_talk (SHA1 : List Nat → List Nat) (text : List Nat)
    (ht : ∀ x ∈ text, 0x20 ≤ x ∧ x ≤ 0x7E) (hhead : text.head? ≠ some 0x2F)
    (hl : 4 + (text.length + 1) ≤ MAX_PACKET) :
    process_next_packet SHA1
        (deliver sample_lobby_server 5 (frame_bytes SID_CHATCOMMAND (text ++ [0]))) 0 =
      some (true, { sample_lobby_server with
        recv := [(5, [])],
        sent := [(5, chatevent_frame EID_TALK (str "alice") text),
          (6, chatevent_frame EID_TALK (str "alice") text)] }) := by
  have hM : MAX_PACKET = 9600 := rfl
  have hnz : ∀ x ∈ text, x ≠ 0 := fun x hx => by have := (ht x hx).1; omega
  have hbytes : ∀ x ∈ text ++ [0], x < 256 := by
    intro x hx
    rcases List.mem_append.1 hx with h | h
    · have := (ht x h).2; omega
    · simp at h; omega
  have hu : (deliver sample_lobby_server 5
      (frame_bytes SID_CHATCOMMAND (text ++ [0]))).users[0]? = some sample_alice := rfl
  have hin : socket_input (deliver sample_lobby_server 5
      (frame_bytes SID_CHATCOMMAND (text ++ [0]))) sample_alice.socket =
      frame_bytes SID_CHATCOMMAND (text ++ [0]) ++ [] := by
    rw [List.append_nil]; rfl
  obtain ⟨b, hf, hp, hnext⟩ := process_next_packet_frame SHA1 _ 0 sample_alice
    SID_CHATCOMMAND (text ++ [0]) [] hu hin (by decide) hbytes
    (by simp only [List.length_append, List.length_singleton]; exact hl)
  rw [hnext]
  have hcode : ∀ st, process_packet SHA1 st 0 b = process_SID_CHATCOMMAND st 0 b := by
    intro st
    rw [process_packet_code hf]
    rfl
  rw [hcode]
  have hf2 : IsFrame b SID_CHATCOMMAND (text ++ 0 :: []) := hf
  have hu2 : (set_socket_input (deliver sample_lobby_server 5
      (frame_bytes SID_CHATCOMMAND (text ++ [0]))) sample_alice.socket []).users[0]? =
      some sample_alice := rfl
  rw [process_SID_CHATCOMMAND_eq _ 0 sample_alice text [] hu2 (Or.inr rfl) hf2 hp hnz]
  rw [map_ntstring_char_printable text ht, if_neg hhead]
  have hlen : strlen (str "alice") = 5 := by decide
  have hroom := room_message_wide (set_socket_input (deliver sample_lobby_server 5
      (frame_bytes SID_CHATCOMMAND (text ++ [0]))) sample_alice.socket []) 0 EID_TALK
    (str "alice") text
    { users := [(str "alice", 0), (str "bob", 1)], name := str "lobby",
      topic := str "No topic" } rfl
    (by
      intro m hm
      have h2 : m = 0 ∨ m = 1 := by simpa [get_values] using hm
      show m < 2
      omega)
    (by
      have := c_string_length_le text
      rw [strlen_eq text, hlen]
      omega)
  show Option.map _ ((table_find [(str "lobby", 0)] (str "lobby")).bind _) = _
  have hfind : table_find [(str "lobby", (0 : Nat))] (str "lobby") = some 0 := by decide
  rw [hfind, Option.some_bind]
  show Option.map _ (room_message _ 0 EID_TALK (str "alice") text) = _
  rw [hroom]
  rfl

/-! ## The division of the users between `new_users` and `old_users` -/

theorem partitioned_congr {a b : server_t} (hu : b.users = a.users)
    (hn : b.new_users = a.new_users) (ho : b.old_users = a.old_users)
    (hc : b.closed = a.closed) (h : partitioned a) : partitioned b := by
  unfold partitioned registered new_listed covered at h ⊢
  rw [hu, hn, ho, hc]
  exact h

theorem partitioned_writes {a b : server_t} (hw : writes_only a b) (h : partitioned a) :
    partitioned b := by
  obtain ⟨log, rfl⟩ := hw
  exact partitioned_congr rfl rfl rfl rfl h

theorem partitioned_rooms {a b : server_t} (hw : rooms_only a b) (h : partitioned a) :
    partitioned b := by
  obtain ⟨x, y, z, rfl⟩ := hw
  exact partitioned_congr rfl rfl rfl rfl h

/-- An element of `new_users` is not a value of `old_users`. -/
theorem partitioned_disjoint {st : server_t} (h : partitioned st) (p : Nat)
    (hp : p ∈ st.new_users) : p ∉ get_values st.old_users := by
  intro hold
  obtain ⟨u, hu, hs⟩ := h.2.1.2 p hp
  simp only [get_values, List.mem_map] at hold
  obtain ⟨e, he, hep⟩ := hold
  exact registered_not_entry h.1 hu hs e he hep

/-- A user with a state after the login is not an element of `new_users`. -/
theorem partitioned_not_new {st : server_t} (h : partitioned st) {user : Nat} {u : user_t}
    (hu : st.users[user]? = some u)
    (hs : u.state = user_states_t.NOT_IN_CHANNEL ∨ u.state = user_states_t.JOINED_CHANNEL) :
    user ∉ st.new_users := by
  intro hmem
  obtain ⟨x, hx, hxs⟩ := h.2.1.2 user hmem
  rw [hu] at hx
  cases hx
  rcases hs with hs | hs <;> rcases hxs with hxs | hxs <;> rw [hs] at hxs <;> cases hxs

/-- Storing a user keeps the division when the socket stays and the new state suits the
place of the user. -/
theorem partitioned_store_user {st : server_t} {user : Nat} {u w : user_t}
    (h : partitioned st) (hu : st.users[user]? = some u) (hsock : w.socket = u.socket)
    (hold : user ∈ get_values st.old_users → w.username = u.username ∧
      (w.state = user_states_t.NOT_IN_CHANNEL ∨ w.state = user_states_t.JOINED_CHANNEL))
    (hnew : user ∈ st.new_users →
      (w.state = user_states_t.CONNECTED ∨
        w.state = user_states_t.SENT_CLIENT_INFORMATION)) :
    partitioned (store_user st user w) := by
  refine ⟨registered_store_user h.1 hu ?_, ⟨h.2.1.1, ?_⟩, ?_⟩
  · intro e he hp
    have hmem : user ∈ get_values st.old_users := by
      simp only [get_values, List.mem_map]
      exact ⟨e, he, hp⟩
    obtain ⟨_, x, hx, hn, _⟩ := h.1.2 e he
    rw [hp, hu] at hx
    cases hx
    exact ⟨(hold hmem).1.trans hn, (hold hmem).2⟩
  · intro p hp
    by_cases hpu : p = user
    · subst hpu
      exact ⟨w, store_user_lookup hu, hnew hp⟩
    · obtain ⟨x, hx, hxs⟩ := h.2.1.2 p hp
      exact ⟨x, by rw [users_set_lookup_ne w hpu]; exact hx, hxs⟩
  · intro p x hx
    by_cases hpu : p = user
    · subst hpu
      rw [store_user_lookup hu] at hx
      cases hx
      rw [hsock]
      exact h.2.2 p u hu
    · rw [users_set_lookup_ne w hpu] at hx
      exact h.2.2 p x hx

theorem partitioned_informed {st st1 : server_t} {user : Nat}
    (he : informed_effect st user st1) (h : partitioned st) : partitioned st1 := by
  obtain ⟨u, t, hu, hs, hw⟩ := he
  refine partitioned_writes hw (partitioned_store_user h hu rfl ?_ ?_)
  · intro hmem
    simp only [get_values, List.mem_map] at hmem
    obtain ⟨e, he, hep⟩ := hmem
    exact absurd hep (registered_not_entry h.1 hu (Or.inl hs) e he)
  · intro _
    exact Or.inr rfl

theorem nodup_erase_not_mem {l : List Nat} (h : l.Nodup) (x : Nat) : x ∉ l.erase x :=
  fun hx => (List.Nodup.mem_erase_iff h).mp hx |>.1 rfl

theorem partitioned_login {SHA1 : List Nat → List Nat} {st st1 : server_t} {user : Nat}
    (he : login_effect SHA1 st user st1) (h : partitioned st) :
    partitioned st1 ∧ ∀ p ∈ get_values st.old_users, p ∈ get_values st1.old_users := by
  have hreg := registered_login he h.1
  obtain ⟨u, name, proof, hu, hs, hfind, hlogin, hw⟩ := he
  have hlen := account_login_success_length SHA1 _ _ _ _ _ hlogin
  rw [c_string_idem] at hlen
  have htake : (c_string name).take (MAX_NAME - 1) = c_string name :=
    List.take_of_length_le hlen
  rw [htake] at hw
  have hadd : table_add st.old_users (c_string name) user =
      st.old_users ++ [(c_string name, user)] := by
    have := table_add_absent st.old_users (c_string name) user hfind
    rw [c_string_idem] at this
    exact this
  rw [hadd, list_remove_value_erase] at hw
  obtain ⟨log, rfl⟩ := hw
  have hvals : ∀ p ∈ get_values st.old_users,
      p ∈ get_values (st.old_users ++ [(c_string name, user)]) := by
    intro p hp
    simp only [get_values, List.map_append, List.mem_append]
    exact Or.inl hp
  refine ⟨⟨hreg, ⟨List.Nodup.erase _ h.2.1.1, ?_⟩, ?_⟩, hvals⟩
  · intro p hp
    have hpu : p ≠ user := by
      rintro rfl
      exact nodup_erase_not_mem h.2.1.1 _ hp
    obtain ⟨x, hx, hxs⟩ := h.2.1.2 p (List.mem_of_mem_erase hp)
    refine ⟨x, ?_, hxs⟩
    show (store_user st user _).users[p]? = some x
    rw [users_set_lookup_ne _ hpu]
    exact hx
  · intro p x hx
    by_cases hpu : p = user
    · subst hpu
      refine Or.inr (Or.inl ?_)
      show p ∈ get_values (st.old_users ++ [(c_string name, p)])
      simp [get_values]
    · have hx0 : st.users[p]? = some x := by
        have : (store_user st user
            { u with username := c_string name,
                     state := user_states_t.NOT_IN_CHANNEL }).users[p]? = some x := hx
        rw [users_set_lookup_ne _ hpu] at this
        exact this
      rcases h.2.2 p x hx0 with h1 | h1 | h1
      · exact Or.inl ((List.mem_erase_of_ne hpu).mpr h1)
      · exact Or.inr (Or.inl (hvals p h1))
      · exact Or.inr (Or.inr h1)

theorem partitioned_join {st st1 : server_t} {user : Nat} {param : List Nat} {u : user_t}
    (hu : st.users[user]? = some u)
    (hs : u.state = user_states_t.NOT_IN_CHANNEL ∨ u.state = user_states_t.JOINED_CHANNEL)
    (hj : process_command_join st user param = some st1) (h : partitioned st) :
    partitioned st1 := by
  obtain ⟨v, hv, hc⟩ := process_command_join_effect hj
  rw [hu] at hv
  cases hv
  have key : ∀ (s : user_states_t) (r : Option (List Nat)),
      (s = user_states_t.NOT_IN_CHANNEL ∨ s = user_states_t.JOINED_CHANNEL) →
      partitioned (store_user st user { u with state := s, room := r }) := by
    intro s r hs1
    refine partitioned_store_user h hu rfl (fun _ => ⟨rfl, hs1⟩) ?_
    intro hmem
    exact absurd hmem (partitioned_not_new h hu hs)
  rcases hc with hro | ⟨_, hro⟩ | ⟨_, hro⟩
  · exact partitioned_rooms hro h
  · exact partitioned_rooms hro (key _ _ (Or.inl rfl))
  · exact partitioned_rooms hro (key _ _ (Or.inr rfl))

theorem partitioned_packet {SHA1 : List Nat → List Nat} {st st1 : server_t} {user : Nat}
    {packet : packet_buffer_t} (hp : process_packet SHA1 st user packet = some st1)
    (h : partitioned st) :
    partitioned st1 ∧ ∀ p ∈ get_values st.old_users, p ∈ get_values st1.old_users := by
  rcases process_packet_effect hp with hw | ⟨_, he⟩ | ⟨_, he⟩ | ⟨_, he⟩ | ⟨_, param, he⟩
  · obtain ⟨log, rfl⟩ := hw
    exact ⟨partitioned_congr rfl rfl rfl rfl h, fun p hp => hp⟩
  · refine ⟨partitioned_informed he h, ?_⟩
    obtain ⟨u, t, hu, hs, log, rfl⟩ := he
    exact fun p hp => hp
  · exact partitioned_login he h
  · obtain ⟨accounts, log, rfl⟩ := he
    exact ⟨partitioned_congr rfl rfl rfl rfl h, fun p hp => hp⟩
  · obtain ⟨u, _, _, _, hu, hs, _, _, _, _, _, hj⟩ := he
    refine ⟨partitioned_join hu hs hj h, ?_⟩
    obtain ⟨v, hv, hc⟩ := process_command_join_effect hj
    rcases hc with ⟨x, y, z, rfl⟩ | ⟨_, x, y, z, rfl⟩ | ⟨_, x, y, z, rfl⟩ <;>
      exact fun p hp => hp

theorem partitioned_next {SHA1 : List Nat → List Nat} {st st1 : server_t} {user : Nat}
    {ok : Bool} (hp : process_next_packet SHA1 st user = some (ok, st1))
    (h : partitioned st) :
    partitioned st1 ∧ ∀ p ∈ get_values st.old_users, p ∈ get_values st1.old_users := by
  obtain ⟨s, rest, _, hc⟩ := process_next_packet_cases hp
  have h0 : partitioned (set_socket_input st s rest) := partitioned_congr rfl rfl rfl rfl h
  have hk : ∀ p ∈ get_values st.old_users,
      p ∈ get_values (set_socket_input st s rest).old_users := fun p hp => hp
  rcases hc with ⟨_, _, e⟩ | ⟨_, _, e⟩ | ⟨_, packet, _, hpk⟩
  · rw [e]; exact ⟨h0, hk⟩
  · rw [e]; exact ⟨h0, hk⟩
  · obtain ⟨h1, h2⟩ := partitioned_packet hpk h0
    exact ⟨h1, fun p hp => h2 p (hk p hp)⟩

/-! ## The division of the users along the cycles of `do_select` -/

/-- A loop keeps a property of the state and of the elements still to come. -/
theorem for_each_rest {α σ : Type} (P : List α → σ → Prop) (body : α → σ → Option σ)
    (hbody : ∀ x xs s s1, P (x :: xs) s → body x s = some s1 → P xs s1) :
    ∀ (xs : List α) (st st1 : σ), P xs st → for_each body xs st = some st1 → P [] st1 := by
  intro xs
  induction xs with
  | nil =>
    intro st st1 hp h
    simp only [for_each, Option.some.injEq] at h
    subst h
    exact hp
  | cons x xs ih =>
    intro st st1 hp h
    simp only [for_each, Option.bind_eq_some] at h
    obtain ⟨s, h1, h2⟩ := h
    exact ih s st1 (hbody x xs st s hp h1) h2

/-- The body of the loop over the authenticated users, with the name and the socket of the
user whose connection is closed. -/
theorem select_old_user_exact {SHA1 : List Nat → List Nat} {fds : List Nat} {user : Nat}
    {st st1 : server_t} (h : select_old_user SHA1 fds user st = some st1) :
    st1 = st ∨ process_next_packet SHA1 st user = some (true, st1) ∨
      ∃ s1 u, process_next_packet SHA1 st user = some (false, s1) ∧
        s1.users[user]? = some u ∧
        st1 = { s1 with old_users := (table_remove s1.old_users u.username).2,
                         closed := s1.closed ++ [u.socket] } := by
  simp only [select_old_user, and_then_eq, and_then_def, exec_pure,
    Option.bind_eq_some] at h
  obtain ⟨s, _, h⟩ := h
  by_cases hc : fds.contains s = true
  · rw [if_pos hc] at h
    simp only [Option.bind_eq_some] at h
    obtain ⟨r, hr, h⟩ := h
    obtain ⟨ok, s1⟩ := r
    cases ok with
    | false =>
      simp only [if_true, Option.bind_eq_some, Option.some.injEq] at h
      obtain ⟨name, hname, s2, hs2, rfl⟩ := h
      simp only [get_username, Option.map_eq_some'] at hname
      obtain ⟨u, hu, rfl⟩ := hname
      have hu2 : s1.users[user]? = some u := hu
      simp only [get_socket, Option.map_eq_some'] at hs2
      obtain ⟨v, hv, rfl⟩ := hs2
      have hv2 : s1.users[user]? = some v := hv
      rw [hu2] at hv2
      cases hv2
      exact Or.inr (Or.inr ⟨s1, u, hr, hu2, rfl⟩)
    | true =>
      simp only [Bool.true_eq_false, if_false, Option.some.injEq] at h
      subst h
      exact Or.inr (Or.inl hr)
  · rw [if_neg hc] at h
    simp only [Option.some.injEq] at h
    exact Or.inl h.symm

/-- The body of the loop over the new users, with the socket of the user whose connection
is closed. -/
theorem select_new_user_exact {SHA1 : List Nat → List Nat} {fds : List Nat} {user : Nat}
    {st st1 : server_t} (h : select_new_user SHA1 fds user st = some st1) :
    st1 = st ∨ process_next_packet SHA1 st user = some (true, st1) ∨
      ∃ s1 u, process_next_packet SHA1 st user = some (false, s1) ∧
        s1.users[user]? = some u ∧
        st1 = { s1 with new_users := (list_remove_value s1.new_users user).2,
                         closed := s1.closed ++ [u.socket] } := by
  simp only [select_new_user, and_then_eq, and_then_def, exec_pure,
    Option.bind_eq_some] at h
  obtain ⟨s, _, h⟩ := h
  by_cases hc : fds.contains s = true
  · rw [if_pos hc] at h
    simp only [Option.bind_eq_some] at h
    obtain ⟨r, hr, h⟩ := h
    obtain ⟨ok, s1⟩ := r
    cases ok with
    | false =>
      simp only [if_true, Option.bind_eq_some, Option.some.injEq] at h
      obtain ⟨s2, hs2, rfl⟩ := h
      simp only [get_socket, Option.map_eq_some'] at hs2
      obtain ⟨v, hv, rfl⟩ := hs2
      exact Or.inr (Or.inr ⟨s1, v, hr, hv, rfl⟩)
    | true =>
      simp only [Bool.true_eq_false, if_false, Option.some.injEq] at h
      subst h
      exact Or.inr (Or.inl hr)
  · rw [if_neg hc] at h
    simp only [Option.some.injEq] at h
    exact Or.inl h.symm

/-- No user is a value of `old_users` twice. -/
theorem registered_values_nodup {st : server_t} (h : registered st) :
    (get_values st.old_users).Nodup := by
  have hent : st.old_users.Nodup := List.Nodup.of_map _ h.1
  refine List.Nodup.map_on ?_ hent
  intro a ha b hb hab
  obtain ⟨_, x, hx, hxn, _⟩ := h.2 a ha
  obtain ⟨_, y, hy, hyn, _⟩ := h.2 b hb
  rw [hab, hy] at hx
  cases hx
  exact nodup_keys_value st.old_users h.1 a b ha hb (hxn.symm.trans hyn)

/-- The entry of a user in `old_users` is the one under its name. -/
theorem registered_entry {st : server_t} (h : registered st) {user : Nat} {u : user_t}
    (hu : st.users[user]? = some u) (hmem : user ∈ get_values st.old_users) :
    (u.username, user) ∈ st.old_users ∧ c_string u.username = u.username := by
  simp only [get_values, List.mem_map] at hmem
  obtain ⟨e, he, hep⟩ := hmem
  obtain ⟨hc, x, hx, hxn, _⟩ := h.2 e he
  rw [hep, hu] at hx
  cases hx
  have : e = (u.username, user) := by
    cases e
    simp only at hxn hep
    rw [hxn, hep]
  rw [← this]
  exact ⟨he, by rw [this] at hc; exact hc⟩

/-- The removal of a user from `old_users` by its name leaves the other users there. -/
theorem values_table_remove {st : server_t} (h : registered st) {user : Nat} {u : user_t}
    (hu : st.users[user]? = some u) (hmem : user ∈ get_values st.old_users) :
    ∀ p ∈ get_values st.old_users, p ≠ user →
      p ∈ get_values (table_remove st.old_users u.username).2 := by
  obtain ⟨hent, hcs⟩ := registered_entry h hu hmem
  intro p hp hne
  simp only [get_values, List.mem_map] at hp ⊢
  obtain ⟨e, he, hep⟩ := hp
  refine ⟨e, ?_, hep⟩
  rw [mem_table_remove st.old_users u.username h.1 (fun a ha => (h.2 a ha).1) e]
  refine ⟨he, ?_⟩
  intro hk
  rw [hcs] at hk
  have := nodup_keys_value st.old_users h.1 e (u.username, user) he hent hk
  rw [this] at hep
  exact hne hep.symm

/-- The state after the connection of an authenticated user was closed. -/
theorem partitioned_close_old {s1 : server_t} {user : Nat} {u : user_t}
    (h : partitioned s1) (hu : s1.users[user]? = some u)
    (hmem : user ∈ get_values s1.old_users) :
    partitioned { s1 with old_users := (table_remove s1.old_users u.username).2,
                          closed := s1.closed ++ [u.socket] } := by
  refine ⟨registered_congr (a := { s1 with
      old_users := (table_remove s1.old_users u.username).2 }) rfl rfl
    (registered_sublist h.1 (table_remove_sublist _ _)), h.2.1, ?_⟩
  intro p x hx
  have hx0 : s1.users[p]? = some x := hx
  show p ∈ s1.new_users ∨ p ∈ get_values (table_remove s1.old_users u.username).2 ∨
    x.socket ∈ s1.closed ++ [u.socket]
  rcases h.2.2 p x hx0 with h1 | h1 | h1
  · exact Or.inl h1
  · by_cases hpu : p = user
    · subst hpu
      rw [hu] at hx0
      cases hx0
      exact Or.inr (Or.inr (by simp))
    · exact Or.inr (Or.inl (values_table_remove h.1 hu hmem p h1 hpu))
  · exact Or.inr (Or.inr (List.mem_append_left _ h1))

/-- The state after the connection of a new user was closed. -/
theorem partitioned_close_new {s1 : server_t} {user : Nat} {u : user_t}
    (h : partitioned s1) (hu : s1.users[user]? = some u) :
    partitioned { s1 with new_users := (list_remove_value s1.new_users user).2,
                          closed := s1.closed ++ [u.socket] } ∧
      ∀ p ∈ get_values s1.old_users,
        p ∈ get_values ({ s1 with new_users := (list_remove_value s1.new_users user).2,
                                   closed := s1.closed ++ [u.socket] } : server_t).old_users := by
  refine ⟨⟨registered_congr (a := s1) rfl rfl h.1, ?_, ?_⟩, fun p hp => hp⟩
  · refine ⟨?_, ?_⟩
    · show (list_remove_value s1.new_users user).2.Nodup
      rw [list_remove_value_erase]
      exact List.Nodup.erase _ h.2.1.1
    · intro p hp
      have hp2 : p ∈ (list_remove_value s1.new_users user).2 := hp
      rw [list_remove_value_erase] at hp2
      exact h.2.1.2 p (List.mem_of_mem_erase hp2)
  · intro p x hx
    have hx0 : s1.users[p]? = some x := hx
    show p ∈ (list_remove_value s1.new_users user).2 ∨ p ∈ get_values s1.old_users ∨
      x.socket ∈ s1.closed ++ [u.socket]
    rw [list_remove_value_erase]
    rcases h.2.2 p x hx0 with h1 | h1 | h1
    · by_cases hpu : p = user
      · subst hpu
        rw [hu] at hx0
        cases hx0
        exact Or.inr (Or.inr (by simp))
      · exact Or.inl ((List.mem_erase_of_ne hpu).mpr h1)
    · exact Or.inr (Or.inl h1)
    · exact Or.inr (Or.inr (List.mem_append_left _ h1))

/-- One turn of the loop over the authenticated users. -/
theorem select_old_user_partitioned {SHA1 : List Nat → List Nat} {fds : List Nat}
    {user : Nat} {rest : List Nat} {st st1 : server_t}
    (hp : partitioned st ∧ (user :: rest).Nodup ∧
      ∀ p ∈ user :: rest, p ∈ get_values st.old_users)
    (h : select_old_user SHA1 fds user st = some st1) :
    partitioned st1 ∧ rest.Nodup ∧ ∀ p ∈ rest, p ∈ get_values st1.old_users := by
  obtain ⟨hpart, hnd, hall⟩ := hp
  have hnd2 := (List.nodup_cons.mp hnd).2
  have hnot := (List.nodup_cons.mp hnd).1
  rcases select_old_user_exact h with rfl | hn | ⟨s1, u, hn, hu, rfl⟩
  · exact ⟨hpart, hnd2, fun p hp => hall p (List.mem_cons_of_mem _ hp)⟩
  · obtain ⟨h1, h2⟩ := partitioned_next hn hpart
    exact ⟨h1, hnd2, fun p hp => h2 p (hall p (List.mem_cons_of_mem _ hp))⟩
  · obtain ⟨h1, h2⟩ := partitioned_next hn hpart
    have hmem : user ∈ get_values s1.old_users := h2 user (hall user (List.mem_cons_self _ _))
    refine ⟨partitioned_close_old h1 hu hmem, hnd2, ?_⟩
    intro p hp
    have hpu : p ≠ user := by
      rintro rfl
      exact hnot hp
    exact values_table_remove h1.1 hu hmem p (h2 p (hall p (List.mem_cons_of_mem _ hp))) hpu

/-- One turn of the loop over the new users. -/
theorem select_new_user_partitioned {SHA1 : List Nat → List Nat} {fds : List Nat}
    {user : Nat} {st st1 : server_t} (hpart : partitioned st)
    (h : select_new_user SHA1 fds user st = some st1) : partitioned st1 := by
  rcases select_new_user_exact h with rfl | hn | ⟨s1, u, hn, hu, rfl⟩
  · exact hpart
  · exact (partitioned_next hn hpart).1
  · exact (partitioned_close_new (partitioned_next hn hpart).1 hu).1

theorem accept_connection_partitioned {st : server_t} (s : Nat) (ip : List Nat) (token : Nat)
    (h : partitioned st) : partitioned (accept_connection st s ip token) := by
  have hlt : ∀ p ∈ st.new_users, p < st.users.length := by
    intro p hp
    obtain ⟨u, hu, _⟩ := h.2.1.2 p hp
    exact users_index_lt hu
  refine ⟨accept_connection_registered s ip token h.1, ⟨?_, ?_⟩, ?_⟩
  · show (st.new_users ++ [st.users.length]).Nodup
    refine List.Nodup.append h.2.1.1 (List.nodup_singleton _) ?_
    intro p hp hq
    rw [List.mem_singleton] at hq
    have := hlt p hp
    omega
  · intro p hp
    have hp2 : p ∈ st.new_users ++ [st.users.length] := hp
    rcases List.mem_append.mp hp2 with h1 | h1
    · obtain ⟨u, hu, hs⟩ := h.2.1.2 p h1
      refine ⟨u, ?_, hs⟩
      show (st.users ++ _)[p]? = some u
      rw [List.getElem?_append_left (users_index_lt hu)]
      exact hu
    · rw [List.mem_singleton] at h1
      subst h1
      refine ⟨create_user s ip token, ?_, Or.inl rfl⟩
      show (st.users ++ [create_user s ip token])[st.users.length]? = some _
      rw [List.getElem?_append_right (Nat.le_refl _)]
      simp
  · intro p x hx
    have hx2 : (st.users ++ [create_user s ip token])[p]? = some x := hx
    show p ∈ st.new_users ++ [st.users.length] ∨ p ∈ get_values st.old_users ∨
      x.socket ∈ st.closed
    by_cases hp : p < st.users.length
    · rw [List.getElem?_append_left hp] at hx2
      rcases h.2.2 p x hx2 with h1 | h1 | h1
      · exact Or.inl (List.mem_append_left _ h1)
      · exact Or.inr (Or.inl h1)
      · exact Or.inr (Or.inr h1)
    · have hp2 : p = st.users.length := by
        have hlen : p < (st.users ++ [create_user s ip token]).length := by
          by_contra hn
          rw [List.getElem?_eq_none (by omega)] at hx2
          cases hx2
        simp only [List.length_append, List.length_singleton] at hlen
        omega
      exact Or.inl (by rw [hp2]; simp)

theorem do_select_partitioned {SHA1 : List Nat → List Nat} {st st1 : server_t}
    {event : select_result} (hp : partitioned st) (h : do_select SHA1 st event = some st1) :
    partitioned st1 := by
  cases event with
  | failed => exact (do_select_failed h).elim
  | timeout => exact partitioned_writes (do_select_timeout h) hp
  | ready fds accepted =>
    obtain ⟨s1, h1, h2⟩ := do_select_ready h
    have hnew : partitioned s1 → partitioned st1 := fun hs =>
      for_each_invariant partitioned (select_new_user SHA1 fds)
        (fun x s s1 hp hb => select_new_user_partitioned hp hb) _ _ _ hs h2
    have hold : ∀ s0, partitioned s0 → get_values s0.old_users = get_values st.old_users →
        for_each (select_old_user SHA1 fds) (get_values st.old_users) s0 = some s1 →
        partitioned s1 := by
      intro s0 h0 hv hfor
      have := for_each_rest
        (fun l s => partitioned s ∧ l.Nodup ∧ ∀ p ∈ l, p ∈ get_values s.old_users)
        (select_old_user SHA1 fds)
        (fun x xs s s1 hp hb => select_old_user_partitioned hp hb) _ s0 s1
        ⟨h0, registered_values_nodup hp.1, fun p hp => by rw [hv]; exact hp⟩ hfor
      exact this.1
    cases accepted with
    | none => exact hnew (hold _ hp rfl h1)
    | some a =>
      obtain ⟨ns, ip, token⟩ := a
      exact hnew (hold _ (accept_connection_partitioned ns ip token hp) rfl h1)

theorem server_run_partitioned (SHA1 : List Nat → List Nat) (events : List server_event) :
    ∀ st st1, partitioned st → server_run SHA1 st events = some st1 → partitioned st1 := by
  induction events with
  | nil =>
    intro st st1 hr h
    simp only [server_run, Option.some.injEq] at h
    subst h
    exact hr
  | cons e es ih =>
    intro st st1 hr h
    simp only [server_run, Option.bind_eq_some] at h
    obtain ⟨s, h1, h2⟩ := h
    refine ih s st1 ?_ h2
    cases e with
    | arrive sock bytes =>
      simp only [server_step, Option.some.injEq] at h1
      subst h1
      exact partitioned_congr rfl rfl rfl rfl hr
    | cycle event => exact do_select_partitioned hr h1

theorem partitioned_start (accounts : List Nat) : partitioned (server_start accounts) := by
  refine ⟨registered_start accounts, ⟨by simp [server_start, list_create], ?_⟩, ?_⟩
  · intro p hp
    simp [server_start, list_create] at hp
  · intro p u hu
    simp [server_start] at hu

/-! ## The calls of `process_next_packet` in a cycle -/

theorem select_calls_sublist (fds : List Nat) (user : Nat) (st : server_t) :
    List.Sublist (select_calls fds user st) [user] := by
  unfold select_calls
  cases get_socket st user with
  | none => exact List.nil_sublist _
  | some s =>
    by_cases h : fds.contains s = true
    · simp only [h, if_true]
      exact List.Sublist.refl _
    · simp only [h]
      exact List.nil_sublist _

/-- The calls of a loop are made for elements of its array, in the order of the array, and
for none of them twice over. -/
theorem for_each_calls_sublist (fds : List Nat) (body : Nat → server_t → Option server_t) :
    ∀ (l : List Nat) (st : server_t), List.Sublist (for_each_calls fds body l st) l := by
  intro l
  induction l with
  | nil => intro st; exact List.Sublist.refl _
  | cons user rest ih =>
    intro st
    have h1 := select_calls_sublist fds user st
    have h2 : List.Sublist
        (match body user st with
          | some st1 => for_each_calls fds body rest st1
          | none => []) rest := by
      cases body user st with
      | none => exact List.nil_sublist _
      | some st1 => exact ih st1
    exact List.Sublist.append h1 h2

theorem calls_after_sublist (o : Option server_t) (f : server_t → List Nat) (l : List Nat)
    (h : ∀ s, List.Sublist (f s) l) :
    List.Sublist (match o with
      | some s => f s
      | none => []) l := by
  cases o with
  | none => exact List.nil_sublist _
  | some s => exact h s

/-- The calls of a cycle: first for authenticated users of the array taken at the start of
the cycle, then for new users of the array taken at the start. -/
theorem do_select_calls_split (SHA1 : List Nat → List Nat) (st : server_t)
    (event : select_result) :
    ∃ l1 l2, do_select_calls SHA1 st event = l1 ++ l2 ∧
      List.Sublist l1 (get_values st.old_users) ∧ List.Sublist l2 st.new_users := by
  cases event with
  | failed => exact ⟨[], [], rfl, List.nil_sublist _, List.nil_sublist _⟩
  | timeout => exact ⟨[], [], rfl, List.nil_sublist _, List.nil_sublist _⟩
  | ready fds accepted =>
    simp only [do_select_calls]
    cases for_each (fun user (_ : Unit) => (get_socket st user).map (fun _ => ()))
        (list_get_array st.new_users) () with
    | none => exact ⟨[], [], rfl, List.nil_sublist _, List.nil_sublist _⟩
    | some a =>
      cases for_each (fun user (_ : Unit) => (get_socket st user).map (fun _ => ()))
          (get_values st.old_users) () with
      | none => exact ⟨[], [], rfl, List.nil_sublist _, List.nil_sublist _⟩
      | some b =>
        refine ⟨_, _, rfl, for_each_calls_sublist _ _ _ _, ?_⟩
        exact calls_after_sublist _ _ _ (fun s => for_each_calls_sublist _ _ _ s)

/-! ## The users whose connections were closed -/

theorem sockets_of_congr_mem (st st1 : server_t) (members : List Nat)
    (h : ∀ m ∈ members, get_socket st1 m = get_socket st m) :
    sockets_of st1 members = sockets_of st members := by
  induction members with
  | nil => rfl
  | cons m rest ih =>
    have h1 := ih (fun x hx => h x (List.mem_cons_of_mem _ hx))
    simp only [sockets_of] at h1 ⊢
    simp only [List.filterMap_cons, h m (List.mem_cons_self _ _), h1]

theorem accounted_congr {a b : server_t} {g : List Nat}
    (hs : ∀ m, get_socket b m = get_socket a m) (hlen : b.users.length = a.users.length)
    (hn : b.new_users = a.new_users) (ho : b.old_users = a.old_users)
    (hc : b.closed = a.closed) (h : accounted a g) : accounted b g := by
  unfold accounted at h ⊢
  rw [hlen, hn, ho, hc, sockets_of_congr a b g hs]
  exact h

/-- A user that is not among the closed ones moves from `new_users` to `old_users`. -/
theorem accounted_moved {a b : server_t} {g : List Nat} {user : Nat} {name : List Nat}
    (hs : ∀ m, get_socket b m = get_socket a m) (hlen : b.users.length = a.users.length)
    (hn : b.new_users = a.new_users.erase user)
    (ho : b.old_users = a.old_users ++ [(name, user)])
    (hc : b.closed = a.closed) (hg : user ∉ g) (h : accounted a g) : accounted b g := by
  obtain ⟨h1, h2, h3⟩ := h
  refine ⟨?_, ?_, ?_⟩
  · intro p hp
    rw [hlen] at hp
    rw [hn, ho]
    by_cases hpu : p = user
    · exact Or.inr (Or.inl (by simp [get_values, hpu]))
    · rcases h1 p hp with h | h | h
      · exact Or.inl ((List.mem_erase_of_ne hpu).mpr h)
      · refine Or.inr (Or.inl ?_)
        simp only [get_values, List.map_append, List.mem_append]
        exact Or.inl h
      · exact Or.inr (Or.inr h)
  · intro p hp
    obtain ⟨ha, hb, hc2⟩ := h2 p hp
    rw [hlen, hn, ho]
    refine ⟨ha, fun hm => hb (List.mem_of_mem_erase hm), ?_⟩
    intro hm
    simp only [get_values, List.map_append, List.mem_append, List.map_cons, List.map_nil,
      List.mem_singleton] at hm
    rcases hm with hm | hm
    · exact hc2 hm
    · rw [hm] at hp
      exact hg hp
  · rw [hc, sockets_of_congr a b g hs]
    exact h3

/-- Storing a user with the same socket keeps the sockets of the users. -/
theorem get_socket_users {a b : server_t} {user : Nat} {u w : user_t}
    (hu : a.users[user]? = some u) (hb : b.users = a.users.set user w)
    (hs : w.socket = u.socket) (m : Nat) : get_socket b m = get_socket a m :=
  get_socket_set a user u w hu hs b.users hb m

/-- What a handled packet does to the sockets of the users and to the two lists. -/
theorem packet_lists {SHA1 : List Nat → List Nat} {st st1 : server_t} {user : Nat}
    {packet : packet_buffer_t} (hp : process_packet SHA1 st user packet = some st1) :
    (∀ m, get_socket st1 m = get_socket st m) ∧ st1.users.length = st.users.length ∧
    st1.closed = st.closed ∧
    ((st1.new_users = st.new_users ∧ st1.old_users = st.old_users) ∨
      ∃ name, st1.new_users = st.new_users.erase user ∧
        st1.old_users = st.old_users ++ [(name, user)]) := by
  rcases process_packet_effect hp with hw | ⟨_, he⟩ | ⟨_, he⟩ | ⟨_, he⟩ | ⟨_, param, he⟩
  · obtain ⟨log, rfl⟩ := hw
    exact ⟨fun m => rfl, rfl, rfl, Or.inl ⟨rfl, rfl⟩⟩
  · obtain ⟨u, t, hu, hs, log, rfl⟩ := he
    refine ⟨fun m => get_socket_users hu rfl (by rfl) m, ?_, rfl, Or.inl ⟨rfl, rfl⟩⟩
    show (st.users.set user _).length = _
    exact List.length_set ..
  · obtain ⟨u, name, proof, hu, hs, hfind, hlogin, hw⟩ := he
    have hlen := account_login_success_length SHA1 _ _ _ _ _ hlogin
    rw [c_string_idem] at hlen
    have htake : (c_string name).take (MAX_NAME - 1) = c_string name :=
      List.take_of_length_le hlen
    rw [htake] at hw
    have hadd : table_add st.old_users (c_string name) user =
        st.old_users ++ [(c_string name, user)] := by
      have := table_add_absent st.old_users (c_string name) user hfind
      rw [c_string_idem] at this
      exact this
    rw [hadd, list_remove_value_erase] at hw
    obtain ⟨log, rfl⟩ := hw
    refine ⟨fun m => get_socket_users hu rfl (by rfl) m, ?_, rfl,
      Or.inr ⟨c_string name, rfl, rfl⟩⟩
    show (st.users.set user _).length = _
    exact List.length_set ..
  · obtain ⟨accounts, log, rfl⟩ := he
    exact ⟨fun m => rfl, rfl, rfl, Or.inl ⟨rfl, rfl⟩⟩
  · obtain ⟨u, _, _, _, hu, hs, _, _, _, _, _, hj⟩ := he
    obtain ⟨v, hv, hc⟩ := process_command_join_effect hj
    rw [hu] at hv
    cases hv
    rcases hc with ⟨x, y, z, rfl⟩ | ⟨_, x, y, z, rfl⟩ | ⟨_, x, y, z, rfl⟩
    · exact ⟨fun m => rfl, rfl, rfl, Or.inl ⟨rfl, rfl⟩⟩
    · refine ⟨fun m => get_socket_users hu rfl (by rfl) m, ?_, rfl, Or.inl ⟨rfl, rfl⟩⟩
      show (st.users.set user _).length = _
      exact List.length_set ..
    · refine ⟨fun m => get_socket_users hu rfl (by rfl) m, ?_, rfl, Or.inl ⟨rfl, rfl⟩⟩
      show (st.users.set user _).length = _
      exact List.length_set ..

/-- What a call of `process_next_packet` does to the sockets of the users and to the two
lists; a call that returns `FALSE` leaves the lists as they are. -/
theorem next_lists {SHA1 : List Nat → List Nat} {st st1 : server_t} {user : Nat}
    {ok : Bool} (hp : process_next_packet SHA1 st user = some (ok, st1)) :
    (∀ m, get_socket st1 m = get_socket st m) ∧ st1.users.length = st.users.length ∧
    st1.closed = st.closed ∧
    ((st1.new_users = st.new_users ∧ st1.old_users = st.old_users) ∨
      (ok = true ∧ ∃ name, st1.new_users = st.new_users.erase user ∧
        st1.old_users = st.old_users ++ [(name, user)])) := by
  obtain ⟨s, rest, _, hc⟩ := process_next_packet_cases hp
  rcases hc with ⟨_, _, e⟩ | ⟨_, _, e⟩ | ⟨hok, packet, _, hpk⟩
  · rw [e]
    exact ⟨fun m => rfl, rfl, rfl, Or.inl ⟨rfl, rfl⟩⟩
  · rw [e]
    exact ⟨fun m => rfl, rfl, rfl, Or.inl ⟨rfl, rfl⟩⟩
  · obtain ⟨h1, h2, h3, h4⟩ := packet_lists hpk
    have k1 : ∀ m, get_socket (set_socket_input st s rest) m = get_socket st m :=
      fun m => rfl
    have k2 : (set_socket_input st s rest).users.length = st.users.length := rfl
    have k3 : (set_socket_input st s rest).closed = st.closed := rfl
    have k4 : (set_socket_input st s rest).new_users = st.new_users := rfl
    have k5 : (set_socket_input st s rest).old_users = st.old_users := rfl
    rw [k2] at h2
    rw [k3] at h3
    rw [k4, k5] at h4
    refine ⟨fun m => (h1 m).trans (k1 m), h2, h3, ?_⟩
    rcases h4 with h4 | h4
    · exact Or.inl h4
    · exact Or.inr ⟨hok, h4⟩

theorem accounted_next {SHA1 : List Nat → List Nat} {st st1 : server_t} {user : Nat}
    {ok : Bool} {g : List Nat} (hp : process_next_packet SHA1 st user = some (ok, st1))
    (hg : user ∉ g) (h : accounted st g) : accounted st1 g := by
  obtain ⟨h1, h2, h3, h4⟩ := next_lists hp
  rcases h4 with ⟨hn, ho⟩ | ⟨_, name, hn, ho⟩
  · exact accounted_congr h1 h2 hn ho h3 h
  · exact accounted_moved h1 h2 hn ho h3 hg h

/-- The other elements of `new_users` stay there. -/
theorem next_new_kept {SHA1 : List Nat → List Nat} {st st1 : server_t} {user : Nat}
    {ok : Bool} (hp : process_next_packet SHA1 st user = some (ok, st1)) {p : Nat}
    (hm : p ∈ st.new_users) (hne : p ≠ user) : p ∈ st1.new_users := by
  obtain ⟨_, _, _, h4⟩ := next_lists hp
  rcases h4 with ⟨hn, _⟩ | ⟨_, name, hn, _⟩
  · rw [hn]
    exact hm
  · rw [hn]
    exact (List.mem_erase_of_ne hne).mpr hm

/-- The state after the connection of an authenticated user was closed. -/
theorem accounted_close_old {s1 : server_t} {user : Nat} {u : user_t} {g : List Nat}
    (hp : partitioned s1) (h : accounted s1 g) (hu : s1.users[user]? = some u)
    (hmem : user ∈ get_values s1.old_users) :
    accounted { s1 with old_users := (table_remove s1.old_users u.username).2,
                        closed := s1.closed ++ [u.socket] } (g ++ [user]) := by
  obtain ⟨h1, h2, h3⟩ := h
  refine ⟨?_, ?_, ?_⟩
  · intro p hpl
    have hpl0 : p < s1.users.length := hpl
    show p ∈ s1.new_users ∨ p ∈ get_values (table_remove s1.old_users u.username).2 ∨
      p ∈ g ++ [user]
    by_cases hpu : p = user
    · exact Or.inr (Or.inr (by simp [hpu]))
    · rcases h1 p hpl0 with h | h | h
      · exact Or.inl h
      · exact Or.inr (Or.inl (values_table_remove hp.1 hu hmem p h hpu))
      · exact Or.inr (Or.inr (List.mem_append_left _ h))
  · intro p hpg
    show p < s1.users.length ∧ p ∉ s1.new_users ∧
      p ∉ get_values (table_remove s1.old_users u.username).2
    have hsub : ∀ q, q ∈ get_values (table_remove s1.old_users u.username).2 →
        q ∈ get_values s1.old_users := fun q hq =>
      (List.Sublist.map _ (table_remove_sublist _ _)).subset hq
    rcases List.mem_append.mp hpg with hg | hg
    · obtain ⟨a, b, c⟩ := h2 p hg
      exact ⟨a, b, fun hq => c (hsub p hq)⟩
    · rw [List.mem_singleton] at hg
      rw [hg]
      refine ⟨users_index_lt hu, fun hq => partitioned_disjoint hp user hq hmem, ?_⟩
      intro hq
      simp only [get_values, List.mem_map] at hq
      obtain ⟨e, he, hep⟩ := hq
      rw [mem_table_remove s1.old_users u.username hp.1.1 (fun a ha => (hp.1.2 a ha).1) e]
        at he
      obtain ⟨he1, he2⟩ := he
      obtain ⟨_, x, hx, hxn, _⟩ := hp.1.2 e he1
      rw [hep, hu] at hx
      cases hx
      apply he2
      rw [(registered_entry hp.1 hu hmem).2]
      exact hxn.symm
  · show s1.closed ++ [u.socket] = sockets_of _ (g ++ [user])
    have e : sockets_of { s1 with old_users := (table_remove s1.old_users u.username).2,
                                  closed := s1.closed ++ [u.socket] } (g ++ [user]) =
        sockets_of s1 (g ++ [user]) := sockets_of_congr s1 _ _ (fun m => rfl)
    rw [e, h3]
    simp only [sockets_of, List.filterMap_append, List.filterMap_cons, List.filterMap_nil,
      get_socket_of hu]

/-- The state after the connection of a new user was closed. -/
theorem accounted_close_new {s1 : server_t} {user : Nat} {u : user_t} {g : List Nat}
    (hp : partitioned s1) (h : accounted s1 g) (hu : s1.users[user]? = some u)
    (hmem : user ∈ s1.new_users) :
    accounted { s1 with new_users := (list_remove_value s1.new_users user).2,
                        closed := s1.closed ++ [u.socket] } (g ++ [user]) := by
  obtain ⟨h1, h2, h3⟩ := h
  refine ⟨?_, ?_, ?_⟩
  · intro p hpl
    have hpl0 : p < s1.users.length := hpl
    show p ∈ (list_remove_value s1.new_users user).2 ∨ p ∈ get_values s1.old_users ∨
      p ∈ g ++ [user]
    rw [list_remove_value_erase]
    by_cases hpu : p = user
    · exact Or.inr (Or.inr (by simp [hpu]))
    · rcases h1 p hpl0 with h | h | h
      · exact Or.inl ((List.mem_erase_of_ne hpu).mpr h)
      · exact Or.inr (Or.inl h)
      · exact Or.inr (Or.inr (List.mem_append_left _ h))
  · intro p hpg
    show p < s1.users.length ∧ p ∉ (list_remove_value s1.new_users user).2 ∧
      p ∉ get_values s1.old_users
    rw [list_remove_value_erase]
    rcases List.mem_append.mp hpg with hg | hg
    · obtain ⟨a, b, c⟩ := h2 p hg
      exact ⟨a, fun hq => b (List.mem_of_mem_erase hq), c⟩
    · rw [List.mem_singleton] at hg
      rw [hg]
      exact ⟨users_index_lt hu, nodup_erase_not_mem hp.2.1.1 user,
        partitioned_disjoint hp user hmem⟩
  · show s1.closed ++ [u.socket] = sockets_of _ (g ++ [user])
    have e : sockets_of { s1 with new_users := (list_remove_value s1.new_users user).2,
                                  closed := s1.closed ++ [u.socket] } (g ++ [user]) =
        sockets_of s1 (g ++ [user]) := sockets_of_congr s1 _ _ (fun m => rfl)
    rw [e, h3]
    simp only [sockets_of, List.filterMap_append, List.filterMap_cons, List.filterMap_nil,
      get_socket_of hu]

/-- An accepted connection is a new element of `new_users`. -/
theorem accounted_accept {st : server_t} {g : List Nat} (s : Nat) (ip : List Nat)
    (token : Nat) (h : accounted st g) : accounted (accept_connection st s ip token) g := by
  obtain ⟨h1, h2, h3⟩ := h
  have hlen : (accept_connection st s ip token).users.length = st.users.length + 1 := by
    show (st.users ++ [create_user s ip token]).length = _
    simp
  refine ⟨?_, ?_, ?_⟩
  · intro p hp
    rw [hlen] at hp
    show p ∈ st.new_users ++ [st.users.length] ∨ p ∈ get_values st.old_users ∨ p ∈ g
    by_cases hpl : p < st.users.length
    · rcases h1 p hpl with h | h | h
      · exact Or.inl (List.mem_append_left _ h)
      · exact Or.inr (Or.inl h)
      · exact Or.inr (Or.inr h)
    · have : p = st.users.length := by omega
      exact Or.inl (by rw [this]; simp)
  · intro p hp
    obtain ⟨a, b, c⟩ := h2 p hp
    rw [hlen]
    refine ⟨by omega, ?_, c⟩
    show p ∉ st.new_users ++ [st.users.length]
    intro hm
    rcases List.mem_append.mp hm with hm | hm
    · exact b hm
    · rw [List.mem_singleton] at hm
      omega
  · show st.closed = sockets_of (accept_connection st s ip token) g
    rw [h3]
    refine (sockets_of_congr_mem st _ g ?_).symm
    intro m hm
    show ((st.users ++ [create_user s ip token])[m]?).map (fun u => u.socket) = _
    rw [List.getElem?_append_left (h2 m hm).1]
    rfl

/-- The body of the loop over the authenticated users, with the connection it closes. -/
theorem select_old_user_trace {SHA1 : List Nat → List Nat} {fds : List Nat} {user : Nat}
    {st st1 : server_t} (h : select_old_user SHA1 fds user st = some st1) :
    (st1 = st ∧ select_closes SHA1 fds user st = []) ∨
      (process_next_packet SHA1 st user = some (true, st1) ∧
        select_closes SHA1 fds user st = []) ∨
      ∃ s1 u, process_next_packet SHA1 st user = some (false, s1) ∧
        s1.users[user]? = some u ∧
        st1 = { s1 with old_users := (table_remove s1.old_users u.username).2,
                         closed := s1.closed ++ [u.socket] } ∧
        select_closes SHA1 fds user st = [user] := by
  simp only [select_old_user, and_then_eq, and_then_def, exec_pure,
    Option.bind_eq_some] at h
  obtain ⟨s, hs, h⟩ := h
  by_cases hc : fds.contains s = true
  · rw [if_pos hc] at h
    simp only [Option.bind_eq_some] at h
    obtain ⟨r, hr, h⟩ := h
    obtain ⟨ok, s1⟩ := r
    cases ok with
    | false =>
      simp only [if_true, Option.bind_eq_some, Option.some.injEq] at h
      obtain ⟨name, hname, s2, hs2, rfl⟩ := h
      simp only [get_username, Option.map_eq_some'] at hname
      obtain ⟨u, hu, rfl⟩ := hname
      have hu2 : s1.users[user]? = some u := hu
      simp only [get_socket, Option.map_eq_some'] at hs2
      obtain ⟨v, hv, rfl⟩ := hs2
      have hv2 : s1.users[user]? = some v := hv
      rw [hu2] at hv2
      cases hv2
      refine Or.inr (Or.inr ⟨s1, u, hr, hu2, rfl, ?_⟩)
      simp only [select_closes, hs, hc, hr, if_true]
    | true =>
      simp only [Bool.true_eq_false, if_false, Option.some.injEq] at h
      subst h
      refine Or.inr (Or.inl ⟨hr, ?_⟩)
      simp only [select_closes, hs, hc, hr, if_true]
  · rw [if_neg hc] at h
    simp only [Option.some.injEq] at h
    refine Or.inl ⟨h.symm, ?_⟩
    simp only [select_closes, hs, if_neg hc]

/-- The body of the loop over the new users, with the connection it closes. -/
theorem select_new_user_trace {SHA1 : List Nat → List Nat} {fds : List Nat} {user : Nat}
    {st st1 : server_t} (h : select_new_user SHA1 fds user st = some st1) :
    (st1 = st ∧ select_closes SHA1 fds user st = []) ∨
      (process_next_packet SHA1 st user = some (true, st1) ∧
        select_closes SHA1 fds user st = []) ∨
      ∃ s1 u, process_next_packet SHA1 st user = some (false, s1) ∧
        s1.users[user]? = some u ∧
        st1 = { s1 with new_users := (list_remove_value s1.new_users user).2,
                         closed := s1.closed ++ [u.socket] } ∧
        select_closes SHA1 fds user st = [user] := by
  simp only [select_new_user, and_then_eq, and_then_def, exec_pure,
    Option.bind_eq_some] at h
  obtain ⟨s, hs, h⟩ := h
  by_cases hc : fds.contains s = true
  · rw [if_pos hc] at h
    simp only [Option.bind_eq_some] at h
    obtain ⟨r, hr, h⟩ := h
    obtain ⟨ok, s1⟩ := r
    cases ok with
    | false =>
      simp only [if_true, Option.bind_eq_some, Option.some.injEq] at h
      obtain ⟨s2, hs2, rfl⟩ := h
      simp only [get_socket, Option.map_eq_some'] at hs2
      obtain ⟨v, hv, rfl⟩ := hs2
      refine Or.inr (Or.inr ⟨s1, v, hr, hv, rfl, ?_⟩)
      simp only [select_closes, hs, hc, hr, if_true]
    | true =>
      simp only [Bool.true_eq_false, if_false, Option.some.injEq] at h
      subst h
      refine Or.inr (Or.inl ⟨hr, ?_⟩)
      simp only [select_closes, hs, hc, hr, if_true]
  · rw [if_neg hc] at h
    simp only [Option.some.injEq] at h
    refine Or.inl ⟨h.symm, ?_⟩
    simp only [select_closes, hs, if_neg hc]

/-- One turn of the loop over the authenticated users; `N` are users that stay in
`new_users`. -/
theorem select_old_user_accounted {SHA1 : List Nat → List Nat} {fds : List Nat}
    {user : Nat} {rest N : List Nat} {st st1 : server_t} {g : List Nat}
    (hq : partitioned st ∧ accounted st g ∧ (user :: rest).Nodup ∧
      (∀ p ∈ user :: rest, p ∈ get_values st.old_users) ∧ ∀ p ∈ N, p ∈ st.new_users)
    (h : select_old_user SHA1 fds user st = some st1) :
    partitioned st1 ∧ accounted st1 (g ++ select_closes SHA1 fds user st) ∧ rest.Nodup ∧
      (∀ p ∈ rest, p ∈ get_values st1.old_users) ∧ ∀ p ∈ N, p ∈ st1.new_users := by
  obtain ⟨hpart, ha, hnd, hall, hN⟩ := hq
  obtain ⟨k1, k2, k3⟩ := select_old_user_partitioned ⟨hpart, hnd, hall⟩ h
  have hold : user ∈ get_values st.old_users := hall user (List.mem_cons_self _ _)
  have hxg : user ∉ g := fun hg => (ha.2.1 user hg).2.2 hold
  have hne : ∀ p ∈ N, p ≠ user := by
    intro p hp hpu
    rw [hpu] at hp
    exact partitioned_disjoint hpart user (hN user hp) hold
  refine ⟨k1, ?_, k2, k3, ?_⟩
  · rcases select_old_user_trace h with ⟨rfl, hcl⟩ | ⟨hn, hcl⟩ | ⟨s1, u, hn, hu, rfl, hcl⟩
    · rw [hcl, List.append_nil]
      exact ha
    · rw [hcl, List.append_nil]
      exact accounted_next hn hxg ha
    · rw [hcl]
      obtain ⟨p1, p2⟩ := partitioned_next hn hpart
      exact accounted_close_old p1 (accounted_next hn hxg ha) hu (p2 user hold)
  · intro p hp
    rcases select_old_user_trace h with ⟨rfl, _⟩ | ⟨hn, _⟩ | ⟨s1, u, hn, hu, rfl, _⟩
    · exact hN p hp
    · exact next_new_kept hn (hN p hp) (hne p hp)
    · show p ∈ s1.new_users
      exact next_new_kept hn (hN p hp) (hne p hp)

/-- One turn of the loop over the new users. -/
theorem select_new_user_accounted {SHA1 : List Nat → List Nat} {fds : List Nat}
    {user : Nat} {rest : List Nat} {st st1 : server_t} {g : List Nat}
    (hq : partitioned st ∧ accounted st g ∧ (user :: rest).Nodup ∧
      ∀ p ∈ user :: rest, p ∈ st.new_users)
    (h : select_new_user SHA1 fds user st = some st1) :
    partitioned st1 ∧ accounted st1 (g ++ select_closes SHA1 fds user st) ∧ rest.Nodup ∧
      ∀ p ∈ rest, p ∈ st1.new_users := by
  obtain ⟨hpart, ha, hnd, hall⟩ := hq
  have hnd2 := (List.nodup_cons.mp hnd).2
  have hnot := (List.nodup_cons.mp hnd).1
  have hnew : user ∈ st.new_users := hall user (List.mem_cons_self _ _)
  have hxg : user ∉ g := fun hg => (ha.2.1 user hg).2.1 hnew
  have hne : ∀ p ∈ rest, p ≠ user := by
    intro p hp hpu
    rw [hpu] at hp
    exact hnot hp
  refine ⟨select_new_user_partitioned hpart h, ?_, hnd2, ?_⟩
  · rcases select_new_user_trace h with ⟨rfl, hcl⟩ | ⟨hn, hcl⟩ | ⟨s1, u, hn, hu, rfl, hcl⟩
    · rw [hcl, List.append_nil]
      exact ha
    · rw [hcl, List.append_nil]
      exact accounted_next hn hxg ha
    · rw [hcl]
      obtain ⟨p1, _⟩ := partitioned_next hn hpart
      have hmem : user ∈ s1.new_users := by
        obtain ⟨_, _, _, h4⟩ := next_lists hn
        rcases h4 with ⟨e, _⟩ | ⟨e, _⟩
        · rw [e]
          exact hnew
        · cases e
      exact accounted_close_new p1 (accounted_next hn hxg ha) hu hmem
  · intro p hp
    have hp0 : p ∈ st.new_users := hall p (List.mem_cons_of_mem _ hp)
    rcases select_new_user_trace h with ⟨rfl, _⟩ | ⟨hn, _⟩ | ⟨s1, u, hn, hu, rfl, _⟩
    · exact hp0
    · exact next_new_kept hn hp0 (hne p hp)
    · show p ∈ (list_remove_value s1.new_users user).2
      rw [list_remove_value_erase]
      exact (List.mem_erase_of_ne (hne p hp)).mpr (next_new_kept hn hp0 (hne p hp))

/-- A loop of `do_select` keeps a property of the users still to come, the state and the
users whose connections were closed. -/
theorem for_each_trace (SHA1 : List Nat → List Nat) (fds : List Nat)
    (P : List Nat → server_t → List Nat → Prop) (body : Nat → server_t → Option server_t)
    (hbody : ∀ x xs s s1 g, P (x :: xs) s g → body x s = some s1 →
      P xs s1 (g ++ select_closes SHA1 fds x s)) :
    ∀ (xs : List Nat) (st st1 : server_t) (g : List Nat), P xs st g →
      for_each body xs st = some st1 →
      P [] st1 (g ++ for_each_closes SHA1 fds body xs st) := by
  intro xs
  induction xs with
  | nil =>
    intro st st1 g hp h
    simp only [for_each, Option.some.injEq] at h
    subst h
    simp only [for_each_closes, List.append_nil]
    exact hp
  | cons x xs ih =>
    intro st st1 g hp h
    simp only [for_each, Option.bind_eq_some] at h
    obtain ⟨s, h1, h2⟩ := h
    have := ih s st1 _ (hbody x xs st s g hp h1) h2
    simp only [for_each_closes, h1]
    rw [← List.append_assoc]
    exact this

/-- The two loops of a cycle, from a state in which the users of the two arrays are
listed. -/
theorem loops_accounted {SHA1 : List Nat → List Nat} {fds : List Nat}
    {st s0 s1 st1 : server_t} {g : List Nat} (hp : partitioned st)
    (hp0 : partitioned s0) (ha0 : accounted s0 g)
    (hold : ∀ p ∈ get_values st.old_users, p ∈ get_values s0.old_users)
    (hnew : ∀ p ∈ st.new_users, p ∈ s0.new_users)
    (h1 : for_each (select_old_user SHA1 fds) (get_values st.old_users) s0 = some s1)
    (h2 : for_each (select_new_user SHA1 fds) (list_get_array st.new_users) s1 = some st1) :
    accounted st1 (g ++
      (for_each_closes SHA1 fds (select_old_user SHA1 fds) (get_values st.old_users) s0 ++
        for_each_closes SHA1 fds (select_new_user SHA1 fds) (list_get_array st.new_users)
          s1)) := by
  have r1 := for_each_trace SHA1 fds
    (fun l s g1 => partitioned s ∧ accounted s g1 ∧ l.Nodup ∧
      (∀ p ∈ l, p ∈ get_values s.old_users) ∧ ∀ p ∈ st.new_users, p ∈ s.new_users)
    (select_old_user SHA1 fds)
    (fun x xs s s1 g1 hq hb => select_old_user_accounted hq hb) _ s0 s1 g
    ⟨hp0, ha0, registered_values_nodup hp.1, hold, hnew⟩ h1
  have r2 := for_each_trace SHA1 fds
    (fun l s g1 => partitioned s ∧ accounted s g1 ∧ l.Nodup ∧ ∀ p ∈ l, p ∈ s.new_users)
    (select_new_user SHA1 fds)
    (fun x xs s s1 g1 hq hb => select_new_user_accounted hq hb) _ s1 st1 _
    ⟨r1.1, r1.2.1, hp.2.1.1, r1.2.2.2.2⟩ h2
  rw [← List.append_assoc]
  exact r2.2.1

theorem do_select_accounted {SHA1 : List Nat → List Nat} {st st1 : server_t}
    {event : select_result} {g : List Nat} (hp : partitioned st) (ha : accounted st g)
    (h : do_select SHA1 st event = some st1) :
    accounted st1 (g ++ do_select_closes SHA1 st event) := by
  cases event with
  | failed => exact (do_select_failed h).elim
  | timeout =>
    obtain ⟨log, rfl⟩ := do_select_timeout h
    simp only [do_select_closes, List.append_nil]
    exact accounted_congr (fun m => rfl) rfl rfl rfl rfl ha
  | ready fds accepted =>
    simp only [do_select, and_then_eq, and_then_def, Option.bind_eq_some] at h
    obtain ⟨a, ha1, b, hb1, s1, h1, h2⟩ := h
    cases accepted with
    | none =>
      simp only [do_select_closes, ha1, hb1, h1]
      exact loops_accounted hp hp ha (fun p hp => hp) (fun p hp => hp) h1 h2
    | some c =>
      obtain ⟨ns, ip, token⟩ := c
      simp only [do_select_closes, ha1, hb1, h1]
      exact loops_accounted hp (accept_connection_partitioned ns ip token hp)
        (accounted_accept ns ip token ha) (fun p hp => hp)
        (fun p hp => List.mem_append_left _ hp) h1 h2

theorem server_run_accounted (SHA1 : List Nat → List Nat) (events : List server_event) :
    ∀ (st st1 : server_t) (g : List Nat), partitioned st → accounted st g →
      server_run SHA1 st events = some st1 →
      accounted st1 (g ++ server_run_closes SHA1 st events) := by
  induction events with
  | nil =>
    intro st st1 g hp ha h
    simp only [server_run, Option.some.injEq] at h
    subst h
    simp only [server_run_closes, List.append_nil]
    exact ha
  | cons e es ih =>
    intro st st1 g hp ha h
    simp only [server_run, Option.bind_eq_some] at h
    obtain ⟨s, h1, h2⟩ := h
    simp only [server_run_closes, h1]
    rw [← List.append_assoc]
    cases e with
    | arrive sock bytes =>
      simp only [server_step, Option.some.injEq] at h1
      subst h1
      simp only [server_step_closes, List.append_nil]
      exact ih _ st1 g (partitioned_congr rfl rfl rfl rfl hp)
        (accounted_congr (fun m => rfl) rfl rfl rfl rfl ha) h2
    | cycle event =>
      exact ih s st1 _ (do_select_partitioned hp h1) (do_select_accounted hp ha h1) h2

theorem accounted_start (accounts : List Nat) : accounted (server_start accounts) [] := by
  refine ⟨?_, ?_, rfl⟩
  · intro p hp
    simp [server_start] at hp
  · intro p hp
    cases hp

/-! ## `/w` with the frames it writes -/

/-- A word that `strcasecmp` finds equal to `a` is not equal to a `b` that differs from
`a`. -/
theorem strcasecmp_eq_unique {word a b : List Nat} (ha : strcasecmp_eq word a = true)
    (hab : strcasecmp_eq a b = false) : strcasecmp_eq word b = false := by
  cases hb : strcasecmp_eq word b with
  | false => rfl
  | true =>
    simp only [strcasecmp_eq, beq_iff_eq] at ha hb
    have : strcasecmp_eq a b = true := by
      simp only [strcasecmp_eq, beq_iff_eq]
      rw [← ha, hb]
    rw [this] at hab
    cases hab

/-- The command words `w`, `whisper`, `m` and `msg` reach `process_command_w`. -/
theorem run_command_whisper (st : server_t) (user : Nat) {word : List Nat}
    (param : List Nat) (hw : is_whisper word = true) :
    run_command st user word param = process_command_w st user param := by
  have hw0 := hw
  simp only [is_whisper, Bool.or_eq_true] at hw
  have d1 : ∀ b ∈ [str "join", str "channel", str "help", str "h", str "?", str "finger",
      str "whois", str "whereis"], strcasecmp_eq (str "w") b = false := by decide
  have d2 : ∀ b ∈ [str "join", str "channel", str "help", str "h", str "?", str "finger",
      str "whois", str "whereis"], strcasecmp_eq (str "whisper") b = false := by decide
  have d3 : ∀ b ∈ [str "join", str "channel", str "help", str "h", str "?", str "finger",
      str "whois", str "whereis"], strcasecmp_eq (str "m") b = false := by decide
  have d4 : ∀ b ∈ [str "join", str "channel", str "help", str "h", str "?", str "finger",
      str "whois", str "whereis"], strcasecmp_eq (str "msg") b = false := by decide
  have h8 : ∀ b ∈ [str "join", str "channel", str "help", str "h", str "?", str "finger",
      str "whois", str "whereis"], strcasecmp_eq word b = false := by
    intro b hb
    rcases hw with ((hw | hw) | hw) | hw
    · exact strcasecmp_eq_unique hw (d1 b hb)
    · exact strcasecmp_eq_unique hw (d2 b hb)
    · exact strcasecmp_eq_unique hw (d3 b hb)
    · exact strcasecmp_eq_unique hw (d4 b hb)
  unfold run_command
  rw [h8 (str "join") (by simp), h8 (str "channel") (by simp), h8 (str "help") (by simp),
    h8 (str "h") (by simp), h8 (str "?") (by simp), h8 (str "finger") (by simp),
    h8 (str "whois") (by simp), h8 (str "whereis") (by simp)]
  simp only [Bool.or_self, Bool.false_eq_true, if_false]
  exact if_pos hw0

/-- `send_chat` to a user that is logged in, for a text that a received frame can hold. -/
theorem send_chat_wide (st : server_t) (subtype : Nat) (dest sender text : List Nat) (t : Nat)
    (x : user_t) (hfind : table_find st.old_users dest = some t)
    (hx : st.users[t]? = some x) (hl : strlen sender + strlen text + 10 ≤ 32768) :
    send_chat st subtype dest sender text =
      some (true, { st with
        sent := st.sent ++ [(x.socket, chatevent_frame subtype sender text)] }) := by
  obtain ⟨b, eb, fb⟩ := chatevent_packet_wide subtype sender text hl
  obtain ⟨d, hd⟩ := destroy_buffer_frame fb
  simp only [send_chat, hfind, and_then_eq, eb, Option.some_bind, get_socket_of hx,
    socket_send_frame fb, hd, exec_pure, chatevent_frame]

/-- `process_command_w` when the user named is logged in: the `EID_WHISPERFROM` event on the
socket of that user, then the `EID_WHISPERTO` event on the socket of the sender. -/
theorem process_command_w_found {st : server_t} {user : Nat} {u : user_t}
    {param : List Nat} {i dest : Nat} {x : user_t}
    (hu : st.users[user]? = some u)
    (hreg : table_find st.old_users u.username = some user)
    (hi : strchr param 0x20 = some i)
    (hf : table_find st.old_users ((c_string param).take i) = some dest)
    (hx : st.users[dest]? = some x)
    (hxreg : table_find st.old_users x.username = some dest)
    (hl : strlen u.username + strlen ((c_string param).drop (i + 1)) + 10 ≤ 32768)
    (hl2 : strlen x.username + strlen ((c_string param).drop (i + 1)) + 10 ≤ 32768) :
    process_command_w st user param =
      some { st with
        sent := st.sent ++
          [(x.socket, chatevent_frame EID_WHISPERFROM u.username
              ((c_string param).drop (i + 1))),
            (u.socket, chatevent_frame EID_WHISPERTO x.username
              ((c_string param).drop (i + 1)))] } := by
  have e1 := send_chat_wide st EID_WHISPERFROM x.username u.username
    ((c_string param).drop (i + 1)) dest x hxreg hx hl
  have e2 := send_chat_wide
    { st with sent := st.sent ++ [(x.socket, chatevent_frame EID_WHISPERFROM u.username
      ((c_string param).drop (i + 1)))] }
    EID_WHISPERTO u.username x.username
    ((c_string param).drop (i + 1)) user u hreg hu hl2
  unfold process_command_w
  simp only [hi, hf, and_then_eq, and_then_def, get_username, hu, hx, Option.map_some',
    Option.some_bind, e1, e2, exec_pure, List.append_assoc, List.singleton_append]

/-- `process_command_w` when the parameter has no space or names nobody that is logged in:
an error message for the sender. -/
theorem process_command_w_error {st : server_t} {user : Nat} {param : List Nat}
    (h : whisper_socket st param = none) (hsock : ∀ p ∈ get_values st.old_users,
      ∃ s, get_socket st p = some s) :
    process_command_w st user param =
        send_chat_self st EID_ERROR user (str "Usage: /w <user> <message>") ∨
      process_command_w st user param =
        send_chat_self st EID_ERROR user (str "User not logged on") := by
  unfold process_command_w
  rcases Option.eq_none_or_eq_some (strchr param 0x20) with hi | ⟨i, hi⟩
  · left
    simp only [hi]
  · right
    simp only [hi]
    rcases Option.eq_none_or_eq_some
      (table_find st.old_users ((c_string param).take i)) with hf | ⟨dest, hf⟩
    · simp only [hf]
    · exfalso
      obtain ⟨e, he, hev⟩ := table_find_mem _ _ _ hf
      have hm : dest ∈ get_values st.old_users := by
        simp only [get_values, List.mem_map]
        exact ⟨e, he, hev⟩
      obtain ⟨s, hs⟩ := hsock dest hm
      simp only [whisper_socket, hi, Option.some_bind, hf, hs] at h
      cases h

/-- A talk message goes to the sockets of the user records in the table of the room: for a
user in `JOINED_CHANNEL` whose room `R` is a key of `rooms`, with every member of that room
a user of the server, and a packet that holds a ChatCommand frame whose text does not start
with `/`, `process_SID_CHATCOMMAND` returns the state before with, appended to the writes,
exactly one `SID_CHATEVENT` frame of subtype `EID_TALK` for each entry of the table of the
room, on the socket of the user record of that entry, carrying the username of the sender
and the text as `read_next_ntstring` returns it; nothing else is written and no user, room
or table changes. -/
theorem talk_broadcast_members (st : server_t) (user : Nat) (u : user_t) (b : packet_buffer_t)
    (text R : List Nat) (r : Nat) (rr : room_t)
    (hu : st.users[user]? = some u) (hs : u.state = user_states_t.JOINED_CHANNEL)
    (hroom : u.room = some R) (hfind : table_find st.rooms R = some r)
    (hr : st.room_heap[r]? = some rr) (hv : ∀ m ∈ get_values rr.users, m < st.users.length)
    (h : IsFrame b SID_CHATCOMMAND (encoding [Field.ntstring text])) (hp : b.position = 4)
    (htext : ∀ x ∈ text, x ≠ 0) (hns : text.head? ≠ some 0x2F)
    (hl : strlen u.username + text.length + 10 ≤ 32768) :
    process_SID_CHATCOMMAND st user b =
      some { st with
        sent := st.sent ++ (sockets_of st (get_values rr.users)).map
          (fun s => (s, chatevent_frame EID_TALK u.username (text.map ntstring_char))) } ∧
    (user ∈ get_values rr.users → u.socket ∈ sockets_of st (get_values rr.users)) := by
  have h0 : IsFrame b SID_CHATCOMMAND (text ++ 0 :: []) := by
    simpa [encoding, Field.encoding] using h
  have hslash : ¬ (text.map ntstring_char).head? = some 0x2F := by
    intro hc
    apply hns
    cases text with
    | nil => simp at hc
    | cons x text =>
      simp only [List.map_cons, List.head?_cons, Option.some.injEq] at hc ⊢
      simp only [ntstring_char] at hc
      split at hc
      · exact hc
      · exact absurd hc (by decide)
  have hlen : strlen (text.map ntstring_char) = text.length := by
    rw [strlen_of_no_nul _ (fun x hx => (ntstring_text text htext x hx).1), List.length_map]
  refine ⟨?_, ?_⟩
  · rw [process_SID_CHATCOMMAND_eq st user u text [] hu (Or.inr hs) h0 hp htext, if_neg hslash,
      hroom]
    simp only [hfind, Option.some_bind]
    exact room_message_wide st r EID_TALK u.username _ rr hr hv (by rw [hlen]; exact hl)
  · intro hmem
    simp only [sockets_of, List.mem_filterMap]
    exact ⟨user, hmem, get_socket_of hu⟩

set_option maxRecDepth 100000 in
/-- C24, the code at a failing input: `alice` (user 0, socket 5) and `bob` (user 1,
socket 6) are in the room `lobby`; the connection of `alice` closes, and `do_select` removes
her from `old_users` and closes descriptor 5, but her user record stays in the table of the
room; then a third connection is accepted, for which `accept` returns the descriptor 5
again: user 2, in the state `CONNECTED`, not logged in and in no room.  When `bob` now says
`hi`, the `EID_TALK` frame is written on the sockets 5 and 6: the one on 5 reaches the third
session, which is not a member of `lobby`. -/
theorem C24_talk_reaches_stranger :
    sample_reused.map (fun st => st.users.map (fun u => (u.socket, u.state, u.room))) =
      some [(5, user_states_t.JOINED_CHANNEL, some (str "lobby")),
        (6, user_states_t.JOINED_CHANNEL, some (str "lobby")),
        (5, user_states_t.CONNECTED, none)] ∧
    sample_reused.map (fun st => (st.new_users, st.old_users, st.closed)) =
      some ([2], [(str "bob", 1)], [5]) ∧
    sample_reused.bind (fun st => (table_find st.rooms (str "lobby")).bind (fun room =>
      (st.room_heap[room]?).map (fun r => r.users))) =
      some [(str "alice", 0), (str "bob", 1)] ∧
    sample_reused.bind (fun st => get_socket st 2) = some 5 ∧
    sample_reused.bind (fun st => sample_stale_talk.map (fun st1 =>
      (st1.sent.drop st.sent.length, st1.users == st.users,
        st1.room_heap == st.room_heap))) =
      some ([(5, chatevent_frame EID_TALK (str "bob") (str "hi")),
        (6, chatevent_frame EID_TALK (str "bob") (str "hi"))], true, true) := by
  refine ⟨by decide, by decide, by decide, by decide, by decide⟩

set_option maxRecDepth 100000 in
/-- C26, the claim as stated fails: on the server with `alice` (socket 5) and `bob` (socket 6)
logged in, the command `/w bob hello` of `alice` writes two frames, and the first of them, the
`EID_WHISPERFROM` event, goes to the socket of `bob`. -/
theorem C26_whisper_reaches_recipient :
    process_SID_CHATCOMMAND sample_lobby_server 0
        (sample_command_buffer (str "/w bob hello")) =
      some { sample_lobby_server with
        sent := [(6, chatevent_frame EID_WHISPERFROM (str "alice") (str "hello")),
          (5, chatevent_frame EID_WHISPERTO (str "bob") (str "hello"))] } ∧
    sample_alice.socket = 5 ∧ sample_bob.socket = 6 := by
  decide

/-- C26 (amended: query commands answer the requester, a whisper also its recipient): let
the server be well formed (`old_users` holds each logged-in user once under its name, every
room of `rooms` and every member of a room exists, every user name has fewer than `MAX_NAME`
characters).  For a logged-in user and a well-formed ChatCommand frame of at most
`MAX_PACKET` bytes, the frames that `read_buffer` delivers, whose text starts with `/` and
whose command word is not `join` or `channel` in any case (so for `/who`, `/rooms`,
`/finger`, `/help`, `/w`, their other names, and unknown commands, with any parameter),
`process_SID_CHATCOMMAND` returns, and the state it returns differs from the one before only
in frames appended to the writes, each of them on the socket of the requester, or, when the
command word is `w`, `whisper`, `m` or `msg`, on the socket of the logged-in user that the
parameter names.  When the command word is none of these four, or the parameter names
nobody that is logged in, every frame is on the socket of the requester.  When it is one of
them and the parameter names a logged-in user, exactly two frames are written: first the
`EID_WHISPERFROM` event with the name of the requester and the message on the socket of
that user, then the `EID_WHISPERTO` event with the name of that user and the message on the
socket of the requester. -/
theorem C26_queries_answer (st : server_t) (user : Nat) (u : user_t) (b : packet_buffer_t)
    (text : List Nat)
    (hu : st.users[user]? = some u)
    (hs : u.state = user_states_t.NOT_IN_CHANNEL ∨ u.state = user_states_t.JOINED_CHANNEL)
    (hreg : table_find st.old_users u.username = some user)
    (hr : registered st) (hv : valid_rooms st)
    (hnames : ∀ x ∈ st.users, strlen x.username < MAX_NAME)
    (h : IsFrame b SID_CHATCOMMAND (encoding [Field.ntstring text])) (hp : b.position = 4)
    (htext : ∀ x ∈ text, x ≠ 0) (hslash : (text.map ntstring_char).head? = some 0x2F)
    (hfit : 4 + (text.length + 1) ≤ MAX_PACKET)
    (hquery : (strcasecmp_eq (command_words (text.map ntstring_char)).1 (str "join") ||
      strcasecmp_eq (command_words (text.map ntstring_char)).1 (str "channel")) = false) :
    ∃ st1, process_SID_CHATCOMMAND st user b = some st1 ∧
      only_sent (fun s => s = u.socket ∨
        (is_whisper (command_words (text.map ntstring_char)).1 = true ∧
          whisper_socket st (command_words (text.map ntstring_char)).2 = some s)) st st1 ∧
      ((is_whisper (command_words (text.map ntstring_char)).1 = false ∨
          whisper_socket st (command_words (text.map ntstring_char)).2 = none) →
        only_sent (fun s => s = u.socket) st st1) ∧
      (∀ i dest x, is_whisper (command_words (text.map ntstring_char)).1 = true →
        strchr (command_words (text.map ntstring_char)).2 0x20 = some i →
        table_find st.old_users
          ((c_string (command_words (text.map ntstring_char)).2).take i) = some dest →
        st.users[dest]? = some x →
        st1 = { st with
          sent := st.sent ++
            [(x.socket, chatevent_frame EID_WHISPERFROM u.username
                ((c_string (command_words (text.map ntstring_char)).2).drop (i + 1))),
              (u.socket, chatevent_frame EID_WHISPERTO x.username
                ((c_string (command_words (text.map ntstring_char)).2).drop
                  (i + 1)))] }) := by
  have h0 : IsFrame b SID_CHATCOMMAND (text ++ 0 :: []) := by
    simpa [encoding, Field.encoding] using h
  have hl : strlen u.username < MAX_NAME := hnames u (List.mem_iff_getElem?.mpr ⟨_, hu⟩)
  rw [process_SID_CHATCOMMAND_eq st user u text [] hu hs h0 hp htext, if_pos hslash]
  have hparam := strlen_command_parameter (text.map ntstring_char)
  rw [List.length_map] at hparam
  generalize (command_words (text.map ntstring_char)).1 = word at hquery ⊢
  generalize (command_words (text.map ntstring_char)).2 = param at hparam ⊢
  have hself : (fun s => s = u.socket ∨
      (is_whisper word = true ∧ whisper_socket st param = some s)) u.socket := Or.inl rfl
  have core : ∃ st1, run_command st user word param = some st1 ∧
      only_sent (fun s => s = u.socket ∨
        (is_whisper word = true ∧ whisper_socket st param = some s)) st st1 ∧
      (∀ i dest x, is_whisper word = true → strchr param 0x20 = some i →
        table_find st.old_users ((c_string param).take i) = some dest →
        st.users[dest]? = some x →
        st1 = { st with
          sent := st.sent ++
            [(x.socket, chatevent_frame EID_WHISPERFROM u.username
                ((c_string param).drop (i + 1))),
              (u.socket, chatevent_frame EID_WHISPERTO x.username
                ((c_string param).drop (i + 1)))] }) := by
    by_cases hw : is_whisper word = true
    · rw [run_command_whisper st user param hw]
      rcases Option.eq_none_or_eq_some (whisper_socket st param) with hws | ⟨s, hws⟩
      · have hsock : ∀ p ∈ get_values st.old_users, ∃ s, get_socket st p = some s := by
          intro p hp
          simp only [get_values, List.mem_map] at hp
          obtain ⟨e, he, hep⟩ := hp
          obtain ⟨_, x, hx, _, _⟩ := hr.2 e he
          rw [hep] at hx
          exact ⟨x.socket, get_socket_of hx⟩
        have hnone : ∀ i dest x, strchr param 0x20 = some i →
            table_find st.old_users ((c_string param).take i) = some dest →
            st.users[dest]? = some x → False := by
          intro i dest x hi hf hx
          simp only [whisper_socket, hi, Option.some_bind, hf, get_socket_of hx] at hws
          cases hws
        rcases process_command_w_error hws hsock with e | e
        · rw [e]
          have a1 : ∃ s1, send_chat_self st EID_ERROR user
              (str "Usage: /w <user> <message>") = some s1 ∧
              only_sent (fun s => s = u.socket ∨
                (is_whisper word = true ∧ whisper_socket st param = some s)) st s1 :=
            answers_here (answers_self hu hreg hl hself EID_ERROR
              (str "Usage: /w <user> <message>") (by decide))
          obtain ⟨s1, e1, ho⟩ := a1
          exact ⟨s1, e1, ho, fun i dest x _ hi hf hx => (hnone i dest x hi hf hx).elim⟩
        · rw [e]
          have a1 : ∃ s1, send_chat_self st EID_ERROR user
              (str "User not logged on") = some s1 ∧
              only_sent (fun s => s = u.socket ∨
                (is_whisper word = true ∧ whisper_socket st param = some s)) st s1 :=
            answers_here (answers_self hu hreg hl hself EID_ERROR
              (str "User not logged on") (by decide))
          obtain ⟨s1, e1, ho⟩ := a1
          exact ⟨s1, e1, ho, fun i dest x _ hi hf hx => (hnone i dest x hi hf hx).elim⟩
      · have hws0 := hws
        simp only [whisper_socket, Option.bind_eq_some] at hws
        obtain ⟨i, hi, dest, hf, hsk⟩ := hws
        simp only [get_socket, Option.map_eq_some'] at hsk
        obtain ⟨x, hx, rfl⟩ := hsk
        have hx2 : st.users[dest]? = some x := hx
        obtain ⟨e, he, hev⟩ := table_find_mem _ _ _ hf
        obtain ⟨_, y, hy, hyn, _⟩ := hr.2 e he
        rw [hev, hx2] at hy
        cases hy
        have hxreg : table_find st.old_users x.username = some dest := by
          rw [hyn, ← hev]
          exact table_find_of_mem _ hr.1 (fun e he => (hr.2 e he).1) e he
        have hxl : strlen x.username < MAX_NAME :=
          hnames x (List.mem_iff_getElem?.mpr ⟨_, hx2⟩)
        have hm : strlen ((c_string param).drop (i + 1)) ≤ strlen param := by
          rw [strlen_eq, strlen_eq]
          refine le_trans (c_string_length_le _) ?_
          simp only [List.length_drop]
          omega
        simp only [MAX_NAME, MAX_PACKET] at hl hxl hfit
        rw [process_command_w_found hu hreg hi hf hx2 hxreg (by omega) (by omega)]
        refine ⟨_, rfl, ⟨[_, _], rfl, ?_⟩, ?_⟩
        · intro e he
          simp only [List.mem_cons, List.mem_singleton, List.not_mem_nil, or_false] at he
          rcases he with rfl | rfl
          · exact Or.inr ⟨hw, hws0⟩
          · exact Or.inl rfl
        · intro i2 dest2 x2 _ hi2 hf2 hx3
          rw [hi] at hi2
          cases hi2
          rw [hf] at hf2
          cases hf2
          rw [hx2] at hx3
          cases hx3
          rfl
    · have base : ∃ st1, run_command st user word param = some st1 ∧
          only_sent (fun s => s = u.socket ∨
            (is_whisper word = true ∧ whisper_socket st param = some s)) st st1 := by
        unfold run_command
        rw [hquery]
        simp only [Bool.false_eq_true, if_false]
        split
        · exact answers_here (answers_help hu hreg hl hself param)
        split
        · exact answers_here (answers_finger hu hreg hl hself hr param)
        split
        · rename_i hw2
          exact absurd hw2 hw
        split
        · exact answers_here (answers_who hu hreg hl hself hv param)
        split
        · exact answers_here (answers_rooms hu hreg hl hself hv param)
        · exact answers_here (answers_self hu hreg hl hself _ _ (by decide))
      obtain ⟨s1, e1, ho⟩ := base
      exact ⟨s1, e1, ho, fun i dest x hw2 => absurd hw2 hw⟩
  obtain ⟨st1, e, ho, h4⟩ := core
  refine ⟨st1, e, ho, ?_, h4⟩
  intro hno
  obtain ⟨log, hst1, hlog⟩ := ho
  refine ⟨log, hst1, ?_⟩
  intro y hy
  rcases hlog y hy with k | ⟨k1, k2⟩
  · exact k
  · rcases hno with k3 | k3
    · rw [k3] at k1
      cases k1
    · rw [k3] at k2
      cases k2

set_option maxRecDepth 100000 in
/-- C26 on the server with `alice` and `bob` in `lobby`, when `alice` sends
`/w bob hello`. -/
theorem C26_queries_answer_witness :
    ∃ st1, process_SID_CHATCOMMAND sample_lobby_server 0
        (sample_command_buffer (str "/w bob hello")) = some st1 ∧
      only_sent (fun s => s = sample_alice.socket ∨
        (is_whisper (command_words ((str "/w bob hello").map ntstring_char)).1 = true ∧
          whisper_socket sample_lobby_server
            (command_words ((str "/w bob hello").map ntstring_char)).2 = some s))
        sample_lobby_server st1 ∧
      ((is_whisper (command_words ((str "/w bob hello").map ntstring_char)).1 = false ∨
          whisper_socket sample_lobby_server
            (command_words ((str "/w bob hello").map ntstring_char)).2 = none) →
        only_sent (fun s => s = sample_alice.socket) sample_lobby_server st1) ∧
      (∀ i dest x, is_whisper (command_words ((str "/w bob hello").map ntstring_char)).1 =
          true →
        strchr (command_words ((str "/w bob hello").map ntstring_char)).2 0x20 = some i →
        table_find sample_lobby_server.old_users
          ((c_string (command_words ((str "/w bob hello").map ntstring_char)).2).take i) =
            some dest →
        sample_lobby_server.users[dest]? = some x →
        st1 = { sample_lobby_server with
          sent := sample_lobby_server.sent ++
            [(x.socket, chatevent_frame EID_WHISPERFROM sample_alice.username
                ((c_string (command_words
                  ((str "/w bob hello").map ntstring_char)).2).drop (i + 1))),
              (sample_alice.socket, chatevent_frame EID_WHISPERTO x.username
                ((c_string (command_words
                  ((str "/w bob hello").map ntstring_char)).2).drop (i + 1)))] }) :=
  C26_queries_answer sample_lobby_server 0 sample_alice
    (sample_command_buffer (str "/w bob hello")) (str "/w bob hello")
    rfl (Or.inr rfl) (by decide) sample_lobby_registered
    ⟨by decide, by decide⟩ (by decide)
    (IsFrame.of_split [] rfl (by decide) (by decide) (by decide) (by decide) (by decide))
    rfl (by decide) (by decide) (by decide) (by decide)

/-- C31 (one handling step per session per cycle): in every state that the server reaches
from its start, the calls of `process_next_packet` in one cycle of `do_select`, whatever
`select` and `accept` report, are first calls for users of `old_users` as it is at the
start of the cycle, in the order of the table, then calls for users of `new_users` as it is
at the start, in the order of the list, and no user gets two calls: a user that logs in
during the cycle is a new user at the start and has its one call in the second loop.  All
the users called are users of the start of the cycle, in `NOT_IN_CHANNEL` or
`JOINED_CHANNEL` then for the first loop and in `CONNECTED` or `SENT_CLIENT_INFORMATION`
for the second, so the user of a connection accepted in the cycle, which is put behind
them, gets no call. -/
theorem C31_one_step_per_cycle (SHA1 : List Nat → List Nat) (accounts : List Nat)
    (events : List server_event) (st : server_t)
    (hrun : server_run SHA1 (server_start accounts) events = some st)
    (event : select_result) :
    ∃ l1 l2, do_select_calls SHA1 st event = l1 ++ l2 ∧
      List.Sublist l1 (get_values st.old_users) ∧ List.Sublist l2 st.new_users ∧
      (do_select_calls SHA1 st event).Nodup ∧
      (∀ p ∈ do_select_calls SHA1 st event, p < st.users.length) ∧
      (∀ s ip token, (accept_connection st s ip token).new_users =
        st.new_users ++ [st.users.length]) ∧
      (∀ p ∈ l1, ∃ u, st.users[p]? = some u ∧
        (u.state = user_states_t.NOT_IN_CHANNEL ∨
          u.state = user_states_t.JOINED_CHANNEL)) ∧
      (∀ p ∈ l2, ∃ u, st.users[p]? = some u ∧
        (u.state = user_states_t.CONNECTED ∨
          u.state = user_states_t.SENT_CLIENT_INFORMATION)) := by
  have hp : partitioned st :=
    server_run_partitioned SHA1 events _ _ (partitioned_start accounts) hrun
  obtain ⟨l1, l2, hcalls, h1, h2⟩ := do_select_calls_split SHA1 st event
  have hold : ∀ p ∈ l1, ∃ u, st.users[p]? = some u ∧
      (u.state = user_states_t.NOT_IN_CHANNEL ∨
        u.state = user_states_t.JOINED_CHANNEL) := by
    intro p hmem
    have hmem2 := h1.subset hmem
    simp only [get_values, List.mem_map] at hmem2
    obtain ⟨e, he, hep⟩ := hmem2
    obtain ⟨_, u, hu, _, hs⟩ := hp.1.2 e he
    rw [hep] at hu
    exact ⟨u, hu, hs⟩
  have hnew : ∀ p ∈ l2, ∃ u, st.users[p]? = some u ∧
      (u.state = user_states_t.CONNECTED ∨
        u.state = user_states_t.SENT_CLIENT_INFORMATION) :=
    fun p hmem => hp.2.1.2 p (h2.subset hmem)
  refine ⟨l1, l2, hcalls, h1, h2, ?_, ?_, fun _ _ _ => rfl, hold, hnew⟩
  · rw [hcalls]
    refine List.Nodup.append (List.Nodup.sublist h1 (registered_values_nodup hp.1))
      (List.Nodup.sublist h2 hp.2.1.1) ?_
    intro p hp1 hp2
    exact partitioned_disjoint hp p (h2.subset hp2) (h1.subset hp1)
  · intro p hmem
    rw [hcalls] at hmem
    rcases List.mem_append.mp hmem with h | h
    · obtain ⟨u, hu, _⟩ := hold p h
      exact users_index_lt hu
    · obtain ⟨u, hu, _⟩ := hnew p h
      exact users_index_lt hu

set_option maxRecDepth 100000 in
/-- C31 on an example: `alice` (user 0) has logged in, `bob` (user 1) has not; the Login of
`bob` and a `/join` of `alice` have arrived, and `select` reports both sockets and a new
connection.  The cycle calls `process_next_packet` for `alice` and then for `bob`, once
each, and not for the user 2 of the new connection. -/
theorem C31_one_step_per_cycle_witness :
    ∃ st, server_run sample_hash (server_start sample_accounts) sample_calls_history =
        some st ∧
      do_select_calls sample_hash st
        (select_result.ready [5, 6] (some (7, str "10.0.0.3", 7))) = [0, 1] ∧
      st.users.length = 2 ∧
      ∃ l1 l2, do_select_calls sample_hash st
          (select_result.ready [5, 6] (some (7, str "10.0.0.3", 7))) = l1 ++ l2 ∧
        List.Sublist l1 (get_values st.old_users) ∧ List.Sublist l2 st.new_users ∧
        (do_select_calls sample_hash st
          (select_result.ready [5, 6] (some (7, str "10.0.0.3", 7)))).Nodup ∧
        (∀ p ∈ do_select_calls sample_hash st
          (select_result.ready [5, 6] (some (7, str "10.0.0.3", 7))), p < st.users.length) ∧
        (∀ s ip token, (accept_connection st s ip token).new_users =
          st.new_users ++ [st.users.length]) ∧
        (∀ p ∈ l1, ∃ u, st.users[p]? = some u ∧
          (u.state = user_states_t.NOT_IN_CHANNEL ∨
            u.state = user_states_t.JOINED_CHANNEL)) ∧
        (∀ p ∈ l2, ∃ u, st.users[p]? = some u ∧
          (u.state = user_states_t.CONNECTED ∨
            u.state = user_states_t.SENT_CLIENT_INFORMATION)) := by
  have hrun : (server_run sample_hash (server_start sample_accounts)
      sample_calls_history).map (fun s => (do_select_calls sample_hash s
        (select_result.ready [5, 6] (some (7, str "10.0.0.3", 7))), s.users.length)) =
      some ([0, 1], 2) := by decide
  obtain ⟨st, h1, h2⟩ := Option.map_eq_some'.mp hrun
  have h3 := Prod.mk.inj h2
  exact ⟨st, h1, h3.1, h3.2,
    C31_one_step_per_cycle sample_hash sample_accounts sample_calls_history st h1 _⟩

/-- C32 (`table_add` inserts or replaces): for every table, key `k` and value `v`, after
`table_add` the key `k` is found with the value `v`, and every key that `strcmp` tells from
`k` is found as before.  When `k` was in the table, the keys, their order and the count are
as before; when it was not, `k` is the last key, `v` the last value, and the count is one
more.  A table whose keys are distinct C strings stays so, no two of its keys compare equal,
and every table that calls of `table_add` and `table_remove` build from `table_create` has
distinct keys. -/
theorem C32_table_add_inserts_or_replaces {V : Type} (t : table_t V) (k : List Nat) (v : V) :
    table_find (table_add t k v) k = some v ∧
    (∀ k2, strcmp_eq k2 k = false → table_find (table_add t k v) k2 = table_find t k2) ∧
    (table_find t k ≠ none →
      get_keys (table_add t k v) = get_keys t ∧
      table_get_count (table_add t k v) = table_get_count t) ∧
    (table_find t k = none →
      get_keys (table_add t k v) = get_keys t ++ [c_string k] ∧
      get_values (table_add t k v) = get_values t ++ [v] ∧
      table_get_count (table_add t k v) = table_get_count t + 1) ∧
    (distinct_keys t →
      distinct_keys (table_add t k v) ∧
      (get_keys (table_add t k v)).Pairwise (fun a b => strcmp_eq a b = false)) ∧
    (∀ calls : List (table_call V),
      distinct_keys (table_add (table_after calls) k v) ∧
      (get_keys (table_add (table_after calls) k v)).Pairwise
        (fun a b => strcmp_eq a b = false)) :=
  ⟨table_find_add_same t k v, fun k2 h => table_find_add_other t k k2 v h,
    table_add_present t k v, table_add_new t k v,
    fun h => ⟨distinct_keys_add h k v, distinct_keys_strcmp (distinct_keys_add h k v)⟩,
    fun calls => ⟨distinct_keys_add (distinct_keys_after calls) k v,
      distinct_keys_strcmp (distinct_keys_add (distinct_keys_after calls) k v)⟩⟩

/-- C32 on the test of table.c: the last `table_add` of `"test"` replaces the value `'A'` by
`'B'` and leaves the seven keys in their order; and `"New!"` added to that table becomes
the eighth key. -/
theorem C32_table_add_inserts_or_replaces_witness :
    table_find (table_after sample_table_calls.dropLast) (str "test") = some 0x41 ∧
    table_find (table_add (table_after sample_table_calls.dropLast) (str "test") 0x42)
      (str "test") = some 0x42 ∧
    get_keys (table_add (table_after sample_table_calls.dropLast) (str "test") 0x42) =
      [str "test", str "test 1", str "test 2", str "test 3", str "test 4", str "test 5",
        str "test 6"] ∧
    table_find (table_after sample_table_calls) (str "New!") = none ∧
    get_keys (table_add (table_after sample_table_calls) (str "New!") 0x43) =
      get_keys (table_after sample_table_calls) ++ [str "New!"] ∧
    table_get_count (table_add (table_after sample_table_calls) (str "New!") 0x43) = 8 :=
  ⟨by decide,
    (C32_table_add_inserts_or_replaces (table_after sample_table_calls.dropLast)
      (str "test") 0x42).1,
    ((C32_table_add_inserts_or_replaces (table_after sample_table_calls.dropLast)
      (str "test") 0x42).2.2.1 (by decide)).1.trans (by decide),
    by decide,
    ((C32_table_add_inserts_or_replaces (table_after sample_table_calls)
      (str "New!") 0x43).2.2.2.1 (by decide)).1.trans (by decide),
    ((C32_table_add_inserts_or_replaces (table_after sample_table_calls)
      (str "New!") 0x43).2.2.2.1 (by decide)).2.2.trans (by decide)⟩

/-- C33 (`table_remove` removes one key): for every table and key `k`, `table_remove`
returns what `table_find` found for `k` before the call, `NULL` when `k` was not in the
table, and then the table is as before.  Every key that `strcmp` tells from `k` is found as
before, the members left are the members before in their order, so are the arrays of
`get_keys` and `get_values`, and the count has dropped by one when `k` was in the table.
In a table with distinct keys, as every table is that calls of `table_add` and
`table_remove` build from `table_create`, the key `k` is not found afterwards. -/
theorem C33_table_remove_removes_one_key {V : Type} (t : table_t V) (k : List Nat) :
    (table_remove t k).1 = table_find t k ∧
    (table_find t k = none → (table_remove t k).2 = t) ∧
    (∀ k2, strcmp_eq k2 k = false →
      table_find (table_remove t k).2 k2 = table_find t k2) ∧
    List.Sublist (table_remove t k).2 t ∧
    List.Sublist (get_keys (table_remove t k).2) (get_keys t) ∧
    List.Sublist (get_values (table_remove t k).2) (get_values t) ∧
    (table_find t k ≠ none →
      table_get_count (table_remove t k).2 + 1 = table_get_count t) ∧
    (distinct_keys t → table_find (table_remove t k).2 k = none) ∧
    (∀ calls : List (table_call V),
      table_find (table_remove (table_after calls) k).2 k = none) := by
  have hfind : ∀ s : table_t V, distinct_keys s → table_find (table_remove s k).2 k = none := by
    intro s hs
    refine table_remove_find s k hs.1 ?_
    intro a ha
    simp only [get_keys, List.mem_map] at ha
    obtain ⟨e, he, rfl⟩ := ha
    exact hs.2 e he
  exact ⟨table_remove_value t k, table_remove_absent t k,
    fun k2 h => table_remove_other t k k2 h, table_remove_sublist t k,
    List.Sublist.map _ (table_remove_sublist t k),
    List.Sublist.map _ (table_remove_sublist t k), table_remove_count t k, hfind t,
    fun calls => hfind _ (distinct_keys_after calls)⟩

/-- C33 on the test of table.c: the removal of `"test"` returns `'B'`, and after the
removals of `"test"`, `"test 3"` and `"test 6"` the table holds `"test 1"`, `"test 2"`,
`"test 4"` and `"test 5"` with their values, in this order. -/
theorem C33_table_remove_removes_one_key_witness :
    table_find (table_after sample_table_calls) (str "test") = some 0x42 ∧
    (table_remove (table_after sample_table_calls) (str "test")).1 = some 0x42 ∧
    table_get_count (table_remove (table_after sample_table_calls) (str "test")).2 + 1 = 7 ∧
    table_find (table_remove (table_after sample_table_calls) (str "test")).2 (str "test") =
      none ∧
    table_after (sample_table_calls ++ sample_table_removals) =
      [(str "test 1", 1), (str "test 2", 2), (str "test 4", 4), (str "test 5", 5)] :=
  ⟨by decide,
    (C33_table_remove_removes_one_key (table_after sample_table_calls) (str "test")).1.trans
      (by decide),
    ((C33_table_remove_removes_one_key (table_after sample_table_calls)
      (str "test")).2.2.2.2.2.2.1 (by decide)).trans (by decide),
    (C33_table_remove_removes_one_key (table_after sample_table_calls)
      (str "test")).2.2.2.2.2.2.2.2 sample_table_calls,
    by decide⟩

/-- C34 (list insertion order): for every list and value `x`, `list_add_beginning` puts `x`
first and `list_add_end` puts it last, the other values in their previous order;
`list_get_array` has the values in list order and as many as `list_get_count` counts;
`list_remove_beginning` and `list_remove_end` return and remove the first and the last
value, whatever the list is, and return `NULL` on the empty list; 2 and 1 added at the
beginning and 3 and 4 at the end give 1, 2, 3, 4, which `list_remove_beginning` hands out
as 1, 2, 3, 4 and `list_remove_end` as 4, 3, 2, 1, as the test in list.c prints them. -/
theorem C34_list_insertion_order :
    (∀ list x, list_get_array (list_add_beginning list x) = x :: list_get_array list ∧
      list_get_array (list_add_end list x) = list_get_array list ++ [x] ∧
      (list_get_array list).length = list_get_count list ∧
      list_get_count (list_add_beginning list x) = list_get_count list + 1 ∧
      list_get_count (list_add_end list x) = list_get_count list + 1 ∧
      list_remove_beginning (list_add_beginning list x) = (some x, list) ∧
      list_remove_end (list_add_end list x) = (some x, list) ∧
      list_remove_beginning (x :: list) = (some x, list) ∧
      list_remove_end (list ++ [x]) = (some x, list)) ∧
    list_get_array get_list = [1, 2, 3, 4] ∧
    list_get_count get_list = 4 ∧
    list_remove_beginning get_list = (some 1, [2, 3, 4]) ∧
    list_remove_beginning [2, 3, 4] = (some 2, [3, 4]) ∧
    list_remove_beginning [3, 4] = (some 3, [4]) ∧
    list_remove_beginning [4] = (some 4, []) ∧
    list_remove_end get_list = (some 4, [1, 2, 3]) ∧
    list_remove_end [1, 2, 3] = (some 3, [1, 2]) ∧
    list_remove_end [1, 2] = (some 2, [1]) ∧
    list_remove_end [1] = (some 1, []) ∧
    list_remove_beginning list_create = (none, []) ∧
    list_remove_end list_create = (none, []) := by
  refine ⟨?_, rfl, rfl, rfl, rfl, rfl, rfl, rfl, rfl, rfl, rfl, rfl, rfl⟩
  intro list x
  refine ⟨rfl, rfl, rfl, ?_, ?_, rfl, list_remove_end_append list x, rfl, ?_⟩
  · simp [list_get_count, list_add_beginning]
  · simp [list_get_count, list_add_end]
  · exact list_remove_end_append list x

/-- C35, the claim as it stands fails for the value `NULL`: the loop of `list_remove_value`
goes on while `return_value == NULL`, so it does not stop at the first match.  From the list
`NULL, 1, NULL` both `NULL` entries are removed, from `NULL, NULL, NULL` the first and the
third, and from `1, NULL, 2, NULL` both `NULL` entries. -/
theorem C35_null_value_removes_more :
    list_remove_value_pointer [none, some 1, none] none = (none, [some 1]) ∧
    list_remove_value_pointer [none, none, none] none = (none, [none]) ∧
    list_remove_value_pointer [some 1, none, some 2, none] none =
      (none, [some 1, some 2]) := by
  refine ⟨by decide, by decide, by decide⟩

/-- C35 (`list_remove_value` removes one matching entry), for a value that is not `NULL`:
on every list of pointers, when the value occurs the list splits at its first occurrence,
the value is returned and the list left is the part before and the part behind, one entry
less; when the value does not occur, `NULL` is returned and the list is as before.  On the
lists of users of the server this is the function `list_remove_value` of the model. -/
theorem C35_list_remove_value_one_entry (list : List (Option Nat)) (x : Nat) :
    (some x ∈ list → ∃ front back, list = front ++ some x :: back ∧ some x ∉ front ∧
      list_remove_value_pointer list (some x) = (some x, front ++ back) ∧
      (list_remove_value_pointer list (some x)).2.length + 1 = list.length) ∧
    (some x ∉ list → list_remove_value_pointer list (some x) = (none, list)) ∧
    list_remove_value_pointer list (some x) =
      (if some x ∈ list then some x else none, list.erase (some x)) ∧
    (∀ users : List Nat,
      list_remove_value users x = (if x ∈ users then some x else none, users.erase x) ∧
      list_remove_value_pointer (users.map some) (some x) =
        ((list_remove_value users x).1, (list_remove_value users x).2.map some)) := by
  have hloop : list_remove_value_pointer list (some x) =
      (if some x ∈ list then some x else none, list.erase (some x)) :=
    list_remove_value_loop_erase x list
  refine ⟨?_, ?_, hloop, ?_⟩
  · intro hmem
    obtain ⟨front, back, hnot, hsplit, herase⟩ := List.exists_erase_eq hmem
    refine ⟨front, back, hsplit, hnot, ?_, ?_⟩
    · rw [hloop, if_pos hmem, herase]
    · rw [hloop, herase, hsplit]
      simp only [List.length_append, List.length_cons]
      omega
  · intro hnot
    rw [hloop, if_neg hnot, List.erase_of_not_mem hnot]
  · intro users
    refine ⟨list_remove_value_erase users x, ?_⟩
    rw [list_remove_value_erase]
    show list_remove_value_loop (some x) (users.map some) none true = _
    rw [list_remove_value_loop_erase]
    have hmem : (some x ∈ users.map some) ↔ x ∈ users := by simp
    have her : (users.map some).erase (some x) = (users.erase x).map some := by
      induction users with
      | nil => rfl
      | cons y rest ih =>
        by_cases h : y = x
        · subst h; simp
        · have h1 : ¬ (y == x) = true := by simpa using h
          have h2 : ¬ (some y == some x) = true := by simpa using h
          simp only [List.map_cons, List.erase_cons, h1, h2]
          simp [ih]
    simp only [hmem, her]

/-- C35 on the test of list.c: from the list 1, 2, 3, 4 the removal of 2 returns 2 and
leaves 1, 3, 4; a second removal of 2 returns `NULL` and leaves the list as it is. -/
theorem C35_list_remove_value_one_entry_witness :
    list_remove_value_pointer (get_list.map some) (some 2) =
      (some 2, [some 1, some 3, some 4]) ∧
    list_remove_value_pointer [some 1, some 3, some 4] (some 2) =
      (none, [some 1, some 3, some 4]) ∧
    list_remove_value get_list 2 = (some 2, [1, 3, 4]) :=
  ⟨(C35_list_remove_value_one_entry (get_list.map some) 2).2.2.1.trans (by decide),
    (C35_list_remove_value_one_entry [some 1, some 3, some 4] 2).2.1 (by decide),
    ((C35_list_remove_value_one_entry [] 2).2.2.2 get_list).1.trans (by decide)⟩

/-- C36 (user-set partition): in every state that the server reaches from its start
through arrivals of bytes and cycles of `do_select` (which accept connections, handle frames
and close connections), no user is listed twice in `new_users` or twice in `old_users`, and
no element of `new_users` is a value of `old_users`; every user whose socket was not closed
is in one of the two; every value of `old_users` is a user in `NOT_IN_CHANNEL` or
`JOINED_CHANNEL` that is stored under its own name, every element of `new_users` is a user
in `CONNECTED` or `SENT_CLIENT_INFORMATION`, and so a listed user is in `old_users` exactly
when its state is `NOT_IN_CHANNEL` or `JOINED_CHANNEL`.  With the users whose connections
the run has closed (`server_run_closes`): every user whose connection was not closed is in
one of the two lists, also when its descriptor has the number of a closed one, and it is in
`old_users` exactly when its state is `NOT_IN_CHANNEL` or `JOINED_CHANNEL`; a user whose
connection was closed is in neither; and `closed` holds the sockets of just these users. -/
theorem C36_user_set_partition (SHA1 : List Nat → List Nat) (accounts : List Nat)
    (events : List server_event) (st : server_t)
    (hrun : server_run SHA1 (server_start accounts) events = some st) :
    st.new_users.Nodup ∧ (get_values st.old_users).Nodup ∧
    (∀ p ∈ st.new_users, p ∉ get_values st.old_users) ∧
    (∀ p u, st.users[p]? = some u → u.socket ∉ st.closed →
      p ∈ st.new_users ∨ p ∈ get_values st.old_users) ∧
    (∀ p ∈ get_values st.old_users, ∃ u, st.users[p]? = some u ∧
      (u.state = user_states_t.NOT_IN_CHANNEL ∨ u.state = user_states_t.JOINED_CHANNEL) ∧
      (u.username, p) ∈ st.old_users) ∧
    (∀ p ∈ st.new_users, ∃ u, st.users[p]? = some u ∧
      (u.state = user_states_t.CONNECTED ∨
        u.state = user_states_t.SENT_CLIENT_INFORMATION)) ∧
    (∀ p u, st.users[p]? = some u → p ∈ st.new_users ∨ p ∈ get_values st.old_users →
      (p ∈ get_values st.old_users ↔
        (u.state = user_states_t.NOT_IN_CHANNEL ∨
          u.state = user_states_t.JOINED_CHANNEL))) ∧
    (∀ p u, st.users[p]? = some u →
      p ∉ server_run_closes SHA1 (server_start accounts) events →
      p ∈ st.new_users ∨ p ∈ get_values st.old_users) ∧
    (∀ p u, st.users[p]? = some u →
      p ∉ server_run_closes SHA1 (server_start accounts) events →
      (p ∈ get_values st.old_users ↔
        (u.state = user_states_t.NOT_IN_CHANNEL ∨
          u.state = user_states_t.JOINED_CHANNEL))) ∧
    (∀ p ∈ server_run_closes SHA1 (server_start accounts) events,
      p < st.users.length ∧ p ∉ st.new_users ∧ p ∉ get_values st.old_users) ∧
    st.closed = sockets_of st (server_run_closes SHA1 (server_start accounts) events) := by
  have hp : partitioned st :=
    server_run_partitioned SHA1 events _ _ (partitioned_start accounts) hrun
  have hold : ∀ p ∈ get_values st.old_users, ∃ u, st.users[p]? = some u ∧
      (u.state = user_states_t.NOT_IN_CHANNEL ∨ u.state = user_states_t.JOINED_CHANNEL) ∧
      (u.username, p) ∈ st.old_users := by
    intro p hmem
    have hmem2 := hmem
    simp only [get_values, List.mem_map] at hmem2
    obtain ⟨e, he, hep⟩ := hmem2
    obtain ⟨_, u, hu, _, hs⟩ := hp.1.2 e he
    rw [hep] at hu
    exact ⟨u, hu, hs, (registered_entry hp.1 hu hmem).1⟩
  have ha : accounted st (server_run_closes SHA1 (server_start accounts) events) := by
    have := server_run_accounted SHA1 events _ _ [] (partitioned_start accounts)
      (accounted_start accounts) hrun
    rw [List.nil_append] at this
    exact this
  have hiff : ∀ p u, st.users[p]? = some u →
      p ∈ st.new_users ∨ p ∈ get_values st.old_users →
      (p ∈ get_values st.old_users ↔
        (u.state = user_states_t.NOT_IN_CHANNEL ∨
          u.state = user_states_t.JOINED_CHANNEL)) := by
    intro p u hu hlisted
    constructor
    · intro hmem
      obtain ⟨x, hx, hs, _⟩ := hold p hmem
      rw [hu] at hx
      cases hx
      exact hs
    · intro hs
      rcases hlisted with h | h
      · exact absurd h (partitioned_not_new hp hu hs)
      · exact h
  have hcov : ∀ p u, st.users[p]? = some u →
      p ∉ server_run_closes SHA1 (server_start accounts) events →
      p ∈ st.new_users ∨ p ∈ get_values st.old_users := by
    intro p u hu hng
    rcases ha.1 p (users_index_lt hu) with h | h | h
    · exact Or.inl h
    · exact Or.inr h
    · exact absurd h hng
  refine ⟨hp.2.1.1, registered_values_nodup hp.1, partitioned_disjoint hp, ?_, hold,
    hp.2.1.2, hiff, hcov, fun p u hu hng => hiff p u hu (hcov p u hu hng), ha.2.1, ha.2.2⟩
  · intro p u hu hns
    rcases hp.2.2 p u hu with h | h | h
    · exact Or.inl h
    · exact Or.inr h
    · exact absurd h hns

set_option maxRecDepth 100000 in
/-- C36 on the example history in which `alice` and `bob` log in, the connection of `alice`
(user 0, socket 5) is closed and a third connection is accepted on the descriptor 5 again:
`bob` is the one value of `old_users`, the third user (user 2, socket 5) the one element of
`new_users`, user 0 is the one user whose connection was closed, and socket 5 is closed. -/
theorem C36_user_set_partition_witness :
    ∃ st, server_run sample_hash (server_start sample_accounts) sample_closing_history =
        some st ∧
      st.new_users = [2] ∧ st.old_users = [(str "bob", 1)] ∧ st.closed = [5] ∧
      st.users.map (fun u => u.socket) = [5, 6, 5] ∧
      server_run_closes sample_hash (server_start sample_accounts) sample_closing_history =
        [0] ∧
      st.new_users.Nodup ∧ (get_values st.old_users).Nodup ∧
      (∀ p ∈ st.new_users, p ∉ get_values st.old_users) ∧
      (∀ p u, st.users[p]? = some u → u.socket ∉ st.closed →
        p ∈ st.new_users ∨ p ∈ get_values st.old_users) ∧
      (∀ p ∈ get_values st.old_users, ∃ u, st.users[p]? = some u ∧
        (u.state = user_states_t.NOT_IN_CHANNEL ∨ u.state = user_states_t.JOINED_CHANNEL) ∧
        (u.username, p) ∈ st.old_users) ∧
      (∀ p ∈ st.new_users, ∃ u, st.users[p]? = some u ∧
        (u.state = user_states_t.CONNECTED ∨
          u.state = user_states_t.SENT_CLIENT_INFORMATION)) ∧
      (∀ p u, st.users[p]? = some u → p ∈ st.new_users ∨ p ∈ get_values st.old_users →
        (p ∈ get_values st.old_users ↔
          (u.state = user_states_t.NOT_IN_CHANNEL ∨
            u.state = user_states_t.JOINED_CHANNEL))) ∧
      (∀ p u, st.users[p]? = some u →
        p ∉ server_run_closes sample_hash (server_start sample_accounts)
          sample_closing_history →
        p ∈ st.new_users ∨ p ∈ get_values st.old_users) ∧
      (∀ p u, st.users[p]? = some u →
        p ∉ server_run_closes sample_hash (server_start sample_accounts)
          sample_closing_history →
        (p ∈ get_values st.old_users ↔
          (u.state = user_states_t.NOT_IN_CHANNEL ∨
            u.state = user_states_t.JOINED_CHANNEL))) ∧
      (∀ p ∈ server_run_closes sample_hash (server_start sample_accounts)
          sample_closing_history,
        p < st.users.length ∧ p ∉ st.new_users ∧ p ∉ get_values st.old_users) ∧
      st.closed = sockets_of st
        (server_run_closes sample_hash (server_start sample_accounts)
          sample_closing_history) := by
  have hrun : (server_run sample_hash (server_start sample_accounts)
      sample_closing_history).map (fun s => (s.new_users, s.old_users, s.closed,
        s.users.map (fun u => u.socket))) =
      some ([2], [(str "bob", 1)], [5], [5, 6, 5]) := by decide
  have hgone : server_run_closes sample_hash (server_start sample_accounts)
      sample_closing_history = [0] := by decide
  obtain ⟨st, h1, h2⟩ := Option.map_eq_some'.mp hrun
  have h3 := Prod.mk.inj h2
  have h4 := Prod.mk.inj h3.2
  have h5 := Prod.mk.inj h4.2
  exact ⟨st, h1, h3.1, h4.1, h5.1, h5.2, hgone,
    C36_user_set_partition sample_hash sample_accounts sample_closing_history st h1⟩

/-- C37 (string length cap): for every buffer that holds a frame, is positioned in its
payload and on which `can_read_ntstring` holds, the bytes from its position on are a string
`s` without NUL, a NUL and the rest; and for every cap `m` below 65536 (it is a `uint16_t`),
`read_next_ntstring` returns, moves the position on by `min (m - 1) (|s| + 1)` bytes, at most
`m - 1`, and the string it returns has the first `m - 1` characters of `s`, filtered.  When
`s` has more than `m - 1` characters, the position is then at character `m - 1` of `s`,
`can_read_ntstring` holds again, and the next read, with any cap `m2`, returns the
characters of `s` from there on, at most `m2 - 1` of them. -/
theorem C37_string_length_cap {b : packet_buffer_t} {c : Nat} {pl : List Nat}
    (h : IsFrame b c pl) (hp : 4 ≤ b.position) (hc : can_read_ntstring b = some true)
    (m : Nat) (hm : m < 65536) :
    ∃ s rest out r, (frame_bytes c pl).drop b.position = s ++ 0 :: rest ∧
      (∀ x ∈ s, x ≠ 0) ∧
      read_next_ntstring b m = some (out, r) ∧
      r = { b with position := b.position + min (m - 1) (s.length + 1) } ∧
      r.position ≤ b.position + (m - 1) ∧
      c_string out = (s.take (m - 1)).map ntstring_char ∧
      (c_string out).length ≤ m - 1 ∧
      (m - 1 < s.length →
        r.position = b.position + (m - 1) ∧
        can_read_ntstring r = some true ∧
        ∀ m2, m2 < 65536 → ∃ out2 r2, read_next_ntstring r m2 = some (out2, r2) ∧
          c_string out2 = ((s.drop (m - 1)).take (m2 - 1)).map ntstring_char) := by
  obtain ⟨pre, s, post, hpl, hpos, hs, hdrop⟩ := frame_string_split h hp hc
  subst hpl
  obtain ⟨out, hread, hout, hlen⟩ := read_capped h hpos hs m hm
  refine ⟨s, post, out, _, hdrop, hs, hread, rfl, ?_, hout, hlen, ?_⟩
  · show b.position + min (m - 1) (s.length + 1) ≤ b.position + (m - 1)
    have := Nat.min_le_left (m - 1) (s.length + 1)
    omega
  · intro hlong
    have hmin : min (m - 1) (s.length + 1) = m - 1 := Nat.min_eq_left (by omega)
    rw [hmin]
    obtain ⟨hf, hq⟩ := read_capped_rest h hpos (m - 1) hlong
    have hs2 : ∀ x ∈ s.drop (m - 1), x ≠ 0 := fun x hx => hs x (List.mem_of_mem_drop hx)
    refine ⟨rfl, hf.can_read_ntstring hq hs2, ?_⟩
    intro m2 hm2
    obtain ⟨out2, hread2, hout2, -⟩ := read_capped hf hq hs2 m2 hm2
    exact ⟨out2, _, hread2, hout2⟩

theorem sample_long_buffer_frame : IsFrame sample_long_buffer 0x0F sample_main_payload :=
  IsFrame.of_split (List.replicate 8 0) rfl (by decide) (by decide) (by decide) rfl rfl

set_option maxRecDepth 1000000 in
/-- C37 on the test in `main` of packet_buffer.c: after the three short strings were read,
the buffer is positioned at the string of 64 characters, and the reads with the cap 16
return it in four pieces of 15 characters and one of 4; the read after that fails its
assertion, since no NUL is left in the buffer. -/
theorem C37_string_length_cap_witness :
    (sample_main_read 2).map Prod.snd = some sample_long_buffer ∧
    read_strings 16 5 sample_long_buffer =
      some [str "This string is ", str "definitely long", str "er than the 16 ",
        str "character limit", str "...!"] ∧
    read_strings 16 6 sample_long_buffer = none ∧
    ∃ s rest out r, (frame_bytes 0x0F sample_main_payload).drop 40 = s ++ 0 :: rest ∧
      (∀ x ∈ s, x ≠ 0) ∧
      read_next_ntstring sample_long_buffer 16 = some (out, r) ∧
      r = { sample_long_buffer with position := 40 + min (16 - 1) (s.length + 1) } ∧
      r.position ≤ 40 + (16 - 1) ∧
      c_string out = (s.take (16 - 1)).map ntstring_char ∧
      (c_string out).length ≤ 16 - 1 ∧
      (16 - 1 < s.length →
        r.position = 40 + (16 - 1) ∧
        can_read_ntstring r = some true ∧
        ∀ m2, m2 < 65536 → ∃ out2 r2, read_next_ntstring r m2 = some (out2, r2) ∧
          c_string out2 = ((s.drop (16 - 1)).take (m2 - 1)).map ntstring_char) :=
  ⟨by decide, by decide, by decide,
    C37_string_length_cap sample_long_buffer_frame (by decide) (by decide) 16 (by decide)⟩

/-- C38 (rejected joins change nothing): for a session that is in `old_users`, in a state
where every entry of `old_users` is a logged-in user under its own name, and for every
parameter that equals `backstage` when case is ignored or has `MAX_ROOM_LENGTH` or more
characters, `process_command_join` returns the state before with exactly one frame appended
to the writes: the chat event `EID_ERROR` with the name of the session and the text of the
refusal, on the socket of the session.  The users with their states and rooms, the rooms
with their members, `old_users` and `new_users` are as before. -/
theorem C38_rejected_join_changes_nothing (st : server_t) (user : Nat) (u : user_t)
    (param : List Nat) (hreg : registered st) (hmem : user ∈ get_values st.old_users)
    (hu : st.users[user]? = some u) (hname : strlen u.username < MAX_NAME)
    (hrej : strcasecmp_eq param (str "backstage") = true ∨ MAX_ROOM_LENGTH ≤ strlen param) :
    process_command_join st user param =
      some { st with sent := st.sent ++ [(u.socket, chatevent_frame EID_ERROR u.username
        (if strcasecmp_eq param (str "backstage") = true
          then str "Sorry, that room is restricted"
          else str "Sorry, the name of that room is too long"))] } := by
  have hfind : table_find st.old_users u.username = some user := by
    simp only [get_values, List.mem_map] at hmem
    obtain ⟨e, he, rfl⟩ := hmem
    obtain ⟨-, x, hx, hxn, -⟩ := hreg.2 e he
    rw [hu] at hx
    cases hx
    rw [hxn]
    exact table_find_of_mem st.old_users hreg.1 (fun a ha => (hreg.2 a ha).1) e he
  have hM : MAX_NAME = 32 := rfl
  have hP : MAX_PACKET = 9600 := rfl
  rw [process_command_join_eq]
  by_cases hb : strcasecmp_eq param (str "backstage") = true
  · rw [if_pos hb, if_pos hb]
    exact send_chat_self_eq st EID_ERROR user _ u u user hu hfind hu
      (by
        have : strlen (str "Sorry, that room is restricted") = 30 := by decide
        omega)
  · have hlong : MAX_ROOM_LENGTH ≤ strlen param := by
      rcases hrej with h | h
      · exact absurd h hb
      · exact h
    have hR : MAX_ROOM_LENGTH = 16 := rfl
    have hm : MIN_ROOM_LENGTH = 1 := rfl
    rw [if_neg hb, if_neg hb, if_neg (by omega), if_pos (by omega)]
    exact send_chat_self_eq st EID_ERROR user _ u u user hu hfind hu
      (by
        have : strlen (str "Sorry, the name of that room is too long") = 40 := by decide
        omega)

set_option maxRecDepth 100000 in
/-- C38 on the server with `alice` and `bob` in the room `lobby`: `alice` asks for the room
`BackStage`, and for a room with a name of 16 characters. -/
theorem C38_rejected_join_changes_nothing_witness :
    process_command_join sample_lobby_server 0 (str "BackStage") =
      some { sample_lobby_server with
        sent := [(5, chatevent_frame EID_ERROR (str "alice")
          (str "Sorry, that room is restricted"))] } ∧
    process_command_join sample_lobby_server 0 (str "sixteen-letters!") =
      some { sample_lobby_server with
        sent := [(5, chatevent_frame EID_ERROR (str "alice")
          (str "Sorry, the name of that room is too long"))] } :=
  ⟨C38_rejected_join_changes_nothing sample_lobby_server 0 sample_alice (str "BackStage")
      sample_lobby_registered (by decide) rfl (by decide) (Or.inl (by decide)),
    C38_rejected_join_changes_nothing sample_lobby_server 0 sample_alice
      (str "sixteen-letters!") sample_lobby_registered (by decide) rfl (by decide)
      (Or.inr (by decide))⟩

/-- C39 (server frames stay within the frame limit): the server sends frames of more than
`MAX_PACKET` bytes.  In the room `lobby` of the example server `alice` sends a ChatCommand
frame of exactly `MAX_PACKET` (9600) bytes, a message of 9595 letters; `process_next_packet`
accepts it and writes to `alice` and to `bob` the chat event `EID_TALK` with the name
`alice` and the message, a frame of 9610 bytes; and `read_buffer` gives the fatal result on
that frame, whatever follows it. -/
theorem C39_talk_frame_over_limit (SHA1 : List Nat → List Nat) :
    (frame_bytes SID_CHATCOMMAND (sample_long_message ++ [0])).length = MAX_PACKET ∧
    process_next_packet SHA1
        (deliver sample_lobby_server 5
          (frame_bytes SID_CHATCOMMAND (sample_long_message ++ [0]))) 0 =
      some (true, { sample_lobby_server with
        recv := [(5, [])],
        sent := [(5, chatevent_frame EID_TALK (str "alice") sample_long_message),
          (6, chatevent_frame EID_TALK (str "alice") sample_long_message)] }) ∧
    (chatevent_frame EID_TALK (str "alice") sample_long_message).length = 9610 ∧
    ∀ rest, ∃ left,
      read_buffer (chatevent_frame EID_TALK (str "alice") sample_long_message ++ rest) =
        some (read_result.fatal, left) := by
  have hlen : sample_long_message.length = 9595 := List.length_replicate _ _
  have ht : ∀ x ∈ sample_long_message, 0x20 ≤ x ∧ x ≤ 0x7E := by
    intro x hx
    rw [List.eq_of_mem_replicate hx]
    decide
  have hnz : ∀ x ∈ sample_long_message, x ≠ 0 := fun x hx => by
    have := (ht x hx).1; omega
  have hhead : sample_long_message.head? ≠ some 0x2F := by
    have e : sample_long_message = 0x61 :: List.replicate 9594 0x61 :=
      List.replicate_succ 0x61 9594
    rw [e]
    decide
  have hcs : c_string sample_long_message = sample_long_message :=
    c_string_of_no_nul _ hnz
  have halice : (c_string (str "alice")).length = 5 := by decide
  have hpl : (le_bytes 4 EID_TALK ++ ntstring_bytes (str "alice") ++
      ntstring_bytes sample_long_message).length = 9606 := by
    simp only [List.length_append, le_bytes_length, ntstring_bytes, hcs,
      List.length_map, hlen, List.length_singleton, halice]
  refine ⟨?_, ?_, ?_, ?_⟩
  · rw [frame_bytes_length, List.length_append, hlen]
    rfl
  · exact long_talk SHA1 sample_long_message ht hhead
      (by rw [hlen]; decide)
  · rw [chatevent_frame, frame_bytes_length, hpl]
  · intro rest
    have h := read_buffer_header SID_CHATEVENT 9610
      (le_bytes 4 EID_TALK ++ ntstring_bytes (str "alice") ++
        ntstring_bytes sample_long_message ++ rest) (by decide)
    rw [if_neg (by decide), if_pos (by decide)] at h
    refine ⟨le_bytes 4 EID_TALK ++ ntstring_bytes (str "alice") ++
      ntstring_bytes sample_long_message ++ rest, ?_⟩
    rw [← h, chatevent_frame, frame_bytes, hpl]
    rfl

/-- C40 (`room_set_topic` replaces the topic): `room_set_topic` writes the terminator into
the block of the caller, `new_topic[MAX_TOPIC_LENGTH - 1] = 0`, and not into the array
`topic` of the room.  With a string of 1100 characters the string of the caller is cut to
1023 characters, and the array `topic` of a room just created holds 1023 characters and
keeps its last byte, so that it has no terminator; with the string `"hi"` in a block of
three bytes the write is outside the block of the caller.  With `"hi"` in a block of 1024
bytes the topic becomes `"hi"`, and byte 1023 of the block of the caller is written. -/
theorem C40_room_set_topic_terminator :
    room_set_topic sample_topic_room (List.replicate 1100 0x61 ++ [0]) =
      some ({ sample_topic_room with topic := List.replicate 1023 0x61 ++ [0x41] },
        List.replicate 1023 0x61 ++ 0 :: (List.replicate 76 0x61 ++ [0])) ∧
    topic_string (List.replicate 1023 0x61 ++ [0x41]) = none ∧
    c_string (List.replicate 1023 0x61 ++ 0 :: (List.replicate 76 0x61 ++ [0])) =
      List.replicate 1023 0x61 ∧
    c_string (List.replicate 1100 0x61 ++ [0]) = List.replicate 1100 0x61 ∧
    room_set_topic sample_topic_room (str "hi" ++ [0]) = none ∧
    room_set_topic sample_topic_room (str "hi" ++ 0 :: List.replicate 1020 0x62 ++ [0x62]) =
      some ({ sample_topic_room with
          topic := str "hi" ++ List.replicate (MAX_TOPIC_LENGTH - 1 - 2) 0 ++ [0x41] },
        str "hi" ++ 0 :: List.replicate 1020 0x62 ++ [0]) ∧
    topic_string (str "hi" ++ List.replicate (MAX_TOPIC_LENGTH - 1 - 2) 0 ++ [0x41]) =
      some (str "hi") := by
  have ha : ∀ n, ∀ x ∈ List.replicate n 0x61, x ≠ 0 := by
    intro n x hx
    rw [List.eq_of_mem_replicate hx]
    decide
  have hhi : ∀ x ∈ str "hi", x ≠ 0 := by decide
  have hfront : (str "No topic" ++ 0 :: List.replicate 1014 0x41).length =
      MAX_TOPIC_LENGTH - 1 := by
    have h8 : (str "No topic").length = 8 := by decide
    simp only [List.length_append, List.length_cons, List.length_replicate, h8,
      MAX_TOPIC_LENGTH]
  have esplit : List.replicate 1100 0x61 ++ [0] =
      List.replicate 1023 0x61 ++ 0x61 :: (List.replicate 76 0x61 ++ [0]) := by
    have e1 : List.replicate 1100 0x61 = List.replicate 1023 0x61 ++ List.replicate 77 0x61 :=
      List.replicate_add 1023 77 0x61
    have e2 : List.replicate 77 0x61 = 0x61 :: List.replicate 76 0x61 :=
      List.replicate_succ 0x61 76
    rw [e1, e2, List.append_assoc, List.cons_append]
  refine ⟨?_, ?_, ?_, ?_, ?_, ?_, ?_⟩
  · rw [esplit]
    exact room_set_topic_long sample_topic_room _ _ _ 0x41 0x61 sample_topic_room_topic
      hfront (ha 1023) (by rw [List.length_replicate]; rfl)
  · refine topic_string_none _ ?_
    intro x hx
    rcases List.mem_append.mp hx with h | h
    · exact ha _ x h
    · simp at h; omega
  · exact c_string_terminated _ _ (ha 1023)
  · have := c_string_terminated (List.replicate 1100 0x61) [] (ha 1100)
    exact this
  · exact room_set_topic_outside _ _ (by decide)
  · have := room_set_topic_short sample_topic_room _ (str "hi") (List.replicate 1020 0x62)
      0x41 0x62 sample_topic_room_topic hfront hhi
      (by rw [List.length_replicate]; decide)
    exact this
  · rw [List.append_assoc]
    have e : List.replicate (MAX_TOPIC_LENGTH - 1 - 2) 0 ++ [0x41] =
        0 :: (List.replicate 1020 0 ++ [0x41]) := by
      have e2 : List.replicate (MAX_TOPIC_LENGTH - 1 - 2) 0 = 0 :: List.replicate 1020 0 :=
        List.replicate_succ 0 1020
      rw [e2, List.cons_append]
    rw [e]
    exact topic_string_some _ _ hhi

end CattleChat
